import Mathlib

/-!
# ImGuiColorTextEdit: the text buffer, its coordinate model, the undo log and the colorizer

A shallow embedding of `src/TextEditor.cpp` and `src/LanguageDefinition.cpp` (with
`src/Types.h`, `src/Palette.h`, `src/TextEditor.h`, `src/LanguageDefinition.h`).

Conventions of the embedding.

* A `Char` of the source (`uint8_t`) is a `Nat` byte value; a `std::string` is a `List Nat`.
  The byte constants used below: `0` NUL, `9` tab, `10` line feed, `13` carriage return,
  `32` space, `34` double quote, `92` backslash.
* `Coordinates` has `Nat` fields: the constructor of the source asserts both fields
  non-negative.
* `std::vector` is `List`.  A mutating member function of the source is a function
  `TextEditor → Option TextEditor`: `none` stands for a run that does not complete, that is a
  failed `assert`, an `at()` that throws, or an iterator outside its container.
* `while` loops whose trip count is bounded by the data are written with a fuel argument
  that the caller sets to that bound.
* The tab-stop expression `(c / mTabSize) * mTabSize + mTabSize` is integer division in the
  source; it is defined only for `mTabSize ≥ 1`, so results that depend on it carry the
  hypothesis `0 < mTabSize`.
* A token rule is a `std::regex` of the ECMAScript grammar.  Its pattern is written as a
  syntax tree (`Regex`), and `std::regex_search` with `match_continuous` is the backtracking
  matcher on that tree (`Regex.search`): alternatives are tried from the left, a star takes as
  many iterations as it can, and the first match found is reported.
-/

namespace TextEditor

/-! ## Types (`Types.h`, `Palette.h`, `TextEditor.h`) -/

/-- The `PaletteIndex` enumeration of `Palette.h`. -/
inductive PaletteIndex where
  | Default | Keyword | Number | String | CharLiteral | Punctuation | Preprocessor
  | Identifier | KnownIdentifier | PreprocIdentifier | Comment | MultiLineComment
  | Background | Cursor | Selection | ErrorMarker | Breakpoint | LineNumber
  | CurrentLineFill | CurrentLineFillInactive | CurrentLineEdge | Max
  deriving DecidableEq, Repr, Inhabited

/-- The `SelectionMode` enumeration of `Types.h`. -/
inductive SelectionMode where
  | Normal | Word | Line
  deriving DecidableEq, Repr, Inhabited

/-- A `Coordinates` value: line and rendered column. -/
structure Coordinates where
  mLine : Nat
  mColumn : Nat
  deriving DecidableEq, Repr, Inhabited

namespace Coordinates

/-- Source `Coordinates::operator<`. -/
def lt (a o : Coordinates) : Bool :=
  if a.mLine ≠ o.mLine then decide (a.mLine < o.mLine) else decide (a.mColumn < o.mColumn)

/-- Source `Coordinates::operator>`. -/
def gt (a o : Coordinates) : Bool :=
  if a.mLine ≠ o.mLine then decide (a.mLine > o.mLine) else decide (a.mColumn > o.mColumn)

/-- Source `Coordinates::operator<=`. -/
def le (a o : Coordinates) : Bool :=
  if a.mLine ≠ o.mLine then decide (a.mLine < o.mLine) else decide (a.mColumn ≤ o.mColumn)

/-- Source `Coordinates::operator>=`. -/
def ge (a o : Coordinates) : Bool :=
  if a.mLine ≠ o.mLine then decide (a.mLine > o.mLine) else decide (a.mColumn ≥ o.mColumn)

end Coordinates

/-- A `Glyph`: one byte with its colour tag and the three flags. -/
structure Glyph where
  mChar : Nat
  mColorIndex : PaletteIndex := PaletteIndex.Default
  mComment : Bool := false
  mMultiLineComment : Bool := false
  mPreprocessor : Bool := false
  deriving DecidableEq, Repr, Inhabited

abbrev Line := List Glyph
abbrev Lines := List Line

/-! ## Grammars (`LanguageDefinition.h`, `LanguageDefinition.cpp`) and `std::regex` -/

/-- The bytes of a string literal of the source (all of them ASCII). -/
def bytes (s : String) : List Nat :=
  s.toList.map Char.toNat

/-- A regular expression of the ECMAScript grammar of `std::regex`, as a syntax tree over
bytes.  It has the constructs that the token rules of `LanguageDefinition.cpp` are written
with: a bracket expression or single character (`set`, a list of inclusive byte ranges,
possibly negated), concatenation, alternation and the greedy star. -/
inductive Regex where
  | empty : Regex
  | set (negated : Bool) (ranges : List (Nat × Nat)) : Regex
  | seq (a b : Regex) : Regex
  | alt (a b : Regex) : Regex
  | star (a : Regex) : Regex

namespace Regex

/-- A single literal character. -/
def chr (c : Nat) : Regex := set false [(c, c)]

/-- The dot: any character but a line feed or a carriage return. -/
def any : Regex := set true [(10, 10), (13, 13)]

/-- The greedy `a?`. -/
def opt (a : Regex) : Regex := alt a empty

/-- The greedy `a+`. -/
def plus (a : Regex) : Regex := seq a (star a)

/-- The iterations of a greedy star whose body has the matches `f`: every way of running
the body again on a shorter rest first, then the way that stops here.  An iteration that
consumes nothing is not repeated; `fuel` bounds the number of iterations by the length of
the input. -/
def starEnds (f : List Nat → List (List Nat)) : Nat → List Nat → List (List Nat)
  | 0, s => [s]
  | fuel + 1, s =>
    ((f s).filter (fun r => decide (r.length < s.length))).flatMap (starEnds f fuel) ++ [s]

/-- The matches of a pattern at the start of the input `s`, each given by the rest of the
input behind the match, in the order in which a backtracking matcher finds them (the left
alternative first, the longer repetition first). -/
def ends : Regex → List Nat → List (List Nat)
  | empty => fun s => [s]
  | set negated ranges => fun s =>
    match s with
    | [] => []
    | c :: rest =>
      if (ranges.any (fun r => decide (r.1 ≤ c ∧ c ≤ r.2))) != negated then [rest] else []
  | seq a b => fun s => (ends a s).flatMap (ends b)
  | alt a b => fun s => ends a s ++ ends b s
  | star a => fun s => starEnds (ends a) s.length s

/-- The call `std::regex_search(first, last, results, re, match_continuous)` on the bytes
`[first, last)`: the length of the match that starts at `first`, if there is one. -/
def search (re : Regex) (s : List Nat) : Option Nat :=
  ((ends re s).head?).map (fun rest => s.length - rest.length)

end Regex

/-- The class `LanguageDefinition`.  Of the two identifier tables only the keys are kept
(the colorizer asks `contains` only).  A tokenize callback is a function of the bytes
`[in_begin, in_end)` that reports a token by the offsets of `out_begin` and `out_end` from
`in_begin` and by its colour. -/
structure LanguageDefinition where
  mName : List Nat := []
  mKeywords : List (List Nat) := []
  mIdentifiers : List (List Nat) := []
  mPreprocIdentifiers : List (List Nat) := []
  mCommentStart : List Nat := []
  mCommentEnd : List Nat := []
  mSingleLineComment : List Nat := []
  mPreprocChar : Nat := 35
  mAutoIndentation : Bool := true
  mTokenize : Option (List Nat → Option (Nat × Nat × PaletteIndex)) := none
  mTokenRegexStrings : List (Regex × PaletteIndex) := []
  mCaseSensitive : Bool := true

namespace LanguageDefinition

/-- The vector `keywords` of `LanguageDefinition::GLSL`. -/
def GLSL.keywords : List String :=
  [
    "const", "uniform", "buffer", "shared", "attribute", "varying", "coherent", "volatile",
    "restrict", "readonly", "writeonly", "atomic_uint", "layout", "centroid", "flat", "smooth",
    "noperspective", "patch", "sample", "invariant", "precise", "break", "continue", "do", "for",
    "while", "switch", "case", "default", "if", "else", "subroutine", "in", "out", "inout",
    "int", "void", "bool", "true", "false", "float", "double", "discard", "return", "vec2",
    "vec3", "vec4", "ivec2", "ivec3", "ivec4", "bvec2", "bvec3", "bvec4", "uint", "uvec2",
    "uvec3", "uvec4", "dvec2", "dvec3", "dvec4", "mat2", "mat3", "mat4", "mat2x2", "mat2x3",
    "mat2x4", "mat3x2", "mat3x3", "mat3x4", "mat4x2", "mat4x3", "mat4x4", "dmat2", "dmat3",
    "dmat4", "dmat2x2", "dmat2x3", "dmat2x4", "dmat3x2", "dmat3x3", "dmat3x4", "dmat4x2",
    "dmat4x3", "dmat4x4", "lowp", "mediump", "highp", "precision", "sampler1D",
    "sampler1DShadow", "sampler1DArray", "sampler1DArrayShadow", "isampler1D", "isampler1DArray",
    "usampler1D", "usampler1DArray", "sampler2D", "sampler2DShadow", "sampler2DArray",
    "sampler2DArrayShadow", "isampler2D", "isampler2DArray", "usampler2D", "usampler2DArray",
    "sampler2DRect", "sampler2DRectShadow", "isampler2DRect", "usampler2DRect", "sampler2DMS",
    "isampler2DMS", "usampler2DMS", "sampler2DMSArray", "isampler2DMSArray", "usampler2DMSArray",
    "sampler3D", "isampler3D", "usampler3D", "samplerCube", "samplerCubeShadow", "isamplerCube",
    "usamplerCube", "samplerCubeArray", "samplerCubeArrayShadow", "isamplerCubeArray",
    "usamplerCubeArray", "samplerBuffer", "isamplerBuffer", "usamplerBuffer", "image1D",
    "iimage1D", "uimage1D", "image1DArray", "iimage1DArray", "uimage1DArray", "image2D",
    "iimage2D", "uimage2D", "image2DArray", "iimage2DArray", "uimage2DArray", "image2DRect",
    "iimage2DRect", "uimage2DRect", "image2DMS", "iimage2DMS", "uimage2DMS", "image2DMSArray",
    "iimage2DMSArray", "uimage2DMSArray", "image3D", "iimage3D", "uimage3D", "imageCube",
    "iimageCube", "uimageCube", "imageCubeArray", "iimageCubeArray", "uimageCubeArray",
    "imageBuffer", "iimageBuffer", "uimageBuffer", "struct", "texture1D", "texture1DArray",
    "itexture1D", "itexture1DArray", "utexture1D", "utexture1DArray", "texture2D",
    "texture2DArray", "itexture2D", "itexture2DArray", "utexture2D", "utexture2DArray",
    "texture2DRect", "itexture2DRect", "utexture2DRect", "texture2DMS", "itexture2DMS",
    "utexture2DMS", "texture2DMSArray", "itexture2DMSArray", "utexture2DMSArray", "texture3D",
    "itexture3D", "utexture3D", "textureCube", "itextureCube", "utextureCube",
    "textureCubeArray", "itextureCubeArray", "utextureCubeArray", "textureBuffer",
    "itextureBuffer", "utextureBuffer", "sampler", "samplerShadow", "subpassInput",
    "isubpassInput", "usubpassInput", "subpassInputMS", "isubpassInputMS", "usubpassInputMS",
    "common", "partition", "active", "asm", "class", "union", "enum", "typedef", "template",
    "this", "resource", "goto", "inline", "noinline", "public", "static", "extern", "external",
    "interface", "long", "short", "half", "fixed", "unsigned", "superp", "input", "output",
    "hvec2", "hvec3", "hvec4", "fvec2", "fvec3", "fvec4", "filter", "sizeof", "cast",
    "namespace", "using", "sampler3DRect"
  ]

/-- The vector `builtin_functions` of `LanguageDefinition::GLSL`. -/
def GLSL.builtin_functions : List String :=
  [
    "radians", "degrees", "sin", "cos", "tan", "asin", "acos", "atan", "sinh", "cosh", "asinh",
    "acosh", "atanh", "pow", "exp", "log", "exp2", "log2", "sqrt", "inversesqrt", "abs", "sign",
    "floor", "trunc", "round", "roundEven", "ceil", "fract", "mod", "modf", "min", "max",
    "clamp", "mix", "step", "smoothstep", "isnan", "isinf", "floatBitsToInt", "floatBitsToUint",
    "intBitsToFloat", "uintBitsToFloat", "fma", "frexp", "ldexp", "packUnorm2x16",
    "packSnorm2x16", "packUnorm4x8", "packSnorm4x8", "unpackUnorm2x16", "unpackSnorm2x16",
    "unpackUnorm4x8", "unpackSnorm4x8", "packHalf2x16", "unpackHalf2x16", "packDouble2x32",
    "unpackDouble2x32", "length", "distance", "dot", "cross", "normalize", "faceforward",
    "reflect", "refract", "matrixCompMult", "outerProduct", "transpose", "determinant",
    "inverse", "textureSize", "texture", "textureProj", "textureLod", "texelFetch", "noise1",
    "noise2", "noise3", "noise4"
  ]

/-- The vector `builtin_variables` of `LanguageDefinition::GLSL`. -/
def GLSL.builtin_variables : List String :=
  [
    "gl_VertexID", "gl_InstanceID", "gl_VertexIndex", "gl_InstanceIndex", "gl_DrawID",
    "gl_BaseVertex", "gl_BaseInstance", "gl_Position", "gl_PointSize", "gl_ClipDistance",
    "gl_CullDistance", "gl_FragCoord", "gl_FrontFacing", "gl_ClipDistance", "gl_CullDistance",
    "gl_PointCoord", "gl_PrimitiveID", "gl_SampleID", "gl_SamplePosition", "gl_SampleMaskIn",
    "gl_Layer", "gl_ViewportIndex", "gl_HelperInvocation", "gl_FragDepth", "gl_SampleMask"
  ]

/-- The character class of a blank or a tab. -/
def GLSL.blank : Regex := Regex.set false [(32, 32), (9, 9)]

/-- The character class of the decimal digits. -/
def GLSL.digit : Regex := Regex.set false [(48, 57)]

/-- The character class of the two signs. -/
def GLSL.sign : Regex := Regex.set false [(43, 43), (45, 45)]

/-- The character class of a letter or the underscore. -/
def GLSL.letter : Regex := Regex.set false [(97, 122), (65, 90), (95, 95)]

/-- The suffix of an integer literal: an optional `U` or `u`, then up to two of `l`, `L`. -/
def GLSL.intSuffix (u : List (Nat × Nat)) : Regex :=
  Regex.seq (Regex.opt (Regex.set false u))
    (Regex.seq (Regex.opt (Regex.set false [(108, 108), (76, 76)]))
      (Regex.opt (Regex.set false [(108, 108), (76, 76)])))

/-- The nine token rules of `LanguageDefinition::GLSL`, in the order of the source: the
preprocessor directive, the string literal, the character literal, four forms of number,
the identifier and the punctuation character. -/
def GLSL.tokenRegexStrings : List (Regex × PaletteIndex) :=
  [ -- blanks, a hash, blanks, letters
    (Regex.seq (Regex.star GLSL.blank) (Regex.seq (Regex.chr 35)
       (Regex.seq (Regex.star GLSL.blank) (Regex.plus GLSL.letter))),
     PaletteIndex.Preprocessor),
    -- an optional L, a double quote, escaped or plain characters, a double quote
    (Regex.seq (Regex.opt (Regex.chr 76)) (Regex.seq (Regex.chr 34)
       (Regex.seq
         (Regex.star (Regex.alt (Regex.seq (Regex.chr 92) Regex.any)
           (Regex.set true [(34, 34)])))
         (Regex.chr 34))),
     PaletteIndex.String),
    -- a single quote, an optional backslash, a character other than the quote, a quote
    (Regex.seq (Regex.chr 39) (Regex.seq (Regex.opt (Regex.chr 92))
       (Regex.seq (Regex.set true [(39, 39)]) (Regex.chr 39))),
     PaletteIndex.CharLiteral),
    -- a floating-point number
    (Regex.seq (Regex.opt GLSL.sign)
       (Regex.seq
         (Regex.alt
           (Regex.seq (Regex.plus GLSL.digit)
             (Regex.opt (Regex.seq (Regex.chr 46) (Regex.star GLSL.digit))))
           (Regex.seq (Regex.chr 46) (Regex.plus GLSL.digit)))
         (Regex.seq
           (Regex.opt (Regex.seq (Regex.set false [(101, 101), (69, 69)])
             (Regex.seq (Regex.opt GLSL.sign) (Regex.plus GLSL.digit))))
           (Regex.opt (Regex.set false [(102, 102), (70, 70)])))),
     PaletteIndex.Number),
    -- a decimal integer
    (Regex.seq (Regex.opt GLSL.sign)
       (Regex.seq (Regex.plus GLSL.digit) (GLSL.intSuffix [(85, 85), (117, 117)])),
     PaletteIndex.Number),
    -- an octal integer
    (Regex.seq (Regex.chr 48)
       (Regex.seq (Regex.plus (Regex.set false [(48, 55)]))
         (GLSL.intSuffix [(85, 85), (117, 117)])),
     PaletteIndex.Number),
    -- a hexadecimal integer
    (Regex.seq (Regex.chr 48) (Regex.seq (Regex.set false [(120, 120), (88, 88)])
       (Regex.seq (Regex.plus (Regex.set false [(48, 57), (97, 102), (65, 70)]))
         (GLSL.intSuffix [(117, 117), (85, 85)]))),
     PaletteIndex.Number),
    -- an identifier
    (Regex.seq GLSL.letter
       (Regex.star (Regex.set false [(97, 122), (65, 90), (48, 57), (95, 95)])),
     PaletteIndex.Identifier),
    -- one punctuation character
    (Regex.set false
       [(91, 91), (93, 93), (123, 123), (125, 125), (33, 33), (37, 37), (94, 94), (38, 38),
        (42, 42), (40, 40), (41, 41), (45, 45), (43, 43), (61, 61), (126, 126), (124, 124),
        (60, 60), (62, 62), (63, 63), (47, 47), (59, 59), (44, 44), (46, 46)],
     PaletteIndex.Punctuation) ]

/-- Source `LanguageDefinition::GLSL`. -/
def GLSL : LanguageDefinition :=
  { mName := bytes "GLSL",
    mKeywords := GLSL.keywords.map bytes,
    mIdentifiers := GLSL.builtin_functions.map bytes ++ GLSL.builtin_variables.map bytes,
    mPreprocIdentifiers := [],
    mCommentStart := bytes "/*",
    mCommentEnd := bytes "*/",
    mSingleLineComment := bytes "//",
    mPreprocChar := 35,
    mAutoIndentation := true,
    mTokenize := none,
    mTokenRegexStrings := GLSL.tokenRegexStrings,
    mCaseSensitive := true }

end LanguageDefinition

/-! ## Editor state and undo records (`TextEditor.h`) -/

/-- The `EditorState` of `TextEditor.h`. -/
structure EditorState where
  mSelectionStart : Coordinates := ⟨0, 0⟩
  mSelectionEnd : Coordinates := ⟨0, 0⟩
  mCursorPosition : Coordinates := ⟨0, 0⟩
  deriving DecidableEq, Repr, Inhabited

/-- The `UndoRecord` of `TextEditor.h`. -/
structure UndoRecord where
  mAdded : List Nat := []
  mAddedStart : Coordinates := ⟨0, 0⟩
  mAddedEnd : Coordinates := ⟨0, 0⟩
  mRemoved : List Nat := []
  mRemovedStart : Coordinates := ⟨0, 0⟩
  mRemovedEnd : Coordinates := ⟨0, 0⟩
  mBefore : EditorState := {}
  mAfter : EditorState := {}
  deriving DecidableEq, Repr, Inhabited

end TextEditor

/-- The fields of `class TextEditor` that the buffer, the coordinate model, the undo log and
the colorizer read or write.  The field `mAutoIndentation` stands for
`mLanguageDefinition.mAutoIndentation`, which `SetLanguageDefinition` sets with the grammar.
An element of `mRegexList` is a compiled `std::regex` with its colour: the function that
`std::regex_search` with `match_continuous` computes on the bytes `[first, last)`. -/
structure TextEditor where
  mLines : TextEditor.Lines
  mState : TextEditor.EditorState
  mUndoBuffer : List TextEditor.UndoRecord
  mUndoIndex : Nat
  mTabSize : Nat
  mOverwrite : Bool
  mReadOnly : Bool
  mWithinRender : Bool
  mScrollToCursor : Bool
  mScrollToTop : Bool
  mTextChanged : Bool
  mColorizerEnabled : Bool
  mCursorPositionChanged : Bool
  mColorRangeMin : Int
  mColorRangeMax : Int
  mSelectionMode : TextEditor.SelectionMode
  mCheckComments : Bool
  mAutoIndentation : Bool
  mErrorMarkers : List (Int × List Nat)
  mBreakpoints : List Int
  mInteractiveStart : TextEditor.Coordinates
  mInteractiveEnd : TextEditor.Coordinates
  mLanguageDefinition : TextEditor.LanguageDefinition
  mRegexList : List ((List Nat → Option Nat) × TextEditor.PaletteIndex)

namespace TextEditor

/-! ## Coordinate model -/

/-- Source `UTF8CharLength`: the length announced by a leading byte. -/
def UTF8CharLength (c : Nat) : Nat :=
  if c &&& 0xFE = 0xFC then 6
  else if c &&& 0xFC = 0xF8 then 5
  else if c &&& 0xF8 = 0xF0 then 4
  else if c &&& 0xF0 = 0xE0 then 3
  else if c &&& 0xE0 = 0xC0 then 2
  else 1

/-- The tab-aware column step shared by `GetCharacterIndex`, `GetCharacterColumn` and
`GetLineMaxColumn`: a tab moves to the next tab stop, any other character one column. -/
def advanceColumn (tab : Nat) (ch : Nat) (c : Nat) : Nat :=
  if ch = 9 then (c / tab) * tab + tab else c + 1

/-- The loop of `GetCharacterIndex`: state `(c, i)`, run while `i < line.size()` and
`c < column`. -/
def GetCharacterIndex.loop (tab : Nat) (ln : Line) (column : Nat) : Nat → Nat → Nat → Nat
  | 0, _, i => i
  | fuel + 1, c, i =>
    match ln[i]? with
    | none => i
    | some g =>
      if c < column then
        GetCharacterIndex.loop tab ln column fuel (advanceColumn tab g.mChar c)
          (i + UTF8CharLength g.mChar)
      else i

/-- Source `TextEditor::GetCharacterIndex`: `-1` for a line outside the buffer. -/
def GetCharacterIndex (e : TextEditor) (aCoordinates : Coordinates) : Int :=
  match e.mLines[aCoordinates.mLine]? with
  | none => -1
  | some ln =>
    (GetCharacterIndex.loop e.mTabSize ln aCoordinates.mColumn ln.length 0 0 : Nat)

/-- The loop of `GetCharacterColumn`: state `(col, i)`, run while `i < aIndex` and
`i < line.size()`. -/
def GetCharacterColumn.loop (tab : Nat) (ln : Line) (aIndex : Nat) : Nat → Nat → Nat → Nat
  | 0, col, _ => col
  | fuel + 1, col, i =>
    match ln[i]? with
    | none => col
    | some g =>
      if i < aIndex then
        GetCharacterColumn.loop tab ln aIndex fuel (advanceColumn tab g.mChar col)
          (i + UTF8CharLength g.mChar)
      else col

/-- Source `TextEditor::GetCharacterColumn`. -/
def GetCharacterColumn (e : TextEditor) (aLine : Nat) (aIndex : Nat) : Nat :=
  match e.mLines[aLine]? with
  | none => 0
  | some ln => GetCharacterColumn.loop e.mTabSize ln aIndex ln.length 0 0

/-- The loop of `GetLineMaxColumn`: state `(col, i)`, run while `i < line.size()`. -/
def GetLineMaxColumn.loop (tab : Nat) (ln : Line) : Nat → Nat → Nat → Nat
  | 0, col, _ => col
  | fuel + 1, col, i =>
    match ln[i]? with
    | none => col
    | some g =>
      GetLineMaxColumn.loop tab ln fuel (advanceColumn tab g.mChar col)
        (i + UTF8CharLength g.mChar)

/-- Source `TextEditor::GetLineMaxColumn`. -/
def GetLineMaxColumn (e : TextEditor) (aLine : Nat) : Nat :=
  match e.mLines[aLine]? with
  | none => 0
  | some ln => GetLineMaxColumn.loop e.mTabSize ln ln.length 0 0

/-- Source `TextEditor::SanitizeCoordinates`. -/
def SanitizeCoordinates (e : TextEditor) (aValue : Coordinates) : Coordinates :=
  let line := aValue.mLine
  let column := aValue.mColumn
  if line ≥ e.mLines.length then
    if e.mLines.isEmpty then
      ⟨0, 0⟩
    else
      ⟨e.mLines.length - 1, GetLineMaxColumn e (e.mLines.length - 1)⟩
  else
    ⟨line, if e.mLines.isEmpty then 0 else min column (GetLineMaxColumn e line)⟩

/-- Source `TextEditor::GetActualCursorCoordinates`. -/
def GetActualCursorCoordinates (e : TextEditor) : Coordinates :=
  SanitizeCoordinates e e.mState.mCursorPosition

/-! ## Glyph buffer -/

/-- The main loop of `GetText(aStart, aEnd)`: state `(istart, lstart)`; the characters
appended to `result`, in order. -/
def GetText.loop (lines : Lines) (iend : Int) (lend : Nat) : Nat → Int → Nat → List Nat
  | 0, _, _ => []
  | fuel + 1, istart, lstart =>
    if istart < iend ∨ lstart < lend then
      match lines[lstart]? with
      | none => []
      | some ln =>
        if istart < (ln.length : Int) then
          match ln[istart.toNat]? with
          | none => []
          | some g => g.mChar :: GetText.loop lines iend lend fuel (istart + 1) lstart
        else
          10 :: GetText.loop lines iend lend fuel 0 (lstart + 1)
    else []

/-- Source `TextEditor::GetText(const Coordinates &, const Coordinates &)`.  The sizing loop
calls `mLines.at(i)` for every `i` in `[aStart.mLine, aEnd.mLine)`. -/
def GetText (e : TextEditor) (aStart aEnd : Coordinates) : Option (List Nat) :=
  let lstart := aStart.mLine
  let lend := aEnd.mLine
  let istart := GetCharacterIndex e aStart
  let iend := GetCharacterIndex e aEnd
  if lstart < lend ∧ e.mLines.length < lend then none
  else
    some (GetText.loop e.mLines iend lend ((e.mLines.map (fun l => l.length + 1)).sum + 1)
      istart lstart)

/-- Source `TextEditor::Advance`, returning the advanced coordinate. -/
def Advance (e : TextEditor) (aCoordinates : Coordinates) : Coordinates :=
  match e.mLines[aCoordinates.mLine]? with
  | none => aCoordinates
  | some ln =>
    let cindex := (GetCharacterIndex e aCoordinates).toNat
    if cindex + 1 < ln.length then
      let delta := UTF8CharLength (ln.getD cindex default).mChar
      let cindex := min (cindex + delta) (ln.length - 1)
      ⟨aCoordinates.mLine, GetCharacterColumn e aCoordinates.mLine cindex⟩
    else
      ⟨aCoordinates.mLine + 1, GetCharacterColumn e (aCoordinates.mLine + 1) 0⟩

/-- The call `v.erase(v.begin() + a, v.begin() + b)` of a `std::vector`; the iterators must
satisfy `a ≤ b ≤ v.size()`. -/
def eraseRange {α : Type} (v : List α) (a b : Nat) : Option (List α) :=
  if a ≤ b ∧ b ≤ v.length then some (v.take a ++ v.drop b) else none

/-- The call `v.insert(v.begin() + i, xs.begin(), xs.end())` of a `std::vector`; the iterator
must satisfy `i ≤ v.size()`. -/
def insertAt {α : Type} (v : List α) (i : Nat) (xs : List α) : Option (List α) :=
  if i ≤ v.length then some (v.take i ++ xs ++ v.drop i) else none

/-- The call `m.insert(value)` of `std::map<int, std::string>`: the map is a list sorted by
key; an existing key keeps its value. -/
def mapInsert (kv : Int × List Nat) : List (Int × List Nat) → List (Int × List Nat)
  | [] => [kv]
  | x :: rest =>
    if kv.1 < x.1 then kv :: x :: rest
    else if kv.1 = x.1 then x :: rest
    else x :: mapInsert kv rest

/-- The call `s.insert(value)` of `std::unordered_set<int>`: the set is a sorted list without
repetition. -/
def setInsert (k : Int) : List Int → List Int
  | [] => [k]
  | x :: rest =>
    if k < x then k :: x :: rest
    else if k = x then x :: rest
    else x :: setInsert k rest

/-- Source `TextEditor::RemoveLine(int aStart, int aEnd)`. -/
def RemoveLineRange (e : TextEditor) (aStart aEnd : Nat) : Option TextEditor :=
  let etmp := e.mErrorMarkers.foldl
    (fun (acc : List (Int × List Nat)) (i : Int × List Nat) =>
      let k : Int := if i.1 ≥ (aStart : Int) then i.1 - 1 else i.1
      if k ≥ (aStart : Int) ∧ k ≤ (aEnd : Int) then acc else mapInsert (k, i.2) acc) []
  let btmp := e.mBreakpoints.foldl
    (fun (acc : List Int) (i : Int) =>
      if i ≥ (aStart : Int) ∧ i ≤ (aEnd : Int) then acc
      else setInsert (if i ≥ (aStart : Int) then i - 1 else i) acc) []
  if e.mReadOnly then none
  else if ¬ (aEnd ≥ aStart) then none
  else if ¬ (e.mLines.length > aEnd - aStart) then none
  else
    match eraseRange e.mLines aStart aEnd with
    | none => none
    | some lines =>
      if lines.isEmpty then none
      else some { e with mErrorMarkers := etmp, mBreakpoints := btmp, mLines := lines,
                         mTextChanged := true }

/-- Source `TextEditor::RemoveLine(int aIndex)`. -/
def RemoveLine (e : TextEditor) (aIndex : Nat) : Option TextEditor :=
  let etmp := e.mErrorMarkers.foldl
    (fun (acc : List (Int × List Nat)) (i : Int × List Nat) =>
      let k : Int := if i.1 > (aIndex : Int) then i.1 - 1 else i.1
      if k - 1 = (aIndex : Int) then acc else mapInsert (k, i.2) acc) []
  let btmp := e.mBreakpoints.foldl
    (fun (acc : List Int) (i : Int) =>
      if i = (aIndex : Int) then acc
      else setInsert (if i ≥ (aIndex : Int) then i - 1 else i) acc) []
  if e.mReadOnly then none
  else if ¬ (e.mLines.length > 1) then none
  else
    match eraseRange e.mLines aIndex (aIndex + 1) with
    | none => none
    | some lines =>
      if lines.isEmpty then none
      else some { e with mErrorMarkers := etmp, mBreakpoints := btmp, mLines := lines,
                         mTextChanged := true }

/-- Source `TextEditor::InsertLine`: a new empty line at `aIndex`. -/
def InsertLine (e : TextEditor) (aIndex : Nat) : Option TextEditor :=
  let etmp := e.mErrorMarkers.foldl
    (fun (acc : List (Int × List Nat)) (i : Int × List Nat) =>
      mapInsert (if i.1 ≥ (aIndex : Int) then i.1 + 1 else i.1, i.2) acc) []
  let btmp := e.mBreakpoints.foldl
    (fun (acc : List Int) (i : Int) =>
      setInsert (if i ≥ (aIndex : Int) then i + 1 else i) acc) []
  if e.mReadOnly then none
  else
    match insertAt e.mLines aIndex [([] : Line)] with
    | none => none
    | some lines => some { e with mLines := lines, mErrorMarkers := etmp, mBreakpoints := btmp }

/-- The same-line branch of `DeleteRange`: the new contents of the line. -/
def DeleteRange.sameLine (e : TextEditor) (aStart aEnd : Coordinates) (ln : Line) :
    Option Line :=
  if aEnd.mColumn ≥ GetLineMaxColumn e aStart.mLine then
    eraseRange ln (GetCharacterIndex e aStart).toNat ln.length
  else
    eraseRange ln (GetCharacterIndex e aStart).toNat (GetCharacterIndex e aEnd).toNat

/-- Source `TextEditor::DeleteRange`. -/
def DeleteRange (e : TextEditor) (aStart aEnd : Coordinates) : Option TextEditor :=
  if ¬ (aEnd.ge aStart) then none
  else if e.mReadOnly then none
  else if aEnd = aStart then some e
  else if aStart.mLine = aEnd.mLine then
    match e.mLines[aStart.mLine]? with
    | none => none
    | some ln =>
      match DeleteRange.sameLine e aStart aEnd ln with
      | none => none
      | some ln' => some { e with mLines := e.mLines.set aStart.mLine ln', mTextChanged := true }
  else
    match e.mLines[aStart.mLine]?, e.mLines[aEnd.mLine]? with
    | some firstLine, some lastLine =>
      match eraseRange firstLine (GetCharacterIndex e aStart).toNat firstLine.length,
            eraseRange lastLine 0 (GetCharacterIndex e aEnd).toNat with
      | some firstLine', some lastLine' =>
        if aStart.mLine < aEnd.mLine then
          match RemoveLineRange
              { e with mLines := (e.mLines.set aStart.mLine (firstLine' ++ lastLine')).set
                                   aEnd.mLine lastLine' }
              (aStart.mLine + 1) (aEnd.mLine + 1) with
          | none => none
          | some e2 => some { e2 with mTextChanged := true }
        else
          some { e with mLines := (e.mLines.set aStart.mLine firstLine').set aEnd.mLine lastLine',
                        mTextChanged := true }
      | _, _ => none
    | _, _ => none

/-- The inner loop `while (d-- > 0 && *aValue != 0)` of `InsertTextAt`: the bytes it
inserts and the rest of the text. -/
def InsertTextAt.inner : Nat → List Nat → List Nat × List Nat
  | 0, t => ([], t)
  | _ + 1, [] => ([], [])
  | d + 1, ch :: rest =>
    if ch = 0 then ([], ch :: rest)
    else ((ch :: (InsertTextAt.inner d rest).1), (InsertTextAt.inner d rest).2)

/-- The outer loop `while (*aValue != 0)` of `InsertTextAt`: state
`(editor, aWhere, cindex, totalLines)`.  The text is the bytes of the `std::string` whose
`c_str()` is passed; the end of the list is the terminating NUL. -/
def InsertTextAt.loop : Nat → List Nat → TextEditor → Coordinates → Nat → Nat →
    Option (TextEditor × Coordinates × Nat)
  | 0, _, e, aWhere, _, totalLines => some (e, aWhere, totalLines)
  | _ + 1, [], e, aWhere, _, totalLines => some (e, aWhere, totalLines)
  | fuel + 1, ch :: rest, e, aWhere, cindex, totalLines =>
    if ch = 0 then some (e, aWhere, totalLines)
    else if e.mLines.isEmpty then none
    else if ch = 13 then
      InsertTextAt.loop fuel rest { e with mTextChanged := true } aWhere cindex totalLines
    else if ch = 10 then
      match e.mLines[aWhere.mLine]? with
      | none => none
      | some ln =>
        match InsertLine e (aWhere.mLine + 1) with
        | none => none
        | some e1 =>
          InsertTextAt.loop fuel rest
            { e1 with
              mLines := if cindex < ln.length then
                          (e1.mLines.set (aWhere.mLine + 1) (ln.drop cindex)).set
                            aWhere.mLine (ln.take cindex)
                        else e1.mLines,
              mTextChanged := true }
            ⟨aWhere.mLine + 1, 0⟩ 0 (totalLines + 1)
    else
      match e.mLines[aWhere.mLine]? with
      | none => none
      | some ln =>
        match insertAt ln cindex
            ((InsertTextAt.inner (UTF8CharLength ch) (ch :: rest)).1.map
              (fun b => ({ mChar := b } : Glyph))) with
        | none => none
        | some ln' =>
          InsertTextAt.loop fuel (InsertTextAt.inner (UTF8CharLength ch) (ch :: rest)).2
            { e with mLines := e.mLines.set aWhere.mLine ln', mTextChanged := true }
            ⟨aWhere.mLine, aWhere.mColumn + 1⟩
            (cindex + (InsertTextAt.inner (UTF8CharLength ch) (ch :: rest)).1.length) totalLines

/-- Source `TextEditor::InsertTextAt`: the editor, the advanced `aWhere` and the returned
count of new lines. -/
def InsertTextAt (e : TextEditor) (aWhere : Coordinates) (aValue : List Nat) :
    Option (TextEditor × Coordinates × Nat) :=
  if e.mReadOnly then none
  else
    InsertTextAt.loop aValue.length aValue e aWhere (GetCharacterIndex e aWhere).toNat 0

/-! ## Undo log, colour window, cursor and selection -/

/-- Source `TextEditor::AddUndo`: `resize(mUndoIndex + 1)`, overwrite the last record,
advance the index. -/
def AddUndo (e : TextEditor) (aValue : UndoRecord) : Option TextEditor :=
  if e.mReadOnly then none
  else
    some { e with
      mUndoBuffer := e.mUndoBuffer.take e.mUndoIndex ++
        List.replicate (e.mUndoIndex - e.mUndoBuffer.length) ({} : UndoRecord) ++ [aValue],
      mUndoIndex := e.mUndoIndex + 1 }

/-- Source `TextEditor::Colorize(int aFromLine, int aLines)`. -/
def Colorize (e : TextEditor) (aFromLine : Int) (aLines : Int) : TextEditor :=
  let toLine : Int := if aLines = -1 then (e.mLines.length : Int)
                      else min (e.mLines.length : Int) (aFromLine + aLines)
  let cmin := min e.mColorRangeMin aFromLine
  let cmax := max e.mColorRangeMax toLine
  let cmin := max 0 cmin
  let cmax := max cmin cmax
  { e with mColorRangeMin := cmin, mColorRangeMax := cmax, mCheckComments := true }

/-- Source `TextEditor::EnsureCursorVisible`: outside `Render` it only raises
`mScrollToCursor`; inside `Render` it scrolls the window, which is no field of the editor. -/
def EnsureCursorVisible (e : TextEditor) : TextEditor :=
  if ¬ e.mWithinRender then { e with mScrollToCursor := true } else e

/-- Source `TextEditor::SetCursorPosition`. -/
def SetCursorPosition (e : TextEditor) (aPosition : Coordinates) : TextEditor :=
  if e.mState.mCursorPosition ≠ aPosition then
    EnsureCursorVisible
      { e with mState := { e.mState with mCursorPosition := aPosition },
               mCursorPositionChanged := true }
  else e

/-- The C library function `isspace` in the "C" locale: zero for a byte that is no white
space, a non-zero `int` otherwise (the value `8192` is the one of glibc). -/
def isspace (c : Nat) : Int :=
  if c = 32 ∨ (9 ≤ c ∧ c ≤ 13) then 8192 else 0

/-- First loop of `FindWordStart`: step back over white space. -/
def FindWordStart.skip (ln : Line) : Nat → Nat → Nat
  | 0, cindex => cindex
  | fuel + 1, cindex =>
    if cindex > 0 ∧ isspace (ln.getD cindex default).mChar ≠ 0 then
      FindWordStart.skip ln fuel (cindex - 1)
    else cindex

/-- Second loop of `FindWordStart`: step back while the colour tag stays `cstart`. -/
def FindWordStart.loop (ln : Line) (cstart : PaletteIndex) : Nat → Nat → Nat
  | 0, cindex => cindex
  | fuel + 1, cindex =>
    if cindex > 0 then
      let c := (ln.getD cindex default).mChar
      if c &&& 0xC0 ≠ 0x80 then
        if c ≤ 32 ∧ isspace c ≠ 0 then cindex + 1
        else if cstart ≠ (ln.getD (cindex - 1) default).mColorIndex then cindex
        else FindWordStart.loop ln cstart fuel (cindex - 1)
      else FindWordStart.loop ln cstart fuel (cindex - 1)
    else cindex

/-- Source `TextEditor::FindWordStart`. -/
def FindWordStart (e : TextEditor) (aFrom : Coordinates) : Coordinates :=
  match e.mLines[aFrom.mLine]? with
  | none => aFrom
  | some ln =>
    let cindex := (GetCharacterIndex e aFrom).toNat
    if cindex ≥ ln.length then aFrom
    else
      let cindex := FindWordStart.skip ln cindex cindex
      let cstart := (ln.getD cindex default).mColorIndex
      let cindex := FindWordStart.loop ln cstart cindex cindex
      ⟨aFrom.mLine, GetCharacterColumn e aFrom.mLine cindex⟩

/-- Inner loop of `FindWordEnd`: step forward over white space. -/
def FindWordEnd.skip (ln : Line) : Nat → Nat → Nat
  | 0, cindex => cindex
  | fuel + 1, cindex =>
    if cindex < ln.length ∧ isspace (ln.getD cindex default).mChar ≠ 0 then
      FindWordEnd.skip ln fuel (cindex + 1)
    else cindex

/-- Main loop of `FindWordEnd`.  The test `prevspace != isspace(c) != 0` of the source
compares the `bool` `prevspace`, promoted to `int`, with the `int` returned by `isspace`. -/
def FindWordEnd.loop (ln : Line) (prevspace : Bool) (cstart : PaletteIndex) : Nat → Nat → Nat
  | 0, cindex => cindex
  | fuel + 1, cindex =>
    if cindex < ln.length then
      let c := (ln.getD cindex default).mChar
      let d := UTF8CharLength c
      if cstart ≠ (ln.getD cindex default).mColorIndex then cindex
      else if (if prevspace then (1 : Int) else 0) ≠ isspace c then
        if isspace c ≠ 0 then FindWordEnd.skip ln (ln.length - cindex) cindex else cindex
      else FindWordEnd.loop ln prevspace cstart fuel (cindex + d)
    else cindex

/-- Source `TextEditor::FindWordEnd`. -/
def FindWordEnd (e : TextEditor) (aFrom : Coordinates) : Coordinates :=
  match e.mLines[aFrom.mLine]? with
  | none => aFrom
  | some ln =>
    let cindex := (GetCharacterIndex e aFrom).toNat
    if cindex ≥ ln.length then aFrom
    else
      let prevspace := decide (isspace (ln.getD cindex default).mChar ≠ 0)
      let cstart := (ln.getD cindex default).mColorIndex
      let cindex := FindWordEnd.loop ln prevspace cstart (ln.length - cindex) cindex
      ⟨aFrom.mLine, GetCharacterColumn e aFrom.mLine cindex⟩

/-- Source `TextEditor::IsOnWordBoundary`. -/
def IsOnWordBoundary (e : TextEditor) (aAt : Coordinates) : Bool :=
  if aAt.mLine ≥ e.mLines.length ∨ aAt.mColumn = 0 then true
  else
    match e.mLines[aAt.mLine]? with
    | none => true
    | some ln =>
      let cindex := (GetCharacterIndex e aAt).toNat
      if cindex ≥ ln.length then true
      else if e.mColorizerEnabled then
        decide ((ln.getD cindex default).mColorIndex ≠ (ln.getD (cindex - 1) default).mColorIndex)
      else
        decide (isspace (ln.getD cindex default).mChar ≠ isspace (ln.getD (cindex - 1) default).mChar)

/-- Source `TextEditor::SetSelectionStart`. -/
def SetSelectionStart (e : TextEditor) (aPosition : Coordinates) : TextEditor :=
  let st := { e.mState with mSelectionStart := SanitizeCoordinates e aPosition }
  let st := if st.mSelectionStart.gt st.mSelectionEnd then
              { st with mSelectionStart := st.mSelectionEnd, mSelectionEnd := st.mSelectionStart }
            else st
  { e with mState := st }

/-- Source `TextEditor::SetSelectionEnd`. -/
def SetSelectionEnd (e : TextEditor) (aPosition : Coordinates) : TextEditor :=
  let st := { e.mState with mSelectionEnd := SanitizeCoordinates e aPosition }
  let st := if st.mSelectionStart.gt st.mSelectionEnd then
              { st with mSelectionStart := st.mSelectionEnd, mSelectionEnd := st.mSelectionStart }
            else st
  { e with mState := st }

/-- The snapping of the (already ordered) selection by `SetSelection`, per mode. -/
def SetSelection.snap (e : TextEditor) (st : EditorState) : SelectionMode → EditorState
  | SelectionMode.Normal => st
  | SelectionMode.Word =>
    if ¬ IsOnWordBoundary e st.mSelectionEnd then
      { st with mSelectionStart := FindWordStart e st.mSelectionStart,
                mSelectionEnd := FindWordEnd e (FindWordStart e st.mSelectionEnd) }
    else
      { st with mSelectionStart := FindWordStart e st.mSelectionStart }
  | SelectionMode.Line =>
    { st with mSelectionStart := ⟨st.mSelectionStart.mLine, 0⟩,
              mSelectionEnd := ⟨st.mSelectionEnd.mLine, GetLineMaxColumn e st.mSelectionEnd.mLine⟩ }

/-- The editor state stored by `SetSelection`: sanitize both ends, swap them if they are out
of order, snap per mode. -/
def SetSelection.state (e : TextEditor) (aStart aEnd : Coordinates) (aMode : SelectionMode) :
    EditorState :=
  SetSelection.snap e
    (if (SanitizeCoordinates e aStart).gt (SanitizeCoordinates e aEnd) then
      { e.mState with mSelectionStart := SanitizeCoordinates e aEnd,
                      mSelectionEnd := SanitizeCoordinates e aStart }
     else
      { e.mState with mSelectionStart := SanitizeCoordinates e aStart,
                      mSelectionEnd := SanitizeCoordinates e aEnd })
    aMode

/-- Source `TextEditor::SetSelection`. -/
def SetSelection (e : TextEditor) (aStart aEnd : Coordinates)
    (aMode : SelectionMode := SelectionMode.Normal) : TextEditor :=
  { e with
    mState := SetSelection.state e aStart aEnd aMode,
    mCursorPositionChanged :=
      if (SetSelection.state e aStart aEnd aMode).mSelectionStart ≠ e.mState.mSelectionStart ∨
         (SetSelection.state e aStart aEnd aMode).mSelectionEnd ≠ e.mState.mSelectionEnd
      then true else e.mCursorPositionChanged }

/-- Source `TextEditor::HasSelection`. -/
def HasSelection (e : TextEditor) : Bool :=
  e.mState.mSelectionEnd.gt e.mState.mSelectionStart

/-- Source `TextEditor::GetSelectedText`. -/
def GetSelectedText (e : TextEditor) : Option (List Nat) :=
  GetText e e.mState.mSelectionStart e.mState.mSelectionEnd

/-- Source `TextEditor::DeleteSelection`. -/
def DeleteSelection (e : TextEditor) : Option TextEditor :=
  if ¬ (e.mState.mSelectionEnd.ge e.mState.mSelectionStart) then none
  else if e.mState.mSelectionEnd = e.mState.mSelectionStart then some e
  else
    match DeleteRange e e.mState.mSelectionStart e.mState.mSelectionEnd with
    | none => none
    | some e1 =>
      let e2 := SetSelection e1 e1.mState.mSelectionStart e1.mState.mSelectionStart
      let e3 := SetCursorPosition e2 e2.mState.mSelectionStart
      some (Colorize e3 e3.mState.mSelectionStart.mLine 1)

/-- Source `TextEditor::SetText`. -/
def SetText (e : TextEditor) (aText : List Nat) : TextEditor :=
  let lines : Lines := aText.foldl
    (fun (acc : Lines) (chr : Nat) =>
      if chr = 13 then acc
      else if chr = 10 then acc ++ [[]]
      else acc.dropLast ++ [acc.getLastD [] ++ [({ mChar := chr } : Glyph)]])
    [[]]
  Colorize { e with mLines := lines, mTextChanged := true, mScrollToTop := true,
                    mUndoBuffer := [], mUndoIndex := 0 } 0 (-1)

/-- Source `TextEditor::SetTextLines`. -/
def SetTextLines (e : TextEditor) (aLines : List (List Nat)) : TextEditor :=
  let lines : Lines :=
    if aLines.isEmpty then [[]]
    else aLines.map (fun aLine => aLine.map (fun j => ({ mChar := j } : Glyph)))
  Colorize { e with mLines := lines, mTextChanged := true, mScrollToTop := true,
                    mUndoBuffer := [], mUndoIndex := 0 } 0 (-1)

/-- Source `TextEditor::InsertText(const char *)` for a non-null argument; `std::min` of two
coordinates is `b < a ? b : a`. -/
def InsertText (e : TextEditor) (aValue : List Nat) : Option TextEditor :=
  let pos := GetActualCursorCoordinates e
  let start := if e.mState.mSelectionStart.lt pos then e.mState.mSelectionStart else pos
  let totalLines : Int := (pos.mLine : Int) - (start.mLine : Int)
  match InsertTextAt e pos aValue with
  | none => none
  | some r =>
    let totalLines := totalLines + (r.2.2 : Int)
    let e1 := SetSelection r.1 r.2.1 r.2.1
    let e2 := SetCursorPosition e1 r.2.1
    some (Colorize e2 ((start.mLine : Int) - 1) (totalLines + 2))

/-! ## Edit API -/

/-- Source `ImTextCharToUtf8(buf, 7, c)`: the returned count and the bytes written to `buf`;
`static_cast<char>` keeps the low eight bits. -/
def ImTextCharToUtf8 (c : Nat) : Nat × List Nat :=
  if c < 0x80 then (1, [c % 256])
  else if c < 0x800 then (2, [(0xc0 + (c >>> 6)) % 256, (0x80 + (c &&& 0x3f)) % 256])
  else if c ≥ 0xdc00 ∧ c < 0xe000 then (0, [])
  else if c ≥ 0xd800 ∧ c < 0xdc00 then
    (4, [(0xf0 + (c >>> 18)) % 256, (0x80 + ((c >>> 12) &&& 0x3f)) % 256,
         (0x80 + ((c >>> 6) &&& 0x3f)) % 256, (0x80 + (c &&& 0x3f)) % 256])
  else
    (3, [(0xe0 + (c >>> 12)) % 256, (0x80 + ((c >>> 6) &&& 0x3f)) % 256,
         (0x80 + (c &&& 0x3f)) % 256])

/-- The bytes of a NUL-terminated buffer read as a C string. -/
def cstr (buf : List Nat) : List Nat :=
  buf.takeWhile (fun b => b ≠ 0)

/-- One pass of the body of the indent loop of `EnterCharacter` over a line: the new line
and whether it was modified. -/
def EnterCharacter.indentLine (tab : Nat) (aShift : Bool) (ln : Line) : Line × Bool :=
  if aShift then
    match ln with
    | [] => (ln, false)
    | g :: rest =>
      if g.mChar = 9 then (rest, true)
      else
        let k := ((ln.take tab).takeWhile (fun x => x.mChar = 32)).length
        (ln.drop k, decide (k > 0))
  else
    (({ mChar := 9, mColorIndex := PaletteIndex.Background } : Glyph) :: ln, true)

/-- The loop `for (i = start.mLine; i <= end.mLine; i++)` of `EnterCharacter`: the lines and
the `modified` flag. -/
def EnterCharacter.indentLoop (tab : Nat) (aShift : Bool) (endLine : Nat) :
    Nat → Nat → Lines → Bool → Option (Lines × Bool)
  | 0, _, lines, modified => some (lines, modified)
  | fuel + 1, i, lines, modified =>
    if i ≤ endLine then
      match lines[i]? with
      | none => none
      | some ln =>
        EnterCharacter.indentLoop tab aShift endLine fuel (i + 1)
          (lines.set i (EnterCharacter.indentLine tab aShift ln).1)
          (modified || (EnterCharacter.indentLine tab aShift ln).2)
    else some (lines, modified)

/-- The end of the line range of the indent branch of `EnterCharacter`, from the ordered
selection end: step back from column 0, clamp the line, take the line's maximum column. -/
def EnterCharacter.indentEnd (e : TextEditor) (end_ : Coordinates) : Coordinates :=
  let l1 := if end_.mColumn = 0 ∧ end_.mLine > 0 then end_.mLine - 1 else end_.mLine
  let l2 := if l1 ≥ e.mLines.length then (if e.mLines.isEmpty then 0 else e.mLines.length - 1)
            else l1
  ⟨l2, GetLineMaxColumn e l2⟩

/-- The part of the indent branch of `EnterCharacter` that runs when a line was modified:
`e` is the editor with the new lines. -/
def EnterCharacter.indentCommit (e : TextEditor) (u : UndoRecord)
    (start end_ originalEnd : Coordinates) : Option TextEditor :=
  let start1 : Coordinates := ⟨start.mLine, GetCharacterColumn e start.mLine 0⟩
  let end1 : Coordinates :=
    if originalEnd.mColumn ≠ 0 then ⟨end_.mLine, GetLineMaxColumn e end_.mLine⟩
    else ⟨originalEnd.mLine, 0⟩
  let rangeEnd : Coordinates :=
    if originalEnd.mColumn ≠ 0 then end1
    else ⟨end1.mLine - 1, GetLineMaxColumn e (end1.mLine - 1)⟩
  match GetText e start1 rangeEnd with
  | none => none
  | some added =>
    match AddUndo
        { e with mState := { e.mState with mSelectionStart := start1, mSelectionEnd := end1 } }
        { u with mAdded := added, mAddedStart := start1, mAddedEnd := rangeEnd,
                 mAfter := e.mState } with
    | none => none
    | some e1 => some (EnsureCursorVisible { e1 with mTextChanged := true })

/-- The branch of `EnterCharacter` for a tab typed over a selection that spans lines. -/
def EnterCharacter.indent (e : TextEditor) (u : UndoRecord) (aShift : Bool) :
    Option TextEditor :=
  let originalEnd := e.mState.mSelectionEnd
  let start0 := if e.mState.mSelectionStart.gt e.mState.mSelectionEnd
                then e.mState.mSelectionEnd else e.mState.mSelectionStart
  let end0 := if e.mState.mSelectionStart.gt e.mState.mSelectionEnd
              then e.mState.mSelectionStart else e.mState.mSelectionEnd
  let start : Coordinates := ⟨start0.mLine, 0⟩
  let end_ := EnterCharacter.indentEnd e end0
  match GetText e start end_ with
  | none => none
  | some removed =>
    match EnterCharacter.indentLoop e.mTabSize aShift end_.mLine (end_.mLine + 1 - start.mLine)
        start.mLine e.mLines false with
    | none => none
    | some r =>
      if r.2 then
        EnterCharacter.indentCommit { e with mLines := r.1 }
          { u with mRemovedStart := start, mRemovedEnd := end_, mRemoved := removed }
          start end_ originalEnd
      else some { e with mLines := r.1 }

/-- The common tail of `EnterCharacter`: set `mTextChanged`, complete and append the undo
record, widen the colour window, keep the cursor visible. -/
def EnterCharacter.finish (e : TextEditor) (u : UndoRecord) (coord : Coordinates) :
    Option TextEditor :=
  match AddUndo { e with mTextChanged := true }
      { u with mAddedEnd := GetActualCursorCoordinates e, mAfter := e.mState } with
  | none => none
  | some e1 => some (EnsureCursorVisible (Colorize e1 ((coord.mLine : Int) - 1) 3))

/-- The line-feed branch of `EnterCharacter`; `coord` is the sanitized cursor. -/
def EnterCharacter.newline (e : TextEditor) (u : UndoRecord) (coord : Coordinates)
    (aChar : Nat) : Option TextEditor :=
  match InsertLine e (coord.mLine + 1) with
  | none => none
  | some e1 =>
    match e1.mLines[coord.mLine]?, e1.mLines[coord.mLine + 1]? with
    | some ln, some newLine =>
      let indent : Line :=
        if e1.mAutoIndentation then
          newLine ++ ln.takeWhile (fun g => decide (g.mChar < 128 ∧ (g.mChar = 32 ∨ g.mChar = 9)))
        else newLine
      let whitespaceSize := indent.length
      let cindex := (GetCharacterIndex e1 coord).toNat
      if cindex > ln.length then none
      else
        let e2 := { e1 with
          mLines := (e1.mLines.set coord.mLine (ln.take cindex)).set (coord.mLine + 1)
                      (indent ++ ln.drop cindex) }
        let e3 := SetCursorPosition e2
          ⟨coord.mLine + 1, GetCharacterColumn e2 (coord.mLine + 1) whitespaceSize⟩
        EnterCharacter.finish e3 { u with mAdded := [aChar % 256] } coord
    | _, _ => none

/-- The overwrite step of `EnterCharacter`: the line without the overwritten character and
the undo record with the removed span. -/
def EnterCharacter.overwrite (e : TextEditor) (u : UndoRecord) (coord : Coordinates)
    (ln : Line) (cindex : Nat) : Line × UndoRecord :=
  if e.mOverwrite ∧ cindex < ln.length then
    let d := UTF8CharLength (ln.getD cindex default).mChar
    ((ln.take cindex ++ ln.drop (min (cindex + d) ln.length)),
     { u with
       mRemovedStart := e.mState.mCursorPosition,
       mRemovedEnd := ⟨coord.mLine, GetCharacterColumn e coord.mLine (cindex + d)⟩,
       mRemoved := u.mRemoved ++ ((ln.drop cindex).take d).map (fun (g : Glyph) => g.mChar) })
  else (ln, u)

/-- The branch of `EnterCharacter` for a character other than a line feed, when
`ImTextCharToUtf8` wrote `buf`; `coord` is the sanitized cursor. -/
def EnterCharacter.plain (e : TextEditor) (u : UndoRecord) (coord : Coordinates)
    (buf : List Nat) : Option TextEditor :=
  match e.mLines[coord.mLine]? with
  | none => none
  | some ln =>
    let cindex := (GetCharacterIndex e coord).toNat
    let r := EnterCharacter.overwrite e u coord ln cindex
    match (if buf.isEmpty then some r.1
           else insertAt r.1 cindex (buf.map (fun b => ({ mChar := b } : Glyph)))) with
    | none => none
    | some ln' =>
      let e1 := { e with mLines := e.mLines.set coord.mLine ln' }
      let e2 := SetCursorPosition e1
        ⟨coord.mLine, GetCharacterColumn e1 coord.mLine (cindex + buf.length)⟩
      EnterCharacter.finish e2 { r.2 with mAdded := buf } coord

/-- The part of `EnterCharacter` after the selection was dealt with. -/
def EnterCharacter.insert (e : TextEditor) (u : UndoRecord) (aChar : Nat) :
    Option TextEditor :=
  let coord := GetActualCursorCoordinates e
  let u1 := { u with mAddedStart := coord }
  if e.mLines.isEmpty then none
  else if aChar = 10 then EnterCharacter.newline e u1 coord aChar
  else if (ImTextCharToUtf8 aChar).1 > 0 then
    EnterCharacter.plain e u1 coord (cstr (ImTextCharToUtf8 aChar).2)
  else some e

/-- Source `TextEditor::EnterCharacter`. -/
def EnterCharacter (e : TextEditor) (aChar : Nat) (aShift : Bool) : Option TextEditor :=
  if e.mReadOnly then none
  else if HasSelection e then
    if aChar = 9 ∧ e.mState.mSelectionStart.mLine ≠ e.mState.mSelectionEnd.mLine then
      EnterCharacter.indent e { mBefore := e.mState } aShift
    else
      match GetSelectedText e with
      | none => none
      | some removed =>
        match DeleteSelection e with
        | none => none
        | some e1 =>
          EnterCharacter.insert e1
            { mBefore := e.mState, mRemoved := removed,
              mRemovedStart := e.mState.mSelectionStart,
              mRemovedEnd := e.mState.mSelectionEnd } aChar
  else
    EnterCharacter.insert e { mBefore := e.mState } aChar

/-- Source `IsUTFSequence`: a continuation byte `10xxxxxx`. -/
def IsUTFSequence (c : Nat) : Bool :=
  decide (c &&& 0xC0 = 0x80)

/-- The loop `while (cindex > 0 && IsUTFSequence(line.at(cindex).mChar)) --cindex` of
`Backspace`. -/
def Backspace.walkBack (ln : Line) : Nat → Int → Option Int
  | 0, cindex => some cindex
  | fuel + 1, cindex =>
    if cindex > 0 then
      match ln[cindex.toNat]? with
      | none => none
      | some g =>
        if IsUTFSequence g.mChar then Backspace.walkBack ln fuel (cindex - 1)
        else some cindex
    else some cindex

/-- The common tail of `Backspace` and `Delete`: `u.mAfter = mState; AddUndo(u)`. -/
def addUndoAfter (e : TextEditor) (u : UndoRecord) : Option TextEditor :=
  AddUndo e { u with mAfter := e.mState }

/-- The branch of `Backspace`, `Delete` and `Cut` for a non-empty selection. -/
def deleteSelected (e : TextEditor) (u : UndoRecord) : Option TextEditor :=
  match GetSelectedText e with
  | none => none
  | some removed =>
    match DeleteSelection e with
    | none => none
    | some e1 =>
      addUndoAfter e1
        { u with mRemoved := removed, mRemovedStart := e.mState.mSelectionStart,
                 mRemovedEnd := e.mState.mSelectionEnd }

/-- The branch of `Backspace` at column 0 of a line other than the first: join the line to
the previous one.  `e` is the editor after `SetCursorPosition(pos)`. -/
def Backspace.joinLines (e : TextEditor) (u : UndoRecord) (pos : Coordinates) :
    Option TextEditor :=
  let removedStart : Coordinates := ⟨pos.mLine - 1, GetLineMaxColumn e (pos.mLine - 1)⟩
  let cur := e.mState.mCursorPosition.mLine
  match e.mLines[cur]?, e.mLines[cur - 1]? with
  | some ln, some prevLine =>
    let prevSize := GetLineMaxColumn e (cur - 1)
    let etmp := e.mErrorMarkers.foldl
      (fun (acc : List (Int × List Nat)) (i : Int × List Nat) =>
        mapInsert (if i.1 - 1 = (cur : Int) then i.1 - 1 else i.1, i.2) acc) []
    match RemoveLine { e with mLines := e.mLines.set (cur - 1) (prevLine ++ ln),
                              mErrorMarkers := etmp } cur with
    | none => none
    | some e1 =>
      let e2 := { e1 with mState := { e1.mState with mCursorPosition := ⟨cur - 1, prevSize⟩ },
                          mTextChanged := true }
      let e3 := Colorize (EnsureCursorVisible e2) e2.mState.mCursorPosition.mLine 1
      addUndoAfter e3
        { u with mRemoved := [10], mRemovedStart := removedStart,
                 mRemovedEnd := Advance e removedStart }
  | _, _ => none

/-- The branch of `Backspace` at a column other than 0: erase the character before the
cursor.  `e` is the editor after `SetCursorPosition(pos)`. -/
def Backspace.eraseChar (e : TextEditor) (u : UndoRecord) (pos : Coordinates) :
    Option TextEditor :=
  let cur := e.mState.mCursorPosition
  match e.mLines[cur.mLine]? with
  | none => none
  | some ln =>
    let cend : Int := GetCharacterIndex e pos - 1 + 1
    match Backspace.walkBack ln ln.length (GetCharacterIndex e pos - 1) with
    | none => none
    | some cindex =>
      let actual := GetActualCursorCoordinates e
      let erased : Line :=
        if cindex < 0 then [] else (ln.drop cindex.toNat).take (cend - cindex).toNat
      let ln' : Line :=
        if cindex < 0 then ln
        else ln.take cindex.toNat ++ ln.drop (cindex.toNat + erased.length)
      let e1 := { e with
        mState := { e.mState with mCursorPosition := ⟨cur.mLine, cur.mColumn - 1⟩ },
        mLines := e.mLines.set cur.mLine ln',
        mTextChanged := true }
      let e2 := Colorize (EnsureCursorVisible e1) e1.mState.mCursorPosition.mLine 1
      addUndoAfter e2
        { u with mRemovedStart := ⟨actual.mLine, actual.mColumn - 1⟩,
                 mRemovedEnd := actual,
                 mRemoved := u.mRemoved ++ erased.map (fun (g : Glyph) => g.mChar) }

/-- Source `TextEditor::Backspace`. -/
def Backspace (e : TextEditor) : Option TextEditor :=
  if e.mReadOnly then none
  else if e.mLines.isEmpty then some e
  else if HasSelection e then deleteSelected e { mBefore := e.mState }
  else
    let pos := GetActualCursorCoordinates e
    let e1 := SetCursorPosition e pos
    if e1.mState.mCursorPosition.mColumn = 0 then
      if e1.mState.mCursorPosition.mLine = 0 then some e1
      else Backspace.joinLines e1 { mBefore := e.mState } pos
    else Backspace.eraseChar e1 { mBefore := e.mState } pos

/-- The branch of `Delete` at the end of a line other than the last: join the next line.
`e` is the editor after `SetCursorPosition(pos)`. -/
def Delete.joinLines (e : TextEditor) (u : UndoRecord) (pos : Coordinates) (ln : Line) :
    Option TextEditor :=
  let actual := GetActualCursorCoordinates e
  match e.mLines[pos.mLine + 1]? with
  | none => none
  | some nextLine =>
    match RemoveLine { e with mLines := e.mLines.set pos.mLine (ln ++ nextLine) }
        (pos.mLine + 1) with
    | none => none
    | some e1 =>
      addUndoAfter (Colorize { e1 with mTextChanged := true } pos.mLine 1)
        { u with mRemoved := [10], mRemovedStart := actual, mRemovedEnd := Advance e actual }

/-- The branch of `Delete` inside a line: erase the character at the cursor.  `e` is the
editor after `SetCursorPosition(pos)`. -/
def Delete.eraseChar (e : TextEditor) (u : UndoRecord) (pos : Coordinates) (ln : Line) :
    Option TextEditor :=
  let cindex := (GetCharacterIndex e pos).toNat
  let actual := GetActualCursorCoordinates e
  let removedEnd : Coordinates := ⟨actual.mLine, actual.mColumn + 1⟩
  match GetText e actual removedEnd with
  | none => none
  | some removed =>
    match ln[cindex]? with
    | none => none
    | some g =>
      let ln' := ln.take cindex ++ ln.drop (min (cindex + UTF8CharLength g.mChar) ln.length)
      addUndoAfter
        (Colorize { e with mLines := e.mLines.set pos.mLine ln', mTextChanged := true }
          pos.mLine 1)
        { u with mRemovedStart := actual, mRemovedEnd := removedEnd, mRemoved := removed }

/-- Source `TextEditor::Delete`. -/
def Delete (e : TextEditor) : Option TextEditor :=
  if e.mReadOnly then none
  else if e.mLines.isEmpty then some e
  else if HasSelection e then deleteSelected e { mBefore := e.mState }
  else
    let pos := GetActualCursorCoordinates e
    let e1 := SetCursorPosition e pos
    match e1.mLines[pos.mLine]? with
    | none => none
    | some ln =>
      if pos.mColumn = GetLineMaxColumn e1 pos.mLine then
        if pos.mLine + 1 = e1.mLines.length then some e1
        else Delete.joinLines e1 { mBefore := e.mState } pos ln
      else Delete.eraseChar e1 { mBefore := e.mState } pos ln

/-! ## Undo and redo -/

/-- The step `if (!text.empty()) { DeleteRange(start, end); Colorize(...); }` shared by
`UndoRecord::Undo` (`extra = 2`) and `UndoRecord::Redo` (`extra = 1`). -/
def UndoRecord.deleteSpan (aEditor : TextEditor) (text : List Nat) (aStart aEnd : Coordinates)
    (extra : Int) : Option TextEditor :=
  if text.isEmpty then some aEditor
  else
    match DeleteRange aEditor aStart aEnd with
    | none => none
    | some ed =>
      some (Colorize ed ((aStart.mLine : Int) - 1)
        ((aEnd.mLine : Int) - (aStart.mLine : Int) + extra))

/-- The step `if (!text.empty()) { InsertTextAt(start, text); Colorize(...); }` shared by
`UndoRecord::Undo` (`extra = 2`) and `UndoRecord::Redo` (`extra = 1`). -/
def UndoRecord.insertSpan (aEditor : TextEditor) (text : List Nat) (aStart aEnd : Coordinates)
    (extra : Int) : Option TextEditor :=
  if text.isEmpty then some aEditor
  else
    match InsertTextAt aEditor aStart text with
    | none => none
    | some r =>
      some (Colorize r.1 ((aStart.mLine : Int) - 1)
        ((aEnd.mLine : Int) - (aStart.mLine : Int) + extra))

/-- Source `TextEditor::UndoRecord::Undo`. -/
def UndoRecord.Undo (u : UndoRecord) (aEditor : TextEditor) : Option TextEditor :=
  match UndoRecord.deleteSpan aEditor u.mAdded u.mAddedStart u.mAddedEnd 2 with
  | none => none
  | some e1 =>
    match UndoRecord.insertSpan e1 u.mRemoved u.mRemovedStart u.mRemovedEnd 2 with
    | none => none
    | some e2 => some (EnsureCursorVisible { e2 with mState := u.mBefore })

/-- Source `TextEditor::UndoRecord::Redo`. -/
def UndoRecord.Redo (u : UndoRecord) (aEditor : TextEditor) : Option TextEditor :=
  match UndoRecord.deleteSpan aEditor u.mRemoved u.mRemovedStart u.mRemovedEnd 1 with
  | none => none
  | some e1 =>
    match UndoRecord.insertSpan e1 u.mAdded u.mAddedStart u.mAddedEnd 1 with
    | none => none
    | some e2 => some (EnsureCursorVisible { e2 with mState := u.mAfter })

/-- Source `TextEditor::CanUndo`. -/
def CanUndo (e : TextEditor) : Bool :=
  !e.mReadOnly && decide (e.mUndoIndex > 0)

/-- Source `TextEditor::CanRedo`. -/
def CanRedo (e : TextEditor) : Bool :=
  !e.mReadOnly && decide (e.mUndoIndex < e.mUndoBuffer.length)

/-- Source `TextEditor::Undo(int aSteps)`; the recursion is the `while` loop, one record per
step. -/
def Undo (e : TextEditor) : Nat → Option TextEditor
  | 0 => some e
  | aSteps + 1 =>
    if CanUndo e then
      match e.mUndoBuffer[e.mUndoIndex - 1]? with
      | none => none
      | some u =>
        match u.Undo { e with mUndoIndex := e.mUndoIndex - 1 } with
        | none => none
        | some e1 => Undo e1 aSteps
    else some e

/-- Source `TextEditor::Redo(int aSteps)`. -/
def Redo (e : TextEditor) : Nat → Option TextEditor
  | 0 => some e
  | aSteps + 1 =>
    if CanRedo e then
      match e.mUndoBuffer[e.mUndoIndex]? with
      | none => none
      | some u =>
        match u.Redo { e with mUndoIndex := e.mUndoIndex + 1 } with
        | none => none
        | some e1 => Redo e1 aSteps
    else some e

/-- Source constructor `TextEditor::TextEditor()`: `Colorize()` runs from
`SetLanguageDefinition` while the buffer is still empty, then one empty line is added; the
grammar is `LanguageDefinition::GLSL()`, whose `mAutoIndentation` is `true`. -/
def new : TextEditor :=
  { mLines := [[]], mState := {}, mUndoBuffer := [], mUndoIndex := 0, mTabSize := 4,
    mOverwrite := false, mReadOnly := false, mWithinRender := false,
    mScrollToCursor := false, mScrollToTop := false, mTextChanged := false,
    mColorizerEnabled := true, mCursorPositionChanged := false,
    mColorRangeMin := 0, mColorRangeMax := 0, mSelectionMode := SelectionMode.Normal,
    mCheckComments := true, mAutoIndentation := true, mErrorMarkers := [],
    mBreakpoints := [], mInteractiveStart := ⟨0, 0⟩, mInteractiveEnd := ⟨0, 0⟩,
    mLanguageDefinition := LanguageDefinition.GLSL,
    mRegexList := LanguageDefinition.GLSL.mTokenRegexStrings.map
      (fun r => (Regex.search r.1, r.2)) }

/-- Source `TextEditor::SetTabSize`. -/
def SetTabSize (e : TextEditor) (aValue : Int) : TextEditor :=
  { e with mTabSize := (max 0 (min 32 aValue)).toNat }

/-- Source `TextEditor::SetReadOnly`. -/
def SetReadOnly (e : TextEditor) (aValue : Bool) : TextEditor :=
  { e with mReadOnly := aValue }

/-- Source `TextEditor::SetColorizerEnable`. -/
def SetColorizerEnable (e : TextEditor) (aValue : Bool) : TextEditor :=
  { e with mColorizerEnabled := aValue }

/-- The editor states reachable from a freshly constructed editor by calls of the text
operations (each call that completes), of the cursor and selection setters and of the
configuration setters; `toggleOverwrite` is the Insert key of `HandleKeyboardInputs`. -/
inductive Reachable : TextEditor → Prop
  | fresh : Reachable new
  | setText {e : TextEditor} (aText : List Nat) : Reachable e → Reachable (SetText e aText)
  | setTextLines {e : TextEditor} (aLines : List (List Nat)) :
      Reachable e → Reachable (SetTextLines e aLines)
  | insertText {e e' : TextEditor} (aValue : List Nat) :
      Reachable e → InsertText e aValue = some e' → Reachable e'
  | enterCharacter {e e' : TextEditor} (aChar : Nat) (aShift : Bool) :
      Reachable e → EnterCharacter e aChar aShift = some e' → Reachable e'
  | backspace {e e' : TextEditor} : Reachable e → Backspace e = some e' → Reachable e'
  | delete {e e' : TextEditor} : Reachable e → Delete e = some e' → Reachable e'
  | deleteRange {e e' : TextEditor} (aStart aEnd : Coordinates) :
      Reachable e → DeleteRange e aStart aEnd = some e' → Reachable e'
  | undo {e e' : TextEditor} (aSteps : Nat) : Reachable e → Undo e aSteps = some e' → Reachable e'
  | redo {e e' : TextEditor} (aSteps : Nat) : Reachable e → Redo e aSteps = some e' → Reachable e'
  | setCursorPosition {e : TextEditor} (aPosition : Coordinates) :
      Reachable e → Reachable (SetCursorPosition e aPosition)
  | setSelection {e : TextEditor} (aStart aEnd : Coordinates) (aMode : SelectionMode) :
      Reachable e → Reachable (SetSelection e aStart aEnd aMode)
  | setSelectionStart {e : TextEditor} (aPosition : Coordinates) :
      Reachable e → Reachable (SetSelectionStart e aPosition)
  | setSelectionEnd {e : TextEditor} (aPosition : Coordinates) :
      Reachable e → Reachable (SetSelectionEnd e aPosition)
  | setReadOnly {e : TextEditor} (aValue : Bool) : Reachable e → Reachable (SetReadOnly e aValue)
  | setTabSize {e : TextEditor} (aValue : Int) : Reachable e → Reachable (SetTabSize e aValue)
  | setColorizerEnable {e : TextEditor} (aValue : Bool) :
      Reachable e → Reachable (SetColorizerEnable e aValue)
  | toggleOverwrite {e : TextEditor} :
      Reachable e → Reachable { e with mOverwrite := !e.mOverwrite }

/-- Source `TextEditor::SetErrorMarkers` (`TextEditor.h`). -/
def SetErrorMarkers (e : TextEditor) (aMarkers : List (Int × List Nat)) : TextEditor :=
  { e with mErrorMarkers := aMarkers }

/-- Source `TextEditor::SetBreakpoints` (`TextEditor.h`). -/
def SetBreakpoints (e : TextEditor) (aMarkers : List Int) : TextEditor :=
  { e with mBreakpoints := aMarkers }

/-- The multi-step undo as the specification words it: the given records are applied in
turn, each after the index was lowered by one.  It is compared with `Undo`, which tests
`CanUndo` before every step. -/
def Spec.applyUndo : List UndoRecord → TextEditor → Option TextEditor
  | [], e => some e
  | u :: us, e =>
    match u.Undo { e with mUndoIndex := e.mUndoIndex - 1 } with
    | none => none
    | some e1 => Spec.applyUndo us e1

/-- The multi-step redo as the specification words it: the given records are applied in
turn, each after the index was raised by one.  It is compared with `Redo`, which tests
`CanRedo` before every step. -/
def Spec.applyRedo : List UndoRecord → TextEditor → Option TextEditor
  | [], e => some e
  | u :: us, e =>
    match u.Redo { e with mUndoIndex := e.mUndoIndex + 1 } with
    | none => none
    | some e1 => Spec.applyRedo us e1

/-! ## Colorizer: the token pass (`ColorizeRange`) -/

/-- Source `TextEditor::SetLanguageDefinition`: the rules are compiled into `mRegexList` and
the whole buffer is marked for colorizing. -/
def SetLanguageDefinition (e : TextEditor) (aLanguageDef : LanguageDefinition) : TextEditor :=
  Colorize
    { e with mLanguageDefinition := aLanguageDef,
             mAutoIndentation := aLanguageDef.mAutoIndentation,
             mRegexList := aLanguageDef.mTokenRegexStrings.map
               (fun r => (Regex.search r.1, r.2)) }
    0 (-1)

/-- The C library function `toupper` in the "C" locale. -/
def toupper (c : Nat) : Nat :=
  if 97 ≤ c ∧ c ≤ 122 then c - 32 else c

/-- The loop over `mRegexList` in `ColorizeRange`: the first rule that matches at the scan
position gives the token, as the offsets of `token_begin` and `token_end` from the scan
position and the colour of the rule. -/
def ColorizeRange.searchRules :
    List ((List Nat → Option Nat) × PaletteIndex) → List Nat → Option (Nat × Nat × PaletteIndex)
  | [], _ => none
  | p :: ps, rest =>
    match p.1 rest with
    | some len => some (0, len, p.2)
    | none => ColorizeRange.searchRules ps rest

/-- The token that `ColorizeRange` finds at the scan position, `rest` being the bytes
`[first, last)`: the one the tokenize callback reports, if the grammar has a callback and it
reports one, else the one of the first matching rule.  Here and below `lang` is
`mLanguageDefinition` and `rules` is `mRegexList`. -/
def ColorizeRange.findToken (lang : LanguageDefinition)
    (rules : List ((List Nat → Option Nat) × PaletteIndex)) (rest : List Nat) :
    Option (Nat × Nat × PaletteIndex) :=
  match lang.mTokenize with
  | some f =>
    match f rest with
    | some r => some r
    | none => ColorizeRange.searchRules rules rest
  | none => ColorizeRange.searchRules rules rest

/-- The colour that `ColorizeRange` gives a token: an `Identifier` token is looked up in the
tables of the grammar, `preprocessor` being the flag of the cell at the scan position. -/
def ColorizeRange.tokenColor (lang : LanguageDefinition) (preprocessor : Bool)
    (token : List Nat) (token_color : PaletteIndex) : PaletteIndex :=
  if token_color = PaletteIndex.Identifier then
    if ¬ preprocessor then
      if (if ¬ lang.mCaseSensitive then token.map toupper else token) ∈ lang.mKeywords then
        PaletteIndex.Keyword
      else if (if ¬ lang.mCaseSensitive then token.map toupper else token) ∈
          lang.mIdentifiers then
        PaletteIndex.KnownIdentifier
      else if (if ¬ lang.mCaseSensitive then token.map toupper else token) ∈
          lang.mPreprocIdentifiers then
        PaletteIndex.PreprocIdentifier
      else token_color
    else if (if ¬ lang.mCaseSensitive then token.map toupper else token) ∈
        lang.mPreprocIdentifiers then
      PaletteIndex.PreprocIdentifier
    else token_color
  else token_color

/-- The loop `for (j = 0; j < token_length; ++j)` of `ColorizeRange`: the cells
`[start, start + len)` of the line get the colour `c`. -/
def ColorizeRange.paint (ln : Line) (start len : Nat) (c : PaletteIndex) : Line :=
  ln.take start ++
    ((ln.drop start).take len).map (fun (g : Glyph) => { g with mColorIndex := c }) ++
    ln.drop (start + len)

/-- The token loop `for (first = bufferBegin; first != last;)` of `ColorizeRange` on one
line; `first` is the offset of the scan position in `buffer`.  The result is `none` when the
run does not complete: a token that ends before it begins or behind the buffer (an `at` out
of range, or a scan position past `last`), or a token that ends at the scan position (the
loop repeats the same step for ever).  Every other step moves the scan position forward, so
the fuel `buffer.size() + 1` is not used up. -/
def ColorizeRange.tokens (lang : LanguageDefinition)
    (rules : List ((List Nat → Option Nat) × PaletteIndex)) (buffer : List Nat) :
    Nat → Nat → Line → Option Line
  | 0, _, _ => none
  | fuel + 1, first, ln =>
    if first = buffer.length then some ln
    else
      match ColorizeRange.findToken lang rules (buffer.drop first) with
      | none => ColorizeRange.tokens lang rules buffer fuel (first + 1) ln
      | some r =>
        if r.2.1 < r.1 ∨ buffer.length < first + r.2.1 ∨ r.2.1 = 0 then none
        else
          ColorizeRange.tokens lang rules buffer fuel (first + r.2.1)
            (ColorizeRange.paint ln (first + r.1) (r.2.1 - r.1)
              (ColorizeRange.tokenColor lang (ln.getD first default).mPreprocessor
                ((buffer.drop (first + r.1)).take (r.2.1 - r.1)) r.2.2))

/-- The body of the line loop of `ColorizeRange`: an empty line is skipped; else the
characters are copied to `buffer`, every cell is reset to `Default`, and the token loop
runs. -/
def ColorizeRange.line (lang : LanguageDefinition)
    (rules : List ((List Nat → Option Nat) × PaletteIndex)) (ln : Line) : Option Line :=
  if ln.isEmpty then some ln
  else
    ColorizeRange.tokens lang rules (ln.map (fun (g : Glyph) => g.mChar)) (ln.length + 1) 0
      (ln.map (fun (g : Glyph) => { g with mColorIndex := PaletteIndex.Default }))

/-- The line loop `for (i = aFromLine; i < endLine; ++i)` of `ColorizeRange`, with the number
of lines left as fuel. -/
def ColorizeRange.lines (lang : LanguageDefinition)
    (rules : List ((List Nat → Option Nat) × PaletteIndex)) : Nat → Nat → Lines → Option Lines
  | 0, _, lines => some lines
  | count + 1, i, lines =>
    match lines[i]? with
    | none => none
    | some ln =>
      match ColorizeRange.line lang rules ln with
      | none => none
      | some ln' => ColorizeRange.lines lang rules count (i + 1) (lines.set i ln')

/-- Source `TextEditor::ColorizeRange`.  A negative `aFromLine` below `endLine` makes
`mLines.at(i)` throw. -/
def ColorizeRange (e : TextEditor) (aFromLine aToLine : Int) : Option TextEditor :=
  if e.mLines.isEmpty ∨ aFromLine ≥ aToLine then some e
  else if aFromLine ≥ max 0 (min (e.mLines.length : Int) aToLine) then some e
  else if aFromLine < 0 then none
  else
    match ColorizeRange.lines e.mLanguageDefinition e.mRegexList
        (max 0 (min (e.mLines.length : Int) aToLine) - aFromLine).toNat aFromLine.toNat
        e.mLines with
    | none => none
    | some lines => some { e with mLines := lines }

/-! ## Observations and example editors -/

/-- The characters of every buffer line. -/
def chars (e : TextEditor) : List (List Nat) :=
  e.mLines.map (fun l => l.map (fun (g : Glyph) => g.mChar))

/-- An editor holding the given lines of bytes as default-coloured glyphs, with the cursor
and an empty selection at `cur`. -/
def withText (base : TextEditor) (ls : List (List Nat)) (cur : Coordinates) : TextEditor :=
  { base with mLines := ls.map (fun l => l.map (fun b => ({ mChar := b } : Glyph))),
              mState := ⟨cur, cur, cur⟩ }

/-- The editor after typing the given characters into a freshly constructed editor, one
`EnterCharacter` call each (a call that does not complete is left out). -/
def typed (cs : List Nat) : TextEditor :=
  cs.foldl (fun e c => (EnterCharacter e c false).getD e) new

/-- The character walk that `GetCharacterIndex`, `GetCharacterColumn` and `GetLineMaxColumn`
share: from the state `(c, i)` (column, cell index) one step reads the cell `ln[i]`, moves the
column by the tab rule and the index by the announced character length.  `Walk tab ln k t c i
c' i'` says that the state `(c', i')` is reached from `(c, i)` by steps that each leave a state
with column below `k` and index below `t`. -/
inductive Walk (tab : Nat) (ln : Line) (k t : Nat) : Nat → Nat → Nat → Nat → Prop
  | refl (c i : Nat) : Walk tab ln k t c i c i
  | step {c i c' i' : Nat} (g : Glyph) : ln[i]? = some g → c < k → i < t →
      Walk tab ln k t (advanceColumn tab g.mChar c) (i + UTF8CharLength g.mChar) c' i' →
      Walk tab ln k t c i c' i'

/-- The character index that `GetCharacterIndex` computes for the sanitized cursor does not
exceed the length of the cursor's line.  It holds whenever that line consists of complete
characters (every leading byte is followed by the bytes it announces). -/
def CursorIndexInLine (e : TextEditor) : Prop :=
  GetCharacterIndex e (GetActualCursorCoordinates e) ≤
    (((e.mLines.getD (GetActualCursorCoordinates e).mLine []).length : Nat) : Int)

/-- The index at which the character walk over a line ends: from `i`, step by the announced
character length until the index is at or past the end of the line. -/
def charWalkEnd (ln : Line) : Nat → Nat → Nat
  | 0, i => i
  | fuel + 1, i =>
    match ln[i]? with
    | none => i
    | some g => charWalkEnd ln fuel (i + UTF8CharLength g.mChar)

/-- A line of complete characters: every leading byte is followed by the bytes it announces,
so the character walk ends exactly at the end of the line. -/
def WellFormedLine (ln : Line) : Prop :=
  charWalkEnd ln ln.length 0 = ln.length

/-- Every line of the buffer consists of complete characters. -/
def WellFormed (e : TextEditor) : Prop :=
  ∀ ln ∈ e.mLines, WellFormedLine ln

/-- No cell of the buffer holds a NUL, line feed or carriage return byte. -/
def PlainText (e : TextEditor) : Prop :=
  ∀ ln ∈ e.mLines, ∀ g ∈ ln, g.mChar ≠ 0 ∧ g.mChar ≠ 10 ∧ g.mChar ≠ 13

/-- A coordinate that is valid for the buffer: its line is inside the buffer and its column
is at most that line's maximum column. -/
def ValidCoordinates (e : TextEditor) (c : Coordinates) : Prop :=
  c.mLine < e.mLines.length ∧ c.mColumn ≤ GetLineMaxColumn e c.mLine

/-! ## Cursor movement (`MoveLeft`, `MoveRight`) -/

/-- The C library function `isalnum` in the "C" locale. -/
def isalnum (c : Nat) : Bool :=
  decide ((48 ≤ c ∧ c ≤ 57) ∨ (65 ≤ c ∧ c ≤ 90) ∨ (97 ≤ c ∧ c ≤ 122))

/-- The loop `while (!isword || skip)` of `FindNextWord`: state `(at.mLine, cindex, isword,
skip)`.  Every step moves `cindex` forward or goes to the next line, and the loop returns
once the line is behind the buffer, so the fuel (cells plus lines of the buffer, plus one)
is not used up. -/
def FindNextWord.loop (e : TextEditor) (aFrom : Coordinates) :
    Nat → Nat → Nat → Bool → Bool → Coordinates
  | 0, l, _, _, _ => ⟨l, aFrom.mColumn⟩
  | fuel + 1, l, cindex, isword, skip =>
    if ¬ isword ∨ skip then
      match e.mLines[l]? with
      | none => ⟨e.mLines.length - 1, GetLineMaxColumn e (e.mLines.length - 1)⟩
      | some ln =>
        match ln[cindex]? with
        | some g =>
          if isalnum g.mChar ∧ ¬ skip then ⟨l, GetCharacterColumn e l cindex⟩
          else
            FindNextWord.loop e aFrom fuel l (cindex + 1) (isalnum g.mChar)
              (if ¬ isalnum g.mChar then false else skip)
        | none => FindNextWord.loop e aFrom fuel (l + 1) 0 false false
    else ⟨l, aFrom.mColumn⟩

/-- Source `TextEditor::FindNextWord`. -/
def FindNextWord (e : TextEditor) (aFrom : Coordinates) : Coordinates :=
  match e.mLines[aFrom.mLine]? with
  | none => aFrom
  | some ln =>
    FindNextWord.loop e aFrom ((e.mLines.map (fun l => l.length + 1)).sum + 1) aFrom.mLine
      (GetCharacterIndex e aFrom).toNat
      (match ln[(GetCharacterIndex e aFrom).toNat]? with
        | some g => isalnum g.mChar
        | none => false)
      (match ln[(GetCharacterIndex e aFrom).toNat]? with
        | some g => isalnum g.mChar
        | none => false)

/-- The loop `while (cindex > 0 && IsUTFSequence(mLines.at(line).at(cindex).mChar)) --cindex`
of `MoveLeft`, with `cindex` as fuel. -/
def MoveLeft.walkBack (ln : Line) : Nat → Nat → Option Nat
  | 0, cindex => some cindex
  | fuel + 1, cindex =>
    if cindex > 0 then
      match ln[cindex]? with
      | none => none
      | some g =>
        if IsUTFSequence g.mChar then MoveLeft.walkBack ln fuel (cindex - 1)
        else some cindex
    else some cindex

/-- The first half of the body of the loop of `MoveLeft`: the new `(line, cindex)`. -/
def MoveLeft.back (e : TextEditor) (line cindex : Nat) : Option (Nat × Nat) :=
  if cindex = 0 then
    if line > 0 then
      some (line - 1,
        if e.mLines.length > line - 1 then (e.mLines.getD (line - 1) []).length else 0)
    else some (line, cindex)
  else if cindex - 1 > 0 then
    if e.mLines.length > line then
      match e.mLines[line]? with
      | none => none
      | some ln => (MoveLeft.walkBack ln (cindex - 1) (cindex - 1)).map (fun c => (line, c))
    else some (line, cindex - 1)
  else some (line, cindex - 1)

/-- The loop `while (aAmount-- > 0)` of `MoveLeft`: state `(editor, line, cindex)`.  The
character index is not negative, since `line` is inside the buffer. -/
def MoveLeft.loop : Nat → TextEditor → Bool → Nat → Nat → Option (TextEditor × Nat × Nat)
  | 0, e, _, line, cindex => some (e, line, cindex)
  | n + 1, e, aWordMode, line, cindex =>
    match MoveLeft.back e line cindex with
    | none => none
    | some (line, cindex) =>
      let pos : Coordinates := ⟨line, GetCharacterColumn e line cindex⟩
      if aWordMode then
        MoveLeft.loop n
          { e with mState := { e.mState with mCursorPosition := FindWordStart e pos } }
          aWordMode line (GetCharacterIndex e (FindWordStart e pos)).toNat
      else
        MoveLeft.loop n { e with mState := { e.mState with mCursorPosition := pos } }
          aWordMode line cindex

/-- Source `TextEditor::MoveLeft`. -/
def MoveLeft (e : TextEditor) (aAmount : Int) (aSelect aWordMode : Bool) :
    Option TextEditor :=
  if e.mLines.isEmpty then some e
  else
    match MoveLeft.loop aAmount.toNat
        { e with mState := { e.mState with mCursorPosition := GetActualCursorCoordinates e } }
        aWordMode (GetActualCursorCoordinates e).mLine
        (GetCharacterIndex e (GetActualCursorCoordinates e)).toNat with
    | none => none
    | some (e1, line, cindex) =>
      let pos : Coordinates := ⟨line, GetCharacterColumn e1 line cindex⟩
      let oldPos := e.mState.mCursorPosition
      let istart := if aSelect then
          (if oldPos = e1.mInteractiveStart then pos
           else if oldPos = e1.mInteractiveEnd then e1.mInteractiveStart else pos)
        else pos
      let iend := if aSelect then
          (if oldPos = e1.mInteractiveStart then e1.mInteractiveEnd
           else if oldPos = e1.mInteractiveEnd then pos else oldPos)
        else pos
      some (EnsureCursorVisible
        (SetSelection
          { e1 with mState := { e1.mState with mCursorPosition := pos },
                    mInteractiveStart := istart, mInteractiveEnd := iend }
          istart iend
          (if aSelect ∧ aWordMode then SelectionMode.Word else SelectionMode.Normal)))

/-- The loop `while (aAmount-- > 0)` of `MoveRight`: state `(editor, cindex)`.  The first
component of the result tells whether the body left the function by its `return` at the end
of the buffer.  The character index is not negative, since the line of the cursor is inside
the buffer when the loop starts. -/
def MoveRight.loop : Nat → TextEditor → Bool → Nat → Option (Bool × TextEditor)
  | 0, e, _, _ => some (false, e)
  | n + 1, e, aWordMode, cindex =>
    match e.mLines[e.mState.mCursorPosition.mLine]? with
    | none => none
    | some ln =>
      if cindex ≥ ln.length then
        if e.mState.mCursorPosition.mLine < e.mLines.length - 1 then
          let pos : Coordinates :=
            ⟨min (e.mLines.length - 1) (e.mState.mCursorPosition.mLine + 1), 0⟩
          MoveRight.loop n { e with mState := { e.mState with mCursorPosition := pos } }
            aWordMode cindex
        else some (true, e)
      else
        match ln[cindex]? with
        | none => none
        | some g =>
          let pos : Coordinates :=
            ⟨e.mState.mCursorPosition.mLine,
              GetCharacterColumn e e.mState.mCursorPosition.mLine
                (cindex + UTF8CharLength g.mChar)⟩
          if aWordMode then
            MoveRight.loop n
              { e with mState := { e.mState with mCursorPosition := FindNextWord e pos } }
              aWordMode (cindex + UTF8CharLength g.mChar)
          else
            MoveRight.loop n { e with mState := { e.mState with mCursorPosition := pos } }
              aWordMode (cindex + UTF8CharLength g.mChar)

/-- Source `TextEditor::MoveRight`. -/
def MoveRight (e : TextEditor) (aAmount : Int) (aSelect aWordMode : Bool) :
    Option TextEditor :=
  if e.mLines.isEmpty ∨ e.mState.mCursorPosition.mLine ≥ e.mLines.length then some e
  else
    match MoveRight.loop aAmount.toNat e aWordMode
        (GetCharacterIndex e e.mState.mCursorPosition).toNat with
    | none => none
    | some (true, e1) => some e1
    | some (false, e1) =>
      let pos := e1.mState.mCursorPosition
      let oldPos := e.mState.mCursorPosition
      let istart := if aSelect then
          (if oldPos = e1.mInteractiveEnd then e1.mInteractiveStart
           else if oldPos = e1.mInteractiveStart then pos else oldPos)
        else pos
      let iend := if aSelect then
          (if oldPos = e1.mInteractiveEnd then SanitizeCoordinates e1 pos
           else if oldPos = e1.mInteractiveStart then e1.mInteractiveEnd else pos)
        else pos
      some (EnsureCursorVisible
        (SetSelection { e1 with mInteractiveStart := istart, mInteractiveEnd := iend }
          istart iend
          (if aSelect ∧ aWordMode then SelectionMode.Word else SelectionMode.Normal)))

/-- An index at which a character of the line starts, or the index at which the character
walk ends: the index reached from the start of the line after some number of steps by the
announced character length.  On a line of complete characters (`WellFormedLine`) the walk
ends at the length of the line, so the length is such an index. -/
def IsCharStart (ln : Line) (i : Nat) : Prop :=
  ∃ n, n ≤ ln.length ∧ charWalkEnd ln n 0 = i

/-- A line of well-formed UTF-8 text, by the length rule of `UTF8CharLength`: the line
consists of complete characters, and a cell holds a continuation byte (`10xxxxxx`) exactly
when it is not the first cell of a character. -/
def UTF8Line (ln : Line) : Prop :=
  WellFormedLine ln ∧
    ∀ i, i < ln.length → (IsUTFSequence (ln.getD i default).mChar = false ↔ IsCharStart ln i)

/-- A coordinate on a character boundary: it is inside the buffer (line and column), and its
character index is the length of its line or the index of a cell that holds no continuation
byte. -/
def OnCharBoundary (e : TextEditor) (c : Coordinates) : Prop :=
  ValidCoordinates e c ∧
    ∃ ln, e.mLines[c.mLine]? = some ln ∧
      (GetCharacterIndex e c = (ln.length : Int) ∨
        ∃ g, ln[(GetCharacterIndex e c).toNat]? = some g ∧ IsUTFSequence g.mChar = false)

/-- An example editor with tab size 4 and two lines, a tab, the two bytes of U+00E9 and `B`,
and `a`, with the cursor at `(0, 5)`, the column of `B`. -/
def example_utf8 : TextEditor :=
  withText new [[9, 195, 169, 66], [97]] ⟨0, 5⟩

/-- An example editor with tab size 4 and three lines: a tab followed by `ab`, the two bytes
of U+00E9, and `cd`. -/
def example_three : TextEditor :=
  withText new [[9, 97, 98], [195, 169], [99, 100]] ⟨0, 0⟩

/-- An example editor: `a` and `b` typed into a fresh editor, then one step undone; the undo
log holds two records and the undo index is 1. -/
def example_undone : TextEditor :=
  (Undo (typed [97, 98]) 1).getD new

/-- An example grammar: the built-in GLSL definition with the case-sensitivity flag turned
off; its tables are those of GLSL, whose entries are in lower case. -/
def example_insensitive : LanguageDefinition :=
  { LanguageDefinition.GLSL with mCaseSensitive := false }

/-- An example grammar: the rules of GLSL, the keyword set `if`, and the case-sensitivity
flag turned off. -/
def example_keyword_if : LanguageDefinition :=
  { LanguageDefinition.GLSL with mKeywords := [bytes "if"], mCaseSensitive := false }

/-- An example grammar: the rules of GLSL, the identifier table `SIN`, and the
case-sensitivity flag turned off. -/
def example_upper_table : LanguageDefinition :=
  { LanguageDefinition.GLSL with mIdentifiers := [bytes "SIN"], mCaseSensitive := false }

/-- The characters, colour tags and preprocessor flags of the cells of a buffer. -/
def tags (e : TextEditor) : List (List (Nat × PaletteIndex × Bool)) :=
  e.mLines.map (fun l => l.map (fun (g : Glyph) => (g.mChar, g.mColorIndex, g.mPreprocessor)))

/-- An editor with the given pending colour window `[cmin, cmax)`. -/
def withWindow (base : TextEditor) (cmin cmax : Int) : TextEditor :=
  { base with mColorRangeMin := cmin, mColorRangeMax := cmax }

/-! ## Colorizer: the flag scan and the chunked token pass (`ColorizeInternal`) -/

/-- Source `equals`: the two ranges have the same length and hold the same bytes.  The bytes
of the delimiters of a grammar are ASCII. -/
def equals : List Nat → List Glyph → Bool
  | [], [] => true
  | a :: as, b :: bs => if a ≠ b.mChar then false else equals as bs
  | _, _ => false

/-- The local variables of the flag scan of `ColorizeInternal`, with the lines of the
buffer, which the scan writes to. -/
structure ColorizeInternal.Scan where
  lines : Lines
  commentStartLine : Nat
  commentStartIndex : Nat
  withinString : Bool := false
  withinSingleLineComment : Bool := false
  withinPreproc : Bool := false
  firstChar : Bool := true
  concatenate : Bool := false
  currentLine : Nat := 0
  currentIndex : Nat := 0

/-- A write `line.at(i).flag = value`: `none` when `i` is not inside the line. -/
def ColorizeInternal.setCell (ln : Line) (i : Nat) (f : Glyph → Glyph) : Option Line :=
  match ln[i]? with
  | none => none
  | some g => some (ln.set i (f g))

/-- The test `inComment` of the flag scan at the cell `currentIndex` of the current line. -/
def ColorizeInternal.inComment (s : ColorizeInternal.Scan) : Bool :=
  decide (s.commentStartLine < s.currentLine ∨
    (s.commentStartLine = s.currentLine ∧ s.commentStartIndex ≤ s.currentIndex))

/-- The branch `if (withinString)` of the flag scan on the cell with the character `c`: the
line and the variables after it. -/
def ColorizeInternal.inString (s : ColorizeInternal.Scan) (ln : Line) (c : Nat) :
    Option (Line × ColorizeInternal.Scan) :=
  match ColorizeInternal.setCell ln s.currentIndex
      (fun g => { g with mMultiLineComment := ColorizeInternal.inComment s }) with
  | none => none
  | some ln1 =>
    if c = 34 then
      if s.currentIndex + 1 < ln.length ∧ (ln.getD (s.currentIndex + 1) default).mChar = 34 then
        match ColorizeInternal.setCell ln1 (s.currentIndex + 1)
            (fun g => { g with mMultiLineComment := ColorizeInternal.inComment s }) with
        | none => none
        | some ln2 => some (ln2, { s with currentIndex := s.currentIndex + 1 })
      else some (ln1, { s with withinString := false })
    else if c = 92 then
      if s.currentIndex + 1 < ln.length then
        match ColorizeInternal.setCell ln1 (s.currentIndex + 1)
            (fun g => { g with mMultiLineComment := ColorizeInternal.inComment s }) with
        | none => none
        | some ln2 => some (ln2, { s with currentIndex := s.currentIndex + 1 })
      else some (ln1, { s with currentIndex := s.currentIndex + 1 })
    else some (ln1, s)

/-- The comment markers at the cell `currentIndex`, outside a string: the variables after the
tests for the single-line marker and the comment start. -/
def ColorizeInternal.markers (lang : LanguageDefinition) (s : ColorizeInternal.Scan)
    (ln : Line) : ColorizeInternal.Scan :=
  if ¬ lang.mSingleLineComment.isEmpty ∧
      s.currentIndex + lang.mSingleLineComment.length ≤ ln.length ∧
      equals lang.mSingleLineComment
        ((ln.drop s.currentIndex).take lang.mSingleLineComment.length) then
    { s with withinSingleLineComment := true }
  else if ¬ s.withinSingleLineComment ∧
      s.currentIndex + lang.mCommentStart.length ≤ ln.length ∧
      equals lang.mCommentStart ((ln.drop s.currentIndex).take lang.mCommentStart.length) then
    { s with commentStartLine := s.currentLine, commentStartIndex := s.currentIndex }
  else s

/-- The branch `else` of `if (withinString)` of the flag scan on the cell with the character
`c`; `endLine` is the number of lines. -/
def ColorizeInternal.outsideString (lang : LanguageDefinition) (endLine : Nat)
    (s : ColorizeInternal.Scan) (ln : Line) (c : Nat) :
    Option (Line × ColorizeInternal.Scan) :=
  let s1 : ColorizeInternal.Scan :=
    if s.firstChar ∧ c = lang.mPreprocChar then { s with withinPreproc := true } else s
  if c = 34 then
    match ColorizeInternal.setCell ln s.currentIndex
        (fun g => { g with mMultiLineComment := ColorizeInternal.inComment s }) with
    | none => none
    | some ln1 => some (ln1, { s1 with withinString := true })
  else
    let s2 := ColorizeInternal.markers lang s1 ln
    match ColorizeInternal.setCell ln s.currentIndex
        (fun g => { g with mMultiLineComment := ColorizeInternal.inComment s2,
                           mComment := s2.withinSingleLineComment }) with
    | none => none
    | some ln1 =>
      if s.currentIndex + 1 ≥ lang.mCommentEnd.length ∧
          equals lang.mCommentEnd
            ((ln.drop (s.currentIndex + 1 - lang.mCommentEnd.length)).take
              lang.mCommentEnd.length) then
        some (ln1, { s2 with commentStartIndex := 0, commentStartLine := endLine })
      else some (ln1, s2)

/-- The start of the loop body of the flag scan: at the first cell of a line that does not
continue the line before, the flags of the line are reset; `concatenate` is cleared. -/
def ColorizeInternal.startLine (s : ColorizeInternal.Scan) : ColorizeInternal.Scan :=
  if s.currentIndex = 0 ∧ ¬ s.concatenate then
    { s with withinSingleLineComment := false, withinPreproc := false, firstChar := true,
             concatenate := false }
  else { s with concatenate := false }

/-- The tests of the flag scan on the character `c` of the current cell that come before the
string test: `firstChar` is cleared by a character that is neither white space nor the
preprocessor character, and `concatenate` is set on a backslash in the last cell. -/
def ColorizeInternal.readCell (lang : LanguageDefinition) (s : ColorizeInternal.Scan)
    (ln : Line) (c : Nat) : ColorizeInternal.Scan :=
  if s.currentIndex = ln.length - 1 ∧ (ln.getD (ln.length - 1) default).mChar = 92 then
    { s with firstChar := if c ≠ lang.mPreprocChar ∧ isspace c = 0 then false else s.firstChar,
             concatenate := true }
  else
    { s with firstChar := if c ≠ lang.mPreprocChar ∧ isspace c = 0 then false else s.firstChar }

/-- The end of the loop body of the flag scan on a cell with the character `c`: the
preprocessor flag is written to the cell `currentIndex`, which the string branch may have
moved, and the scan goes on behind the character or on the next line. -/
def ColorizeInternal.advance (s : ColorizeInternal.Scan) (ln : Line) (c : Nat) :
    Option ColorizeInternal.Scan :=
  match ColorizeInternal.setCell ln s.currentIndex
      (fun h => { h with mPreprocessor := s.withinPreproc }) with
  | none => none
  | some ln2 =>
    if s.currentIndex + UTF8CharLength c ≥ ln.length then
      some { s with lines := s.lines.set s.currentLine ln2, currentIndex := 0,
                    currentLine := s.currentLine + 1 }
    else
      some { s with lines := s.lines.set s.currentLine ln2,
                    currentIndex := s.currentIndex + UTF8CharLength c }

/-- The body of the loop of the flag scan, run with `currentLine` inside the buffer. -/
def ColorizeInternal.step (lang : LanguageDefinition) (s : ColorizeInternal.Scan) :
    Option ColorizeInternal.Scan :=
  match s.lines[s.currentLine]? with
  | none => none
  | some ln =>
    if ln.isEmpty then
      some { ColorizeInternal.startLine s with currentIndex := 0,
                                               currentLine := s.currentLine + 1 }
    else
      match ln[s.currentIndex]? with
      | none => none
      | some g =>
        match (if s.withinString then
                 ColorizeInternal.inString
                   (ColorizeInternal.readCell lang (ColorizeInternal.startLine s) ln g.mChar)
                   ln g.mChar
               else
                 ColorizeInternal.outsideString lang s.lines.length
                   (ColorizeInternal.readCell lang (ColorizeInternal.startLine s) ln g.mChar)
                   ln g.mChar) with
        | none => none
        | some (ln1, s1) => ColorizeInternal.advance s1 ln1 g.mChar

/-- The loop `while (currentLine < endLine || currentIndex < endIndex)` of the flag scan;
`endIndex` is 0, so the second test is never true.  Every step moves to a later cell or to
the next line, so the fuel (cells plus lines of the buffer, plus one) is not used up. -/
def ColorizeInternal.scanLoop (lang : LanguageDefinition) :
    Nat → ColorizeInternal.Scan → Option Lines
  | 0, _ => none
  | fuel + 1, s =>
    if s.currentLine < s.lines.length then
      match ColorizeInternal.step lang s with
      | none => none
      | some s1 => ColorizeInternal.scanLoop lang fuel s1
    else some s.lines

/-- The block `if (mCheckComments)` of `ColorizeInternal`: the flag scan over the whole
buffer. -/
def ColorizeInternal.scan (e : TextEditor) : Option TextEditor :=
  if e.mCheckComments then
    match ColorizeInternal.scanLoop e.mLanguageDefinition
        ((e.mLines.map (fun l => l.length + 1)).sum + 1)
        { lines := e.mLines, commentStartLine := e.mLines.length, commentStartIndex := 0 } with
    | none => none
    | some lines => some { e with mLines := lines, mCheckComments := false }
  else some e

/-- The constant `increment` of `ColorizeInternal`: the number of lines of one chunk, 10
without a tokenize callback and 10000 with one. -/
def ColorizeInternal.increment (lang : LanguageDefinition) : Nat :=
  if lang.mTokenize.isNone then 10 else 10000

/-- The line `to` up to which one call of `ColorizeInternal` runs the token pass: one chunk
from `mColorRangeMin`, and not past `mColorRangeMax`. -/
def ColorizeInternal.chunkEnd (e : TextEditor) : Int :=
  min (e.mColorRangeMin + (ColorizeInternal.increment e.mLanguageDefinition : Nat))
    e.mColorRangeMax

/-- Source `TextEditor::ColorizeInternal`. -/
def ColorizeInternal (e : TextEditor) : Option TextEditor :=
  if e.mLines.isEmpty ∨ ¬ e.mColorizerEnabled then some e
  else
    match ColorizeInternal.scan e with
    | none => none
    | some e1 =>
      if e1.mColorRangeMin < e1.mColorRangeMax then
        match ColorizeRange e1 e1.mColorRangeMin (ColorizeInternal.chunkEnd e1) with
        | none => none
        | some e2 =>
          if e2.mColorRangeMax = ColorizeInternal.chunkEnd e1 then
            some { e2 with mColorRangeMin := 2147483647, mColorRangeMax := 0 }
          else some { e2 with mColorRangeMin := ColorizeInternal.chunkEnd e1 }
      else some e1

/-- Repeated calls of `ColorizeInternal`, as `Render` makes one per frame. -/
def ColorizeInternal.calls : Nat → TextEditor → Option TextEditor
  | 0, e => some e
  | n + 1, e =>
    match ColorizeInternal e with
    | none => none
    | some e1 => ColorizeInternal.calls n e1

/-- A regular expression that matches the empty string. -/
def Regex.nullable : Regex → Bool
  | Regex.empty => true
  | Regex.set _ _ => false
  | Regex.seq a b => Regex.nullable a && Regex.nullable b
  | Regex.alt a b => Regex.nullable a || Regex.nullable b
  | Regex.star _ => true

/-- The tokenize callback and the rules report only tokens of at least one character that
lie inside the rest of the buffer: a token does not end before it begins, ends behind the
scan position and not behind the buffer. -/
def TokensInside (lang : LanguageDefinition)
    (rules : List ((List Nat → Option Nat) × PaletteIndex)) : Prop :=
  (∀ f, lang.mTokenize = some f → ∀ s r, f s = some r →
    r.1 ≤ r.2.1 ∧ 0 < r.2.1 ∧ r.2.1 ≤ s.length) ∧
  (∀ p ∈ rules, ∀ s n, p.1 s = some n → 0 < n ∧ n ≤ s.length)

/-- The colour tags of the cells of a buffer. -/
def colors (lines : Lines) : List (List PaletteIndex) :=
  lines.map (fun l => l.map (fun (g : Glyph) => g.mColorIndex))

/-- An example editor: `SetText` with twelve lines of one letter each, `a` to `l`; the whole
buffer is pending in the colour window and the flag scan is due. -/
def example_twelve : TextEditor :=
  SetText new [97, 10, 98, 10, 99, 10, 100, 10, 101, 10, 102, 10, 103, 10, 104, 10, 105, 10,
    106, 10, 107, 10, 108]

/-- The invariant of an undo record: the added span and the removed span are ordered, and a
span that is empty carries no text. -/
def UndoRecord.Ordered (u : UndoRecord) : Prop :=
  u.mAddedStart.le u.mAddedEnd = true ∧ u.mRemovedStart.le u.mRemovedEnd = true ∧
    (u.mAddedStart = u.mAddedEnd → u.mAdded = []) ∧
    (u.mRemovedStart = u.mRemovedEnd → u.mRemoved = [])

/-- The characters and the three flags (`mComment`, `mMultiLineComment`, `mPreprocessor`) of
the cells of a buffer. -/
def flags (e : TextEditor) : List (List (Nat × Bool × Bool × Bool)) :=
  e.mLines.map (fun l => l.map
    (fun (g : Glyph) => (g.mChar, g.mComment, g.mMultiLineComment, g.mPreprocessor)))

/-- An example editor: `SetText` with the two lines `a` and `b`, one call of
`ColorizeInternal` (as `Render` makes), which empties the colour window and clears
`mCheckComments`, then `SetSelection` from `(0, 0)` to `(1, 1)`. -/
def example_indent : TextEditor :=
  SetSelection ((ColorizeInternal (SetText new [97, 10, 98])).getD new) ⟨0, 0⟩ ⟨1, 1⟩

/-- An example editor: as `example_indent`, with the two lines of a tab and `a`, and of a tab
and `b`. -/
def example_outdent : TextEditor :=
  SetSelection ((ColorizeInternal (SetText new [9, 97, 10, 9, 98])).getD new) ⟨0, 0⟩ ⟨1, 5⟩

/-- An example editor: `SetText` with the line `//a`, one call of `ColorizeInternal`, which
flags the three cells as single-line comment, and a double quote typed at the start of the
line; the line is a double quote followed by `//a`. -/
def example_stale : TextEditor :=
  (EnterCharacter ((ColorizeInternal (SetText new [47, 47, 97])).getD new) 34 false).getD new

/-- Source `TextEditor::GetText()`, the overload without arguments: the text from `(0, 0)`
to column 0 of the line behind the last one. -/
def GetTextAll (e : TextEditor) : Option (List Nat) :=
  GetText e ⟨0, 0⟩ ⟨e.mLines.length, 0⟩

/-- The tokenize callback and the rules report only matches in the text they are given that
start at the scan position and have at least one character: the offset of the begin is 0,
and the offset of the end is positive and not behind the text. -/
def TokensAtScan (lang : LanguageDefinition)
    (rules : List ((List Nat → Option Nat) × PaletteIndex)) : Prop :=
  (∀ f, lang.mTokenize = some f → ∀ s r, f s = some r →
    r.1 = 0 ∧ 0 < r.2.1 ∧ r.2.1 ≤ s.length) ∧
  (∀ p ∈ rules, ∀ s n, p.1 s = some n → 0 < n ∧ n ≤ s.length)

/-- The buffer lines up to their colour tags: every tag is replaced by `Default`, the
characters and the flags of the cells are kept. -/
def untagged (lines : Lines) : Lines :=
  lines.map (fun l => l.map (fun (g : Glyph) => { g with mColorIndex := PaletteIndex.Default }))

/-- An example buffer whose cells carry colour tags of an earlier run: the line `if` tagged
`Number`, `String`, and the line `x` tagged `Keyword`. -/
def example_tagged : Lines :=
  [[{ mChar := 105, mColorIndex := PaletteIndex.Number },
    { mChar := 102, mColorIndex := PaletteIndex.String }],
   [{ mChar := 120, mColorIndex := PaletteIndex.Keyword }]]

/-- An example editor: the lines `if` and `x`, every cell tagged `Default`, with the grammar
of the constructor (GLSL). -/
def example_plain : TextEditor :=
  withText new [[105, 102], [120]] ⟨0, 0⟩

/-! # Theorems -/

/-! ## Basic facts about the vector operations and the setters -/

theorem eraseRange_eq_some {α : Type} {v w : List α} {a b : Nat} :
    eraseRange v a b = some w ↔ (a ≤ b ∧ b ≤ v.length) ∧ w = v.take a ++ v.drop b := by
  unfold eraseRange
  split <;> simp_all [eq_comm]

theorem insertAt_eq_some {α : Type} {v w xs : List α} {i : Nat} :
    insertAt v i xs = some w ↔ i ≤ v.length ∧ w = v.take i ++ xs ++ v.drop i := by
  unfold insertAt
  split <;> simp_all [eq_comm]

@[simp] theorem Colorize_mLines (e : TextEditor) (a b : Int) : (Colorize e a b).mLines = e.mLines := rfl
@[simp] theorem EnsureCursorVisible_mLines (e : TextEditor) : (EnsureCursorVisible e).mLines = e.mLines := by
  unfold EnsureCursorVisible; split <;> rfl
@[simp] theorem SetCursorPosition_mLines (e : TextEditor) (p : Coordinates) : (SetCursorPosition e p).mLines = e.mLines := by
  unfold SetCursorPosition; split <;> simp
@[simp] theorem SetSelection_mLines (e : TextEditor) (a b : Coordinates) (m : SelectionMode) :
    (SetSelection e a b m).mLines = e.mLines := by
  rfl
@[simp] theorem SetSelectionStart_mLines (e : TextEditor) (a : Coordinates) :
    (SetSelectionStart e a).mLines = e.mLines := rfl
@[simp] theorem SetSelectionEnd_mLines (e : TextEditor) (a : Coordinates) :
    (SetSelectionEnd e a).mLines = e.mLines := rfl

theorem AddUndo_mLines {e e' : TextEditor} {u : UndoRecord} (h : AddUndo e u = some e') :
    e'.mLines = e.mLines := by
  unfold AddUndo at h
  split at h
  · simp at h
  · simp at h; subst h; rfl

/-! ## Sanitize -/

theorem isEmpty_eq_false_of_lt {α : Type} {l : List α} {n : Nat} (h : n < l.length) :
    l.isEmpty = false := by
  cases l with
  | nil => simp at h
  | cons a t => rfl

/-- C2: on the line of a tab followed by `x` (tab size 4) with the cursor at `(0, 4)`, right
after the tab, `Backspace` erases the tab and records the removed span as starting at
column 3; `Undo` then re-inserts the tab at the end of the line, so the buffer holds `x`
followed by the tab. -/
theorem Backspace_Undo_after_tab :
    chars (withText new [[9, 120]] ⟨0, 4⟩) = [[9, 120]] ∧
    SanitizeCoordinates (withText new [[9, 120]] ⟨0, 4⟩) ⟨0, 4⟩ = ⟨0, 4⟩ ∧
    (Backspace (withText new [[9, 120]] ⟨0, 4⟩)).map chars = some [[120]] ∧
    (Backspace (withText new [[9, 120]] ⟨0, 4⟩)).map
      (fun e => e.mUndoBuffer.map (fun u => (u.mRemoved, u.mRemovedStart, u.mRemovedEnd))) =
      some [([9], ⟨0, 3⟩, ⟨0, 4⟩)] ∧
    ((Backspace (withText new [[9, 120]] ⟨0, 4⟩)).bind (fun e => Undo e 1)).map chars =
      some [[120, 9]] := by
  decide

/-- C3: on the line of a tab followed by `x` (tab size 4) with the cursor at `(0, 2)`, inside
the width of the tab, `Delete` erases `x` but stores the empty string as removed text; `Undo`
then restores nothing and the buffer keeps the tab alone. -/
theorem Delete_Undo_inside_tab :
    chars (withText new [[9, 120]] ⟨0, 2⟩) = [[9, 120]] ∧
    SanitizeCoordinates (withText new [[9, 120]] ⟨0, 2⟩) ⟨0, 2⟩ = ⟨0, 2⟩ ∧
    (Delete (withText new [[9, 120]] ⟨0, 2⟩)).map chars = some [[9]] ∧
    (Delete (withText new [[9, 120]] ⟨0, 2⟩)).map
      (fun e => e.mUndoBuffer.map (fun u => (u.mRemoved, u.mRemovedStart, u.mRemovedEnd))) =
      some [([], ⟨0, 2⟩, ⟨0, 3⟩)] ∧
    ((Delete (withText new [[9, 120]] ⟨0, 2⟩)).bind (fun e => Undo e 1)).map chars =
      some [[9]] := by
  decide

/-- C4: with auto-indent on, the line of a blank followed by `a` and the cursor at its end,
`EnterCharacter` of a line feed gives that line, a second line of one blank, and the cursor
`(1, 1)`; the record stores only the line feed as added text, so `Undo` followed by `Redo`
gives that line and an empty second line, with the cursor `(1, 1)`. -/
theorem EnterCharacter_Undo_Redo_autoindent :
    (withText new [[32, 97]] ⟨0, 2⟩).mAutoIndentation = true ∧
    (EnterCharacter (withText new [[32, 97]] ⟨0, 2⟩) 10 false).map
      (fun e => (chars e, e.mState.mCursorPosition)) = some ([[32, 97], [32]], ⟨1, 1⟩) ∧
    ((EnterCharacter (withText new [[32, 97]] ⟨0, 2⟩) 10 false).bind
      (fun e => (Undo e 1).bind (fun e => Redo e 1))).map
      (fun e => (chars e, e.mState.mCursorPosition)) = some ([[32, 97], []], ⟨1, 1⟩) := by
  decide

/-- C6: inserting a tab followed by `ab` at `(0, 0)` of an empty line (tab size 4) leaves the
coordinate at `(0, 3)`, whose character index is 1, while the inserted cells end at index 3,
column 6; and `GetText` from `(0, 0)` to the advanced coordinate is the tab only. -/
theorem InsertTextAt_tab_coordinate :
    (InsertTextAt (withText new [[]] ⟨0, 0⟩) ⟨0, 0⟩ [9, 97, 98]).map
      (fun r => (chars r.1, r.2.1, GetCharacterIndex r.1 r.2.1, GetCharacterColumn r.1 0 3)) =
      some ([[9, 97, 98]], ⟨0, 3⟩, 1, 6) ∧
    (InsertTextAt (withText new [[]] ⟨0, 0⟩) ⟨0, 0⟩ [9, 97, 98]).bind
      (fun r => GetText r.1 ⟨0, 0⟩ r.2.1) = some [9] := by
  decide

/-- C10: with the colorizer disabled and the line `a`, tab, `b` (tab size 4),
`SetSelection((0, 2), (0, 2), Word)` stores the start `(0, 4)` and the end `(0, 2)`:
`FindWordStart` rounds the column inside the tab up to the next cell, and the end is left
alone because it is on a word boundary; the stored start is greater than the stored end. -/
theorem SetSelection_Word_inverted :
    (withText new [[97, 9, 98]] ⟨0, 0⟩).mState.mSelectionStart.le
      (withText new [[97, 9, 98]] ⟨0, 0⟩).mState.mSelectionEnd = true ∧
    (SetSelection (SetColorizerEnable (withText new [[97, 9, 98]] ⟨0, 0⟩) false)
      ⟨0, 2⟩ ⟨0, 2⟩ SelectionMode.Word).mState.mSelectionStart = ⟨0, 4⟩ ∧
    (SetSelection (SetColorizerEnable (withText new [[97, 9, 98]] ⟨0, 0⟩) false)
      ⟨0, 2⟩ ⟨0, 2⟩ SelectionMode.Word).mState.mSelectionEnd = ⟨0, 2⟩ ∧
    (SetSelection (SetColorizerEnable (withText new [[97, 9, 98]] ⟨0, 0⟩) false)
      ⟨0, 2⟩ ⟨0, 2⟩ SelectionMode.Word).mState.mSelectionStart.le
      (SetSelection (SetColorizerEnable (withText new [[97, 9, 98]] ⟨0, 0⟩) false)
        ⟨0, 2⟩ ⟨0, 2⟩ SelectionMode.Word).mState.mSelectionEnd = false := by
  decide

/-! ## The buffer is never empty -/

theorem RemoveLineRange_ne_nil {e e' : TextEditor} {a b : Nat}
    (h : RemoveLineRange e a b = some e') : e'.mLines ≠ [] := by
  unfold RemoveLineRange at h
  simp only [] at h
  split at h; · simp at h
  split at h; · simp at h
  split at h; · simp at h
  split at h; · simp at h
  split at h; · simp at h
  simp at h; subst h
  simp_all

theorem RemoveLine_ne_nil {e e' : TextEditor} {a : Nat}
    (h : RemoveLine e a = some e') : e'.mLines ≠ [] := by
  unfold RemoveLine at h
  simp only [] at h
  split at h; · simp at h
  split at h; · simp at h
  split at h; · simp at h
  split at h; · simp at h
  simp at h; subst h
  simp_all

theorem InsertLine_ne_nil {e e' : TextEditor} {a : Nat}
    (h : InsertLine e a = some e') : e'.mLines ≠ [] := by
  unfold InsertLine at h
  simp only [] at h
  split at h; · simp at h
  split at h; · simp at h
  rename_i lines hl
  simp at h; subst h
  rw [insertAt_eq_some] at hl
  simp [hl.2]

theorem set_ne_nil {α : Type} {l : List α} (h : l ≠ []) (i : Nat) (x : α) : l.set i x ≠ [] := by
  intro hc
  have := congrArg List.length hc
  simp at this
  exact h this

theorem DeleteRange_ne_nil {e e' : TextEditor} {a b : Coordinates}
    (h : DeleteRange e a b = some e') (hne : e.mLines ≠ []) : e'.mLines ≠ [] := by
  unfold DeleteRange at h
  split at h; · simp at h
  split at h; · simp at h
  split at h; · simp at h; subst h; exact hne
  split at h
  · split at h; · simp at h
    split at h; · simp at h
    simp at h; subst h
    exact set_ne_nil hne _ _
  · split at h
    · split at h
      · split at h
        · split at h; · simp at h
          rename_i e2 h2
          simp at h; subst h
          have := RemoveLineRange_ne_nil h2
          exact this
        · simp at h; subst h
          exact set_ne_nil (set_ne_nil hne _ _) _ _
      · simp at h
    · simp at h


theorem InsertTextAt_loop_ne_nil : ∀ (fuel : Nat) (t : List Nat) (e : TextEditor) (w : Coordinates)
    (ci tl : Nat) (r : TextEditor × Coordinates × Nat),
    InsertTextAt.loop fuel t e w ci tl = some r → e.mLines ≠ [] → r.1.mLines ≠ [] := by
  intro fuel
  induction fuel with
  | zero => intro t e w ci tl r h hne; simp [InsertTextAt.loop] at h; subst h; exact hne
  | succ n ih =>
    intro t e w ci tl r h hne
    cases t with
    | nil => simp [InsertTextAt.loop] at h; subst h; exact hne
    | cons ch rest =>
      unfold InsertTextAt.loop at h
      split at h; · simp at h; subst h; exact hne
      split at h; · simp at h
      split at h; · exact ih _ _ _ _ _ _ h hne
      split at h
      · split at h; · simp at h
        split at h; · simp at h
        rename_i e1 he1
        refine ih _ _ _ _ _ _ h ?_
        have h1 := InsertLine_ne_nil he1
        show (if _ then _ else _) ≠ []
        split
        · exact set_ne_nil (set_ne_nil h1 _ _) _ _
        · exact h1
      · split at h; · simp at h
        split at h; · simp at h
        refine ih _ _ _ _ _ _ h ?_
        exact set_ne_nil hne _ _

theorem InsertTextAt_ne_nil {e : TextEditor} {w : Coordinates} {t : List Nat}
    {r : TextEditor × Coordinates × Nat} (h : InsertTextAt e w t = some r) (hne : e.mLines ≠ []) :
    r.1.mLines ≠ [] := by
  unfold InsertTextAt at h
  split at h; · simp at h
  exact InsertTextAt_loop_ne_nil _ _ _ _ _ _ _ h hne

theorem DeleteSelection_ne_nil {e e' : TextEditor} (h : DeleteSelection e = some e')
    (hne : e.mLines ≠ []) : e'.mLines ≠ [] := by
  unfold DeleteSelection at h
  split at h; · simp at h
  split at h; · simp at h; subst h; exact hne
  split at h; · simp at h
  rename_i e1 h1
  simp at h; subst h
  simpa using DeleteRange_ne_nil h1 hne

theorem InsertText_ne_nil {e e' : TextEditor} {t : List Nat} (h : InsertText e t = some e')
    (hne : e.mLines ≠ []) : e'.mLines ≠ [] := by
  unfold InsertText at h
  simp only [] at h
  split at h; · simp at h
  rename_i r hr
  simp at h; subst h
  simpa using InsertTextAt_ne_nil hr hne

theorem indentLoop_length : ∀ (fuel : Nat) (tab : Nat) (sh : Bool) (el i : Nat) (ls : Lines)
    (m : Bool) (r : Lines × Bool),
    EnterCharacter.indentLoop tab sh el fuel i ls m = some r → r.1.length = ls.length := by
  intro fuel
  induction fuel with
  | zero => intro tab sh el i ls m r h; simp [EnterCharacter.indentLoop] at h; subst h; rfl
  | succ n ih =>
    intro tab sh el i ls m r h
    unfold EnterCharacter.indentLoop at h
    split at h
    · split at h; · simp at h
      have := ih _ _ _ _ _ _ _ h
      simpa using this
    · simp at h; subst h; rfl

theorem ne_nil_of_length_eq {α : Type} {l l' : List α} (h : l'.length = l.length) (hne : l ≠ []) :
    l' ≠ [] := by
  intro hc
  subst hc
  simp at h
  exact hne (List.length_eq_zero.mp h.symm)

theorem indentCommit_mLines {e e' : TextEditor} {u : UndoRecord} {s en oe : Coordinates}
    (h : EnterCharacter.indentCommit e u s en oe = some e') : e'.mLines = e.mLines := by
  unfold EnterCharacter.indentCommit at h
  simp only [] at h
  split at h; · simp at h
  split at h; · simp at h
  rename_i e1 h1
  simp at h; subst h
  simpa using AddUndo_mLines h1

theorem indent_ne_nil {e e' : TextEditor} {u : UndoRecord} {sh : Bool}
    (h : EnterCharacter.indent e u sh = some e') (hne : e.mLines ≠ []) : e'.mLines ≠ [] := by
  unfold EnterCharacter.indent at h
  simp only [] at h
  split at h; · simp at h
  split at h; · simp at h
  rename_i r hr
  have hlen := indentLoop_length _ _ _ _ _ _ _ _ hr
  split at h
  · rw [indentCommit_mLines h]
    exact ne_nil_of_length_eq hlen hne
  · simp at h; subst h
    exact ne_nil_of_length_eq hlen hne

theorem finish_mLines {e e' : TextEditor} {u : UndoRecord} {c : Coordinates}
    (h : EnterCharacter.finish e u c = some e') : e'.mLines = e.mLines := by
  unfold EnterCharacter.finish at h
  split at h; · simp at h
  rename_i e1 h1
  simp at h; subst h
  simpa using AddUndo_mLines h1

theorem newline_ne_nil {e e' : TextEditor} {u : UndoRecord} {c : Coordinates} {ch : Nat}
    (h : EnterCharacter.newline e u c ch = some e') : e'.mLines ≠ [] := by
  unfold EnterCharacter.newline at h
  split at h; · simp at h
  rename_i e1 h1
  have hne1 := InsertLine_ne_nil h1
  split at h
  · simp only [] at h
    split at h; · simp at h
    rw [finish_mLines h]
    simp only [SetCursorPosition_mLines, Colorize_mLines, EnsureCursorVisible_mLines]
    exact set_ne_nil (set_ne_nil hne1 _ _) _ _
  · simp at h

theorem plain_ne_nil {e e' : TextEditor} {u : UndoRecord} {c : Coordinates} {buf : List Nat}
    (h : EnterCharacter.plain e u c buf = some e') (hne : e.mLines ≠ []) : e'.mLines ≠ [] := by
  unfold EnterCharacter.plain at h
  split at h; · simp at h
  simp only [] at h
  split at h; · simp at h
  rw [finish_mLines h]
  simp only [SetCursorPosition_mLines, Colorize_mLines, EnsureCursorVisible_mLines]
  exact set_ne_nil hne _ _

theorem insert_ne_nil {e e' : TextEditor} {u : UndoRecord} {ch : Nat}
    (h : EnterCharacter.insert e u ch = some e') (hne : e.mLines ≠ []) : e'.mLines ≠ [] := by
  unfold EnterCharacter.insert at h
  simp only [] at h
  split at h; · simp at h
  split at h; · exact newline_ne_nil h
  split at h; · exact plain_ne_nil h hne
  simp at h; subst h; exact hne

theorem EnterCharacter_ne_nil {e e' : TextEditor} {ch : Nat} {sh : Bool}
    (h : EnterCharacter e ch sh = some e') (hne : e.mLines ≠ []) : e'.mLines ≠ [] := by
  unfold EnterCharacter at h
  split at h; · simp at h
  split at h
  · split at h; · exact indent_ne_nil h hne
    split at h; · simp at h
    split at h; · simp at h
    rename_i e1 h1
    exact insert_ne_nil h (DeleteSelection_ne_nil h1 hne)
  · exact insert_ne_nil h hne

theorem addUndoAfter_mLines {e e' : TextEditor} {u : UndoRecord}
    (h : addUndoAfter e u = some e') : e'.mLines = e.mLines :=
  AddUndo_mLines h

theorem deleteSelected_ne_nil {e e' : TextEditor} {u : UndoRecord}
    (h : deleteSelected e u = some e') (hne : e.mLines ≠ []) : e'.mLines ≠ [] := by
  unfold deleteSelected at h
  split at h; · simp at h
  split at h; · simp at h
  rename_i e1 h1
  rw [addUndoAfter_mLines h]
  exact DeleteSelection_ne_nil h1 hne

theorem Backspace_ne_nil {e e' : TextEditor} (h : Backspace e = some e')
    (hne : e.mLines ≠ []) : e'.mLines ≠ [] := by
  unfold Backspace at h
  split at h; · simp at h
  split at h; · simp at h; subst h; exact hne
  split at h; · exact deleteSelected_ne_nil h hne
  simp only [] at h
  split at h
  · split at h
    · simp at h; subst h; simpa using hne
    · unfold Backspace.joinLines at h
      simp only [] at h
      split at h
      · split at h; · simp at h
        rename_i e1 h1
        rw [addUndoAfter_mLines h]
        simpa using RemoveLine_ne_nil h1
      · simp at h
  · unfold Backspace.eraseChar at h
    simp only [] at h
    split at h; · simp at h
    split at h; · simp at h
    rw [addUndoAfter_mLines h]
    simp only [SetCursorPosition_mLines, Colorize_mLines, EnsureCursorVisible_mLines]
    exact set_ne_nil hne _ _

theorem Delete_ne_nil {e e' : TextEditor} (h : Delete e = some e')
    (hne : e.mLines ≠ []) : e'.mLines ≠ [] := by
  unfold Delete at h
  split at h; · simp at h
  split at h; · simp at h; subst h; exact hne
  split at h; · exact deleteSelected_ne_nil h hne
  simp only [] at h
  split at h; · simp at h
  split at h
  · split at h
    · simp at h; subst h; simpa using hne
    · unfold Delete.joinLines at h
      simp only [] at h
      split at h; · simp at h
      split at h; · simp at h
      rename_i e1 h1
      rw [addUndoAfter_mLines h]
      simpa using RemoveLine_ne_nil h1
  · unfold Delete.eraseChar at h
    simp only [] at h
    split at h; · simp at h
    split at h; · simp at h
    rw [addUndoAfter_mLines h]
    simp only [SetCursorPosition_mLines, Colorize_mLines, EnsureCursorVisible_mLines]
    exact set_ne_nil hne _ _

theorem deleteSpan_ne_nil {e e' : TextEditor} {t : List Nat} {a b : Coordinates} {x : Int}
    (h : UndoRecord.deleteSpan e t a b x = some e') (hne : e.mLines ≠ []) : e'.mLines ≠ [] := by
  unfold UndoRecord.deleteSpan at h
  split at h; · simp at h; subst h; exact hne
  split at h; · simp at h
  rename_i e1 h1
  simp at h; subst h
  simpa using DeleteRange_ne_nil h1 hne

theorem insertSpan_ne_nil {e e' : TextEditor} {t : List Nat} {a b : Coordinates} {x : Int}
    (h : UndoRecord.insertSpan e t a b x = some e') (hne : e.mLines ≠ []) : e'.mLines ≠ [] := by
  unfold UndoRecord.insertSpan at h
  split at h; · simp at h; subst h; exact hne
  split at h; · simp at h
  rename_i r hr
  simp at h; subst h
  simpa using InsertTextAt_ne_nil hr hne

theorem UndoRecord_Undo_ne_nil {u : UndoRecord} {e e' : TextEditor}
    (h : u.Undo e = some e') (hne : e.mLines ≠ []) : e'.mLines ≠ [] := by
  unfold UndoRecord.Undo at h
  split at h; · simp at h
  rename_i e1 h1
  split at h; · simp at h
  rename_i e2 h2
  simp at h; subst h
  simpa using insertSpan_ne_nil h2 (deleteSpan_ne_nil h1 hne)

theorem UndoRecord_Redo_ne_nil {u : UndoRecord} {e e' : TextEditor}
    (h : u.Redo e = some e') (hne : e.mLines ≠ []) : e'.mLines ≠ [] := by
  unfold UndoRecord.Redo at h
  split at h; · simp at h
  rename_i e1 h1
  split at h; · simp at h
  rename_i e2 h2
  simp at h; subst h
  simpa using insertSpan_ne_nil h2 (deleteSpan_ne_nil h1 hne)

theorem Undo_ne_nil : ∀ (n : Nat) (e e' : TextEditor), Undo e n = some e' → e.mLines ≠ [] →
    e'.mLines ≠ [] := by
  intro n
  induction n with
  | zero => intro e e' h hne; simp [Undo] at h; subst h; exact hne
  | succ n ih =>
    intro e e' h hne
    unfold Undo at h
    split at h
    · split at h; · simp at h
      split at h; · simp at h
      rename_i e1 h1
      exact ih _ _ h (UndoRecord_Undo_ne_nil h1 hne)
    · simp at h; subst h; exact hne

theorem Redo_ne_nil : ∀ (n : Nat) (e e' : TextEditor), Redo e n = some e' → e.mLines ≠ [] →
    e'.mLines ≠ [] := by
  intro n
  induction n with
  | zero => intro e e' h hne; simp [Redo] at h; subst h; exact hne
  | succ n ih =>
    intro e e' h hne
    unfold Redo at h
    split at h
    · split at h; · simp at h
      split at h; · simp at h
      rename_i e1 h1
      exact ih _ _ h (UndoRecord_Redo_ne_nil h1 hne)
    · simp at h; subst h; exact hne

theorem SetText_fold_ne_nil (t : List Nat) : ∀ (acc : Lines), acc ≠ [] →
    t.foldl (fun (acc : Lines) (chr : Nat) =>
      if chr = 13 then acc
      else if chr = 10 then acc ++ [[]]
      else acc.dropLast ++ [acc.getLastD [] ++ [({ mChar := chr } : Glyph)]]) acc ≠ [] := by
  induction t with
  | nil => intro acc h; simpa using h
  | cons c rest ih =>
    intro acc h
    simp only [List.foldl_cons]
    apply ih
    split
    · exact h
    · split <;> simp

theorem SetText_ne_nil (e : TextEditor) (t : List Nat) : (SetText e t).mLines ≠ [] := by
  unfold SetText
  simp only [Colorize_mLines]
  exact SetText_fold_ne_nil t _ (by simp)

theorem SetTextLines_ne_nil (e : TextEditor) (t : List (List Nat)) :
    (SetTextLines e t).mLines ≠ [] := by
  unfold SetTextLines
  simp only [Colorize_mLines]
  split
  · simp
  · rename_i h
    cases t with
    | nil => simp at h
    | cons a b => simp

/-- C7: every state reachable from a freshly constructed editor by `SetText`,
`SetTextLines`, `InsertText`, `EnterCharacter`, `Backspace`, `Delete`, `DeleteRange`, `Undo`
and `Redo` (and by the cursor, selection and configuration setters) has at least one line
in its buffer. -/
theorem Reachable_lines_nonempty (e : TextEditor) (h : Reachable e) : 1 ≤ e.mLines.length := by
  have key : e.mLines ≠ [] := by
    induction h with
    | fresh => simp [new]
    | setText t _ _ => exact SetText_ne_nil _ t
    | setTextLines t _ _ => exact SetTextLines_ne_nil _ t
    | insertText t _ h ih => exact InsertText_ne_nil h ih
    | enterCharacter c s _ h ih => exact EnterCharacter_ne_nil h ih
    | backspace _ h ih => exact Backspace_ne_nil h ih
    | delete _ h ih => exact Delete_ne_nil h ih
    | deleteRange a b _ h ih => exact DeleteRange_ne_nil h ih
    | undo n _ h ih => exact Undo_ne_nil n _ _ h ih
    | redo n _ h ih => exact Redo_ne_nil n _ _ h ih
    | setCursorPosition p _ ih => simpa using ih
    | setSelection a b m _ ih => simpa using ih
    | setSelectionStart p _ ih => simpa using ih
    | setSelectionEnd p _ ih => simpa using ih
    | setReadOnly v _ ih => exact ih
    | setTabSize v _ ih => exact ih
    | setColorizerEnable v _ ih => exact ih
    | toggleOverwrite _ ih => exact ih
  exact List.length_pos.mpr key

/-- Witness for C7: the state after `SetText` with the text `a`, line feed, `b` and
`SetCursorPosition` to `(0, 1)` is reachable. -/
theorem Reachable_lines_nonempty_witness :
    Reachable (SetCursorPosition (SetText new [97, 10, 98]) ⟨0, 1⟩) ∧
    1 ≤ (SetCursorPosition (SetText new [97, 10, 98]) ⟨0, 1⟩).mLines.length :=
  ⟨Reachable.setCursorPosition _ (Reachable.setText _ Reachable.fresh),
   Reachable_lines_nonempty _
     (Reachable.setCursorPosition _ (Reachable.setText _ Reachable.fresh))⟩

/-! ## The character walk of the coordinate functions -/

theorem UTF8CharLength_pos (c : Nat) : 1 ≤ UTF8CharLength c := by
  unfold UTF8CharLength
  repeat' split
  all_goals omega

theorem advanceColumn_gt {tab : Nat} (htab : 0 < tab) (ch c : Nat) :
    c < advanceColumn tab ch c := by
  unfold advanceColumn
  split
  · have h1 := Nat.div_add_mod c tab
    have h2 := Nat.mod_lt c htab
    have h3 : tab * (c / tab) = c / tab * tab := Nat.mul_comm _ _
    omega
  · omega

theorem getElem?_none_of_le {ln : Line} {i : Nat} (h : ln.length ≤ i) : ln[i]? = none :=
  List.getElem?_eq_none h

theorem lt_length_of_getElem? {ln : Line} {i : Nat} {g : Glyph} (h : ln[i]? = some g) :
    i < ln.length := by
  by_contra hc
  rw [List.getElem?_eq_none (Nat.le_of_not_lt hc)] at h
  cases h

/-- The result of the `GetCharacterIndex` loop does not depend on the fuel once the fuel
covers the rest of the line. -/
theorem GetCharacterIndex_loop_fuel (tab : Nat) (ln : Line) (k : Nat) :
    ∀ (f1 f2 c i : Nat), ln.length ≤ f1 + i → ln.length ≤ f2 + i →
      GetCharacterIndex.loop tab ln k f1 c i = GetCharacterIndex.loop tab ln k f2 c i := by
  intro f1
  induction f1 with
  | zero =>
    intro f2 c i h1 _
    have hn : ln[i]? = none := getElem?_none_of_le (by omega)
    cases f2 with
    | zero => rfl
    | succ m => simp [GetCharacterIndex.loop, hn]
  | succ n ih =>
    intro f2 c i h1 h2
    cases f2 with
    | zero =>
      have hn : ln[i]? = none := getElem?_none_of_le (by omega)
      simp [GetCharacterIndex.loop, hn]
    | succ m =>
      unfold GetCharacterIndex.loop
      cases hg : ln[i]? with
      | none => rfl
      | some g =>
        simp only []
        split
        · have := UTF8CharLength_pos g.mChar
          exact ih _ _ _ (by omega) (by omega)
        · rfl

theorem GetCharacterColumn_loop_fuel (tab : Nat) (ln : Line) (t : Nat) :
    ∀ (f1 f2 c i : Nat), ln.length ≤ f1 + i → ln.length ≤ f2 + i →
      GetCharacterColumn.loop tab ln t f1 c i = GetCharacterColumn.loop tab ln t f2 c i := by
  intro f1
  induction f1 with
  | zero =>
    intro f2 c i h1 _
    have hn : ln[i]? = none := getElem?_none_of_le (by omega)
    cases f2 with
    | zero => rfl
    | succ m => simp [GetCharacterColumn.loop, hn]
  | succ n ih =>
    intro f2 c i h1 h2
    cases f2 with
    | zero =>
      have hn : ln[i]? = none := getElem?_none_of_le (by omega)
      simp [GetCharacterColumn.loop, hn]
    | succ m =>
      unfold GetCharacterColumn.loop
      cases hg : ln[i]? with
      | none => rfl
      | some g =>
        simp only []
        split
        · have := UTF8CharLength_pos g.mChar
          exact ih _ _ _ (by omega) (by omega)
        · rfl

theorem GetLineMaxColumn_loop_fuel (tab : Nat) (ln : Line) :
    ∀ (f1 f2 c i : Nat), ln.length ≤ f1 + i → ln.length ≤ f2 + i →
      GetLineMaxColumn.loop tab ln f1 c i = GetLineMaxColumn.loop tab ln f2 c i := by
  intro f1
  induction f1 with
  | zero =>
    intro f2 c i h1 _
    have hn : ln[i]? = none := getElem?_none_of_le (by omega)
    cases f2 with
    | zero => rfl
    | succ m => simp [GetLineMaxColumn.loop, hn]
  | succ n ih =>
    intro f2 c i h1 h2
    cases f2 with
    | zero =>
      have hn : ln[i]? = none := getElem?_none_of_le (by omega)
      simp [GetLineMaxColumn.loop, hn]
    | succ m =>
      unfold GetLineMaxColumn.loop
      cases hg : ln[i]? with
      | none => rfl
      | some g =>
        simp only []
        have := UTF8CharLength_pos g.mChar
        exact ih _ _ _ (by omega) (by omega)

/-- The `GetCharacterIndex` loop stops at a state past the line or at the target column. -/
theorem GetCharacterIndex_loop_stop (tab : Nat) (ln : Line) (k f c i : Nat)
    (h : ln.length ≤ i ∨ k ≤ c) : GetCharacterIndex.loop tab ln k f c i = i := by
  cases f with
  | zero => rfl
  | succ n =>
    unfold GetCharacterIndex.loop
    cases hg : ln[i]? with
    | none => rfl
    | some g =>
      have hi := lt_length_of_getElem? hg
      have hk : ¬ c < k := by omega
      simp [hk]

theorem GetCharacterColumn_loop_stop (tab : Nat) (ln : Line) (t f c i : Nat)
    (h : ln.length ≤ i ∨ t ≤ i) : GetCharacterColumn.loop tab ln t f c i = c := by
  cases f with
  | zero => rfl
  | succ n =>
    unfold GetCharacterColumn.loop
    cases hg : ln[i]? with
    | none => rfl
    | some g =>
      have hi := lt_length_of_getElem? hg
      have hk : ¬ i < t := by omega
      simp [hk]

theorem GetLineMaxColumn_loop_stop (tab : Nat) (ln : Line) (f c i : Nat)
    (h : ln.length ≤ i) : GetLineMaxColumn.loop tab ln f c i = c := by
  cases f with
  | zero => rfl
  | succ n =>
    unfold GetLineMaxColumn.loop
    rw [getElem?_none_of_le h]

/-- One step of the `GetCharacterIndex` loop, for any sufficient fuel on both sides. -/
theorem GetCharacterIndex_loop_step (tab : Nat) (ln : Line) (k f f' c i : Nat) (g : Glyph)
    (hg : ln[i]? = some g) (hc : c < k) (hf : ln.length ≤ f + i)
    (hf' : ln.length ≤ f' + (i + UTF8CharLength g.mChar)) :
    GetCharacterIndex.loop tab ln k f c i =
      GetCharacterIndex.loop tab ln k f' (advanceColumn tab g.mChar c)
        (i + UTF8CharLength g.mChar) := by
  have hi := lt_length_of_getElem? hg
  cases f with
  | zero => omega
  | succ n =>
    rw [GetCharacterIndex.loop, hg]
    simp only [hc, if_true]
    have := UTF8CharLength_pos g.mChar
    exact GetCharacterIndex_loop_fuel tab ln k _ _ _ _ (by omega) hf'

theorem GetCharacterColumn_loop_step (tab : Nat) (ln : Line) (t f f' c i : Nat) (g : Glyph)
    (hg : ln[i]? = some g) (hc : i < t) (hf : ln.length ≤ f + i)
    (hf' : ln.length ≤ f' + (i + UTF8CharLength g.mChar)) :
    GetCharacterColumn.loop tab ln t f c i =
      GetCharacterColumn.loop tab ln t f' (advanceColumn tab g.mChar c)
        (i + UTF8CharLength g.mChar) := by
  have hi := lt_length_of_getElem? hg
  cases f with
  | zero => omega
  | succ n =>
    rw [GetCharacterColumn.loop, hg]
    simp only [hc, if_true]
    have := UTF8CharLength_pos g.mChar
    exact GetCharacterColumn_loop_fuel tab ln t _ _ _ _ (by omega) hf'

theorem GetLineMaxColumn_loop_step (tab : Nat) (ln : Line) (f f' c i : Nat) (g : Glyph)
    (hg : ln[i]? = some g) (hf : ln.length ≤ f + i)
    (hf' : ln.length ≤ f' + (i + UTF8CharLength g.mChar)) :
    GetLineMaxColumn.loop tab ln f c i =
      GetLineMaxColumn.loop tab ln f' (advanceColumn tab g.mChar c)
        (i + UTF8CharLength g.mChar) := by
  have hi := lt_length_of_getElem? hg
  cases f with
  | zero => omega
  | succ n =>
    rw [GetLineMaxColumn.loop, hg]
    have := UTF8CharLength_pos g.mChar
    exact GetLineMaxColumn_loop_fuel tab ln _ _ _ _ (by omega) hf'

theorem Walk.weaken {tab : Nat} {ln : Line} {k t k' t' c i c' i' : Nat}
    (h : Walk tab ln k t c i c' i') (hk : k ≤ k') (ht : t ≤ t') :
    Walk tab ln k' t' c i c' i' := by
  induction h with
  | refl c i => exact Walk.refl c i
  | step g hg hc hi _ ih => exact Walk.step g hg (by omega) (by omega) ih

theorem Walk.index_le {tab : Nat} {ln : Line} {k t c i c' i' : Nat}
    (h : Walk tab ln k t c i c' i') : i ≤ i' := by
  induction h with
  | refl c i => exact Nat.le_refl _
  | step g hg hc hi _ ih => omega

theorem Walk.column_le {tab : Nat} {ln : Line} {k t c i c' i' : Nat} (htab : 0 < tab)
    (h : Walk tab ln k t c i c' i') : c ≤ c' := by
  induction h with
  | refl c i => exact Nat.le_refl _
  | @step c i c' i' g hg hc hi _ ih =>
    have := advanceColumn_gt htab g.mChar c
    omega

/-- A walk can be re-guarded by its own end state. -/
theorem Walk.tighten {tab : Nat} {ln : Line} {k t c i c' i' : Nat} (htab : 0 < tab)
    (h : Walk tab ln k t c i c' i') : Walk tab ln c' i' c i c' i' := by
  induction h with
  | refl c i => exact Walk.refl c i
  | @step c i c' i' g hg hc hi hw ih =>
    have h1 := advanceColumn_gt htab g.mChar c
    have h2 := UTF8CharLength_pos g.mChar
    have h3 := hw.column_le htab
    have h4 := hw.index_le
    exact Walk.step g hg (by omega) (by omega) ih

theorem Walk.trans {tab : Nat} {ln : Line} {k t c i c1 i1 c2 i2 : Nat}
    (h1 : Walk tab ln k t c i c1 i1) (h2 : Walk tab ln k t c1 i1 c2 i2) :
    Walk tab ln k t c i c2 i2 := by
  induction h1 with
  | refl c i => exact h2
  | step g hg hc hi _ ih => exact Walk.step g hg hc hi (ih h2)

/-- A walk only reads cells before its end index, so it carries over to any line that has
the same cells there. -/
theorem Walk.transfer {tab : Nat} {ln ln' : Line} {k t c i c' i' : Nat}
    (h : Walk tab ln k t c i c' i') (hpre : ∀ j, j < i' → ln'[j]? = ln[j]?) :
    Walk tab ln' k t c i c' i' := by
  induction h with
  | refl c i => exact Walk.refl c i
  | @step c i c' i' g hg hc hi hw ih =>
    have h2 := UTF8CharLength_pos g.mChar
    have h4 := hw.index_le
    have hg' : ln'[i]? = some g := by rw [hpre i (by omega)]; exact hg
    exact Walk.step g hg' hc hi (ih hpre)

theorem GetCharacterIndex_loop_walk {tab : Nat} {ln : Line} {k t c i c' i' : Nat}
    (h : Walk tab ln k t c i c' i') :
    ∀ (f f' : Nat), ln.length ≤ f + i → ln.length ≤ f' + i' →
      GetCharacterIndex.loop tab ln k f c i = GetCharacterIndex.loop tab ln k f' c' i' := by
  induction h with
  | refl c i => intro f f' h1 h2; exact GetCharacterIndex_loop_fuel tab ln k _ _ _ _ h1 h2
  | @step c i c' i' g hg hc hi hw ih =>
    intro f f' h1 h2
    rw [GetCharacterIndex_loop_step tab ln k f ln.length c i g hg hc h1 (by omega)]
    exact ih _ _ (by omega) h2

theorem GetCharacterColumn_loop_walk {tab : Nat} {ln : Line} {k t c i c' i' : Nat}
    (h : Walk tab ln k t c i c' i') :
    ∀ (f f' : Nat), ln.length ≤ f + i → ln.length ≤ f' + i' →
      GetCharacterColumn.loop tab ln t f c i = GetCharacterColumn.loop tab ln t f' c' i' := by
  induction h with
  | refl c i => intro f f' h1 h2; exact GetCharacterColumn_loop_fuel tab ln t _ _ _ _ h1 h2
  | @step c i c' i' g hg hc hi hw ih =>
    intro f f' h1 h2
    rw [GetCharacterColumn_loop_step tab ln t f ln.length c i g hg hi h1 (by omega)]
    exact ih _ _ (by omega) h2

theorem GetLineMaxColumn_loop_walk {tab : Nat} {ln : Line} {k t c i c' i' : Nat}
    (h : Walk tab ln k t c i c' i') :
    ∀ (f f' : Nat), ln.length ≤ f + i → ln.length ≤ f' + i' →
      GetLineMaxColumn.loop tab ln f c i = GetLineMaxColumn.loop tab ln f' c' i' := by
  induction h with
  | refl c i => intro f f' h1 h2; exact GetLineMaxColumn_loop_fuel tab ln _ _ _ _ h1 h2
  | @step c i c' i' g hg hc hi hw ih =>
    intro f f' h1 h2
    rw [GetLineMaxColumn_loop_step tab ln f ln.length c i g hg h1 (by omega)]
    exact ih _ _ (by omega) h2

/-- The `GetCharacterIndex` loop follows a walk whose steps all leave a column below the
target, and ends at the target column or past the line. -/
theorem GetCharacterIndex_loop_exists (tab : Nat) (ln : Line) (k : Nat) :
    ∀ (f c i : Nat), ln.length ≤ f + i →
      ∃ c', Walk tab ln k ln.length c i c' (GetCharacterIndex.loop tab ln k f c i) ∧
        (k ≤ c' ∨ ln.length ≤ GetCharacterIndex.loop tab ln k f c i) := by
  intro f
  induction f with
  | zero =>
    intro c i h
    exact ⟨c, Walk.refl c i, Or.inr (by simpa [GetCharacterIndex.loop] using h)⟩
  | succ n ih =>
    intro c i h
    unfold GetCharacterIndex.loop
    cases hg : ln[i]? with
    | none =>
      have : ln.length ≤ i := by
        by_contra hc
        rw [List.getElem?_eq_getElem (Nat.lt_of_not_le hc)] at hg
        cases hg
      exact ⟨c, Walk.refl c i, Or.inr this⟩
    | some g =>
      simp only []
      split
      · rename_i hc
        have h2 := UTF8CharLength_pos g.mChar
        obtain ⟨c', hw, hstop⟩ := ih (advanceColumn tab g.mChar c) (i + UTF8CharLength g.mChar)
          (by omega)
        exact ⟨c', Walk.step g hg hc (lt_length_of_getElem? hg) hw, hstop⟩
      · rename_i hc
        exact ⟨c, Walk.refl c i, Or.inl (by omega)⟩

theorem GetLineMaxColumn_loop_ge {tab : Nat} (htab : 0 < tab) (ln : Line) :
    ∀ (f c i : Nat), c ≤ GetLineMaxColumn.loop tab ln f c i := by
  intro f
  induction f with
  | zero => intro c i; exact Nat.le_refl _
  | succ n ih =>
    intro c i
    unfold GetLineMaxColumn.loop
    cases hg : ln[i]? with
    | none => exact Nat.le_refl _
    | some g =>
      simp only []
      have h1 := advanceColumn_gt htab g.mChar c
      have h2 := ih (advanceColumn tab g.mChar c) (i + UTF8CharLength g.mChar)
      omega

/-! ## `EnterCharacter` followed by `Undo` -/

set_option maxRecDepth 100000 in
theorem UTF8CharLength_ascii : ∀ x, x < 128 → UTF8CharLength x = 1 := by decide

set_option maxRecDepth 100000 in
theorem UTF8CharLength_two : ∀ x, x < 224 → 192 ≤ x → UTF8CharLength x = 2 := by decide

set_option maxRecDepth 100000 in
theorem UTF8CharLength_three : ∀ x, x < 240 → 224 ≤ x → UTF8CharLength x = 3 := by decide

theorem UTF8CharLength_240 : UTF8CharLength 240 = 4 := by decide

/-- For a 16-bit character code other than NUL that `ImTextCharToUtf8` encodes, the bytes
written are non-zero and their count is the length announced by the first byte. -/
theorem ImTextCharToUtf8_spec (c : Nat) (hc : c < 65536) (h0 : c ≠ 0)
    (henc : 0 < (ImTextCharToUtf8 c).1) :
    ∃ b0 rest, (ImTextCharToUtf8 c).2 = b0 :: rest ∧ cstr (ImTextCharToUtf8 c).2 = b0 :: rest ∧
      UTF8CharLength b0 = rest.length + 1 := by
  have hand : ∀ x : Nat, x &&& 0x3f ≤ 0x3f := fun x => Nat.and_le_right
  have h6 : c >>> 6 = c / 64 := by rw [Nat.shiftRight_eq_div_pow]
  have h12 : c >>> 12 = c / 4096 := by rw [Nat.shiftRight_eq_div_pow]
  have h18 : c >>> 18 = c / 262144 := by rw [Nat.shiftRight_eq_div_pow]
  unfold ImTextCharToUtf8 at henc ⊢
  by_cases h1 : c < 0x80
  · simp only [h1, if_true]
    refine ⟨c % 256, [], rfl, ?_, ?_⟩
    · have : c % 256 ≠ 0 := by omega
      simp [cstr, this]
    · have : c % 256 = c := by omega
      rw [this]; exact UTF8CharLength_ascii c h1
  · by_cases h2 : c < 0x800
    · simp only [h1, h2, if_true, if_false]
      have ha := hand c
      refine ⟨_, _, rfl, ?_, ?_⟩
      · have e1 : (0xc0 + (c >>> 6)) % 256 ≠ 0 := by omega
        have e2 : (0x80 + (c &&& 0x3f)) % 256 ≠ 0 := by omega
        simp [cstr, e1, e2]
      · exact UTF8CharLength_two _ (by omega) (by omega)
    · by_cases h3 : c ≥ 0xdc00 ∧ c < 0xe000
      · simp [h1, h2, h3] at henc
      · by_cases h4 : c ≥ 0xd800 ∧ c < 0xdc00
        · simp only [h1, h2, h3, h4, if_true, if_false]
          have ha := hand c
          have hb := hand (c >>> 6)
          have hd := hand (c >>> 12)
          refine ⟨_, _, rfl, ?_, ?_⟩
          · have e1 : (0xf0 + (c >>> 18)) % 256 ≠ 0 := by omega
            have e2 : (0x80 + (c &&& 0x3f)) % 256 ≠ 0 := by omega
            have e3 : (0x80 + ((c >>> 6) &&& 0x3f)) % 256 ≠ 0 := by omega
            have e4 : (0x80 + ((c >>> 12) &&& 0x3f)) % 256 ≠ 0 := by omega
            simp [cstr, e1, e2, e3, e4]
          · have : (0xf0 + (c >>> 18)) % 256 = 240 := by omega
            rw [this]; exact UTF8CharLength_240
        · simp only [h1, h2, h3, h4, if_false]
          have ha := hand c
          have hb := hand (c >>> 6)
          refine ⟨_, _, rfl, ?_, ?_⟩
          · have e1 : (0xe0 + (c >>> 12)) % 256 ≠ 0 := by omega
            have e2 : (0x80 + (c &&& 0x3f)) % 256 ≠ 0 := by omega
            have e3 : (0x80 + ((c >>> 6) &&& 0x3f)) % 256 ≠ 0 := by omega
            simp [cstr, e1, e2, e3]
          · exact UTF8CharLength_three _ (by omega) (by omega)

theorem ImTextCharToUtf8_zero : cstr (ImTextCharToUtf8 0).2 = [] := by decide

theorem getElem?_insert_lt {L B : Line} {p j : Nat} (hj : j < p) (hp : p ≤ L.length) :
    (L.take p ++ B ++ L.drop p)[j]? = L[j]? := by
  rw [List.append_assoc, List.getElem?_append_left (by simp; omega), List.getElem?_take]
  simp [hj]

theorem getElem?_insert_at {L : Line} {b0 : Glyph} {rest : Line} {p : Nat} (hp : p ≤ L.length) :
    (L.take p ++ (b0 :: rest) ++ L.drop p)[p]? = some b0 := by
  rw [List.append_assoc, List.getElem?_append_right (by simp)]
  simp [Nat.min_eq_left hp]

/-- Line-level facts behind the undo of a single inserted character: `L` is the line, `k` the
cursor column, `p` the character index of the cursor, `B` the inserted character. -/
theorem insert_char_facts {tab : Nat} (htab : 0 < tab) (L : Line) (k : Nat) (b0 : Glyph)
    (rest : Line) (hlen : UTF8CharLength b0.mChar = rest.length + 1)
    (hp : GetCharacterIndex.loop tab L k L.length 0 0 ≤ L.length)
    (hk : k ≤ GetLineMaxColumn.loop tab L L.length 0 0) :
    ∃ cp p ln', p = GetCharacterIndex.loop tab L k L.length 0 0 ∧
      ln' = L.take p ++ (b0 :: rest) ++ L.drop p ∧ k ≤ cp ∧
      GetCharacterIndex.loop tab ln' k ln'.length 0 0 = p ∧
      GetCharacterColumn.loop tab ln' (p + (rest.length + 1)) ln'.length 0 0 =
        advanceColumn tab b0.mChar cp ∧
      GetCharacterIndex.loop tab ln' (advanceColumn tab b0.mChar cp) ln'.length 0 0 =
        p + (rest.length + 1) ∧
      advanceColumn tab b0.mChar cp ≤ GetLineMaxColumn.loop tab ln' ln'.length 0 0 ∧
      (L.drop p ≠ [] →
        advanceColumn tab b0.mChar cp < GetLineMaxColumn.loop tab ln' ln'.length 0 0) := by
  obtain ⟨cp, hw, hstop⟩ := GetCharacterIndex_loop_exists tab L k L.length 0 0 (by omega)
  generalize hpdef : GetCharacterIndex.loop tab L k L.length 0 0 = p at hw hstop hp
  have hkcp : k ≤ cp := by
    rcases hstop with h | h
    · exact h
    · have := GetLineMaxColumn_loop_walk hw L.length L.length (by omega) (by omega)
      rw [GetLineMaxColumn_loop_stop tab L _ _ _ h] at this
      omega
  refine ⟨cp, p, L.take p ++ (b0 :: rest) ++ L.drop p, rfl, rfl, hkcp, ?_⟩
  generalize hln' : L.take p ++ (b0 :: rest) ++ L.drop p = ln'
  have hlen' : ln'.length = L.length + (rest.length + 1) := by
    rw [← hln']; simp; omega
  have hw' : Walk tab ln' k L.length 0 0 cp p :=
    hw.transfer (fun j hj => by rw [← hln']; exact getElem?_insert_lt hj hp)
  have hb0 : ln'[p]? = some b0 := by rw [← hln']; exact getElem?_insert_at hp
  have hadv := advanceColumn_gt htab b0.mChar cp
  have hw2 : Walk tab ln' (advanceColumn tab b0.mChar cp) (p + (rest.length + 1)) 0 0
      (advanceColumn tab b0.mChar cp) (p + (rest.length + 1)) := by
    have h1 : Walk tab ln' (advanceColumn tab b0.mChar cp) (p + (rest.length + 1)) 0 0 cp p :=
      (hw'.tighten htab).weaken (by omega) (by omega)
    refine h1.trans (Walk.step b0 hb0 hadv (by omega) ?_)
    rw [hlen]
    exact Walk.refl _ _
  refine ⟨?_, ?_, ?_, ?_, ?_⟩
  · rw [GetCharacterIndex_loop_walk hw' ln'.length ln'.length (by omega) (by omega)]
    exact GetCharacterIndex_loop_stop tab ln' _ _ _ _ (Or.inr hkcp)
  · rw [GetCharacterColumn_loop_walk hw2 ln'.length ln'.length (by omega) (by omega)]
    exact GetCharacterColumn_loop_stop tab ln' _ _ _ _ (Or.inr (Nat.le_refl _))
  · rw [GetCharacterIndex_loop_walk hw2 ln'.length ln'.length (by omega) (by omega)]
    exact GetCharacterIndex_loop_stop tab ln' _ _ _ _ (Or.inr (Nat.le_refl _))
  · rw [GetLineMaxColumn_loop_walk hw2 ln'.length ln'.length (by omega) (by omega)]
    exact GetLineMaxColumn_loop_ge htab ln' _ _ _
  · intro hS
    rw [GetLineMaxColumn_loop_walk hw2 ln'.length ln'.length (by omega) (by omega)]
    have hpl : p < L.length := by
      by_contra hc
      exact hS (List.drop_eq_nil_of_le (by omega))
    have hnext : ∃ g, ln'[p + (rest.length + 1)]? = some g := by
      have : p + (rest.length + 1) < ln'.length := by omega
      exact ⟨ln'[p + (rest.length + 1)], List.getElem?_eq_getElem this⟩
    obtain ⟨g, hg⟩ := hnext
    rw [GetLineMaxColumn_loop_step tab ln' ln'.length ln'.length _ _ g hg (by omega) (by omega)]
    have h1 := advanceColumn_gt htab g.mChar (advanceColumn tab b0.mChar cp)
    have h2 := GetLineMaxColumn_loop_ge htab ln' ln'.length
      (advanceColumn tab g.mChar (advanceColumn tab b0.mChar cp))
      (p + (rest.length + 1) + UTF8CharLength g.mChar)
    omega

theorem GetCharacterIndex_eq {e : TextEditor} {c : Coordinates} {L : Line}
    (h : e.mLines[c.mLine]? = some L) :
    GetCharacterIndex e c = (GetCharacterIndex.loop e.mTabSize L c.mColumn L.length 0 0 : Nat) := by
  unfold GetCharacterIndex; rw [h]

theorem GetCharacterColumn_eq {e : TextEditor} {l i : Nat} {L : Line}
    (h : e.mLines[l]? = some L) :
    GetCharacterColumn e l i = GetCharacterColumn.loop e.mTabSize L i L.length 0 0 := by
  unfold GetCharacterColumn; rw [h]

theorem GetLineMaxColumn_eq {e : TextEditor} {l : Nat} {L : Line}
    (h : e.mLines[l]? = some L) :
    GetLineMaxColumn e l = GetLineMaxColumn.loop e.mTabSize L L.length 0 0 := by
  unfold GetLineMaxColumn; rw [h]

theorem SanitizeCoordinates_of_valid {e : TextEditor} {c : Coordinates}
    (h1 : c.mLine < e.mLines.length) (h2 : c.mColumn ≤ GetLineMaxColumn e c.mLine) :
    SanitizeCoordinates e c = c := by
  have hemp : e.mLines.isEmpty = false := isEmpty_eq_false_of_lt h1
  unfold SanitizeCoordinates
  have h3 : ¬ (c.mLine ≥ e.mLines.length) := by omega
  simp only [h3, hemp, if_false, Bool.false_eq_true]
  cases c with
  | mk l k => simp only [Coordinates.mk.injEq, true_and]; exact Nat.min_eq_left h2

theorem SanitizeCoordinates_valid {e : TextEditor} (c : Coordinates) (hne : e.mLines ≠ []) :
    (SanitizeCoordinates e c).mLine < e.mLines.length ∧
    (SanitizeCoordinates e c).mColumn ≤ GetLineMaxColumn e (SanitizeCoordinates e c).mLine := by
  have hpos : 0 < e.mLines.length := List.length_pos.mpr hne
  have hemp : e.mLines.isEmpty = false := isEmpty_eq_false_of_lt hpos
  unfold SanitizeCoordinates
  by_cases h1 : c.mLine ≥ e.mLines.length
  · simp only [h1, hemp, if_true, if_false, Bool.false_eq_true]
    exact ⟨by omega, Nat.le_refl _⟩
  · simp only [h1, hemp, if_false, Bool.false_eq_true]
    exact ⟨by omega, Nat.min_le_right _ _⟩

theorem Coordinates.gt_self (a : Coordinates) : a.gt a = false := by
  simp [Coordinates.gt]

theorem AddUndo_eq {e : TextEditor} (u : UndoRecord) (hro : e.mReadOnly = false) :
    AddUndo e u = some { e with
      mUndoBuffer := e.mUndoBuffer.take e.mUndoIndex ++
        List.replicate (e.mUndoIndex - e.mUndoBuffer.length) ({} : UndoRecord) ++ [u],
      mUndoIndex := e.mUndoIndex + 1 } := by
  unfold AddUndo; simp [hro]

theorem AddUndo_buffer_get (buf : List UndoRecord) (n : Nat) (u : UndoRecord) :
    (buf.take n ++ List.replicate (n - buf.length) ({} : UndoRecord) ++ [u])[n]? = some u := by
  have hl : (buf.take n ++ List.replicate (n - buf.length) ({} : UndoRecord)).length = n := by
    simp; omega
  rw [List.getElem?_append_right (by omega)]
  simp [hl]

/-- `DeleteRange` inside one line, in terms of the two character indices. -/
theorem DeleteRange_sameLine_eq {e : TextEditor} {l a b : Nat} {ln : Line}
    (hro : e.mReadOnly = false) (hln : e.mLines[l]? = some ln) (hab : a < b) {s t : Nat}
    (hs : GetCharacterIndex.loop e.mTabSize ln a ln.length 0 0 = s)
    (ht : GetCharacterIndex.loop e.mTabSize ln b ln.length 0 0 = t)
    (hst : s ≤ t) (htl : t ≤ ln.length)
    (hmax : GetLineMaxColumn.loop e.mTabSize ln ln.length 0 0 ≤ b → t = ln.length) :
    ∃ e', DeleteRange e ⟨l, a⟩ ⟨l, b⟩ = some e' ∧
      e'.mLines = e.mLines.set l (ln.take s ++ ln.drop t) := by
  have hge : (⟨l, b⟩ : Coordinates).ge ⟨l, a⟩ = true := by
    simp [Coordinates.ge]; omega
  have hneq : ¬ ((⟨l, b⟩ : Coordinates) = ⟨l, a⟩) := by
    simp; omega
  have hsame : DeleteRange.sameLine e ⟨l, a⟩ ⟨l, b⟩ ln = some (ln.take s ++ ln.drop t) := by
    unfold DeleteRange.sameLine
    rw [GetCharacterIndex_eq (c := ⟨l, a⟩) hln, GetCharacterIndex_eq (c := ⟨l, b⟩) hln,
      GetLineMaxColumn_eq hln]
    simp only [Int.toNat_ofNat, hs, ht]
    split
    · rename_i h
      have := hmax h
      subst this
      simp [eraseRange, hst]
    · simp [eraseRange, hst, htl]
  unfold DeleteRange
  simp only [hge, hro, hneq, hln, hsame]
  simp


@[simp] theorem Colorize_mReadOnly (e : TextEditor) (a b : Int) :
    (Colorize e a b).mReadOnly = e.mReadOnly := rfl
@[simp] theorem Colorize_mTabSize (e : TextEditor) (a b : Int) :
    (Colorize e a b).mTabSize = e.mTabSize := rfl
@[simp] theorem Colorize_mUndoBuffer (e : TextEditor) (a b : Int) :
    (Colorize e a b).mUndoBuffer = e.mUndoBuffer := rfl
@[simp] theorem Colorize_mUndoIndex (e : TextEditor) (a b : Int) :
    (Colorize e a b).mUndoIndex = e.mUndoIndex := rfl
@[simp] theorem Colorize_mState (e : TextEditor) (a b : Int) :
    (Colorize e a b).mState = e.mState := rfl
@[simp] theorem SetCursorPosition_mReadOnly (e : TextEditor) (p : Coordinates) :
    (SetCursorPosition e p).mReadOnly = e.mReadOnly := by
  unfold SetCursorPosition EnsureCursorVisible; repeat' split
  all_goals rfl
@[simp] theorem SetCursorPosition_mTabSize (e : TextEditor) (p : Coordinates) :
    (SetCursorPosition e p).mTabSize = e.mTabSize := by
  unfold SetCursorPosition EnsureCursorVisible; repeat' split
  all_goals rfl
@[simp] theorem SetCursorPosition_mUndoBuffer (e : TextEditor) (p : Coordinates) :
    (SetCursorPosition e p).mUndoBuffer = e.mUndoBuffer := by
  unfold SetCursorPosition EnsureCursorVisible; repeat' split
  all_goals rfl
@[simp] theorem SetCursorPosition_mUndoIndex (e : TextEditor) (p : Coordinates) :
    (SetCursorPosition e p).mUndoIndex = e.mUndoIndex := by
  unfold SetCursorPosition EnsureCursorVisible; repeat' split
  all_goals rfl
theorem SetCursorPosition_mState (e : TextEditor) (p : Coordinates) :
    (SetCursorPosition e p).mState = { e.mState with mCursorPosition := p } := by
  unfold SetCursorPosition EnsureCursorVisible
  split
  · split <;> rfl
  · rename_i h
    simp only [ne_eq, not_not] at h
    rw [← h]
@[simp] theorem EnsureCursorVisible_mReadOnly (e : TextEditor) :
    (EnsureCursorVisible e).mReadOnly = e.mReadOnly := by
  unfold EnsureCursorVisible; split <;> rfl
@[simp] theorem EnsureCursorVisible_mTabSize (e : TextEditor) :
    (EnsureCursorVisible e).mTabSize = e.mTabSize := by
  unfold EnsureCursorVisible; split <;> rfl
@[simp] theorem EnsureCursorVisible_mUndoBuffer (e : TextEditor) :
    (EnsureCursorVisible e).mUndoBuffer = e.mUndoBuffer := by
  unfold EnsureCursorVisible; split <;> rfl
@[simp] theorem EnsureCursorVisible_mUndoIndex (e : TextEditor) :
    (EnsureCursorVisible e).mUndoIndex = e.mUndoIndex := by
  unfold EnsureCursorVisible; split <;> rfl
@[simp] theorem EnsureCursorVisible_mState (e : TextEditor) :
    (EnsureCursorVisible e).mState = e.mState := by
  unfold EnsureCursorVisible; split <;> rfl

theorem finish_eq {e : TextEditor} (u : UndoRecord) (coord : Coordinates)
    (hro : e.mReadOnly = false) :
    ∃ e1, EnterCharacter.finish e u coord = some e1 ∧ e1.mLines = e.mLines ∧
      e1.mReadOnly = false ∧ e1.mTabSize = e.mTabSize ∧ e1.mUndoIndex = e.mUndoIndex + 1 ∧
      e1.mUndoBuffer[e.mUndoIndex]? =
        some { u with mAddedEnd := GetActualCursorCoordinates e, mAfter := e.mState } := by
  unfold EnterCharacter.finish
  rw [AddUndo_eq _ (by exact hro)]
  refine ⟨_, rfl, ?_, ?_, ?_, ?_, ?_⟩
  · simp
  · simpa using hro
  · simp
  · simp
  · simp only [EnsureCursorVisible_mUndoBuffer]
    exact AddUndo_buffer_get _ _ _

/-- `Undo(1)` of a record that only added text: the added span is deleted and the state
before the edit is restored. -/
theorem Undo_one_added {e1 e' : TextEditor} {u : UndoRecord} {n : Nat}
    (hro : e1.mReadOnly = false) (hidx : e1.mUndoIndex = n + 1)
    (hu : e1.mUndoBuffer[n]? = some u) (hrem : u.mRemoved = []) (hadd : u.mAdded ≠ [])
    (hdel : DeleteRange { e1 with mUndoIndex := n } u.mAddedStart u.mAddedEnd = some e') :
    ∃ e2, Undo e1 1 = some e2 ∧ e2.mLines = e'.mLines ∧ e2.mState = u.mBefore := by
  have hcan : CanUndo e1 = true := by simp [CanUndo, hro, hidx]
  have hadd' : u.mAdded.isEmpty = false := by
    cases h : u.mAdded with
    | nil => exact absurd h hadd
    | cons a t => rfl
  unfold Undo
  simp only [hcan, if_true, hidx, Nat.add_sub_cancel, hu]
  unfold UndoRecord.Undo UndoRecord.deleteSpan UndoRecord.insertSpan
  simp only [hadd', hdel, hrem, List.isEmpty_nil, if_true, Bool.false_eq_true, if_false]
  refine ⟨_, rfl, ?_, ?_⟩
  · simp [Undo]
  · simp [Undo]

/-- `Undo(1)` of a record that neither added nor removed text restores the state only. -/
theorem Undo_one_empty {e1 : TextEditor} {u : UndoRecord} {n : Nat}
    (hro : e1.mReadOnly = false) (hidx : e1.mUndoIndex = n + 1)
    (hu : e1.mUndoBuffer[n]? = some u) (hrem : u.mRemoved = []) (hadd : u.mAdded = []) :
    ∃ e2, Undo e1 1 = some e2 ∧ e2.mLines = e1.mLines ∧ e2.mState = u.mBefore := by
  have hcan : CanUndo e1 = true := by simp [CanUndo, hro, hidx]
  unfold Undo
  simp only [hcan, if_true, hidx, Nat.add_sub_cancel, hu]
  unfold UndoRecord.Undo UndoRecord.deleteSpan UndoRecord.insertSpan
  simp only [hadd, hrem, List.isEmpty_nil, if_true]
  refine ⟨_, rfl, ?_, ?_⟩
  · simp [Undo]
  · simp [Undo]

theorem set_of_getElem? {α : Type} : ∀ {l : List α} {i : Nat} {x : α}, l[i]? = some x →
    l.set i x = l := by
  intro l
  induction l with
  | nil => intro i x h; simp at h
  | cons a t ih =>
    intro i x h
    cases i with
    | zero => simp at h; simp [h]
    | succ n => simp at h; simp [ih h]

theorem take_drop_insert {L B : Line} {p : Nat} (hp : p ≤ L.length) :
    (L.take p ++ B ++ L.drop p).take p ++ (L.take p ++ B ++ L.drop p).drop (p + B.length) = L := by
  have h1 : (L.take p).length = p := by simp [Nat.min_eq_left hp]
  rw [List.append_assoc, List.take_left' h1]
  have h2 : (L.take p ++ (B ++ L.drop p)).drop (p + B.length) = L.drop p := by
    rw [← List.append_assoc]
    exact List.drop_left' (by simp [h1])
  rw [h2, List.take_append_drop]

theorem overwrite_off {e : TextEditor} (hov : e.mOverwrite = false) (u : UndoRecord)
    (coord : Coordinates) (ln : Line) (ci : Nat) :
    EnterCharacter.overwrite e u coord ln ci = (ln, u) := by
  unfold EnterCharacter.overwrite
  simp [hov]

/-- The branch of `EnterCharacter` for one inserted character followed by `Undo(1)`: lines and
editor state come back. -/
theorem plain_undo_restores {e : TextEditor} (u : UndoRecord) (htab : 0 < e.mTabSize)
    (hro : e.mReadOnly = false) (hov : e.mOverwrite = false) (hne : e.mLines ≠ [])
    (b0 : Nat) (rest : List Nat) (hlen : UTF8CharLength b0 = rest.length + 1)
    (L : Line) (hL : e.mLines[(GetActualCursorCoordinates e).mLine]? = some L)
    (hp : GetCharacterIndex.loop e.mTabSize L (GetActualCursorCoordinates e).mColumn
      L.length 0 0 ≤ L.length)
    (hrem : u.mRemoved = []) (hst : u.mAddedStart = GetActualCursorCoordinates e) :
    ∃ e1 e2, EnterCharacter.plain e u (GetActualCursorCoordinates e) (b0 :: rest) = some e1 ∧
      Undo e1 1 = some e2 ∧ e2.mLines = e.mLines ∧ e2.mState = u.mBefore := by
  have hval := SanitizeCoordinates_valid e.mState.mCursorPosition hne
  generalize hcoord : GetActualCursorCoordinates e = coord at hL hp hst
  have hcoord' : SanitizeCoordinates e e.mState.mCursorPosition = coord := hcoord
  rw [hcoord'] at hval
  obtain ⟨hl, hk⟩ := hval
  rw [GetLineMaxColumn_eq hL] at hk
  obtain ⟨cp, p, ln', hpdef, hln', hkcp, f1, f2, f3, f4, f5⟩ :=
    insert_char_facts htab L coord.mColumn ({ mChar := b0 } : Glyph)
      (rest.map (fun b => ({ mChar := b } : Glyph))) (by simpa using hlen) hp hk
  rw [← hpdef] at hp
  simp only [List.length_map] at f2 f3
  replace f4 : advanceColumn e.mTabSize b0 cp ≤
      GetLineMaxColumn.loop e.mTabSize ln' ln'.length 0 0 := f4
  replace f5 : L.drop p ≠ [] → advanceColumn e.mTabSize b0 cp <
      GetLineMaxColumn.loop e.mTabSize ln' ln'.length 0 0 := f5
  have hlen' : ln'.length = L.length + (rest.length + 1) := by
    rw [hln']; simp; omega
  -- the editor after the insertion
  have hins : insertAt L p ((b0 :: rest).map (fun b => ({ mChar := b } : Glyph))) = some ln' := by
    simp [insertAt, hp, hln']
  have hset : (e.mLines.set coord.mLine ln')[coord.mLine]? = some ln' := by
    rw [List.getElem?_set_self hl]
  have hadv := advanceColumn_gt htab b0 cp
  unfold EnterCharacter.plain
  simp only [hL, overwrite_off hov, Bool.false_eq_true, if_false,
    GetCharacterIndex_eq hL, Int.toNat_ofNat, ← hpdef, List.isEmpty_cons, hins]
  rw [GetCharacterColumn_eq (by exact hset)]
  have hcol : GetCharacterColumn.loop
      ({ e with mLines := e.mLines.set coord.mLine ln' } : TextEditor).mTabSize ln'
      (p + (b0 :: rest).length) ln'.length 0 0 = advanceColumn e.mTabSize b0 cp := f2
  rw [hcol]
  obtain ⟨e1, he1, hlines1, hro1, htab1, hidx1, hbuf1⟩ :=
    finish_eq (e := SetCursorPosition { e with mLines := e.mLines.set coord.mLine ln' }
      ⟨coord.mLine, advanceColumn e.mTabSize b0 cp⟩) { u with mAdded := b0 :: rest } coord
      (by simpa using hro)
  suffices hsuff : ∃ e2, Undo e1 1 = some e2 ∧ e2.mLines = e.mLines ∧ e2.mState = u.mBefore by
    obtain ⟨e2, h1, h2, h3⟩ := hsuff
    exact ⟨e1, e2, he1, h1, h2, h3⟩
  simp only [SetCursorPosition_mLines, SetCursorPosition_mTabSize, SetCursorPosition_mUndoIndex]
    at hlines1 htab1 hidx1 hbuf1
  -- the recorded end of the added span
  have hend : GetActualCursorCoordinates (SetCursorPosition
      { e with mLines := e.mLines.set coord.mLine ln' }
      ⟨coord.mLine, advanceColumn e.mTabSize b0 cp⟩) =
      ⟨coord.mLine, advanceColumn e.mTabSize b0 cp⟩ := by
    unfold GetActualCursorCoordinates
    rw [SetCursorPosition_mState]
    apply SanitizeCoordinates_of_valid
    · simpa using hl
    · rw [GetLineMaxColumn_eq (L := ln') (by simpa using hset)]
      simpa using f4
  rw [hend] at hbuf1
  -- undo
  have hline1 : e1.mLines[coord.mLine]? = some ln' := by rw [hlines1]; exact hset
  obtain ⟨e', hdel, hlines'⟩ := @DeleteRange_sameLine_eq
    { e1 with mUndoIndex := e.mUndoIndex } coord.mLine coord.mColumn
    (advanceColumn e.mTabSize b0 cp) ln' hro1 hline1 (by omega) p (p + (rest.length + 1))
    (by rw [htab1]; exact f1) (by rw [htab1]; exact f3) (by omega)
    (by omega)
    (by
      rw [htab1]
      intro hle
      by_cases hS : L.drop p = []
      · have : L.length ≤ p := by
          by_contra hc
          have := List.length_drop p L
          rw [hS] at this
          simp at this
          omega
        omega
      · have := f5 hS
        omega)
  obtain ⟨e2, hundo, hl2, hs2⟩ := @Undo_one_added e1 e'
    { u with mAdded := b0 :: rest,
             mAddedEnd := ⟨coord.mLine, advanceColumn e.mTabSize b0 cp⟩,
             mAfter := (SetCursorPosition { e with mLines := e.mLines.set coord.mLine ln' }
                ⟨coord.mLine, advanceColumn e.mTabSize b0 cp⟩).mState }
    e.mUndoIndex hro1 hidx1 hbuf1 hrem (by simp)
    (by simp only [hst]; exact hdel)
  refine ⟨e2, hundo, ?_, hs2⟩
  rw [hl2, hlines']
  show (e1.mLines.set coord.mLine _) = e.mLines
  rw [hlines1, List.set_set]
  have : ln'.take p ++ ln'.drop (p + (rest.length + 1)) = L := by
    rw [hln']
    have := take_drop_insert (L := L) (B := ({ mChar := b0 } : Glyph) ::
      rest.map (fun b => ({ mChar := b } : Glyph))) hp
    simpa using this
  rw [this]
  exact set_of_getElem? hL

/-- The column reached from `c` by walking over the single-cell characters `X`. -/
theorem walk_block {tab : Nat} (htab : 0 < tab) :
    ∀ (X P R : Line) (c : Nat), (∀ g ∈ X, UTF8CharLength g.mChar = 1) →
      ∃ c', c ≤ c' ∧ Walk tab (P ++ X ++ R) c' (P.length + X.length) c P.length c'
        (P.length + X.length) := by
  intro X
  induction X with
  | nil =>
    intro P R c _
    exact ⟨c, Nat.le_refl _, by simpa using Walk.refl c P.length⟩
  | cons g X ih =>
    intro P R c hX
    have hg1 : UTF8CharLength g.mChar = 1 := hX g (List.mem_cons_self _ _)
    obtain ⟨c', hle, hw⟩ := ih (P ++ [g]) R (advanceColumn tab g.mChar c)
      (fun x hx => hX x (List.mem_cons_of_mem _ hx))
    have hadv := advanceColumn_gt htab g.mChar c
    refine ⟨c', by omega, ?_⟩
    have hget : (P ++ g :: X ++ R)[P.length]? = some g := by
      rw [List.append_assoc, List.getElem?_append_right (Nat.le_refl _)]
      simp
    have heq : P ++ [g] ++ X ++ R = P ++ g :: X ++ R := by simp
    rw [heq] at hw
    refine Walk.step g hget (by omega) (by simp) ?_
    rw [hg1]
    simpa [Nat.add_assoc, Nat.add_comm 1] using hw

/-- Line-level facts behind the undo of an inserted line break: `Wh` is the copied indent (or
empty), `R` the tail moved to the new line. -/
theorem newline_tail_facts {tab : Nat} (htab : 0 < tab) (Wh R : Line)
    (hWh : ∀ g ∈ Wh, UTF8CharLength g.mChar = 1) :
    ∃ cw, GetCharacterColumn.loop tab (Wh ++ R) Wh.length (Wh ++ R).length 0 0 = cw ∧
      GetCharacterIndex.loop tab (Wh ++ R) cw (Wh ++ R).length 0 0 = Wh.length ∧
      cw ≤ GetLineMaxColumn.loop tab (Wh ++ R) (Wh ++ R).length 0 0 := by
  obtain ⟨cw, _, hw⟩ := walk_block htab Wh [] R 0 hWh
  simp only [List.nil_append, List.length_nil, Nat.zero_add] at hw
  refine ⟨cw, ?_, ?_, ?_⟩
  · rw [GetCharacterColumn_loop_walk hw _ (Wh ++ R).length (by omega) (by omega)]
    exact GetCharacterColumn_loop_stop tab _ _ _ _ _ (Or.inr (Nat.le_refl _))
  · rw [GetCharacterIndex_loop_walk hw _ (Wh ++ R).length (by omega) (by omega)]
    exact GetCharacterIndex_loop_stop tab _ _ _ _ _ (Or.inr (Nat.le_refl _))
  · rw [GetLineMaxColumn_loop_walk hw _ (Wh ++ R).length (by omega) (by omega)]
    exact GetLineMaxColumn_loop_ge htab _ _ _ _

/-- The character index of a column is the same on the line cut at that index. -/
theorem index_of_take {tab : Nat} (L : Line) (k : Nat) :
    GetCharacterIndex.loop tab (L.take (GetCharacterIndex.loop tab L k L.length 0 0)) k
      (L.take (GetCharacterIndex.loop tab L k L.length 0 0)).length 0 0 =
      GetCharacterIndex.loop tab L k L.length 0 0 := by
  obtain ⟨cp, hw, _⟩ := GetCharacterIndex_loop_exists tab L k L.length 0 0 (by omega)
  generalize GetCharacterIndex.loop tab L k L.length 0 0 = p at hw ⊢
  have hw' : Walk tab (L.take p) k L.length 0 0 cp p :=
    hw.transfer (fun j hj => by rw [List.getElem?_take]; simp [hj])
  rw [GetCharacterIndex_loop_walk hw' _ (L.take p).length (by omega) (by omega)]
  exact GetCharacterIndex_loop_stop tab _ _ _ _ _ (Or.inl (by simp))

theorem blank_char_length (g : Glyph) (h : g.mChar < 128 ∧ (g.mChar = 32 ∨ g.mChar = 9)) :
    UTF8CharLength g.mChar = 1 := UTF8CharLength_ascii _ h.1

theorem getElem?_split {α : Type} : ∀ {l : List α} {i : Nat} {x : α}, l[i]? = some x →
    l = l.take i ++ x :: l.drop (i + 1) ∧ (l.take i).length = i := by
  intro l
  induction l with
  | nil => intro i x h; simp at h
  | cons a t ih =>
    intro i x h
    cases i with
    | zero => simp at h; simp [h]
    | succ n =>
      simp at h
      obtain ⟨h1, h2⟩ := ih h
      refine ⟨?_, by simp [h2]⟩
      simp only [List.take_succ_cons, List.drop_succ_cons, List.cons_append]
      rw [← h1]

theorem set_append_at {α : Type} (A : List α) (x y : α) (Z : List α) :
    (A ++ x :: Z).set A.length y = A ++ y :: Z := by
  induction A with
  | nil => rfl
  | cons a t ih => simp [ih]

theorem getElem?_append_at {α : Type} (A : List α) (x : α) (Z : List α) :
    (A ++ x :: Z)[A.length]? = some x := by
  rw [List.getElem?_append_right (Nat.le_refl _)]; simp

theorem InsertLine_eq {e : TextEditor} (hro : e.mReadOnly = false) (A Z : Lines)
    (hlines : e.mLines = A ++ Z) :
    ∃ e1, InsertLine e A.length = some e1 ∧ e1.mLines = A ++ [] :: Z ∧
      e1.mReadOnly = false ∧ e1.mTabSize = e.mTabSize ∧ e1.mState = e.mState ∧
      e1.mUndoBuffer = e.mUndoBuffer ∧ e1.mUndoIndex = e.mUndoIndex ∧
      e1.mAutoIndentation = e.mAutoIndentation := by
  have hins : insertAt e.mLines A.length [([] : Line)] = some (A ++ [] :: Z) := by
    rw [hlines]
    simp [insertAt]
  have hro' : ¬ (e.mReadOnly = true) := by simp [hro]
  unfold InsertLine
  simp only [hro', hins, if_false]
  exact ⟨_, rfl, rfl, rfl, rfl, rfl, rfl, rfl, rfl⟩

/-- `DeleteRange` across lines, in terms of the two character indices: the head of the
first line is joined to the tail of the last line and the lines between are removed. -/
theorem DeleteRange_crossLine_eq {e : TextEditor} {a b : Nat} (hro : e.mReadOnly = false)
    (A M Z : Lines) (first last : Line) (hlines : e.mLines = A ++ first :: (M ++ last :: Z))
    {s t : Nat}
    (hs : GetCharacterIndex.loop e.mTabSize first a first.length 0 0 = s)
    (ht : GetCharacterIndex.loop e.mTabSize last b last.length 0 0 = t)
    (hsl : s ≤ first.length) (htl : t ≤ last.length) :
    ∃ e', DeleteRange e ⟨A.length, a⟩ ⟨A.length + 1 + M.length, b⟩ = some e' ∧
      e'.mLines = A ++ (first.take s ++ last.drop t) :: Z := by
  have hl' : A.length + 1 + M.length ≠ A.length := by omega
  have hge : (⟨A.length + 1 + M.length, b⟩ : Coordinates).ge ⟨A.length, a⟩ = true := by
    simp only [Coordinates.ge, ne_eq, hl', not_false_eq_true, if_true, decide_eq_true_eq]
    omega
  have hneq : ¬ ((⟨A.length + 1 + M.length, b⟩ : Coordinates) = ⟨A.length, a⟩) := by
    simp; omega
  have hl : ¬ (A.length = A.length + 1 + M.length) := by omega
  have hlt : A.length < A.length + 1 + M.length := by omega
  have hfirst : e.mLines[A.length]? = some first := by
    rw [hlines]; exact getElem?_append_at A first _
  have hlast : e.mLines[A.length + 1 + M.length]? = some last := by
    rw [hlines]
    have : A ++ first :: (M ++ last :: Z) = (A ++ first :: M) ++ last :: Z := by simp
    rw [this]
    have hlen : (A ++ first :: M).length = A.length + 1 + M.length := by simp; omega
    rw [← hlen]
    exact getElem?_append_at _ last _
  have he1 : eraseRange first s first.length = some (first.take s) := by
    simp [eraseRange, hsl]
  have he2 : eraseRange last 0 t = some (last.drop t) := by
    simp [eraseRange, htl]
  have hset : (e.mLines.set A.length (first.take s ++ last.drop t)).set
      (A.length + 1 + M.length) (last.drop t) =
      A ++ (first.take s ++ last.drop t) :: (M ++ last.drop t :: Z) := by
    rw [hlines, set_append_at]
    have h1 : A ++ (first.take s ++ last.drop t) :: (M ++ last :: Z) =
        (A ++ (first.take s ++ last.drop t) :: M) ++ last :: Z := by simp
    have hlen : (A ++ (first.take s ++ last.drop t) :: M).length =
        A.length + 1 + M.length := by simp; omega
    rw [h1, ← hlen, set_append_at]
    simp
  have herase : eraseRange
      (A ++ (first.take s ++ last.drop t) :: (M ++ last.drop t :: Z))
      (A.length + 1) (A.length + 1 + M.length + 1) =
      some (A ++ (first.take s ++ last.drop t) :: Z) := by
    unfold eraseRange
    have hc : A.length + 1 ≤ A.length + 1 + M.length + 1 ∧ A.length + 1 + M.length + 1 ≤
        (A ++ (first.take s ++ last.drop t) :: (M ++ last.drop t :: Z)).length := by
      simp; omega
    rw [if_pos hc]
    congr 1
    have h1 : A ++ (first.take s ++ last.drop t) :: (M ++ last.drop t :: Z) =
        (A ++ [first.take s ++ last.drop t]) ++ (M ++ last.drop t :: Z) := by simp
    have h2 : A ++ (first.take s ++ last.drop t) :: (M ++ last.drop t :: Z) =
        (A ++ (first.take s ++ last.drop t) :: (M ++ [last.drop t])) ++ Z := by simp
    have hl1 : (A ++ [first.take s ++ last.drop t]).length = A.length + 1 := by simp
    have hl2 : (A ++ (first.take s ++ last.drop t) :: (M ++ [last.drop t])).length =
        A.length + 1 + M.length + 1 := by simp; omega
    conv => lhs; arg 1; rw [h1, List.take_left' hl1]
    conv => lhs; arg 2; rw [h2, List.drop_left' hl2]
    simp
  have hro' : ¬ (e.mReadOnly = true) := by simp [hro]
  unfold DeleteRange
  simp only [hge, hro', hneq, hl, hfirst, hlast,
    GetCharacterIndex_eq (c := ⟨A.length, a⟩) hfirst,
    GetCharacterIndex_eq (c := ⟨A.length + 1 + M.length, b⟩) hlast, Int.toNat_ofNat, hs, ht,
    he1, he2, hlt, if_true, if_false, not_true_eq_false]
  unfold RemoveLineRange
  simp only [hro', hset, herase, if_false]
  have c1 : ¬ ¬ (A.length + 1 + M.length + 1 ≥ A.length + 1) := by omega
  have c2 : ¬ ¬ ((A ++ (first.take s ++ last.drop t) :: (M ++ last.drop t :: Z)).length >
      A.length + 1 + M.length + 1 - (A.length + 1)) := by simp; omega
  simp only [c1, c2, if_false]
  simp

/-- The branch of `EnterCharacter` for a line feed followed by `Undo(1)`: lines and editor
state come back, with or without auto-indent. -/
theorem newline_undo_restores {e : TextEditor} (u : UndoRecord) (htab : 0 < e.mTabSize)
    (hro : e.mReadOnly = false)
    (L : Line) (hL : e.mLines[(GetActualCursorCoordinates e).mLine]? = some L)
    (hp : GetCharacterIndex.loop e.mTabSize L (GetActualCursorCoordinates e).mColumn
      L.length 0 0 ≤ L.length)
    (hrem : u.mRemoved = []) (hst : u.mAddedStart = GetActualCursorCoordinates e) :
    ∃ e1 e2, EnterCharacter.newline e u (GetActualCursorCoordinates e) 10 = some e1 ∧
      Undo e1 1 = some e2 ∧ e2.mLines = e.mLines ∧ e2.mState = u.mBefore := by
  generalize hcoord : GetActualCursorCoordinates e = coord at hL hp hst
  obtain ⟨hsplit, hAlen⟩ := getElem?_split hL
  generalize hA : e.mLines.take coord.mLine = A at hsplit hAlen
  generalize hZ : e.mLines.drop (coord.mLine + 1) = Z at hsplit
  generalize hpdef : GetCharacterIndex.loop e.mTabSize L coord.mColumn L.length 0 0 = p at hp
  have hcoordeq : coord = ⟨A.length, coord.mColumn⟩ := by
    cases coord with
    | mk l k => simp at hAlen ⊢; exact hAlen.symm
  -- InsertLine
  obtain ⟨e1, he1, hlines1, hro1, htab1, hstate1, hbuf1, hidx1, hauto1⟩ :=
    InsertLine_eq hro (A ++ [L]) Z (by rw [hsplit]; simp)
  have hlenA : (A ++ [L]).length = coord.mLine + 1 := by simp [hAlen]
  rw [hlenA] at he1
  have hlines1' : e1.mLines = A ++ L :: [] :: Z := by rw [hlines1]; simp
  have hg0 : e1.mLines[coord.mLine]? = some L := by
    rw [hlines1', ← hAlen]; exact getElem?_append_at A L _
  have hg1 : e1.mLines[coord.mLine + 1]? = some [] := by
    rw [hlines1, ← hlenA]; exact getElem?_append_at (A ++ [L]) [] _
  -- the copied indent
  generalize hWh : (if e1.mAutoIndentation = true then
      ([] : Line) ++ L.takeWhile (fun g => decide (g.mChar < 128 ∧ (g.mChar = 32 ∨ g.mChar = 9)))
    else ([] : Line)) = Wh
  have hWh1 : ∀ g ∈ Wh, UTF8CharLength g.mChar = 1 := by
    intro g hg
    rw [← hWh] at hg
    split at hg
    · simp only [List.nil_append] at hg
      have := List.mem_takeWhile_imp hg
      exact blank_char_length g (by simpa using this)
    · simp at hg
  obtain ⟨cw, fc, fi, fm⟩ := newline_tail_facts htab Wh (L.drop p) hWh1
  have hset : (e1.mLines.set coord.mLine (L.take p)).set (coord.mLine + 1) (Wh ++ L.drop p) =
      A ++ L.take p :: (Wh ++ L.drop p) :: Z := by
    rw [hlines1', ← hAlen, set_append_at]
    have h1 : A ++ L.take p :: [] :: Z = (A ++ [L.take p]) ++ [] :: Z := by simp
    have h2 : (A ++ [L.take p]).length = A.length + 1 := by simp
    rw [h1, ← h2, set_append_at]
    simp
  have hnew : (A ++ L.take p :: (Wh ++ L.drop p) :: Z)[coord.mLine + 1]? =
      some (Wh ++ L.drop p) := by
    have h1 : A ++ L.take p :: (Wh ++ L.drop p) :: Z =
        (A ++ [L.take p]) ++ (Wh ++ L.drop p) :: Z := by simp
    have h2 : (A ++ [L.take p]).length = coord.mLine + 1 := by simp [hAlen]
    rw [h1, ← h2]
    exact getElem?_append_at _ _ _
  have hpdef1 : GetCharacterIndex.loop e1.mTabSize L coord.mColumn L.length 0 0 = p := by
    rw [htab1]; exact hpdef
  unfold EnterCharacter.newline
  simp only [he1, hg0, hg1, hWh, GetCharacterIndex_eq hg0, Int.toNat_ofNat, hpdef1,
    Nat.not_lt.mpr hp, if_false, hset]
  have hcol : GetCharacterColumn
      ({ e1 with mLines := A ++ L.take p :: (Wh ++ L.drop p) :: Z } : TextEditor)
      (coord.mLine + 1) Wh.length = cw := by
    rw [GetCharacterColumn_eq (L := Wh ++ L.drop p) (by exact hnew)]
    show GetCharacterColumn.loop e1.mTabSize _ _ _ 0 0 = cw
    rw [htab1]; exact fc
  rw [hcol]
  obtain ⟨e3, he3, hlines3, hro3, htab3, hidx3, hbuf3⟩ :=
    finish_eq (e := SetCursorPosition
      { e1 with mLines := A ++ L.take p :: (Wh ++ L.drop p) :: Z } ⟨coord.mLine + 1, cw⟩)
      { u with mAdded := [10 % 256] } coord (by simpa using hro1)
  suffices hsuff : ∃ e2, Undo e3 1 = some e2 ∧ e2.mLines = e.mLines ∧ e2.mState = u.mBefore by
    obtain ⟨e2, h1, h2, h3⟩ := hsuff
    exact ⟨e3, e2, he3, h1, h2, h3⟩
  simp only [SetCursorPosition_mLines, SetCursorPosition_mTabSize, SetCursorPosition_mUndoIndex]
    at hlines3 htab3 hidx3 hbuf3
  have hend : GetActualCursorCoordinates (SetCursorPosition
      { e1 with mLines := A ++ L.take p :: (Wh ++ L.drop p) :: Z } ⟨coord.mLine + 1, cw⟩) =
      ⟨coord.mLine + 1, cw⟩ := by
    unfold GetActualCursorCoordinates
    rw [SetCursorPosition_mState]
    apply SanitizeCoordinates_of_valid
    · simp; omega
    · rw [GetLineMaxColumn_eq (L := Wh ++ L.drop p) (by simpa using hnew)]
      simp only [SetCursorPosition_mTabSize]
      show cw ≤ GetLineMaxColumn.loop e1.mTabSize _ _ 0 0
      rw [htab1]; exact fm
  rw [hend] at hbuf3
  have htake : (L.take p).length = p := by simp [Nat.min_eq_left hp]
  obtain ⟨e', hdel, hlines'⟩ := DeleteRange_crossLine_eq
    (e := { e3 with mUndoIndex := e1.mUndoIndex }) (a := coord.mColumn) (b := cw) hro3
    A [] Z (L.take p) (Wh ++ L.drop p) (by simpa using hlines3) (s := p) (t := Wh.length)
    (by
      show GetCharacterIndex.loop e3.mTabSize _ _ _ 0 0 = p
      rw [htab3, htab1, ← hpdef]; exact index_of_take L coord.mColumn)
    (by
      show GetCharacterIndex.loop e3.mTabSize _ _ _ 0 0 = Wh.length
      rw [htab3, htab1]; exact fi)
    (by omega) (by simp)
  simp only [List.length_nil, Nat.add_zero, ← hcoordeq, hAlen] at hdel
  obtain ⟨e2, hundo, hl2, hs2⟩ := @Undo_one_added e3 e'
    { u with mAdded := [10 % 256], mAddedEnd := ⟨coord.mLine + 1, cw⟩,
             mAfter := (SetCursorPosition
                { e1 with mLines := A ++ L.take p :: (Wh ++ L.drop p) :: Z }
                ⟨coord.mLine + 1, cw⟩).mState }
    e1.mUndoIndex hro3 hidx3 hbuf3 hrem (by simp)
    (by simp only [hst]; exact hdel)
  refine ⟨e2, hundo, ?_, hs2⟩
  rw [hl2, hlines', hsplit]
  have h1 : (L.take p).take p = L.take p := by rw [List.take_take]; simp
  rw [h1, List.drop_left, List.take_append_drop]

/-- The branch of `EnterCharacter` for the NUL character: nothing is inserted, and `Undo(1)`
restores the editor state. -/
theorem plain_empty_undo_restores {e : TextEditor} (u : UndoRecord)
    (hro : e.mReadOnly = false) (hov : e.mOverwrite = false)
    (L : Line) (hL : e.mLines[(GetActualCursorCoordinates e).mLine]? = some L)
    (hrem : u.mRemoved = []) :
    ∃ e1 e2, EnterCharacter.plain e u (GetActualCursorCoordinates e) [] = some e1 ∧
      Undo e1 1 = some e2 ∧ e2.mLines = e.mLines ∧ e2.mState = u.mBefore := by
  generalize GetActualCursorCoordinates e = coord at hL
  unfold EnterCharacter.plain
  simp only [hL, overwrite_off hov, List.isEmpty_nil, if_true]
  obtain ⟨e1, he1, hlines1, hro1, _, hidx1, hbuf1⟩ :=
    finish_eq (e := SetCursorPosition { e with mLines := e.mLines.set coord.mLine L }
      ⟨coord.mLine, GetCharacterColumn { e with mLines := e.mLines.set coord.mLine L }
        coord.mLine ((GetCharacterIndex e coord).toNat + ([] : List Nat).length)⟩)
      { u with mAdded := [] } coord (by simpa using hro)
  simp only [SetCursorPosition_mLines, SetCursorPosition_mUndoIndex] at hlines1 hidx1 hbuf1
  obtain ⟨e2, hundo, hl2, hs2⟩ := Undo_one_empty hro1 hidx1 hbuf1 hrem rfl
  refine ⟨e1, e2, he1, hundo, ?_, hs2⟩
  rw [hl2, hlines1]
  exact set_of_getElem? hL

theorem HasSelection_of_empty {e : TextEditor}
    (hsel : e.mState.mSelectionStart = e.mState.mSelectionEnd) : HasSelection e = false := by
  unfold HasSelection
  rw [hsel]
  exact Coordinates.gt_self _

/-- Supporting result for C1: for a writable editor with tab size at least 1, overwrite
mode off, an empty selection, a cursor whose character index lies within its line (as on
every line of complete characters), and a 16-bit character
`aChar` that `ImTextCharToUtf8` encodes (a tab, a line feed with or without auto-indent, or
any other), `EnterCharacter(aChar)` followed by `Undo(1)` completes and leaves every buffer
line and the editor state (cursor, selection start, selection end) as they were. -/
theorem EnterCharacter_Undo_restores (e : TextEditor) (aChar : Nat) (aShift : Bool)
    (htab : 0 < e.mTabSize) (hro : e.mReadOnly = false) (hov : e.mOverwrite = false)
    (hsel : e.mState.mSelectionStart = e.mState.mSelectionEnd) (hne : e.mLines ≠ [])
    (hchar : aChar < 65536) (henc : aChar = 10 ∨ 0 < (ImTextCharToUtf8 aChar).1)
    (hidx : CursorIndexInLine e) :
    ∃ e1 e2, EnterCharacter e aChar aShift = some e1 ∧ Undo e1 1 = some e2 ∧
      e2.mLines = e.mLines ∧ e2.mState = e.mState := by
  have hval := SanitizeCoordinates_valid e.mState.mCursorPosition hne
  have hlt : (GetActualCursorCoordinates e).mLine < e.mLines.length := hval.1
  have hL : e.mLines[(GetActualCursorCoordinates e).mLine]? =
      some (e.mLines[(GetActualCursorCoordinates e).mLine]) := List.getElem?_eq_getElem hlt
  generalize e.mLines[(GetActualCursorCoordinates e).mLine] = L at hL
  have hp : GetCharacterIndex.loop e.mTabSize L (GetActualCursorCoordinates e).mColumn
      L.length 0 0 ≤ L.length := by
    have h := hidx
    unfold CursorIndexInLine at h
    rw [GetCharacterIndex_eq hL] at h
    have hget : e.mLines.getD (GetActualCursorCoordinates e).mLine [] = L := by
      rw [List.getD_eq_getElem?_getD, hL]; rfl
    rw [hget] at h
    exact Int.ofNat_le.mp h
  have hemp : e.mLines.isEmpty = false := isEmpty_eq_false_of_lt hlt
  unfold EnterCharacter
  simp only [hro, HasSelection_of_empty hsel, Bool.false_eq_true, if_false]
  unfold EnterCharacter.insert
  simp only [hemp, Bool.false_eq_true, if_false]
  by_cases h10 : aChar = 10
  · subst h10
    simp only [if_true]
    exact newline_undo_restores _ htab hro L hL hp rfl rfl
  · simp only [h10, if_false]
    have henc' : 0 < (ImTextCharToUtf8 aChar).1 := by
      rcases henc with h | h
      · exact absurd h h10
      · exact h
    simp only [gt_iff_lt, henc', if_true]
    by_cases h0 : aChar = 0
    · subst h0
      rw [ImTextCharToUtf8_zero]
      exact plain_empty_undo_restores _ hro hov L hL rfl
    · obtain ⟨b0, rest, _, hcs, hlen⟩ := ImTextCharToUtf8_spec aChar hchar h0 henc'
      rw [hcs]
      exact plain_undo_restores _ htab hro hov hne b0 rest hlen L hL hp rfl rfl

/-- An instance of the supporting result for C1: the line of a tab followed by `ab` (tab
size 4), cursor at `(0, 2)` inside the tab's width, character U+00E9. -/
theorem EnterCharacter_Undo_restores_witness :
    (0 < (withText new [[9, 97, 98]] ⟨0, 2⟩).mTabSize ∧
     (withText new [[9, 97, 98]] ⟨0, 2⟩).mReadOnly = false ∧
     (withText new [[9, 97, 98]] ⟨0, 2⟩).mOverwrite = false ∧
     (withText new [[9, 97, 98]] ⟨0, 2⟩).mState.mSelectionStart =
       (withText new [[9, 97, 98]] ⟨0, 2⟩).mState.mSelectionEnd ∧
     (withText new [[9, 97, 98]] ⟨0, 2⟩).mLines ≠ [] ∧
     233 < 65536 ∧ (233 = 10 ∨ 0 < (ImTextCharToUtf8 233).1) ∧
     CursorIndexInLine (withText new [[9, 97, 98]] ⟨0, 2⟩)) ∧
    ∃ e1 e2, EnterCharacter (withText new [[9, 97, 98]] ⟨0, 2⟩) 233 false = some e1 ∧
      Undo e1 1 = some e2 ∧ e2.mLines = (withText new [[9, 97, 98]] ⟨0, 2⟩).mLines ∧
      e2.mState = (withText new [[9, 97, 98]] ⟨0, 2⟩).mState :=
  ⟨⟨by decide, rfl, rfl, rfl, by decide, by decide, Or.inr (by decide),
     by unfold CursorIndexInLine; decide⟩,
   EnterCharacter_Undo_restores _ 233 false (by decide) rfl rfl rfl (by decide) (by decide)
     (Or.inr (by decide)) (by unfold CursorIndexInLine; decide)⟩

/-- C1, evaluated: `SetText` with the single byte `0xC3` (a leading byte without its
continuation byte) and `SetCursorPosition((0, 1))` leave a writable editor with overwrite
off, an empty selection and the cursor `(0, 1)`, which `SanitizeCoordinates` accepts.
`GetCharacterIndex` of the cursor is 2 while the line has one cell, and
`EnterCharacter('x')` does not complete: it inserts at an index outside the line.  So no
`Undo` restores the buffer and the editor state. -/
theorem EnterCharacter_Undo_malformed :
    (chars (SetCursorPosition (SetText new [195]) ⟨0, 1⟩) = [[195]] ∧
      (SetCursorPosition (SetText new [195]) ⟨0, 1⟩).mReadOnly = false ∧
      (SetCursorPosition (SetText new [195]) ⟨0, 1⟩).mOverwrite = false ∧
      HasSelection (SetCursorPosition (SetText new [195]) ⟨0, 1⟩) = false ∧
      (SetCursorPosition (SetText new [195]) ⟨0, 1⟩).mState.mCursorPosition = ⟨0, 1⟩ ∧
      SanitizeCoordinates (SetCursorPosition (SetText new [195]) ⟨0, 1⟩) ⟨0, 1⟩ = ⟨0, 1⟩) ∧
    GetCharacterIndex (SetCursorPosition (SetText new [195]) ⟨0, 1⟩) ⟨0, 1⟩ = 2 ∧
    (EnterCharacter (SetCursorPosition (SetText new [195]) ⟨0, 1⟩) 120 false).isSome = false ∧
    ¬ ∃ e1 e2, EnterCharacter (SetCursorPosition (SetText new [195]) ⟨0, 1⟩) 120 false =
        some e1 ∧
      Undo e1 1 = some e2 ∧
      e2.mLines = (SetCursorPosition (SetText new [195]) ⟨0, 1⟩).mLines ∧
      e2.mState = (SetCursorPosition (SetText new [195]) ⟨0, 1⟩).mState := by
  have h : (EnterCharacter (SetCursorPosition (SetText new [195]) ⟨0, 1⟩) 120 false).isSome =
      false := by decide
  refine ⟨⟨by decide, by decide, by decide, by decide, by decide, by decide⟩, by decide, h,
    ?_⟩
  rintro ⟨e1, e2, h1, _⟩
  rw [h1] at h
  simp at h

/-! ## Delete and re-insert: the round trip of `GetText`, `DeleteRange` and `InsertTextAt` -/

theorem Walk.remainder {tab : Nat} {ln : Line} {k t k' t' c i c1 i1 c2 i2 : Nat}
    (h1 : Walk tab ln k t c i c1 i1) (h2 : Walk tab ln k' t' c i c2 i2) (hle : i1 ≤ i2) :
    Walk tab ln k' t' c1 i1 c2 i2 := by
  induction h1 with
  | refl c i => exact h2
  | @step c i c1 i1 g hg hc hi hw ih =>
    cases h2 with
    | refl =>
      have := hw.index_le
      have := UTF8CharLength_pos g.mChar
      omega
    | step g' hg' hc' hi' hw' =>
      rw [hg] at hg'
      cases hg'
      exact ih hw' hle

/-- The character walk from `(c, i)` reaches the index where `charWalkEnd` stops, under any
guards that admit the end state. -/
theorem charWalkEnd_walk {tab : Nat} (htab : 0 < tab) (ln : Line) :
    ∀ (f c i : Nat), ∃ c', c ≤ c' ∧ ∀ K T, c' ≤ K → charWalkEnd ln f i ≤ T →
      Walk tab ln K T c i c' (charWalkEnd ln f i) := by
  intro f
  induction f with
  | zero => intro c i; exact ⟨c, Nat.le_refl _, fun K T _ _ => Walk.refl c i⟩
  | succ n ih =>
    intro c i
    unfold charWalkEnd
    cases hg : ln[i]? with
    | none => exact ⟨c, Nat.le_refl _, fun K T _ _ => Walk.refl c i⟩
    | some g =>
      simp only []
      obtain ⟨c', hle, hw⟩ := ih (advanceColumn tab g.mChar c) (i + UTF8CharLength g.mChar)
      have hadv := advanceColumn_gt htab g.mChar c
      refine ⟨c', by omega, fun K T hK hT => ?_⟩
      have hidx := (hw K T hK hT).index_le
      have := UTF8CharLength_pos g.mChar
      exact Walk.step g hg (by omega) (by omega) (hw K T hK hT)

/-- On a line of complete characters the walk reaches the end of the line exactly. -/
theorem WellFormedLine.walk {tab : Nat} (htab : 0 < tab) {ln : Line} (h : WellFormedLine ln) :
    ∃ c', ∀ K T, c' ≤ K → ln.length ≤ T → Walk tab ln K T 0 0 c' ln.length := by
  obtain ⟨c', _, hw⟩ := charWalkEnd_walk htab ln ln.length 0 0
  unfold WellFormedLine at h
  rw [h] at hw
  exact ⟨c', hw⟩

/-- A walk that starts at the end of the line or beyond does not move. -/
theorem Walk.eq_of_length_le {tab : Nat} {ln : Line} {k t c i c' i' : Nat}
    (h : Walk tab ln k t c i c' i') (hi : ln.length ≤ i) : c' = c ∧ i' = i := by
  cases h with
  | refl => exact ⟨rfl, rfl⟩
  | step g hg _ _ _ =>
    rw [getElem?_none_of_le hi] at hg
    cases hg

/-- On a line of complete characters `GetCharacterIndex` stays within the line, and the walk
goes on from the index it returns to the end of the line. -/
theorem WellFormedLine.charIndex_le {tab : Nat} (htab : 0 < tab) {ln : Line}
    (h : WellFormedLine ln) (k : Nat) :
    GetCharacterIndex.loop tab ln k ln.length 0 0 ≤ ln.length := by
  obtain ⟨cp, hw, _⟩ := GetCharacterIndex_loop_exists tab ln k ln.length 0 0 (by omega)
  obtain ⟨ce, hwe⟩ := h.walk htab
  by_contra hc
  have hr := (hwe ce ln.length (Nat.le_refl _) (Nat.le_refl _)).remainder hw (by omega)
  have := hr.eq_of_length_le (Nat.le_refl _)
  omega

/-- `GetCharacterIndex` is monotone in the column. -/
theorem GetCharacterIndex_loop_mono (tab : Nat) (ln : Line) {k1 k2 : Nat} (hk : k1 ≤ k2) :
    ∀ (f c i : Nat), GetCharacterIndex.loop tab ln k1 f c i ≤
      GetCharacterIndex.loop tab ln k2 f c i := by
  have hge : ∀ (k f c i : Nat), i ≤ GetCharacterIndex.loop tab ln k f c i := by
    intro k f
    induction f with
    | zero => intro c i; exact Nat.le_refl _
    | succ n ih =>
      intro c i
      unfold GetCharacterIndex.loop
      cases hg : ln[i]? with
      | none => exact Nat.le_refl _
      | some g =>
        simp only []
        split
        · have := ih (advanceColumn tab g.mChar c) (i + UTF8CharLength g.mChar)
          omega
        · exact Nat.le_refl _
  intro f
  induction f with
  | zero => intro c i; exact Nat.le_refl _
  | succ n ih =>
    intro c i
    unfold GetCharacterIndex.loop
    cases hg : ln[i]? with
    | none => exact Nat.le_refl _
    | some g =>
      simp only []
      by_cases h1 : c < k1
      · have h2 : c < k2 := by omega
        simp only [h1, h2, if_true]
        exact ih _ _
      · simp only [h1, if_false]
        split
        · have := hge k2 n (advanceColumn tab g.mChar c) (i + UTF8CharLength g.mChar)
          omega
        · exact Nat.le_refl _

theorem Walk.eq_or_lt {tab : Nat} (htab : 0 < tab) {ln : Line} {k t c i c' i' : Nat}
    (h : Walk tab ln k t c i c' i') : (c' = c ∧ i' = i) ∨ (c < c' ∧ i < i') := by
  cases h with
  | refl => exact Or.inl ⟨rfl, rfl⟩
  | step g hg hc hi hw =>
    have := hw.column_le htab
    have := hw.index_le
    have := advanceColumn_gt htab g.mChar c
    have := UTF8CharLength_pos g.mChar
    exact Or.inr ⟨by omega, by omega⟩

/-- On a line of complete characters the character index of the maximum column (or of any
column beyond it) is the length of the line. -/
theorem WellFormedLine.index_of_max {tab : Nat} (htab : 0 < tab) {ln : Line}
    (h : WellFormedLine ln) (k : Nat)
    (hk : GetLineMaxColumn.loop tab ln ln.length 0 0 ≤ k) :
    GetCharacterIndex.loop tab ln k ln.length 0 0 = ln.length := by
  obtain ⟨cp, hw, hstop⟩ := GetCharacterIndex_loop_exists tab ln k ln.length 0 0 (by omega)
  have hle := h.charIndex_le htab k
  obtain ⟨ce, hwe⟩ := h.walk htab
  have hr := hw.remainder (hwe ce ln.length (Nat.le_refl _) (Nat.le_refl _)) hle
  have hmax : GetLineMaxColumn.loop tab ln ln.length 0 0 = ce := by
    rw [GetLineMaxColumn_loop_walk (hwe ce ln.length (Nat.le_refl _) (Nat.le_refl _))
      ln.length ln.length (by omega) (by omega)]
    exact GetLineMaxColumn_loop_stop tab ln _ _ _ (Nat.le_refl _)
  rcases hstop with hs | hs
  · rcases hr.eq_or_lt htab with h1 | h1
    · exact h1.2.symm
    · omega
  · omega

/-- `GetText` loop on a line before the last one: the rest of the line, a line feed, then
the next line. -/
theorem GetText_loop_line (lines : Lines) (iend : Int) (lend lstart : Nat) (ln : Line)
    (hln : lines[lstart]? = some ln) (hlt : lstart < lend) :
    ∀ (n j fuel : Nat), n + j = ln.length → n + 1 ≤ fuel →
      GetText.loop lines iend lend fuel (j : Int) lstart =
        (ln.drop j).map (fun (g : Glyph) => g.mChar) ++
          10 :: GetText.loop lines iend lend (fuel - n - 1) 0 (lstart + 1) := by
  intro n
  induction n with
  | zero =>
    intro j fuel hj hf
    cases fuel with
    | zero => omega
    | succ f =>
      have hj' : j = ln.length := by omega
      subst hj'
      conv => lhs; unfold GetText.loop
      simp [hlt, hln]
  | succ n ih =>
    intro j fuel hj hf
    cases fuel with
    | zero => omega
    | succ f =>
      have hjl : j < ln.length := by omega
      have hg : ln[j]? = some ln[j] := List.getElem?_eq_getElem hjl
      have hdrop : ln.drop j = ln[j] :: ln.drop (j + 1) := List.drop_eq_getElem_cons hjl
      conv => lhs; unfold GetText.loop
      have hcast : ((j : Int) + 1) = ((j + 1 : Nat) : Int) := by simp
      simp only [hlt, or_true, if_true, hln, Int.ofNat_lt, hjl, Int.toNat_ofNat, hg, hcast]
      rw [ih (j + 1) f (by omega) (by omega), hdrop]
      have : f + 1 - (n + 1) - 1 = f - n - 1 := by omega
      simp only [List.map_cons, List.cons_append, this]

/-- `GetText` loop on the last line: the cells up to the end index. -/
theorem GetText_loop_last (lines : Lines) (pe lend : Nat) (ln : Line)
    (hln : lines[lend]? = some ln) (hpe : pe ≤ ln.length) :
    ∀ (n j fuel : Nat), n + j = pe → n ≤ fuel →
      GetText.loop lines (pe : Int) lend fuel (j : Int) lend =
        ((ln.drop j).take n).map (fun (g : Glyph) => g.mChar) := by
  intro n
  induction n with
  | zero =>
    intro j fuel hj _
    have hj' : j = pe := by omega
    subst hj'
    cases fuel with
    | zero => simp [GetText.loop]
    | succ f =>
      conv => lhs; unfold GetText.loop
      simp
  | succ n ih =>
    intro j fuel hj hf
    cases fuel with
    | zero => omega
    | succ f =>
      have hjl : j < ln.length := by omega
      have hjp : j < pe := by omega
      have hg : ln[j]? = some ln[j] := List.getElem?_eq_getElem hjl
      have hdrop : ln.drop j = ln[j] :: ln.drop (j + 1) := List.drop_eq_getElem_cons hjl
      conv => lhs; unfold GetText.loop
      have hcast : ((j : Int) + 1) = ((j + 1 : Nat) : Int) := by simp
      simp only [Int.ofNat_lt, hjp, true_or, if_true, hln, hjl, Int.toNat_ofNat, hg, hcast]
      rw [ih (j + 1) f (by omega) (by omega), hdrop]
      simp only [List.take_succ_cons, List.map_cons]

/-- `GetText` loop over a block of whole lines before the last line. -/
theorem GetText_loop_block (iend : Int) (lend : Nat) :
    ∀ (M P R : Lines) (fuel : Nat), P.length + M.length ≤ lend →
      (M.map (fun l => l.length + 1)).sum ≤ fuel →
      GetText.loop (P ++ M ++ R) iend lend fuel 0 P.length =
        (M.map (fun l => l.map (fun (g : Glyph) => g.mChar) ++ [10])).flatten ++
          GetText.loop (P ++ M ++ R) iend lend (fuel - (M.map (fun l => l.length + 1)).sum) 0
            (P.length + M.length) := by
  intro M
  induction M with
  | nil => intro P R fuel _ _; simp
  | cons m M ih =>
    intro P R fuel hle hf
    simp only [List.map_cons, List.sum_cons, List.length_cons] at hle hf ⊢
    have hm : (P ++ m :: M ++ R)[P.length]? = some m := by
      rw [List.append_assoc]; exact getElem?_append_at P m _
    have h1 := GetText_loop_line (P ++ m :: M ++ R) iend lend P.length m hm (by omega)
      m.length 0 fuel (by omega) (by omega)
    simp only [Int.ofNat_zero, Nat.cast_zero, List.drop_zero] at h1
    rw [h1]
    have heq : P ++ m :: M ++ R = (P ++ [m]) ++ M ++ R := by simp
    have hlen : (P ++ [m]).length = P.length + 1 := by simp
    have h2 := ih (P ++ [m]) R (fuel - m.length - 1) (by rw [hlen]; omega) (by omega)
    rw [hlen, ← heq] at h2
    rw [h2]
    have e1 : fuel - m.length - 1 - (M.map (fun l => l.length + 1)).sum =
        fuel - (m.length + 1 + (M.map (fun l => l.length + 1)).sum) := by omega
    have e2 : P.length + 1 + M.length = P.length + (M.length + 1) := by omega
    rw [e1, e2]
    simp

theorem InsertTextAt_inner_block : ∀ (bs tail : List Nat), (∀ b ∈ bs, b ≠ 0) →
    InsertTextAt.inner bs.length (bs ++ tail) = (bs, tail) := by
  intro bs
  induction bs with
  | nil => intro tail _; simp [InsertTextAt.inner]
  | cons b bs ih =>
    intro tail h
    have hb : b ≠ 0 := h b (List.mem_cons_self _ _)
    have := ih tail (fun x hx => h x (List.mem_cons_of_mem _ hx))
    simp [InsertTextAt.inner, hb, this]

/-- A line break in `InsertTextAt`: the current line is split at `cindex`. -/
theorem InsertTextAt_loop_newline {e : TextEditor} (hro : e.mReadOnly = false)
    (A Z : Lines) (target : Line) (hlines : e.mLines = A ++ target :: Z)
    (w : Coordinates) (hw : w.mLine = A.length) (ci : Nat) (hci : ci ≤ target.length)
    (F : Nat) (tail : List Nat) (tl : Nat) :
    ∃ e', InsertTextAt.loop (F + 1) (10 :: tail) e w ci tl =
        InsertTextAt.loop F tail e' ⟨A.length + 1, 0⟩ 0 (tl + 1) ∧
      e'.mLines = A ++ target.take ci :: target.drop ci :: Z ∧ e'.mReadOnly = false := by
  obtain ⟨e1, he1, hlines1, hro1, _⟩ := InsertLine_eq hro (A ++ [target]) Z
    (by rw [hlines]; simp)
  have hlenA : (A ++ [target]).length = A.length + 1 := by simp
  rw [hlenA] at he1
  have hget : e.mLines[A.length]? = some target := by
    rw [hlines]; exact getElem?_append_at A target _
  have hemp : e.mLines.isEmpty = false := by rw [hlines]; cases A <;> rfl
  refine ⟨{ e1 with
      mLines := if ci < target.length then
                  (e1.mLines.set (w.mLine + 1) (target.drop ci)).set w.mLine (target.take ci)
                else e1.mLines,
      mTextChanged := true }, ?_, ?_, hro1⟩
  · conv => lhs; unfold InsertTextAt.loop
    simp only [show (10 : Nat) ≠ 0 by decide, hemp, show (10 : Nat) ≠ 13 by decide, if_false,
      if_true, hget, hw, he1, Bool.false_eq_true]
  · show (if ci < target.length then _ else _) = _
    rw [hlines1, hw]
    split
    · have h1 : A ++ [target] ++ [] :: Z = (A ++ [target]) ++ [] :: Z := rfl
      rw [← hlenA, set_append_at]
      have h2 : A ++ [target] ++ target.drop ci :: Z = A ++ target :: target.drop ci :: Z := by
        simp
      rw [h2, set_append_at]
    · have hci' : ci = target.length := by omega
      subst hci'
      simp

/-- One outer iteration of `InsertTextAt` on a complete character `bs` whose bytes are
neither NUL nor, for the first one, a line feed or carriage return. -/
theorem InsertTextAt_loop_char (e : TextEditor) (w : Coordinates) (ci tl : Nat) (target : Line)
    (hget : e.mLines[w.mLine]? = some target) (hci : ci ≤ target.length)
    (b : Nat) (conts tail : List Nat) (hlen : UTF8CharLength b = conts.length + 1)
    (hb : b ≠ 0 ∧ b ≠ 10 ∧ b ≠ 13) (hconts : ∀ x ∈ conts, x ≠ 0) (F : Nat) :
    InsertTextAt.loop (F + 1) (b :: conts ++ tail) e w ci tl =
      InsertTextAt.loop F tail
        { e with mLines := e.mLines.set w.mLine
                   (target.take ci ++ (b :: conts).map (fun x => ({ mChar := x } : Glyph)) ++
                     target.drop ci),
                 mTextChanged := true }
        ⟨w.mLine, w.mColumn + 1⟩ (ci + (conts.length + 1)) tl := by
  have hemp : e.mLines.isEmpty = false := by
    cases h : e.mLines with
    | nil => rw [h] at hget; simp at hget
    | cons a t => rfl
  have hinner : InsertTextAt.inner (UTF8CharLength b) (b :: (conts ++ tail)) =
      (b :: conts, tail) := by
    rw [hlen]
    have := InsertTextAt_inner_block (b :: conts) tail (by
      intro x hx
      rcases List.mem_cons.mp hx with h | h
      · rw [h]; exact hb.1
      · exact hconts x h)
    simpa using this
  have hins : insertAt target ci ((b :: conts).map (fun x => ({ mChar := x } : Glyph))) =
      some (target.take ci ++ (b :: conts).map (fun x => ({ mChar := x } : Glyph)) ++
        target.drop ci) := by
    simp [insertAt, hci]
  conv => lhs; rw [List.cons_append]; unfold InsertTextAt.loop
  simp only [hb.1, hb.2.1, hb.2.2, hemp, if_false, Bool.false_eq_true, hget, hinner, hins,
    List.length_cons]

/-- The cells `[i, j)` of a line split at the end of the character that starts at `i`. -/
theorem segment_split (L : Line) {i j d : Nat} {g : Glyph} (hg : L[i]? = some g)
    (hd : 1 ≤ d) (hij : i + d ≤ j) (hj : j ≤ L.length) :
    ∃ X', X'.length + 1 = d ∧ (∀ x ∈ X', x ∈ L) ∧
      (L.drop i).take (j - i) = (g :: X') ++ (L.drop (i + d)).take (j - (i + d)) := by
  have hi : i < L.length := lt_length_of_getElem? hg
  have hgi : L[i] = g := by
    have := List.getElem?_eq_getElem hi
    rw [this] at hg
    exact Option.some.inj hg
  have hdrop : L.drop i = g :: L.drop (i + 1) := by
    rw [List.drop_eq_getElem_cons hi, hgi]
  refine ⟨(L.drop (i + 1)).take (d - 1), ?_, ?_, ?_⟩
  · simp; omega
  · intro x hx
    exact List.mem_of_mem_drop (List.mem_of_mem_take hx)
  · have h1 : j - i = d + (j - (i + d)) := by omega
    rw [h1, List.take_add, List.drop_drop, hdrop]
    congr 1
    have h2 : d = (d - 1) + 1 := by omega
    conv => lhs; rw [h2, List.take_succ_cons]

/-- `InsertTextAt` over the bytes of a run of complete characters of a line `L` that holds no
NUL, line feed or carriage return: the run is inserted at `cindex` of the current line, as
default-coloured cells, and the loop goes on with the rest of the text. -/
theorem InsertTextAt_loop_segment {tab : Nat} (L : Line)
    (hplain : ∀ g ∈ L, g.mChar ≠ 0 ∧ g.mChar ≠ 10 ∧ g.mChar ≠ 13)
    {K T c i c' j : Nat} (hw : Walk tab L K T c i c' j) (hj : j ≤ L.length) :
    ∀ (F : Nat) (tail : List Nat) (e : TextEditor) (w : Coordinates) (ci tl : Nat)
      (target : Line), e.mLines[w.mLine]? = some target → ci ≤ target.length →
      (((L.drop i).take (j - i)).map (fun (g : Glyph) => g.mChar) ++ tail).length ≤ F →
      ∃ e' w' F', tail.length ≤ F' ∧ w'.mLine = w.mLine ∧
        InsertTextAt.loop F
            (((L.drop i).take (j - i)).map (fun (g : Glyph) => g.mChar) ++ tail) e w ci tl =
          InsertTextAt.loop F' tail e' w' (ci + (j - i)) tl ∧
        e'.mLines = e.mLines.set w.mLine
          (target.take ci ++
            ((L.drop i).take (j - i)).map (fun (g : Glyph) => ({ mChar := g.mChar } : Glyph)) ++
            target.drop ci) ∧
        e'.mReadOnly = e.mReadOnly := by
  induction hw with
  | refl c i =>
    intro F tail e w ci tl target hget hci hF
    refine ⟨e, w, F, by simpa using hF, rfl, by simp, ?_, rfl⟩
    simp only [Nat.sub_self, List.take_zero, List.map_nil, List.append_nil,
      List.take_append_drop]
    exact (set_of_getElem? hget).symm
  | @step c i c' j g hg hc hi hw' ih =>
    intro F tail e w ci tl target hget hci hF
    have hidx := hw'.index_le
    have hd := UTF8CharLength_pos g.mChar
    obtain ⟨X', hX'len, hX'mem, hsplit⟩ := segment_split L hg hd hidx hj
    have hgmem : g ∈ L := List.getElem?_mem hg
    rw [hsplit]
    rw [hsplit] at hF
    simp only [List.map_append, List.map_cons, List.append_assoc, List.cons_append] at hF ⊢
    cases F with
    | zero => simp at hF
    | succ F0 =>
      have hstep := InsertTextAt_loop_char e w ci tl target hget hci g.mChar
        (X'.map (fun (g : Glyph) => g.mChar))
        (((L.drop (i + UTF8CharLength g.mChar)).take
          (j - (i + UTF8CharLength g.mChar))).map (fun (g : Glyph) => g.mChar) ++ tail)
        (by simp; omega) (hplain g hgmem)
        (by
          intro x hx
          obtain ⟨y, hy, rfl⟩ := List.mem_map.mp hx
          exact (hplain y (hX'mem y hy)).1) F0
      simp only [List.cons_append] at hstep
      rw [hstep]
      have hset : ({ e with
            mLines := e.mLines.set w.mLine
                        (target.take ci ++ (g.mChar :: X'.map (fun (g : Glyph) => g.mChar)).map
                          (fun x => ({ mChar := x } : Glyph)) ++ target.drop ci),
            mTextChanged := true } : TextEditor).mLines[w.mLine]? =
          some (target.take ci ++ (g.mChar :: X'.map (fun (g : Glyph) => g.mChar)).map
              (fun x => ({ mChar := x } : Glyph)) ++ target.drop ci) := by
        show (e.mLines.set w.mLine _)[w.mLine]? = _
        have hlt : w.mLine < e.mLines.length := by
          by_contra hc
          rw [List.getElem?_eq_none (Nat.le_of_not_lt hc)] at hget
          cases hget
        exact List.getElem?_set_self hlt
      obtain ⟨e', w', F', hF', hwl, hloop, hlines, hro'⟩ := ih hj F0 tail _
        ⟨w.mLine, w.mColumn + 1⟩ (ci + ((X'.map (fun (g : Glyph) => g.mChar)).length + 1)) tl _
        hset (by simp; omega) (by simp at hF ⊢; omega)
      refine ⟨e', w', F', hF', hwl, ?_, ?_, hro'⟩
      · rw [hloop]
        congr 1
        simp; omega
      · rw [hlines]
        show (e.mLines.set w.mLine _).set w.mLine _ = _
        rw [List.set_set]
        congr 1
        have hl1 : (target.take ci).length = ci := by simp [Nat.min_eq_left hci]
        have e1 : ci + ((X'.map (fun (g : Glyph) => g.mChar)).length + 1) =
            (target.take ci ++ (g.mChar :: X'.map (fun (g : Glyph) => g.mChar)).map
              (fun x => ({ mChar := x } : Glyph))).length := by simp [hl1]
        rw [e1, List.take_left, List.drop_left]
        simp

theorem RemoveLineRange_config {e e' : TextEditor} {a b : Nat}
    (h : RemoveLineRange e a b = some e') :
    e'.mTabSize = e.mTabSize ∧ e'.mReadOnly = e.mReadOnly := by
  unfold RemoveLineRange at h
  simp only [] at h
  split at h; · simp at h
  split at h; · simp at h
  split at h; · simp at h
  split at h; · simp at h
  split at h; · simp at h
  simp at h; subst h
  exact ⟨rfl, rfl⟩

/-- `DeleteRange` leaves the tab size and the read-only flag as they are. -/
theorem DeleteRange_config {e e' : TextEditor} {a b : Coordinates}
    (h : DeleteRange e a b = some e') :
    e'.mTabSize = e.mTabSize ∧ e'.mReadOnly = e.mReadOnly := by
  unfold DeleteRange at h
  split at h; · simp at h
  split at h; · simp at h
  split at h; · simp at h; subst h; exact ⟨rfl, rfl⟩
  split at h
  · split at h; · simp at h
    split at h; · simp at h
    simp at h; subst h
    exact ⟨rfl, rfl⟩
  · split at h
    · split at h
      · split at h
        · split at h; · simp at h
          rename_i e2 h2
          simp at h; subst h
          exact ⟨(RemoveLineRange_config h2).1, (RemoveLineRange_config h2).2⟩
        · simp at h; subst h
          exact ⟨rfl, rfl⟩
      · simp at h
    · simp at h

/-- The walk of `GetCharacterIndex` for a column within the line ends at a column that is
not below the requested one. -/
theorem index_walk_of_valid (tab : Nat) (L : Line) (a : Nat)
    (ha : a ≤ GetLineMaxColumn.loop tab L L.length 0 0) :
    ∃ cp, Walk tab L a L.length 0 0 cp (GetCharacterIndex.loop tab L a L.length 0 0) ∧
      a ≤ cp := by
  obtain ⟨cp, hw, hstop⟩ := GetCharacterIndex_loop_exists tab L a L.length 0 0 (by omega)
  refine ⟨cp, hw, ?_⟩
  rcases hstop with hs | hs
  · exact hs
  · have hmax : GetLineMaxColumn.loop tab L L.length 0 0 = cp := by
      rw [GetLineMaxColumn_loop_walk hw L.length L.length (by omega) (by omega)]
      exact GetLineMaxColumn_loop_stop tab L _ _ _ hs
    omega

/-- After the cells from the character index of column `a` on are replaced by other cells,
column `a` still resolves to the same character index. -/
theorem index_after_cut (tab : Nat) (L R : Line) (a : Nat)
    (ha : a ≤ GetLineMaxColumn.loop tab L L.length 0 0)
    (hp : GetCharacterIndex.loop tab L a L.length 0 0 ≤ L.length) :
    GetCharacterIndex.loop tab (L.take (GetCharacterIndex.loop tab L a L.length 0 0) ++ R) a
      (L.take (GetCharacterIndex.loop tab L a L.length 0 0) ++ R).length 0 0 =
      GetCharacterIndex.loop tab L a L.length 0 0 := by
  obtain ⟨cp, hw, hcp⟩ := index_walk_of_valid tab L a ha
  generalize GetCharacterIndex.loop tab L a L.length 0 0 = p at hw hp ⊢
  have hw' : Walk tab (L.take p ++ R) a L.length 0 0 cp p := by
    refine hw.transfer (fun j hj => ?_)
    rw [List.getElem?_append_left (by simp; omega), List.getElem?_take]
    simp [hj]
  rw [GetCharacterIndex_loop_walk hw' _ (L.take p ++ R).length (by omega) (by omega)]
  exact GetCharacterIndex_loop_stop tab _ _ _ _ _ (Or.inr hcp)

theorem sum_lengths_ge {lines : Lines} {L : Line} (h : L ∈ lines) :
    L.length + 1 ≤ (lines.map (fun l => l.length + 1)).sum := by
  induction lines with
  | nil => cases h
  | cons x xs ih =>
    simp only [List.map_cons, List.sum_cons]
    rcases List.mem_cons.mp h with h1 | h1
    · subst h1; omega
    · have := ih h1; omega

/-- `GetText` between two columns of one line, in terms of the two character indices. -/
theorem GetText_sameLine {e : TextEditor} {l a b : Nat} {L : Line}
    (hL : e.mLines[l]? = some L) {s t : Nat}
    (hs : GetCharacterIndex.loop e.mTabSize L a L.length 0 0 = s)
    (ht : GetCharacterIndex.loop e.mTabSize L b L.length 0 0 = t)
    (hst : s ≤ t) (htl : t ≤ L.length) :
    GetText e ⟨l, a⟩ ⟨l, b⟩ =
      some (((L.drop s).take (t - s)).map (fun (g : Glyph) => g.mChar)) := by
  have hsum := sum_lengths_ge (List.getElem?_mem hL)
  unfold GetText
  simp only [Nat.lt_irrefl, false_and, if_false]
  rw [GetCharacterIndex_eq (c := ⟨l, a⟩) hL, GetCharacterIndex_eq (c := ⟨l, b⟩) hL, hs, ht]
  rw [GetText_loop_last e.mLines t l L hL htl (t - s) s _ (by omega) (by omega)]

/-- `GetText` from a column of one line to a column of a later line, in terms of the two
character indices: the rest of the first line, the lines between, and the head of the last
line, each line but the last followed by a line feed. -/
theorem GetText_crossLine {e : TextEditor} {a b : Nat} (A M Z : Lines) (first last : Line)
    (hlines : e.mLines = A ++ first :: (M ++ last :: Z)) {s t : Nat}
    (hs : GetCharacterIndex.loop e.mTabSize first a first.length 0 0 = s)
    (ht : GetCharacterIndex.loop e.mTabSize last b last.length 0 0 = t)
    (hsl : s ≤ first.length) (htl : t ≤ last.length) :
    GetText e ⟨A.length, a⟩ ⟨A.length + 1 + M.length, b⟩ =
      some ((first.drop s).map (fun (g : Glyph) => g.mChar) ++
        10 :: ((M.map (fun l => l.map (fun (g : Glyph) => g.mChar) ++ [10])).flatten ++
          (last.take t).map (fun (g : Glyph) => g.mChar))) := by
  have hfirst : e.mLines[A.length]? = some first := by
    rw [hlines]; exact getElem?_append_at A first _
  have heq : A ++ first :: (M ++ last :: Z) = (A ++ [first]) ++ M ++ last :: Z := by simp
  have heq2 : A ++ first :: (M ++ last :: Z) = (A ++ first :: M) ++ last :: Z := by simp
  have hlast : e.mLines[A.length + 1 + M.length]? = some last := by
    rw [hlines, heq2]
    have hlen : (A ++ first :: M).length = A.length + 1 + M.length := by simp; omega
    rw [← hlen]; exact getElem?_append_at _ last _
  have hlen : e.mLines.length = A.length + 1 + M.length + 1 + Z.length := by
    rw [hlines]; simp; omega
  have hsum : (e.mLines.map (fun l => l.length + 1)).sum =
      (A.map (fun l => l.length + 1)).sum + (first.length + 1) +
        (M.map (fun l => l.length + 1)).sum + (last.length + 1) +
        (Z.map (fun l => l.length + 1)).sum := by
    rw [hlines]
    simp only [List.map_append, List.map_cons, List.sum_append, List.sum_cons]
    omega
  unfold GetText
  have hcond : ¬ (A.length < A.length + 1 + M.length ∧
      e.mLines.length < A.length + 1 + M.length) := by omega
  simp only [hcond, if_false]
  rw [GetCharacterIndex_eq (c := ⟨A.length, a⟩) hfirst,
    GetCharacterIndex_eq (c := ⟨A.length + 1 + M.length, b⟩) hlast, hs, ht]
  rw [GetText_loop_line e.mLines t (A.length + 1 + M.length) A.length first hfirst (by omega)
    (first.length - s) s _ (by omega) (by omega)]
  have hblock := GetText_loop_block (t : Int) (A.length + 1 + M.length) M (A ++ [first])
    (last :: Z)
    ((e.mLines.map (fun l => l.length + 1)).sum + 1 - (first.length - s) - 1)
    (by simp) (by omega)
  have hlenA : (A ++ [first]).length = A.length + 1 := by simp
  rw [← heq, ← hlines, hlenA] at hblock
  rw [hblock]
  have hl := GetText_loop_last e.mLines t (A.length + 1 + M.length) last hlast htl t 0
    ((e.mLines.map (fun l => l.length + 1)).sum + 1 - (first.length - s) - 1 -
      (M.map (fun l => l.length + 1)).sum) (by omega) (by omega)
  simp only [Nat.cast_zero, List.drop_zero] at hl
  rw [hl]

/-- Cells inserted with the default colour hold the same characters. -/
theorem map_mChar_default (X : Line) :
    (X.map (fun (g : Glyph) => ({ mChar := g.mChar } : Glyph))).map
      (fun (g : Glyph) => g.mChar) = X.map (fun (g : Glyph) => g.mChar) := by
  rw [List.map_map]; rfl

/-- `InsertTextAt` over the bytes of a run of complete characters followed by a line feed:
the run is added to the head `H` of the current line and the rest `Tl` of that line becomes
the next line, which is the new current line. -/
theorem InsertTextAt_loop_lineStep {tab : Nat} (L : Line)
    (hplain : ∀ g ∈ L, g.mChar ≠ 0 ∧ g.mChar ≠ 10 ∧ g.mChar ≠ 13)
    {K T c i c' j : Nat} (hw : Walk tab L K T c i c' j) (hj : j ≤ L.length)
    {e : TextEditor} (hro : e.mReadOnly = false) (A Z : Lines) (H Tl : Line)
    (hlines : e.mLines = A ++ (H ++ Tl) :: Z) (w : Coordinates) (hwl : w.mLine = A.length)
    (F : Nat) (tail : List Nat) (tl : Nat)
    (hF : (((L.drop i).take (j - i)).map (fun (g : Glyph) => g.mChar) ++ 10 :: tail).length
      ≤ F) :
    ∃ e' F' X, tail.length ≤ F' ∧
      InsertTextAt.loop F
          (((L.drop i).take (j - i)).map (fun (g : Glyph) => g.mChar) ++ 10 :: tail)
          e w H.length tl =
        InsertTextAt.loop F' tail e' ⟨A.length + 1, 0⟩ 0 (tl + 1) ∧
      e'.mLines = A ++ (H ++ X) :: Tl :: Z ∧
      X.map (fun (g : Glyph) => g.mChar) =
        ((L.drop i).take (j - i)).map (fun (g : Glyph) => g.mChar) ∧
      e'.mReadOnly = false := by
  have hij := hw.index_le
  have hget : e.mLines[w.mLine]? = some (H ++ Tl) := by
    rw [hlines, hwl]; exact getElem?_append_at A _ _
  obtain ⟨e1, w1, F1, hF1, hw1, hloop1, hlines1, hro1⟩ :=
    InsertTextAt_loop_segment L hplain hw hj F (10 :: tail) e w H.length tl (H ++ Tl) hget
      (by simp) hF
  have hseglen : ((L.drop i).take (j - i)).length = j - i := by
    simp only [List.length_take, List.length_drop]; omega
  have hlines1' : e1.mLines = A ++ (H ++ ((L.drop i).take (j - i)).map
      (fun (g : Glyph) => ({ mChar := g.mChar } : Glyph)) ++ Tl) :: Z := by
    rw [hlines1, hlines, hwl, set_append_at, List.take_left, List.drop_left]
  cases F1 with
  | zero => simp at hF1
  | succ F1 =>
    obtain ⟨e2, hloop2, hlines2, hro2⟩ := InsertTextAt_loop_newline (hro1.trans hro) A Z _
      hlines1' w1 (hw1.trans hwl) (H.length + (j - i))
      (by simp only [List.length_append, List.length_map, hseglen]; omega) F1 tail tl
    refine ⟨e2, F1, ((L.drop i).take (j - i)).map
      (fun (g : Glyph) => ({ mChar := g.mChar } : Glyph)), by simpa using hF1, ?_, ?_, ?_, hro2⟩
    · rw [hloop1, hloop2]
    · rw [hlines2]
      have e1 : H.length + (j - i) = (H ++ ((L.drop i).take (j - i)).map
          (fun (g : Glyph) => ({ mChar := g.mChar } : Glyph))).length := by
        simp only [List.length_append, List.length_map, hseglen]
      rw [e1, List.take_left, List.drop_left]
    · exact map_mChar_default _

/-- `InsertTextAt` over a block of whole lines, each followed by a line feed, at the start
of a line: the lines are inserted before that line. -/
theorem InsertTextAt_loop_block {tab : Nat} (htab : 0 < tab) :
    ∀ (M : Lines), (∀ m ∈ M, WellFormedLine m) →
      (∀ m ∈ M, ∀ g ∈ m, g.mChar ≠ 0 ∧ g.mChar ≠ 10 ∧ g.mChar ≠ 13) →
      ∀ (e : TextEditor) (A Z : Lines) (Tl : Line) (w : Coordinates) (F : Nat)
        (tail : List Nat) (tl : Nat), e.mReadOnly = false → e.mLines = A ++ Tl :: Z →
        w.mLine = A.length →
        ((M.map (fun l => l.map (fun (g : Glyph) => g.mChar) ++ [10])).flatten ++ tail).length
          ≤ F →
        ∃ e' w' F' tl' M', tail.length ≤ F' ∧ w'.mLine = A.length + M.length ∧
          InsertTextAt.loop F
              ((M.map (fun l => l.map (fun (g : Glyph) => g.mChar) ++ [10])).flatten ++ tail)
              e w 0 tl =
            InsertTextAt.loop F' tail e' w' 0 tl' ∧
          e'.mLines = A ++ M' ++ Tl :: Z ∧
          M'.map (fun l => l.map (fun (g : Glyph) => g.mChar)) =
            M.map (fun l => l.map (fun (g : Glyph) => g.mChar)) ∧
          e'.mReadOnly = false := by
  intro M
  induction M with
  | nil =>
    intro _ _ e A Z Tl w F tail tl hro hlines hwl hF
    exact ⟨e, w, F, tl, [], by simpa using hF, by simpa using hwl, by simp, by simpa using hlines,
      rfl, hro⟩
  | cons m M ih =>
    intro hwf hplain e A Z Tl w F tail tl hro hlines hwl hF
    obtain ⟨cm, hwm⟩ := (hwf m (List.mem_cons_self _ _)).walk htab
    have hwalk := hwm cm m.length (Nat.le_refl _) (Nat.le_refl _)
    have htext : (List.map (fun l => l.map (fun (g : Glyph) => g.mChar) ++ [10])
        (m :: M)).flatten ++ tail =
        ((m.drop 0).take (m.length - 0)).map (fun (g : Glyph) => g.mChar) ++
          10 :: ((M.map (fun l => l.map (fun (g : Glyph) => g.mChar) ++ [10])).flatten ++
            tail) := by simp
    rw [htext] at hF ⊢
    obtain ⟨e1, F1, X, hF1, hloop1, hlines1, hX, hro1⟩ :=
      InsertTextAt_loop_lineStep m (hplain m (List.mem_cons_self _ _)) hwalk (Nat.le_refl _)
        hro A Z [] Tl (by simpa using hlines) w hwl F _ tl hF
    have hlenA : (A ++ [X]).length = A.length + 1 := by simp
    obtain ⟨e2, w2, F2, tl2, M2, hF2, hw2, hloop2, hlines2, hM2, hro2⟩ :=
      ih (fun x hx => hwf x (List.mem_cons_of_mem _ hx))
        (fun x hx => hplain x (List.mem_cons_of_mem _ hx))
        e1 (A ++ [X]) Z Tl ⟨A.length + 1, 0⟩ F1 tail (tl + 1) hro1
        (by rw [hlines1]; simp) (by simp) hF1
    refine ⟨e2, w2, F2, tl2, X :: M2, hF2, ?_, ?_, ?_, ?_, hro2⟩
    · rw [hw2, hlenA]; simp; omega
    · have h0 : ([] : Line).length = 0 := rfl
      rw [h0] at hloop1
      rw [hloop1, hloop2]
    · rw [hlines2]; simp
    · simp only [List.map_cons, hM2]
      simp at hX
      rw [hX]

theorem take_mid_drop {α : Type} (L : List α) {s t : Nat} (hst : s ≤ t) :
    L.take s ++ (L.drop s).take (t - s) ++ L.drop t = L := by
  have h : L.drop t = (L.drop s).drop (t - s) := by
    rw [List.drop_drop]; congr 1; omega
  rw [h, List.append_assoc, List.take_append_drop, List.take_append_drop]

/-- The end of the `InsertTextAt` loop: no text is left. -/
theorem InsertTextAt_loop_nil (F : Nat) (e : TextEditor) (w : Coordinates) (ci tl : Nat) :
    InsertTextAt.loop F [] e w ci tl = some (e, w, tl) := by
  cases F <;> rfl

/-- With equal coordinates the text is empty and nothing changes. -/
theorem roundtrip_equal {e : TextEditor} (hro : e.mReadOnly = false) (c : Coordinates) :
    ∃ t e1 r, GetText e c c = some t ∧ DeleteRange e c c = some e1 ∧
      InsertTextAt e1 c t = some r ∧ chars r.1 = chars e := by
  refine ⟨[], e, (e, c, 0), ?_, ?_, ?_, rfl⟩
  · unfold GetText
    simp only [Nat.lt_irrefl, false_and, if_false]
    unfold GetText.loop
    simp
  · unfold DeleteRange
    have hge : c.ge c = true := by simp [Coordinates.ge]
    simp [hge, hro]
  · unfold InsertTextAt
    simp [hro, InsertTextAt.loop]

/-- The round trip inside one line. -/
theorem roundtrip_sameLine {e : TextEditor} (htab : 0 < e.mTabSize) (hro : e.mReadOnly = false)
    {l a b : Nat} {L : Line} (hL : e.mLines[l]? = some L) (hwf : WellFormedLine L)
    (hplain : ∀ g ∈ L, g.mChar ≠ 0 ∧ g.mChar ≠ 10 ∧ g.mChar ≠ 13) (hab : a < b)
    (ha : a ≤ GetLineMaxColumn.loop e.mTabSize L L.length 0 0) :
    ∃ t e1 r, GetText e ⟨l, a⟩ ⟨l, b⟩ = some t ∧ DeleteRange e ⟨l, a⟩ ⟨l, b⟩ = some e1 ∧
      InsertTextAt e1 ⟨l, a⟩ t = some r ∧ chars r.1 = chars e := by
  have hl : l < e.mLines.length := by
    by_contra hc
    rw [List.getElem?_eq_none (Nat.le_of_not_lt hc)] at hL
    cases hL
  obtain ⟨cs, hws, hcs⟩ := index_walk_of_valid e.mTabSize L a ha
  obtain ⟨ct, hwt, _⟩ := GetCharacterIndex_loop_exists e.mTabSize L b L.length 0 0 (by omega)
  have hst := GetCharacterIndex_loop_mono e.mTabSize L (Nat.le_of_lt hab) L.length 0 0
  have htl := hwf.charIndex_le htab b
  have hmax := hwf.index_of_max htab b
  have hcut := index_after_cut e.mTabSize L
    (L.drop (GetCharacterIndex.loop e.mTabSize L b L.length 0 0)) a ha (by omega)
  have hget := GetText_sameLine (a := a) (b := b) hL rfl rfl hst htl
  obtain ⟨e1, hdel, hlines1⟩ := DeleteRange_sameLine_eq hro hL hab rfl rfl hst htl hmax
  obtain ⟨htab1, hro1⟩ := DeleteRange_config hdel
  generalize GetCharacterIndex.loop e.mTabSize L a L.length 0 0 = s at *
  generalize GetCharacterIndex.loop e.mTabSize L b L.length 0 0 = t at *
  have hwalk := hws.remainder hwt hst
  have hL1 : e1.mLines[l]? = some (L.take s ++ L.drop t) := by
    rw [hlines1]; exact List.getElem?_set_self hl
  have hidx : GetCharacterIndex e1 ⟨l, a⟩ = (s : Int) := by
    rw [GetCharacterIndex_eq (c := ⟨l, a⟩) hL1, htab1, hcut]
  have hslen : (L.take s).length = s := by simp; omega
  obtain ⟨e2, w2, F2, _, _, hloop, hlines2, _⟩ :=
    InsertTextAt_loop_segment L hplain hwalk htl
      (((L.drop s).take (t - s)).map (fun (g : Glyph) => g.mChar)).length [] e1 ⟨l, a⟩ s 0
      (L.take s ++ L.drop t) hL1 (by simp; omega) (by simp)
  rw [List.append_nil, InsertTextAt_loop_nil] at hloop
  refine ⟨_, e1, (e2, w2, 0), hget, hdel, ?_, ?_⟩
  · unfold InsertTextAt
    simp only [hro1, hro, Bool.false_eq_true, if_false, hidx, Int.toNat_ofNat]
    exact hloop
  · show chars e2 = chars e
    unfold chars
    rw [hlines2, hlines1, List.set_set]
    have e3 : (L.take s ++ L.drop t).take s = L.take s := by
      conv => lhs; arg 1; rw [← hslen]
      exact List.take_left _ _
    have e4 : (L.take s ++ L.drop t).drop s = L.drop t := by
      conv => lhs; arg 1; rw [← hslen]
      exact List.drop_left _ _
    show List.map _ (e.mLines.set l _) = _
    rw [e3, e4, List.map_set]
    apply set_of_getElem?
    rw [List.getElem?_map, hL]
    simp only [Option.map_some', List.map_append, map_mChar_default]
    rw [← List.map_append, ← List.map_append, take_mid_drop L hst]

/-- The round trip across lines. -/
theorem roundtrip_crossLine {e : TextEditor} (htab : 0 < e.mTabSize)
    (hro : e.mReadOnly = false) {a b : Nat} (A M Z : Lines) (first last : Line)
    (hlines : e.mLines = A ++ first :: (M ++ last :: Z))
    (hwf : ∀ ln ∈ e.mLines, WellFormedLine ln)
    (hplain : ∀ ln ∈ e.mLines, ∀ g ∈ ln, g.mChar ≠ 0 ∧ g.mChar ≠ 10 ∧ g.mChar ≠ 13)
    (ha : a ≤ GetLineMaxColumn.loop e.mTabSize first first.length 0 0) :
    ∃ t e1 r, GetText e ⟨A.length, a⟩ ⟨A.length + 1 + M.length, b⟩ = some t ∧
      DeleteRange e ⟨A.length, a⟩ ⟨A.length + 1 + M.length, b⟩ = some e1 ∧
      InsertTextAt e1 ⟨A.length, a⟩ t = some r ∧ chars r.1 = chars e := by
  have hmemF : first ∈ e.mLines := by rw [hlines]; simp
  have hmemL : last ∈ e.mLines := by rw [hlines]; simp
  have hmemM : ∀ m ∈ M, m ∈ e.mLines := by
    intro m hm; rw [hlines]; simp [hm]
  have hsl := (hwf first hmemF).charIndex_le htab a
  have htl := (hwf last hmemL).charIndex_le htab b
  obtain ⟨cs, hws, hcs⟩ := index_walk_of_valid e.mTabSize first a ha
  obtain ⟨ce, hwe⟩ := (hwf first hmemF).walk htab
  have hwalk1 := hws.remainder (hwe ce first.length (Nat.le_refl _) (Nat.le_refl _)) hsl
  obtain ⟨ct, hwt, _⟩ :=
    GetCharacterIndex_loop_exists e.mTabSize last b last.length 0 0 (by omega)
  have hcut := index_after_cut e.mTabSize first
    (last.drop (GetCharacterIndex.loop e.mTabSize last b last.length 0 0)) a ha hsl
  have hget := GetText_crossLine (a := a) (b := b) A M Z first last hlines rfl rfl hsl htl
  obtain ⟨e1, hdel, hlines1⟩ :=
    DeleteRange_crossLine_eq (a := a) (b := b) hro A M Z first last hlines rfl rfl hsl htl
  obtain ⟨htab1, hro1⟩ := DeleteRange_config hdel
  generalize GetCharacterIndex.loop e.mTabSize first a first.length 0 0 = s at *
  generalize GetCharacterIndex.loop e.mTabSize last b last.length 0 0 = t at *
  have hL1 : e1.mLines[A.length]? = some (first.take s ++ last.drop t) := by
    rw [hlines1]; exact getElem?_append_at A _ _
  have hidx : GetCharacterIndex e1 ⟨A.length, a⟩ = (s : Int) := by
    rw [GetCharacterIndex_eq (c := ⟨A.length, a⟩) hL1, htab1, hcut]
  have hslen : (first.take s).length = s := by simp; omega
  have hseg : (first.drop s).take (first.length - s) = first.drop s :=
    List.take_of_length_le (by simp)
  have htext : (first.drop s).map (fun (g : Glyph) => g.mChar) ++
      10 :: ((M.map (fun l => l.map (fun (g : Glyph) => g.mChar) ++ [10])).flatten ++
        (last.take t).map (fun (g : Glyph) => g.mChar)) =
      ((first.drop s).take (first.length - s)).map (fun (g : Glyph) => g.mChar) ++
      10 :: ((M.map (fun l => l.map (fun (g : Glyph) => g.mChar) ++ [10])).flatten ++
        (((last.drop 0).take (t - 0)).map (fun (g : Glyph) => g.mChar) ++ [])) := by
    rw [hseg]; simp
  rw [htext] at hget
  obtain ⟨e2, F2, X, hF2, hloop2, hlines2, hX, hro2⟩ :=
    InsertTextAt_loop_lineStep first (hplain first hmemF) hwalk1 (Nat.le_refl _)
      (hro1.trans hro) A Z (first.take s) (last.drop t) hlines1 ⟨A.length, a⟩ rfl _ _ 0
      (Nat.le_refl _)
  rw [hslen] at hloop2
  have hlenA : (A ++ [first.take s ++ X]).length = A.length + 1 := by simp
  obtain ⟨e3, w3, F3, tl3, M3, hF3, hw3, hloop3, hlines3, hM3, hro3⟩ :=
    InsertTextAt_loop_block htab M (fun m hm => hwf m (hmemM m hm))
      (fun m hm => hplain m (hmemM m hm)) e2 (A ++ [first.take s ++ X]) Z (last.drop t)
      ⟨A.length + 1, 0⟩ F2 _ 1 hro2 (by rw [hlines2]; simp) (by simp) hF2
  have hM3len : M3.length = M.length := by
    have := congrArg List.length hM3
    simpa using this
  have hlen3 : (A ++ [first.take s ++ X] ++ M3).length = w3.mLine := by
    rw [hw3, hlenA]; simp only [List.length_append, hlenA, hM3len]
  have hL3 : e3.mLines[w3.mLine]? = some (last.drop t) := by
    rw [hlines3, ← hlen3]; exact getElem?_append_at _ _ _
  obtain ⟨e4, w4, F4, _, _, hloop4, hlines4, _⟩ :=
    InsertTextAt_loop_segment last (hplain last hmemL) hwt htl F3 [] e3 w3 0 tl3
      (last.drop t) hL3 (by simp) hF3
  rw [InsertTextAt_loop_nil] at hloop4
  refine ⟨_, e1, (e4, w4, tl3), hget, hdel, ?_, ?_⟩
  · unfold InsertTextAt
    simp only [hro1, hro, Bool.false_eq_true, if_false, hidx, Int.toNat_ofNat]
    rw [hloop2, hloop3, hloop4]
  · show chars e4 = chars e
    unfold chars
    rw [hlines4, hlines3, ← hlen3, set_append_at, hlines]
    simp only [List.map_append, List.map_cons, List.take_zero, List.drop_zero, List.nil_append,
      List.map_nil, map_mChar_default, hX, hM3, hseg, Nat.sub_zero]
    rw [← List.map_append, ← List.map_append, List.take_append_drop, List.take_append_drop]
    simp

/-- A buffer with lines `l1 < l2` splits around these two lines. -/
theorem lines_split {lines : Lines} {l1 l2 : Nat} (h12 : l1 < l2) (h2 : l2 < lines.length) :
    ∃ (A M Z : Lines) (first last : Line), lines = A ++ first :: (M ++ last :: Z) ∧
      A.length = l1 ∧ A.length + 1 + M.length = l2 := by
  have h1 : l1 < lines.length := by omega
  obtain ⟨hs1, hlen1⟩ := getElem?_split (List.getElem?_eq_getElem h1)
  have hk : l2 - l1 - 1 < (lines.drop (l1 + 1)).length := by
    simp only [List.length_drop]; omega
  obtain ⟨hs2, hlen2⟩ := getElem?_split (List.getElem?_eq_getElem hk)
  refine ⟨lines.take l1, (lines.drop (l1 + 1)).take (l2 - l1 - 1),
    (lines.drop (l1 + 1)).drop (l2 - l1 - 1 + 1), lines[l1],
    (lines.drop (l1 + 1))[l2 - l1 - 1], ?_, hlen1, ?_⟩
  · rw [← hs2]; exact hs1
  · rw [hlen1, hlen2]; omega

/-- C5 (amended): in a writable editor with tab size at least 1 whose lines consist of
complete characters and hold no NUL, line feed or carriage return byte, for all valid
coordinates `aStart ≤ aEnd`, the calls `GetText(aStart, aEnd)`, `DeleteRange(aStart, aEnd)` and
`InsertTextAt(aStart, t)` with the text `t` taken first all complete, and afterwards the
buffer has the same number of lines with the same characters in every line. -/
theorem DeleteRange_InsertTextAt_restores (e : TextEditor) (aStart aEnd : Coordinates)
    (htab : 0 < e.mTabSize) (hro : e.mReadOnly = false) (hwf : WellFormed e)
    (hplain : PlainText e) (hs : ValidCoordinates e aStart) (he : ValidCoordinates e aEnd)
    (hle : aStart.le aEnd = true) :
    ∃ t e1 r, GetText e aStart aEnd = some t ∧ DeleteRange e aStart aEnd = some e1 ∧
      InsertTextAt e1 aStart t = some r ∧ chars r.1 = chars e := by
  obtain ⟨l1, a⟩ := aStart
  obtain ⟨l2, b⟩ := aEnd
  obtain ⟨hl1, ha⟩ := hs
  obtain ⟨hl2, _⟩ := he
  simp only at hl1 ha hl2
  by_cases hl : l1 = l2
  · subst hl
    have hab : a ≤ b := by simpa [Coordinates.le] using hle
    rcases Nat.eq_or_lt_of_le hab with h | h
    · subst h
      exact roundtrip_equal hro _
    · have hL : e.mLines[l1]? = some e.mLines[l1] := List.getElem?_eq_getElem hl1
      rw [GetLineMaxColumn_eq hL] at ha
      exact roundtrip_sameLine htab hro hL (hwf _ (List.getElem?_mem hL))
        (hplain _ (List.getElem?_mem hL)) h ha
  · have h12 : l1 < l2 := by
      simp only [Coordinates.le, ne_eq, hl, not_false_eq_true, if_true,
        decide_eq_true_eq] at hle
      exact hle
    obtain ⟨A, M, Z, first, last, hlines, hA, hM⟩ := lines_split h12 hl2
    subst hA
    subst hM
    have hL : e.mLines[A.length]? = some first := by
      rw [hlines]; exact getElem?_append_at A first _
    rw [GetLineMaxColumn_eq hL] at ha
    exact roundtrip_crossLine htab hro A M Z first last hlines hwf hplain ha

/-- Witness for C5: three lines, a tab followed by `ab`, the two bytes of U+00E9, and `cd`,
with tab size 4; the range goes from `(0, 2)`, inside the width of the tab, to `(2, 1)`. -/
theorem DeleteRange_InsertTextAt_restores_witness :
    (0 < (withText new [[9, 97, 98], [195, 169], [99, 100]] ⟨0, 0⟩).mTabSize ∧
     (withText new [[9, 97, 98], [195, 169], [99, 100]] ⟨0, 0⟩).mReadOnly = false ∧
     WellFormed (withText new [[9, 97, 98], [195, 169], [99, 100]] ⟨0, 0⟩) ∧
     PlainText (withText new [[9, 97, 98], [195, 169], [99, 100]] ⟨0, 0⟩) ∧
     ValidCoordinates (withText new [[9, 97, 98], [195, 169], [99, 100]] ⟨0, 0⟩) ⟨0, 2⟩ ∧
     ValidCoordinates (withText new [[9, 97, 98], [195, 169], [99, 100]] ⟨0, 0⟩) ⟨2, 1⟩ ∧
     (⟨0, 2⟩ : Coordinates).le ⟨2, 1⟩ = true) ∧
    ∃ t e1 r,
      GetText (withText new [[9, 97, 98], [195, 169], [99, 100]] ⟨0, 0⟩) ⟨0, 2⟩ ⟨2, 1⟩ =
        some t ∧
      DeleteRange (withText new [[9, 97, 98], [195, 169], [99, 100]] ⟨0, 0⟩) ⟨0, 2⟩ ⟨2, 1⟩ =
        some e1 ∧
      InsertTextAt e1 ⟨0, 2⟩ t = some r ∧
      chars r.1 = chars (withText new [[9, 97, 98], [195, 169], [99, 100]] ⟨0, 0⟩) :=
  ⟨⟨by decide, rfl, by unfold WellFormed WellFormedLine; decide,
     by unfold PlainText; decide, by unfold ValidCoordinates; decide,
     by unfold ValidCoordinates; decide, by decide⟩,
   DeleteRange_InsertTextAt_restores _ ⟨0, 2⟩ ⟨2, 1⟩ (by decide) rfl
     (by unfold WellFormed WellFormedLine; decide) (by unfold PlainText; decide)
     (by unfold ValidCoordinates; decide) (by unfold ValidCoordinates; decide) (by decide)⟩

/-- Counterexample for C5 as stated: `SetTextLines` with the one line `a`, carriage return,
`b` (bytes 97, 13, 98) gives a buffer whose line holds a carriage return cell.  The
coordinates `(0, 0)` and `(0, 3)` are valid for it and ordered; `GetText` returns the three
bytes, `DeleteRange` empties the line, and `InsertTextAt` skips the carriage return, so the
line ends as `ab` and the characters of the buffer are not restored. -/
theorem DeleteRange_InsertTextAt_carriage_return :
    chars (SetTextLines new [[97, 13, 98]]) = [[97, 13, 98]] ∧
    (SetTextLines new [[97, 13, 98]]).mReadOnly = false ∧
    ValidCoordinates (SetTextLines new [[97, 13, 98]]) ⟨0, 0⟩ ∧
    ValidCoordinates (SetTextLines new [[97, 13, 98]]) ⟨0, 3⟩ ∧
    (⟨0, 0⟩ : Coordinates).le ⟨0, 3⟩ = true ∧
    GetText (SetTextLines new [[97, 13, 98]]) ⟨0, 0⟩ ⟨0, 3⟩ = some [97, 13, 98] ∧
    ((DeleteRange (SetTextLines new [[97, 13, 98]]) ⟨0, 0⟩ ⟨0, 3⟩).bind
      (fun e1 => (InsertTextAt e1 ⟨0, 0⟩ [97, 13, 98]).map (fun r => chars r.1))) =
      some [[97, 98]] ∧
    ¬ ∃ t e1 r, GetText (SetTextLines new [[97, 13, 98]]) ⟨0, 0⟩ ⟨0, 3⟩ = some t ∧
      DeleteRange (SetTextLines new [[97, 13, 98]]) ⟨0, 0⟩ ⟨0, 3⟩ = some e1 ∧
      InsertTextAt e1 ⟨0, 0⟩ t = some r ∧
      chars r.1 = chars (SetTextLines new [[97, 13, 98]]) := by
  have hg : GetText (SetTextLines new [[97, 13, 98]]) ⟨0, 0⟩ ⟨0, 3⟩ = some [97, 13, 98] := by
    decide
  have hb : ((DeleteRange (SetTextLines new [[97, 13, 98]]) ⟨0, 0⟩ ⟨0, 3⟩).bind
      (fun e1 => (InsertTextAt e1 ⟨0, 0⟩ [97, 13, 98]).map (fun r => chars r.1))) =
      some [[97, 98]] := by decide
  have hc : chars (SetTextLines new [[97, 13, 98]]) = [[97, 13, 98]] := by decide
  refine ⟨hc, rfl, by unfold ValidCoordinates; decide, by unfold ValidCoordinates; decide,
    by decide, hg, hb, ?_⟩
  rintro ⟨t, e1, r, h1, h2, h3, h4⟩
  rw [hg] at h1
  cases h1
  rw [h2] at hb
  simp only [Option.some_bind, h3, Option.map_some', Option.some.injEq] at hb
  rw [h4, hc] at hb
  revert hb
  decide

/-! ## The undo index tests -/

/-- C11 (amended): `CanUndo` is true exactly when the buffer is not read-only and the undo
index is greater than 0, and `CanRedo` is true exactly when the buffer is not read-only and
the undo index is less than the number of records in the undo log. -/
theorem CanUndo_CanRedo_iff (e : TextEditor) :
    (CanUndo e = true ↔ (0 < e.mUndoIndex ∧ e.mReadOnly = false)) ∧
    (CanRedo e = true ↔ (e.mReadOnly = false ∧ e.mUndoIndex < e.mUndoBuffer.length)) := by
  constructor
  · cases h : e.mReadOnly <;> simp [CanUndo, h]
  · cases h : e.mReadOnly <;> simp [CanRedo, h]

/-- Counterexample for C11 as stated: after `EnterCharacter` of `a`, `Undo(1)` and
`SetReadOnly(true)` the undo index 0 is less than the number 1 of records in the log, and
`CanRedo` is false. -/
theorem CanRedo_read_only :
    ((EnterCharacter new 97 false).bind (fun e => Undo e 1)).map
      (fun e => ((SetReadOnly e true).mUndoIndex, (SetReadOnly e true).mUndoBuffer.length,
        CanRedo (SetReadOnly e true))) = some (0, 1, false) := by
  decide

/-! ## Removing lines: error markers and breakpoints -/

/-- C19: in a buffer of four lines with error markers on the keys 1 and 3, `RemoveLine(1)`
keeps the marker keyed 1 and drops the marker keyed 3: the second line is erased, the marker
keyed 1 is not dropped and the marker keyed 3 is not re-keyed to 2. -/
theorem RemoveLine_error_markers :
    (RemoveLine
      (SetErrorMarkers (withText new [[97], [98], [99], [100]] ⟨0, 0⟩)
        [(1, [101]), (3, [102])]) 1).map
      (fun e => (chars e, e.mErrorMarkers)) =
      some ([[97], [99], [100]], [(1, [101])]) := by
  decide

/-- C20: in a buffer of six lines with breakpoints on the lines 3 and 5, the range removal
`RemoveLine(1, 3)` erases the lines 1 and 2, drops the breakpoint on line 3 (a line that is
not erased) and moves the breakpoint on line 5 to line 4, not to line 3. -/
theorem RemoveLineRange_breakpoints :
    (RemoveLineRange
      (SetBreakpoints (withText new [[97], [98], [99], [100], [101], [102]] ⟨0, 0⟩) [3, 5])
      1 3).map
      (fun e => (chars e, e.mBreakpoints)) =
      some ([[97], [100], [101], [102]], [4]) := by
  decide

/-! ## The tab-stop example of `Types.h` -/

/-- C14: with tab size 4, on a line whose cells hold exactly a tab, `A`, `B`, `C` (whatever
their colours and flags), `GetLineMaxColumn` is 7 and `GetCharacterIndex` at column 5 is 2,
the index of the cell of `B`. -/
theorem tab_line_columns (e : TextEditor) (l : Nat) (ln : Line) (htab : e.mTabSize = 4)
    (hl : e.mLines[l]? = some ln)
    (hc : ln.map (fun (g : Glyph) => g.mChar) = [9, 65, 66, 67]) :
    GetLineMaxColumn e l = 7 ∧ GetCharacterIndex e ⟨l, 5⟩ = 2 ∧
      (ln[2]?).map (fun (g : Glyph) => g.mChar) = some 66 := by
  rcases ln with _ | ⟨g0, _ | ⟨g1, _ | ⟨g2, _ | ⟨g3, _ | ⟨g4, t⟩⟩⟩⟩⟩ <;>
    simp only [List.map_cons, List.map_nil, List.cons.injEq, and_true, reduceCtorEq,
      and_false, false_and] at hc
  obtain ⟨h0, h1, h2, h3⟩ := hc
  obtain ⟨c0, _, _, _, _⟩ := g0
  obtain ⟨c1, _, _, _, _⟩ := g1
  obtain ⟨c2, _, _, _, _⟩ := g2
  obtain ⟨c3, _, _, _, _⟩ := g3
  simp only at h0 h1 h2 h3
  subst h0 h1 h2 h3
  have u0 : UTF8CharLength 9 = 1 := by decide
  have u1 : UTF8CharLength 65 = 1 := by decide
  have u2 : UTF8CharLength 66 = 1 := by decide
  have u3 : UTF8CharLength 67 = 1 := by decide
  refine ⟨?_, ?_, rfl⟩
  · rw [GetLineMaxColumn_eq hl, htab]
    simp [GetLineMaxColumn.loop, advanceColumn, u0, u1, u2, u3]
  · rw [GetCharacterIndex_eq (c := ⟨l, 5⟩) hl, htab]
    simp [GetCharacterIndex.loop, advanceColumn, u0, u1, u2, u3]

/-- Witness for C14: the editor that holds the one line tab, `A`, `B`, `C`. -/
theorem tab_line_columns_witness :
    ((withText new [[9, 65, 66, 67]] ⟨0, 0⟩).mTabSize = 4 ∧
     (withText new [[9, 65, 66, 67]] ⟨0, 0⟩).mLines[0]? =
       some ([9, 65, 66, 67].map (fun b => ({ mChar := b } : Glyph))) ∧
     ([9, 65, 66, 67].map (fun b => ({ mChar := b } : Glyph))).map
       (fun (g : Glyph) => g.mChar) = [9, 65, 66, 67]) ∧
    (GetLineMaxColumn (withText new [[9, 65, 66, 67]] ⟨0, 0⟩) 0 = 7 ∧
     GetCharacterIndex (withText new [[9, 65, 66, 67]] ⟨0, 0⟩) ⟨0, 5⟩ = 2 ∧
     (([9, 65, 66, 67].map (fun b => ({ mChar := b } : Glyph)))[2]?).map
       (fun (g : Glyph) => g.mChar) = some 66) :=
  ⟨⟨rfl, rfl, rfl⟩, tab_line_columns _ 0 _ rfl rfl rfl⟩

/-! ## Backspace and Delete at the edges of the buffer -/

theorem GetLineMaxColumn_SetCursorPosition (e : TextEditor) (p : Coordinates) (l : Nat) :
    GetLineMaxColumn (SetCursorPosition e p) l = GetLineMaxColumn e l := by
  unfold GetLineMaxColumn
  simp only [SetCursorPosition_mLines, SetCursorPosition_mTabSize]

theorem RemoveLineRange_log {e e' : TextEditor} {a b : Nat}
    (h : RemoveLineRange e a b = some e') :
    e'.mUndoBuffer = e.mUndoBuffer ∧ e'.mUndoIndex = e.mUndoIndex ∧
      e'.mReadOnly = e.mReadOnly := by
  unfold RemoveLineRange at h
  simp only [] at h
  split at h; · simp at h
  split at h; · simp at h
  split at h; · simp at h
  split at h; · simp at h
  split at h; · simp at h
  simp at h; subst h
  exact ⟨rfl, rfl, rfl⟩

theorem InsertLine_log {e e' : TextEditor} {a : Nat} (h : InsertLine e a = some e') :
    e'.mUndoBuffer = e.mUndoBuffer ∧ e'.mUndoIndex = e.mUndoIndex ∧
      e'.mReadOnly = e.mReadOnly := by
  unfold InsertLine at h
  simp only [] at h
  split at h; · simp at h
  split at h; · simp at h
  simp at h; subst h
  exact ⟨rfl, rfl, rfl⟩

/-- `DeleteRange` leaves the undo log, the undo index and the read-only flag as they are. -/
theorem DeleteRange_log {e e' : TextEditor} {a b : Coordinates}
    (h : DeleteRange e a b = some e') :
    e'.mUndoBuffer = e.mUndoBuffer ∧ e'.mUndoIndex = e.mUndoIndex ∧
      e'.mReadOnly = e.mReadOnly := by
  unfold DeleteRange at h
  split at h; · simp at h
  split at h; · simp at h
  split at h; · simp at h; subst h; exact ⟨rfl, rfl, rfl⟩
  split at h
  · split at h; · simp at h
    split at h; · simp at h
    simp at h; subst h
    exact ⟨rfl, rfl, rfl⟩
  · split at h
    · split at h
      · split at h
        · split at h; · simp at h
          rename_i e2 h2
          simp at h; subst h
          have := RemoveLineRange_log h2
          exact ⟨this.1, this.2.1, this.2.2⟩
        · simp at h; subst h
          exact ⟨rfl, rfl, rfl⟩
      · simp at h
    · simp at h

theorem InsertTextAt_loop_log : ∀ (fuel : Nat) (t : List Nat) (e : TextEditor)
    (w : Coordinates) (ci tl : Nat) (r : TextEditor × Coordinates × Nat),
    InsertTextAt.loop fuel t e w ci tl = some r →
    r.1.mUndoBuffer = e.mUndoBuffer ∧ r.1.mUndoIndex = e.mUndoIndex ∧
      r.1.mReadOnly = e.mReadOnly := by
  intro fuel
  induction fuel with
  | zero => intro t e w ci tl r h; simp [InsertTextAt.loop] at h; subst h; exact ⟨rfl, rfl, rfl⟩
  | succ n ih =>
    intro t e w ci tl r h
    cases t with
    | nil => simp [InsertTextAt.loop] at h; subst h; exact ⟨rfl, rfl, rfl⟩
    | cons ch rest =>
      unfold InsertTextAt.loop at h
      split at h; · simp at h; subst h; exact ⟨rfl, rfl, rfl⟩
      split at h; · simp at h
      split at h
      · have h2 := ih _ _ _ _ _ _ h
        exact h2
      split at h
      · split at h; · simp at h
        split at h; · simp at h
        rename_i e1 he1
        have h1 := InsertLine_log he1
        have h2 := ih _ _ _ _ _ _ h
        exact ⟨h2.1.trans h1.1, h2.2.1.trans h1.2.1, h2.2.2.trans h1.2.2⟩
      · split at h; · simp at h
        split at h; · simp at h
        have h2 := ih _ _ _ _ _ _ h
        exact h2

/-- `InsertTextAt` leaves the undo log, the undo index and the read-only flag as they
are. -/
theorem InsertTextAt_log {e : TextEditor} {w : Coordinates} {t : List Nat}
    {r : TextEditor × Coordinates × Nat} (h : InsertTextAt e w t = some r) :
    r.1.mUndoBuffer = e.mUndoBuffer ∧ r.1.mUndoIndex = e.mUndoIndex ∧
      r.1.mReadOnly = e.mReadOnly := by
  unfold InsertTextAt at h
  split at h; · simp at h
  exact InsertTextAt_loop_log _ _ _ _ _ _ _ h

theorem deleteSpan_log {e e' : TextEditor} {t : List Nat} {a b : Coordinates} {x : Int}
    (h : UndoRecord.deleteSpan e t a b x = some e') :
    e'.mUndoBuffer = e.mUndoBuffer ∧ e'.mUndoIndex = e.mUndoIndex ∧
      e'.mReadOnly = e.mReadOnly := by
  unfold UndoRecord.deleteSpan at h
  split at h; · simp at h; subst h; exact ⟨rfl, rfl, rfl⟩
  split at h; · simp at h
  rename_i ed hd
  simp at h; subst h
  simpa using DeleteRange_log hd

theorem insertSpan_log {e e' : TextEditor} {t : List Nat} {a b : Coordinates} {x : Int}
    (h : UndoRecord.insertSpan e t a b x = some e') :
    e'.mUndoBuffer = e.mUndoBuffer ∧ e'.mUndoIndex = e.mUndoIndex ∧
      e'.mReadOnly = e.mReadOnly := by
  unfold UndoRecord.insertSpan at h
  split at h; · simp at h; subst h; exact ⟨rfl, rfl, rfl⟩
  split at h; · simp at h
  rename_i r hr
  simp at h; subst h
  simpa using InsertTextAt_log hr

/-- Applying a record backwards leaves the undo log, the undo index and the read-only flag
as they are. -/
theorem UndoRecord_Undo_log {u : UndoRecord} {e e' : TextEditor} (h : u.Undo e = some e') :
    e'.mUndoBuffer = e.mUndoBuffer ∧ e'.mUndoIndex = e.mUndoIndex ∧
      e'.mReadOnly = e.mReadOnly := by
  unfold UndoRecord.Undo at h
  split at h; · simp at h
  rename_i e1 h1
  split at h; · simp at h
  rename_i e2 h2
  simp at h; subst h
  have a := deleteSpan_log h1
  have b := insertSpan_log h2
  simp only [EnsureCursorVisible_mUndoBuffer, EnsureCursorVisible_mUndoIndex,
    EnsureCursorVisible_mReadOnly]
  exact ⟨b.1.trans a.1, b.2.1.trans a.2.1, b.2.2.trans a.2.2⟩

/-- Applying a record forwards leaves the undo log, the undo index and the read-only flag
as they are. -/
theorem UndoRecord_Redo_log {u : UndoRecord} {e e' : TextEditor} (h : u.Redo e = some e') :
    e'.mUndoBuffer = e.mUndoBuffer ∧ e'.mUndoIndex = e.mUndoIndex ∧
      e'.mReadOnly = e.mReadOnly := by
  unfold UndoRecord.Redo at h
  split at h; · simp at h
  rename_i e1 h1
  split at h; · simp at h
  rename_i e2 h2
  simp at h; subst h
  have a := deleteSpan_log h1
  have b := insertSpan_log h2
  simp only [EnsureCursorVisible_mUndoBuffer, EnsureCursorVisible_mUndoIndex,
    EnsureCursorVisible_mReadOnly]
  exact ⟨b.1.trans a.1, b.2.1.trans a.2.1, b.2.2.trans a.2.2⟩

/-- `Undo(n)` applies the records below the index, newest first, as far as `n` reaches. -/
theorem Undo_eq_applyUndo : ∀ (n : Nat) (e : TextEditor), e.mReadOnly = false →
    e.mUndoIndex ≤ e.mUndoBuffer.length →
    Undo e n = Spec.applyUndo (((e.mUndoBuffer.take e.mUndoIndex).reverse).take n) e := by
  intro n
  induction n with
  | zero => intro e _ _; rfl
  | succ n ih =>
    intro e hro hidx
    unfold Undo
    by_cases h0 : e.mUndoIndex = 0
    · simp [CanUndo, h0, Spec.applyUndo]
    · have hcan : CanUndo e = true := by simp [CanUndo, hro]; omega
      have hk : e.mUndoIndex - 1 < e.mUndoBuffer.length := by omega
      have hget : e.mUndoBuffer[e.mUndoIndex - 1]? = some e.mUndoBuffer[e.mUndoIndex - 1] :=
        List.getElem?_eq_getElem hk
      have htake : e.mUndoBuffer.take e.mUndoIndex =
          e.mUndoBuffer.take (e.mUndoIndex - 1) ++ [e.mUndoBuffer[e.mUndoIndex - 1]] := by
        have : e.mUndoIndex = (e.mUndoIndex - 1) + 1 := by omega
        conv => lhs; rw [this]
        rw [List.take_succ, hget]
        rfl
      rw [htake, List.reverse_append]
      simp only [hcan, if_true, hget, List.reverse_cons, List.reverse_nil, List.nil_append,
        List.singleton_append, List.take_succ_cons, Spec.applyUndo]
      cases hu : UndoRecord.Undo e.mUndoBuffer[e.mUndoIndex - 1]
          { e with mUndoIndex := e.mUndoIndex - 1 } with
      | none => rfl
      | some e1 =>
        obtain ⟨hb, hi, hr⟩ := UndoRecord_Undo_log hu
        replace hb : e1.mUndoBuffer = e.mUndoBuffer := hb
        replace hi : e1.mUndoIndex = e.mUndoIndex - 1 := hi
        replace hr : e1.mReadOnly = e.mReadOnly := hr
        simp only
        rw [ih e1 (hr.trans hro) (by rw [hb, hi]; omega), hb, hi]
        rfl

/-- `Redo(n)` applies the records from the index on, oldest first, as far as `n` reaches. -/
theorem Redo_eq_applyRedo : ∀ (n : Nat) (e : TextEditor), e.mReadOnly = false →
    Redo e n = Spec.applyRedo ((e.mUndoBuffer.drop e.mUndoIndex).take n) e := by
  intro n
  induction n with
  | zero => intro e _; rfl
  | succ n ih =>
    intro e hro
    unfold Redo
    by_cases h0 : e.mUndoIndex < e.mUndoBuffer.length
    · have hcan : CanRedo e = true := by simp [CanRedo, hro, h0]
      have hget : e.mUndoBuffer[e.mUndoIndex]? = some e.mUndoBuffer[e.mUndoIndex] :=
        List.getElem?_eq_getElem h0
      rw [List.drop_eq_getElem_cons h0]
      simp only [hcan, if_true, hget, List.take_succ_cons, Spec.applyRedo]
      cases hu : UndoRecord.Redo e.mUndoBuffer[e.mUndoIndex]
          { e with mUndoIndex := e.mUndoIndex + 1 } with
      | none => rfl
      | some e1 =>
        obtain ⟨hb, hi, hr⟩ := UndoRecord_Redo_log hu
        replace hb : e1.mUndoBuffer = e.mUndoBuffer := hb
        replace hi : e1.mUndoIndex = e.mUndoIndex + 1 := hi
        replace hr : e1.mReadOnly = e.mReadOnly := hr
        simp only
        rw [ih e1 (hr.trans hro), hb, hi]
    · have hcan : CanRedo e = false := by simp [CanRedo, hro]; omega
      rw [List.drop_eq_nil_of_le (by omega)]
      simp [hcan, Spec.applyRedo]

theorem applyUndo_log : ∀ (us : List UndoRecord) (e e' : TextEditor),
    Spec.applyUndo us e = some e' →
    e'.mUndoIndex = e.mUndoIndex - us.length ∧ e'.mUndoBuffer = e.mUndoBuffer := by
  intro us
  induction us with
  | nil => intro e e' h; simp [Spec.applyUndo] at h; subst h; exact ⟨rfl, rfl⟩
  | cons u us ih =>
    intro e e' h
    unfold Spec.applyUndo at h
    split at h; · simp at h
    rename_i e1 h1
    obtain ⟨hb, hi, _⟩ := UndoRecord_Undo_log h1
    replace hb : e1.mUndoBuffer = e.mUndoBuffer := hb
    replace hi : e1.mUndoIndex = e.mUndoIndex - 1 := hi
    obtain ⟨h2, h3⟩ := ih e1 e' h
    refine ⟨?_, h3.trans hb⟩
    rw [h2, hi, List.length_cons]
    omega

theorem applyRedo_log : ∀ (us : List UndoRecord) (e e' : TextEditor),
    Spec.applyRedo us e = some e' →
    e'.mUndoIndex = e.mUndoIndex + us.length ∧ e'.mUndoBuffer = e.mUndoBuffer := by
  intro us
  induction us with
  | nil => intro e e' h; simp [Spec.applyRedo] at h; subst h; exact ⟨rfl, rfl⟩
  | cons u us ih =>
    intro e e' h
    unfold Spec.applyRedo at h
    split at h; · simp at h
    rename_i e1 h1
    obtain ⟨hb, hi, _⟩ := UndoRecord_Redo_log h1
    replace hb : e1.mUndoBuffer = e.mUndoBuffer := hb
    replace hi : e1.mUndoIndex = e.mUndoIndex + 1 := hi
    obtain ⟨h2, h3⟩ := ih e1 e' h
    refine ⟨?_, h3.trans hb⟩
    rw [h2, hi, List.length_cons]
    omega

/-- C12: in a writable editor whose undo index is at most the length of the log, `Undo(n)`
is the run that applies the `min(n, index)` records below the index, newest first, and
`Redo(n)` is the run that applies the `min(n, length - index)` records from the index on;
a run that completes lowers (raises) the index by that number and leaves the log as it is;
`Undo` at index 0 and `Redo` at index = length return the editor unchanged. -/
theorem Undo_Redo_steps (e : TextEditor) (n : Nat) (hro : e.mReadOnly = false)
    (hidx : e.mUndoIndex ≤ e.mUndoBuffer.length) :
    (Undo e n = Spec.applyUndo (((e.mUndoBuffer.take e.mUndoIndex).reverse).take n) e ∧
      (((e.mUndoBuffer.take e.mUndoIndex).reverse).take n).length = min n e.mUndoIndex) ∧
    (Redo e n = Spec.applyRedo ((e.mUndoBuffer.drop e.mUndoIndex).take n) e ∧
      ((e.mUndoBuffer.drop e.mUndoIndex).take n).length =
        min n (e.mUndoBuffer.length - e.mUndoIndex)) ∧
    (∀ e', Undo e n = some e' →
      e'.mUndoIndex = e.mUndoIndex - min n e.mUndoIndex ∧ e'.mUndoBuffer = e.mUndoBuffer) ∧
    (∀ e', Redo e n = some e' →
      e'.mUndoIndex = e.mUndoIndex + min n (e.mUndoBuffer.length - e.mUndoIndex) ∧
        e'.mUndoBuffer = e.mUndoBuffer) ∧
    (e.mUndoIndex = 0 → Undo e n = some e) ∧
    (e.mUndoIndex = e.mUndoBuffer.length → Redo e n = some e) := by
  have hu := Undo_eq_applyUndo n e hro hidx
  have hr := Redo_eq_applyRedo n e hro
  have lu : (((e.mUndoBuffer.take e.mUndoIndex).reverse).take n).length =
      min n e.mUndoIndex := by
    simp [Nat.min_eq_left hidx]
  have lr : ((e.mUndoBuffer.drop e.mUndoIndex).take n).length =
      min n (e.mUndoBuffer.length - e.mUndoIndex) := by
    simp
  refine ⟨⟨hu, lu⟩, ⟨hr, lr⟩, ?_, ?_, ?_, ?_⟩
  · intro e' h
    rw [hu] at h
    have := applyUndo_log _ _ _ h
    rw [lu] at this
    exact this
  · intro e' h
    rw [hr] at h
    have := applyRedo_log _ _ _ h
    rw [lr] at this
    exact this
  · intro h0
    rw [hu, h0]
    simp [Spec.applyUndo]
  · intro h0
    rw [hr, h0]
    simp [Spec.applyRedo]

/-- Witness for C12: the editor after typing `a` and `b` holds two records; `Undo(5)`
applies both and ends at index 0 with an empty line, and `Redo(1)` after `Undo(2)` ends at
index 1 with the line `a`. -/
theorem Undo_Redo_steps_witness :
    ((typed [97, 98]).mReadOnly = false ∧
      (typed [97, 98]).mUndoIndex = 2 ∧ (typed [97, 98]).mUndoBuffer.length = 2) ∧
    (Undo (typed [97, 98]) 5).map (fun e => (chars e, e.mUndoIndex)) = some ([[]], 0) ∧
    ((Undo (typed [97, 98]) 2).bind (fun e => Redo e 1)).map
      (fun e => (chars e, e.mUndoIndex)) = some ([[97]], 1) ∧
    (∀ e', Undo (typed [97, 98]) 5 = some e' →
      e'.mUndoIndex = (typed [97, 98]).mUndoIndex - min 5 (typed [97, 98]).mUndoIndex ∧
        e'.mUndoBuffer = (typed [97, 98]).mUndoBuffer) :=
  ⟨⟨rfl, by decide, by decide⟩, by decide, by decide,
    (Undo_Redo_steps (typed [97, 98]) 5 rfl (by decide)).2.2.1⟩

/-! ## The token pass on a keyword, punctuation and an identifier -/

/-- `ColorizeRange` on the single line `i` of a buffer. -/
theorem ColorizeRange_one_line (e : TextEditor) (i : Nat) (ln ln' : Line)
    (hln : e.mLines[i]? = some ln)
    (hline : ColorizeRange.line e.mLanguageDefinition e.mRegexList ln = some ln') :
    ColorizeRange e i (i + 1) = some { e with mLines := e.mLines.set i ln' } := by
  have hi : i < e.mLines.length := by
    by_contra hc
    rw [List.getElem?_eq_none (Nat.le_of_not_lt hc)] at hln
    cases hln
  have hemp : e.mLines.isEmpty = false := isEmpty_eq_false_of_lt hi
  have hend : max 0 (min (e.mLines.length : Int) ((i : Int) + 1)) = (i : Int) + 1 := by
    omega
  unfold ColorizeRange
  have h1 : ¬ (e.mLines.isEmpty = true ∨ (i : Int) ≥ (i : Int) + 1) := by
    simp [hemp]
  have h2 : ¬ ((i : Int) ≥ (i : Int) + 1) := by omega
  have h3 : ¬ ((i : Int) < 0) := by omega
  have h4 : ((i : Int) + 1 - (i : Int)).toNat = 1 := by simp
  simp only [h1, if_false, hend, h2, h3, h4, Int.toNat_ofNat]
  simp only [ColorizeRange.lines, hln, hline, hemp, Bool.false_eq_true, false_or, if_false]

/-- C16: for a case-sensitive grammar without tokenize callback whose rules are those of
the built-in GLSL definition, whose keyword set contains `if` and whose tables do not hold
`x`, `ColorizeRange` on a line with the characters `if(x)`, none of them flagged as
preprocessor, completes and tags the cells 0 and 1 `Keyword`, cell 2 `Punctuation`,
cell 3 `Identifier` and cell 4 `Punctuation`, whatever the tags were before. -/
theorem ColorizeRange_if_x (e : TextEditor) (i : Nat) (ln : Line)
    (hln : e.mLines[i]? = some ln)
    (hchars : ln.map (fun (g : Glyph) => g.mChar) = bytes "if(x)")
    (hpre : ∀ g ∈ ln, g.mPreprocessor = false)
    (hrules : e.mRegexList =
      LanguageDefinition.GLSL.mTokenRegexStrings.map (fun r => (Regex.search r.1, r.2)))
    (htok : e.mLanguageDefinition.mTokenize = none)
    (hcase : e.mLanguageDefinition.mCaseSensitive = true)
    (hif : bytes "if" ∈ e.mLanguageDefinition.mKeywords)
    (hx : bytes "x" ∉ e.mLanguageDefinition.mKeywords ∧
      bytes "x" ∉ e.mLanguageDefinition.mIdentifiers ∧
      bytes "x" ∉ e.mLanguageDefinition.mPreprocIdentifiers) :
    ∃ e' ln', ColorizeRange e i (i + 1) = some e' ∧ e'.mLines = e.mLines.set i ln' ∧
      ln'.map (fun (g : Glyph) => g.mChar) = bytes "if(x)" ∧
      ln'.map (fun (g : Glyph) => g.mColorIndex) =
        [PaletteIndex.Keyword, PaletteIndex.Keyword, PaletteIndex.Punctuation,
          PaletteIndex.Identifier, PaletteIndex.Punctuation] := by
  have hb : bytes "if(x)" = [105, 102, 40, 120, 41] := by decide
  have hbif : bytes "if" = [105, 102] := by decide
  have hbx : bytes "x" = [120] := by decide
  rw [hbif] at hif
  rw [hbx] at hx
  rw [hb] at hchars ⊢
  rcases ln with _ | ⟨g0, _ | ⟨g1, _ | ⟨g2, _ | ⟨g3, _ | ⟨g4, _ | ⟨g5, t⟩⟩⟩⟩⟩⟩ <;>
    simp only [List.map_cons, List.map_nil, List.cons.injEq, and_true, reduceCtorEq,
      and_false, false_and] at hchars
  obtain ⟨h0, h1, h2, h3, h4⟩ := hchars
  have p0 := hpre g0 (by simp)
  have p1 := hpre g1 (by simp)
  have p2 := hpre g2 (by simp)
  have p3 := hpre g3 (by simp)
  have p4 := hpre g4 (by simp)
  obtain ⟨c0, k0, a0, b0, d0⟩ := g0
  obtain ⟨c1, k1, a1, b1, d1⟩ := g1
  obtain ⟨c2, k2, a2, b2, d2⟩ := g2
  obtain ⟨c3, k3, a3, b3, d3⟩ := g3
  obtain ⟨c4, k4, a4, b4, d4⟩ := g4
  simp only at h0 h1 h2 h3 h4 p0 p1 p2 p3 p4
  subst h0 h1 h2 h3 h4 p0 p1 p2 p3 p4
  have s0 : ColorizeRange.searchRules
      (LanguageDefinition.GLSL.mTokenRegexStrings.map (fun r => (Regex.search r.1, r.2)))
      [105, 102, 40, 120, 41] = some (0, 2, PaletteIndex.Identifier) := by decide
  have s2 : ColorizeRange.searchRules
      (LanguageDefinition.GLSL.mTokenRegexStrings.map (fun r => (Regex.search r.1, r.2)))
      [40, 120, 41] = some (0, 1, PaletteIndex.Punctuation) := by decide
  have s3 : ColorizeRange.searchRules
      (LanguageDefinition.GLSL.mTokenRegexStrings.map (fun r => (Regex.search r.1, r.2)))
      [120, 41] = some (0, 1, PaletteIndex.Identifier) := by decide
  have s4 : ColorizeRange.searchRules
      (LanguageDefinition.GLSL.mTokenRegexStrings.map (fun r => (Regex.search r.1, r.2)))
      [41] = some (0, 1, PaletteIndex.Punctuation) := by decide
  have hline : ColorizeRange.line e.mLanguageDefinition e.mRegexList
      [⟨105, k0, a0, b0, false⟩, ⟨102, k1, a1, b1, false⟩, ⟨40, k2, a2, b2, false⟩,
        ⟨120, k3, a3, b3, false⟩, ⟨41, k4, a4, b4, false⟩] =
      some [⟨105, PaletteIndex.Keyword, a0, b0, false⟩,
        ⟨102, PaletteIndex.Keyword, a1, b1, false⟩,
        ⟨40, PaletteIndex.Punctuation, a2, b2, false⟩,
        ⟨120, PaletteIndex.Identifier, a3, b3, false⟩,
        ⟨41, PaletteIndex.Punctuation, a4, b4, false⟩] := by
    simp [ColorizeRange.line, ColorizeRange.tokens, ColorizeRange.findToken, htok, hrules,
      s0, s2, s3, s4, ColorizeRange.tokenColor, ColorizeRange.paint, hcase, hif, hx.1, hx.2.1,
      hx.2.2]
  exact ⟨_, _, ColorizeRange_one_line e i _ _ hln hline, rfl, rfl, rfl⟩

/-- Witness for C16: the editor of the constructor, whose grammar is the built-in GLSL
definition, after `SetText` with `if(x)`. -/
theorem ColorizeRange_if_x_witness :
    ∃ e' ln', ColorizeRange (SetText new (bytes "if(x)")) ((0 : Nat) : Int) ((0 : Nat) + 1) =
        some e' ∧
      e'.mLines = (SetText new (bytes "if(x)")).mLines.set 0 ln' ∧
      ln'.map (fun (g : Glyph) => g.mChar) = bytes "if(x)" ∧
      ln'.map (fun (g : Glyph) => g.mColorIndex) =
        [PaletteIndex.Keyword, PaletteIndex.Keyword, PaletteIndex.Punctuation,
          PaletteIndex.Identifier, PaletteIndex.Punctuation] :=
  ColorizeRange_if_x (SetText new (bytes "if(x)")) 0
    ((bytes "if(x)").map (fun b => ({ mChar := b } : Glyph)))
    (by decide) (by decide) (by decide) rfl rfl rfl (by decide)
    ⟨by decide, by decide, by decide⟩

/-- Counterexample for C16: two grammars whose keyword set contains `if` and whose rules
are those of the built-in GLSL definition. With `x` among the keywords, cell 3 of `if(x)`
is tagged `Keyword`; with the case-insensitive flag, the token `if` is looked up as `IF`,
which is no keyword, and cells 0 and 1 are tagged `Identifier`. -/
theorem ColorizeRange_if_x_other_grammars :
    (bytes "if" ∈ ({ LanguageDefinition.GLSL with
        mKeywords := bytes "x" :: LanguageDefinition.GLSL.mKeywords } :
        LanguageDefinition).mKeywords ∧
      ({ LanguageDefinition.GLSL with
        mKeywords := bytes "x" :: LanguageDefinition.GLSL.mKeywords } :
        LanguageDefinition).mTokenRegexStrings = LanguageDefinition.GLSL.tokenRegexStrings ∧
      (ColorizeRange (SetText (SetLanguageDefinition new
          { LanguageDefinition.GLSL with
            mKeywords := bytes "x" :: LanguageDefinition.GLSL.mKeywords })
          (bytes "if(x)")) 0 1).map
        (fun e => e.mLines.map
          (fun ln => ln.map (fun (g : Glyph) => (g.mChar, g.mColorIndex)))) =
        some [[(105, PaletteIndex.Keyword), (102, PaletteIndex.Keyword),
          (40, PaletteIndex.Punctuation), (120, PaletteIndex.Keyword),
          (41, PaletteIndex.Punctuation)]]) ∧
    (bytes "if" ∈ ({ LanguageDefinition.GLSL with mCaseSensitive := false } :
        LanguageDefinition).mKeywords ∧
      ({ LanguageDefinition.GLSL with mCaseSensitive := false } :
        LanguageDefinition).mTokenRegexStrings = LanguageDefinition.GLSL.tokenRegexStrings ∧
      (ColorizeRange (SetText (SetLanguageDefinition new
          { LanguageDefinition.GLSL with mCaseSensitive := false })
          (bytes "if(x)")) 0 1).map
        (fun e => e.mLines.map
          (fun ln => ln.map (fun (g : Glyph) => (g.mChar, g.mColorIndex)))) =
        some [[(105, PaletteIndex.Identifier), (102, PaletteIndex.Identifier),
          (40, PaletteIndex.Punctuation), (120, PaletteIndex.Identifier),
          (41, PaletteIndex.Punctuation)]]) :=
  ⟨⟨by decide, rfl, by decide⟩, ⟨by decide, rfl, by decide⟩⟩

/-! ## Word boundaries -/

/-- On a line without tabs the loop of `GetCharacterIndex` does not read the tab size. -/
theorem GetCharacterIndex_loop_notab (t1 t2 : Nat) (ln : Line) (k : Nat)
    (h : ∀ g ∈ ln, g.mChar ≠ 9) :
    ∀ (f c i : Nat), GetCharacterIndex.loop t1 ln k f c i =
      GetCharacterIndex.loop t2 ln k f c i := by
  intro f
  induction f with
  | zero => intro c i; rfl
  | succ n ih =>
    intro c i
    unfold GetCharacterIndex.loop
    cases hg : ln[i]? with
    | none => rfl
    | some g =>
      have hne : g.mChar ≠ 9 := h g (List.getElem?_mem hg)
      simp only [advanceColumn, hne, if_false]
      rw [ih]

/-- On a line without tabs the loop of `GetCharacterColumn` does not read the tab size. -/
theorem GetCharacterColumn_loop_notab (t1 t2 : Nat) (ln : Line) (k : Nat)
    (h : ∀ g ∈ ln, g.mChar ≠ 9) :
    ∀ (f c i : Nat), GetCharacterColumn.loop t1 ln k f c i =
      GetCharacterColumn.loop t2 ln k f c i := by
  intro f
  induction f with
  | zero => intro c i; rfl
  | succ n ih =>
    intro c i
    unfold GetCharacterColumn.loop
    cases hg : ln[i]? with
    | none => rfl
    | some g =>
      have hne : g.mChar ≠ 9 := h g (List.getElem?_mem hg)
      simp only [advanceColumn, hne, if_false]
      rw [ih]

/-- `FindWordStart` and `FindWordEnd` read the lines of the buffer only, and on a buffer
without tabs not the tab size either. -/
theorem FindWord_congr (e1 e2 : TextEditor) (c : Coordinates) (h : e1.mLines = e2.mLines)
    (hnotab : ∀ ln ∈ e1.mLines, ∀ g ∈ ln, g.mChar ≠ 9) :
    FindWordStart e1 c = FindWordStart e2 c ∧ FindWordEnd e1 c = FindWordEnd e2 c := by
  have hidx : GetCharacterIndex e1 c = GetCharacterIndex e2 c := by
    unfold GetCharacterIndex
    rw [← h]
    cases hl : e1.mLines[c.mLine]? with
    | none => rfl
    | some ln =>
      simp only
      rw [GetCharacterIndex_loop_notab e1.mTabSize e2.mTabSize ln _
        (hnotab ln (List.getElem?_mem hl))]
  have hcol : ∀ l i, GetCharacterColumn e1 l i = GetCharacterColumn e2 l i := by
    intro l i
    unfold GetCharacterColumn
    rw [← h]
    cases hl : e1.mLines[l]? with
    | none => rfl
    | some ln =>
      simp only
      rw [GetCharacterColumn_loop_notab e1.mTabSize e2.mTabSize ln _
        (hnotab ln (List.getElem?_mem hl))]
  constructor
  · unfold FindWordStart
    rw [← h, hidx]
    cases hl : e1.mLines[c.mLine]? with
    | none => rfl
    | some ln => simp only [hcol]
  · unfold FindWordEnd
    rw [← h, hidx]
    cases hl : e1.mLines[c.mLine]? with
    | none => rfl
    | some ln => simp only [hcol]

/-- C15: in the buffer that `SetText` loads from `foo bar` into any editor, `FindWordStart`
at `(0, 5)`, the cell of `a`, returns `(0, 4)`, the coordinate of `b`, and `FindWordEnd` at
`(0, 5)` returns `(0, 7)`, the coordinate behind `r`; and when the grammar is the built-in
GLSL definition the token pass over the line completes and both results are the same after
it. -/
theorem FindWord_foo_bar (e0 : TextEditor)
    (hlang : e0.mLanguageDefinition = LanguageDefinition.GLSL)
    (hrules : e0.mRegexList =
      LanguageDefinition.GLSL.mTokenRegexStrings.map (fun r => (Regex.search r.1, r.2))) :
    chars (SetText e0 (bytes "foo bar")) = [bytes "foo bar"] ∧
    FindWordStart (SetText e0 (bytes "foo bar")) ⟨0, 5⟩ = ⟨0, 4⟩ ∧
    FindWordEnd (SetText e0 (bytes "foo bar")) ⟨0, 5⟩ = ⟨0, 7⟩ ∧
    ∃ e1, ColorizeRange (SetText e0 (bytes "foo bar")) 0 1 = some e1 ∧
      chars e1 = [bytes "foo bar"] ∧
      FindWordStart e1 ⟨0, 5⟩ = ⟨0, 4⟩ ∧ FindWordEnd e1 ⟨0, 5⟩ = ⟨0, 7⟩ := by
  have hl : (SetText e0 (bytes "foo bar")).mLines = (SetText new (bytes "foo bar")).mLines :=
    rfl
  have hnotab : ∀ ln ∈ (SetText new (bytes "foo bar")).mLines, ∀ g ∈ ln, g.mChar ≠ 9 := by
    decide
  obtain ⟨h1, h2⟩ := FindWord_congr (SetText e0 (bytes "foo bar"))
    (SetText new (bytes "foo bar")) ⟨0, 5⟩ hl (by rw [hl]; exact hnotab)
  have hline : ColorizeRange.line (SetText e0 (bytes "foo bar")).mLanguageDefinition
      (SetText e0 (bytes "foo bar")).mRegexList
      ((bytes "foo bar").map (fun b => ({ mChar := b } : Glyph))) =
      ColorizeRange.line LanguageDefinition.GLSL
        (LanguageDefinition.GLSL.mTokenRegexStrings.map (fun r => (Regex.search r.1, r.2)))
        ((bytes "foo bar").map (fun b => ({ mChar := b } : Glyph))) := by
    show ColorizeRange.line e0.mLanguageDefinition e0.mRegexList _ = _
    rw [hlang, hrules]
  have hsome : ∃ ln', ColorizeRange.line LanguageDefinition.GLSL
      (LanguageDefinition.GLSL.mTokenRegexStrings.map (fun r => (Regex.search r.1, r.2)))
      ((bytes "foo bar").map (fun b => ({ mChar := b } : Glyph))) = some ln' ∧
      ColorizeRange (SetText new (bytes "foo bar")) 0 1 =
        some { SetText new (bytes "foo bar") with
          mLines := (SetText new (bytes "foo bar")).mLines.set 0 ln' } := by
    cases hc : ColorizeRange.line LanguageDefinition.GLSL
      (LanguageDefinition.GLSL.mTokenRegexStrings.map (fun r => (Regex.search r.1, r.2)))
      ((bytes "foo bar").map (fun b => ({ mChar := b } : Glyph))) with
    | none =>
      have hs : (ColorizeRange.line LanguageDefinition.GLSL
        (LanguageDefinition.GLSL.mTokenRegexStrings.map (fun r => (Regex.search r.1, r.2)))
        ((bytes "foo bar").map (fun b => ({ mChar := b } : Glyph)))).isSome = true := by decide
      rw [hc] at hs
      cases hs
    | some ln' =>
      exact ⟨ln', rfl, ColorizeRange_one_line (SetText new (bytes "foo bar")) 0 _ ln'
        (by decide) hc⟩
  obtain ⟨ln', hln', hnew⟩ := hsome
  have hrun := ColorizeRange_one_line (SetText e0 (bytes "foo bar")) 0 _ ln'
    (show (SetText new (bytes "foo bar")).mLines[0]? = some _ by decide) (hline.trans hln')
  have hfacts : (ColorizeRange (SetText new (bytes "foo bar")) 0 1).map
      (fun e => (chars e, decide (∀ ln ∈ e.mLines, ∀ g ∈ ln, g.mChar ≠ 9),
        FindWordStart e ⟨0, 5⟩, FindWordEnd e ⟨0, 5⟩)) =
      some ([bytes "foo bar"], true, ⟨0, 4⟩, ⟨0, 7⟩) := by decide
  rw [hnew] at hfacts
  simp only [Option.map_some', Option.some.injEq, Prod.mk.injEq, decide_eq_true_eq] at hfacts
  obtain ⟨f1, f2, f3, f4⟩ := hfacts
  obtain ⟨g1, g2⟩ := FindWord_congr
    ({ SetText e0 (bytes "foo bar") with
      mLines := (SetText e0 (bytes "foo bar")).mLines.set 0 ln' } : TextEditor)
    ({ SetText new (bytes "foo bar") with
      mLines := (SetText new (bytes "foo bar")).mLines.set 0 ln' } : TextEditor)
    ⟨0, 5⟩ rfl f2
  have hch : chars (SetText new (bytes "foo bar")) = [bytes "foo bar"] := by decide
  refine ⟨hch, ?_, ?_, _, hrun, f1, ?_, ?_⟩
  · rw [h1]; decide
  · rw [h2]; decide
  · rw [g1]; exact f3
  · rw [g2]; exact f4

/-- Witness for C15: the editor of the constructor, whose grammar is the built-in GLSL
definition. -/
theorem FindWord_foo_bar_witness :
    chars (SetText new (bytes "foo bar")) = [bytes "foo bar"] ∧
    FindWordStart (SetText new (bytes "foo bar")) ⟨0, 5⟩ = ⟨0, 4⟩ ∧
    FindWordEnd (SetText new (bytes "foo bar")) ⟨0, 5⟩ = ⟨0, 7⟩ ∧
    ∃ e1, ColorizeRange (SetText new (bytes "foo bar")) 0 1 = some e1 ∧
      chars e1 = [bytes "foo bar"] ∧
      FindWordStart e1 ⟨0, 5⟩ = ⟨0, 4⟩ ∧ FindWordEnd e1 ⟨0, 5⟩ = ⟨0, 7⟩ :=
  FindWord_foo_bar new rfl rfl

/-! ## The token pass is idempotent -/

/-- Painting a token changes colour tags only. -/
theorem paint_reset (ln : Line) (start len : Nat) (c : PaletteIndex) :
    (ColorizeRange.paint ln start len c).map
        (fun (g : Glyph) => { g with mColorIndex := PaletteIndex.Default }) =
      ln.map (fun (g : Glyph) => { g with mColorIndex := PaletteIndex.Default }) := by
  unfold ColorizeRange.paint
  simp only [List.map_append, List.map_map]
  have hcomp : ((fun (g : Glyph) => { g with mColorIndex := PaletteIndex.Default }) ∘
      fun (g : Glyph) => { g with mColorIndex := c }) =
      fun (g : Glyph) => { g with mColorIndex := PaletteIndex.Default } := rfl
  rw [hcomp, ← List.map_append, ← List.map_append]
  congr 1
  have h : ln.drop (start + len) = (ln.drop start).drop len := by
    rw [List.drop_drop]
  rw [h, List.append_assoc, List.take_append_drop, List.take_append_drop]

/-- The token loop changes colour tags only. -/
theorem tokens_reset (lang : LanguageDefinition)
    (rules : List ((List Nat → Option Nat) × PaletteIndex)) (buffer : List Nat) :
    ∀ (fuel first : Nat) (ln ln' : Line),
      ColorizeRange.tokens lang rules buffer fuel first ln = some ln' →
      ln'.map (fun (g : Glyph) => { g with mColorIndex := PaletteIndex.Default }) =
        ln.map (fun (g : Glyph) => { g with mColorIndex := PaletteIndex.Default }) := by
  intro fuel
  induction fuel with
  | zero => intro first ln ln' h; simp [ColorizeRange.tokens] at h
  | succ n ih =>
    intro first ln ln' h
    unfold ColorizeRange.tokens at h
    split at h
    · simp at h; rw [h]
    · split at h
      · exact ih _ _ _ h
      · split at h
        · simp at h
        · rw [ih _ _ _ h, paint_reset]

theorem reset_reset (ln : Line) :
    (ln.map (fun (g : Glyph) => { g with mColorIndex := PaletteIndex.Default })).map
        (fun (g : Glyph) => { g with mColorIndex := PaletteIndex.Default }) =
      ln.map (fun (g : Glyph) => { g with mColorIndex := PaletteIndex.Default }) := by
  rw [List.map_map]; rfl

theorem reset_chars (ln : Line) :
    (ln.map (fun (g : Glyph) => { g with mColorIndex := PaletteIndex.Default })).map
        (fun (g : Glyph) => g.mChar) = ln.map (fun (g : Glyph) => g.mChar) := by
  rw [List.map_map]; rfl

/-- The result of the token pass on a line is a line of the same cells up to colour tags. -/
theorem line_reset (lang : LanguageDefinition)
    (rules : List ((List Nat → Option Nat) × PaletteIndex)) (ln ln' : Line)
    (h : ColorizeRange.line lang rules ln = some ln') :
    ln'.map (fun (g : Glyph) => { g with mColorIndex := PaletteIndex.Default }) =
      ln.map (fun (g : Glyph) => { g with mColorIndex := PaletteIndex.Default }) := by
  unfold ColorizeRange.line at h
  split at h
  · simp at h; rw [h]
  · rw [tokens_reset _ _ _ _ _ _ _ h, reset_reset]

/-- The token pass on a line depends on the line only up to its colour tags. -/
theorem line_congr (lang : LanguageDefinition)
    (rules : List ((List Nat → Option Nat) × PaletteIndex)) (ln1 ln2 : Line)
    (h : ln1.map (fun (g : Glyph) => { g with mColorIndex := PaletteIndex.Default }) =
      ln2.map (fun (g : Glyph) => { g with mColorIndex := PaletteIndex.Default }))
    (hne : ln1 ≠ []) :
    ColorizeRange.line lang rules ln1 = ColorizeRange.line lang rules ln2 := by
  have hlen : ln1.length = ln2.length := by
    have := congrArg List.length h
    simpa using this
  have hchars : ln1.map (fun (g : Glyph) => g.mChar) = ln2.map (fun (g : Glyph) => g.mChar) := by
    rw [← reset_chars ln1, ← reset_chars ln2, h]
  have hne2 : ln2 ≠ [] := by
    intro h2; rw [h2] at hlen; exact hne (List.length_eq_zero.mp hlen)
  have e1 : ln1.isEmpty = false := by cases ln1 with | nil => exact absurd rfl hne | cons a t => rfl
  have e2 : ln2.isEmpty = false := by cases ln2 with | nil => exact absurd rfl hne2 | cons a t => rfl
  unfold ColorizeRange.line
  simp only [e1, e2, Bool.false_eq_true, if_false, h, hlen, hchars]

/-- The token pass on a line, run on its own result, gives that result again. -/
theorem line_idem (lang : LanguageDefinition)
    (rules : List ((List Nat → Option Nat) × PaletteIndex)) (ln ln' : Line)
    (h : ColorizeRange.line lang rules ln = some ln') :
    ColorizeRange.line lang rules ln' = some ln' := by
  by_cases hne : ln = []
  · subst hne
    simp [ColorizeRange.line] at h
    subst h
    simp [ColorizeRange.line]
  · rw [← h]
    exact (line_congr lang rules ln ln' (line_reset lang rules ln ln' h).symm hne).symm

/-- The line loop leaves the lines before its start index and the number of lines as they
are. -/
theorem lines_prefix (lang : LanguageDefinition)
    (rules : List ((List Nat → Option Nat) × PaletteIndex)) :
    ∀ (n i : Nat) (L L' : Lines), ColorizeRange.lines lang rules n i L = some L' →
      L'.length = L.length ∧ ∀ k, k < i → L'[k]? = L[k]? := by
  intro n
  induction n with
  | zero =>
    intro i L L' h
    simp [ColorizeRange.lines] at h
    subst h
    exact ⟨rfl, fun _ _ => rfl⟩
  | succ n ih =>
    intro i L L' h
    unfold ColorizeRange.lines at h
    split at h
    · simp at h
    · split at h
      · simp at h
      · obtain ⟨h1, h2⟩ := ih _ _ _ h
        refine ⟨by simpa using h1, fun k hk => ?_⟩
        rw [h2 k (by omega), List.getElem?_set_ne (by omega)]

/-- The line loop, run on its own result, gives that result again. -/
theorem lines_idem (lang : LanguageDefinition)
    (rules : List ((List Nat → Option Nat) × PaletteIndex)) :
    ∀ (n i : Nat) (L L' : Lines), ColorizeRange.lines lang rules n i L = some L' →
      ColorizeRange.lines lang rules n i L' = some L' := by
  intro n
  induction n with
  | zero => intro i L L' _; rfl
  | succ n ih =>
    intro i L L' h
    unfold ColorizeRange.lines at h
    split at h
    · simp at h
    · rename_i ln hln
      split at h
      · simp at h
      · rename_i ln1 hln1
        obtain ⟨hlen, hpre⟩ := lines_prefix lang rules _ _ _ _ h
        have hi : i < L.length := by
          by_contra hc
          rw [List.getElem?_eq_none (Nat.le_of_not_lt hc)] at hln
          cases hln
        have hget : L'[i]? = some ln1 := by
          rw [hpre i (Nat.lt_succ_self i)]
          exact List.getElem?_set_self hi
        unfold ColorizeRange.lines
        simp only [hget, line_idem lang rules ln ln1 hln1, set_of_getElem? hget]
        exact ih _ _ _ h

/-- The token pass on a line depends on the line only up to its colour tags, empty lines
included. -/
theorem line_congr_all (lang : LanguageDefinition)
    (rules : List ((List Nat → Option Nat) × PaletteIndex)) (ln1 ln2 : Line)
    (h : ln1.map (fun (g : Glyph) => { g with mColorIndex := PaletteIndex.Default }) =
      ln2.map (fun (g : Glyph) => { g with mColorIndex := PaletteIndex.Default })) :
    ColorizeRange.line lang rules ln1 = ColorizeRange.line lang rules ln2 := by
  by_cases hne : ln1 = []
  · subst hne
    have h2 : ln2 = [] := by
      have := congrArg List.length h
      simp at this
      exact List.length_eq_zero.mp this.symm
    subst h2
    rfl
  · exact line_congr lang rules ln1 ln2 h hne

theorem untagged_length {L1 L2 : Lines} (h : untagged L1 = untagged L2) :
    L1.length = L2.length := by
  have := congrArg List.length h
  simpa [untagged] using this

theorem untagged_getElem? {L1 L2 : Lines} (h : untagged L1 = untagged L2) (k : Nat) :
    (L1[k]?).map (fun l => l.map
        (fun (g : Glyph) => { g with mColorIndex := PaletteIndex.Default })) =
      (L2[k]?).map (fun l => l.map
        (fun (g : Glyph) => { g with mColorIndex := PaletteIndex.Default })) := by
  have := congrArg (fun (L : Lines) => L[k]?) h
  simpa [untagged, List.getElem?_map] using this

theorem untagged_set {L1 L2 : Lines} (h : untagged L1 = untagged L2) (i : Nat) (ln : Line) :
    untagged (L1.set i ln) = untagged (L2.set i ln) := by
  unfold untagged at h ⊢
  rw [List.map_set, List.map_set, h]

/-- The line loop of `ColorizeRange` on two buffers that agree up to colour tags: it
completes on both or on neither; the lines of the range come out equal, tags included, and
the other lines are left as they were. -/
theorem lines_congr (lang : LanguageDefinition)
    (rules : List ((List Nat → Option Nat) × PaletteIndex)) :
    ∀ (n i : Nat) (L1 L2 : Lines), untagged L1 = untagged L2 →
      (ColorizeRange.lines lang rules n i L1).isSome =
        (ColorizeRange.lines lang rules n i L2).isSome ∧
      ∀ R1 R2, ColorizeRange.lines lang rules n i L1 = some R1 →
        ColorizeRange.lines lang rules n i L2 = some R2 →
        (∀ k, i ≤ k → k < i + n → R1[k]? = R2[k]?) ∧
        (∀ k, k < i ∨ i + n ≤ k → R1[k]? = L1[k]? ∧ R2[k]? = L2[k]?) := by
  intro n
  induction n with
  | zero =>
    intro i L1 L2 _
    refine ⟨rfl, ?_⟩
    intro R1 R2 h1 h2
    simp only [ColorizeRange.lines, Option.some.injEq] at h1 h2
    subst h1 h2
    exact ⟨fun k _ _ => by omega, fun k _ => ⟨rfl, rfl⟩⟩
  | succ n ih =>
    intro i L1 L2 h
    have hk := untagged_getElem? h i
    unfold ColorizeRange.lines
    cases h1 : L1[i]? with
    | none =>
      rw [h1] at hk
      cases h2 : L2[i]? with
      | none =>
        refine ⟨rfl, ?_⟩
        intro R1 R2 hR1
        simp at hR1
      | some ln2 => rw [h2] at hk; simp at hk
    | some ln1 =>
      rw [h1] at hk
      cases h2 : L2[i]? with
      | none => rw [h2] at hk; simp at hk
      | some ln2 =>
        rw [h2] at hk
        simp only [Option.map_some', Option.some.injEq] at hk
        have hline := line_congr_all lang rules ln1 ln2 hk
        simp only []
        rw [hline]
        cases hl : ColorizeRange.line lang rules ln2 with
        | none =>
          refine ⟨rfl, ?_⟩
          intro R1 R2 hR1
          simp at hR1
        | some ln' =>
          simp only []
          obtain ⟨hs, hr⟩ := ih (i + 1) (L1.set i ln') (L2.set i ln') (untagged_set h i ln')
          refine ⟨hs, ?_⟩
          intro R1 R2 hR1 hR2
          obtain ⟨hin, hout⟩ := hr R1 R2 hR1 hR2
          have hi1 : i < L1.length := by
            by_contra hc
            rw [List.getElem?_eq_none (Nat.le_of_not_lt hc)] at h1
            cases h1
          have hi2 : i < L2.length := by
            by_contra hc
            rw [List.getElem?_eq_none (Nat.le_of_not_lt hc)] at h2
            cases h2
          constructor
          · intro k hk1 hk2
            by_cases hki : k = i
            · subst hki
              rw [(hout k (Or.inl (by omega))).1, (hout k (Or.inl (by omega))).2,
                List.getElem?_set_self hi1, List.getElem?_set_self hi2]
            · exact hin k (by omega) (by omega)
          · intro k hk'
            have hne : i ≠ k := by omega
            rw [(hout k (by omega)).1, (hout k (by omega)).2,
              List.getElem?_set_ne hne, List.getElem?_set_ne hne]
            exact ⟨rfl, rfl⟩

/-- C17: for every editor state, grammar and line range.  Running `ColorizeRange` a second
time on the buffer that the first run left gives that buffer again: the second run completes
exactly when the first one does, and it changes no colour tag.  And the tags produced do not
depend on the tags carried before the run: for every buffer `lines` that agrees with the
buffer of the editor up to colour tags (same characters and flags, any tags), the run on
`lines` completes exactly when the run on the editor does, every line of the range
`[aFromLine, aToLine)` comes out the same from both runs, tags included, and the lines
outside the range are left as they were. -/
theorem ColorizeRange_idempotent (e : TextEditor) (lines : Lines) (aFromLine aToLine : Int)
    (hsame : untagged lines = untagged e.mLines) :
    ((ColorizeRange e aFromLine aToLine).bind
        (fun e1 => ColorizeRange e1 aFromLine aToLine) =
      ColorizeRange e aFromLine aToLine) ∧
    (ColorizeRange { e with mLines := lines } aFromLine aToLine).isSome =
      (ColorizeRange e aFromLine aToLine).isSome ∧
    ∀ e1 e2, ColorizeRange e aFromLine aToLine = some e1 →
      ColorizeRange { e with mLines := lines } aFromLine aToLine = some e2 →
      (∀ k : Nat, aFromLine ≤ (k : Int) → (k : Int) < aToLine →
        e2.mLines[k]? = e1.mLines[k]?) ∧
      (∀ k : Nat, (k : Int) < aFromLine ∨ aToLine ≤ (k : Int) →
        e1.mLines[k]? = e.mLines[k]? ∧ e2.mLines[k]? = lines[k]?) := by
  have hlen : lines.length = e.mLines.length := untagged_length hsame
  have hemp : lines.isEmpty = e.mLines.isEmpty := by
    cases h : lines <;> cases h' : e.mLines <;> simp [h, h'] at hlen ⊢
  refine ⟨?_, ?_⟩
  · unfold ColorizeRange
    split
    · rename_i h1
      simp only [Option.some_bind, h1, if_true]
    · rename_i h1
      split
      · rename_i h2
        simp only [Option.some_bind, h1, h2, if_true, if_false]
      · rename_i h2
        split
        · rfl
        · rename_i h3
          split
          · rfl
          · rename_i lines hl
            obtain ⟨hlen, _⟩ := lines_prefix _ _ _ _ _ _ hl
            have hemp : lines.isEmpty = e.mLines.isEmpty := by
              cases h : lines <;> cases h' : e.mLines <;> simp [h, h'] at hlen ⊢
            simp only [Option.some_bind, hemp, hlen, h1, h2, h3, if_false,
              lines_idem _ _ _ _ _ _ hl]
  · unfold ColorizeRange
    show (if lines.isEmpty = true ∨ aFromLine ≥ aToLine then _ else
        if aFromLine ≥ max 0 (min (lines.length : Int) aToLine) then _ else
        if aFromLine < 0 then _ else
        match ColorizeRange.lines e.mLanguageDefinition e.mRegexList
          (max 0 (min (lines.length : Int) aToLine) - aFromLine).toNat aFromLine.toNat
          lines with
        | none => none
        | some L => some _).isSome = _ ∧ _
    rw [hemp, hlen]
    by_cases h1 : e.mLines.isEmpty = true ∨ aFromLine ≥ aToLine
    · simp only [h1, if_true]
      refine ⟨rfl, ?_⟩
      intro e1 e2 he1 he2
      simp only [Option.some.injEq] at he1 he2
      subst he1 he2
      refine ⟨?_, fun k _ => ⟨rfl, rfl⟩⟩
      intro k hk1 hk2
      rcases h1 with h1 | h1
      · rw [← hemp, List.isEmpty_iff] at h1
        have h0 : e.mLines = [] := List.length_eq_zero.mp (by rw [← hlen, h1]; rfl)
        show lines[k]? = e.mLines[k]?
        rw [h1, h0]
      · omega
    · simp only [h1, if_false]
      by_cases h2 : aFromLine ≥ max 0 (min (e.mLines.length : Int) aToLine)
      · simp only [h2, if_true]
        refine ⟨rfl, ?_⟩
        intro e1 e2 he1 he2
        simp only [Option.some.injEq] at he1 he2
        subst he1 he2
        refine ⟨?_, fun k _ => ⟨rfl, rfl⟩⟩
        intro k hk1 hk2
        show lines[k]? = e.mLines[k]?
        rw [List.getElem?_eq_none (by omega), List.getElem?_eq_none (by omega)]
      · simp only [h2, if_false]
        by_cases h3 : aFromLine < 0
        · simp only [h3, if_true]
          refine ⟨trivial, ?_⟩
          intro e1 e2 he1
          simp at he1
        · simp only [h3, if_false]
          obtain ⟨hs, hr⟩ := lines_congr e.mLanguageDefinition e.mRegexList
            (max 0 (min (e.mLines.length : Int) aToLine) - aFromLine).toNat aFromLine.toNat
            lines e.mLines hsame
          constructor
          · cases hA : ColorizeRange.lines e.mLanguageDefinition e.mRegexList
                (max 0 (min (e.mLines.length : Int) aToLine) - aFromLine).toNat
                aFromLine.toNat lines <;>
              cases hB : ColorizeRange.lines e.mLanguageDefinition e.mRegexList
                (max 0 (min (e.mLines.length : Int) aToLine) - aFromLine).toNat
                aFromLine.toNat e.mLines <;>
              simp [hA, hB] at hs ⊢
          · intro e1 e2 he1 he2
            cases hA : ColorizeRange.lines e.mLanguageDefinition e.mRegexList
                (max 0 (min (e.mLines.length : Int) aToLine) - aFromLine).toNat
                aFromLine.toNat lines with
            | none => rw [hA] at he2; simp at he2
            | some R2 =>
              cases hB : ColorizeRange.lines e.mLanguageDefinition e.mRegexList
                  (max 0 (min (e.mLines.length : Int) aToLine) - aFromLine).toNat
                  aFromLine.toNat e.mLines with
              | none => rw [hB] at he1; simp at he1
              | some R1 =>
                rw [hA] at he2
                rw [hB] at he1
                simp only [Option.some.injEq] at he1 he2
                subst he1 he2
                obtain ⟨hin, hout⟩ := hr R2 R1 hA hB
                obtain ⟨hl2, _⟩ := lines_prefix _ _ _ _ _ _ hA
                obtain ⟨hl1, _⟩ := lines_prefix _ _ _ _ _ _ hB
                constructor
                · intro k hk1 hk2
                  show R2[k]? = R1[k]?
                  by_cases hk : k < e.mLines.length
                  · exact hin k (by omega) (by omega)
                  · rw [List.getElem?_eq_none (by omega), List.getElem?_eq_none (by omega)]
                · intro k hk
                  show R1[k]? = e.mLines[k]? ∧ R2[k]? = lines[k]?
                  by_cases hk' : k < e.mLines.length
                  · have := hout k (by omega)
                    exact ⟨this.2, this.1⟩
                  · constructor <;>
                      rw [List.getElem?_eq_none (by omega), List.getElem?_eq_none (by omega)]

/-- Witness for C17: the lines `if` and `x` under GLSL, once with every cell tagged `Default`
and once tagged `Number`, `String` and `Keyword`; the range is `[0, 1)`.  Both runs tag the
cells of `if` as `Keyword`, and both leave the tag of `x` as it was. -/
theorem ColorizeRange_idempotent_witness :
    untagged example_tagged = untagged example_plain.mLines ∧
    ((ColorizeRange example_plain 0 1).map (fun e => colors e.mLines) =
        some [[PaletteIndex.Keyword, PaletteIndex.Keyword], [PaletteIndex.Default]] ∧
      (ColorizeRange { example_plain with mLines := example_tagged } 0 1).map
          (fun e => colors e.mLines) =
        some [[PaletteIndex.Keyword, PaletteIndex.Keyword], [PaletteIndex.Keyword]]) ∧
    (((ColorizeRange example_plain 0 1).bind (fun e1 => ColorizeRange e1 0 1) =
      ColorizeRange example_plain 0 1) ∧
    (ColorizeRange { example_plain with mLines := example_tagged } 0 1).isSome =
      (ColorizeRange example_plain 0 1).isSome ∧
    ∀ e1 e2, ColorizeRange example_plain 0 1 = some e1 →
      ColorizeRange { example_plain with mLines := example_tagged } 0 1 = some e2 →
      (∀ k : Nat, (0 : Int) ≤ (k : Int) → (k : Int) < 1 →
        e2.mLines[k]? = e1.mLines[k]?) ∧
      (∀ k : Nat, (k : Int) < 0 ∨ (1 : Int) ≤ (k : Int) →
        e1.mLines[k]? = example_plain.mLines[k]? ∧ e2.mLines[k]? = example_tagged[k]?)) :=
  ⟨by decide, ⟨by decide!, by decide!⟩,
    ColorizeRange_idempotent example_plain example_tagged 0 1 (by decide)⟩

/-! ## A line feed at the end of a one-line buffer -/

/-- At the index `ln.size()` the loop of `GetCharacterColumn` is the loop of
`GetLineMaxColumn`. -/
theorem GetCharacterColumn_loop_full (tab : Nat) (ln : Line) :
    ∀ (f c i : Nat), GetCharacterColumn.loop tab ln ln.length f c i =
      GetLineMaxColumn.loop tab ln f c i := by
  intro f
  induction f with
  | zero => intro c i; rfl
  | succ n ih =>
    intro c i
    unfold GetCharacterColumn.loop GetLineMaxColumn.loop
    cases hg : ln[i]? with
    | none => rfl
    | some g =>
      have hi : i < ln.length := lt_length_of_getElem? hg
      simp only [hi, if_true]
      exact ih _ _

/-- Supporting result for C18: in a writable editor with tab size at least 1 and an empty
selection,
whose buffer is the one line `L` of complete characters, with the cursor at the end of `L`,
`EnterCharacter` of a line feed completes and leaves exactly two lines: line 0 is `L`, and
line 1 is empty when auto-indent is off and is the leading run of blanks and tabs of `L`
when auto-indent is on; the cursor is at the end of line 1. -/
theorem EnterCharacter_newline_at_end (e : TextEditor) (L : Line) (aShift : Bool)
    (htab : 0 < e.mTabSize) (hro : e.mReadOnly = false)
    (hsel : e.mState.mSelectionStart = e.mState.mSelectionEnd)
    (hlines : e.mLines = [L]) (hwf : WellFormedLine L)
    (hcur : GetActualCursorCoordinates e = ⟨0, GetLineMaxColumn e 0⟩) :
    ∃ e', EnterCharacter e 10 aShift = some e' ∧
      e'.mLines = [L, if e.mAutoIndentation then
        L.takeWhile (fun g => decide (g.mChar < 128 ∧ (g.mChar = 32 ∨ g.mChar = 9)))
        else []] ∧
      e'.mState.mCursorPosition = ⟨1, GetLineMaxColumn e' 1⟩ := by
  have hL : e.mLines[0]? = some L := by rw [hlines]; rfl
  have hmax : GetLineMaxColumn e 0 = GetLineMaxColumn.loop e.mTabSize L L.length 0 0 :=
    GetLineMaxColumn_eq hL
  have hidx := hwf.index_of_max htab (GetLineMaxColumn.loop e.mTabSize L L.length 0 0)
    (Nat.le_refl _)
  have hro' : ¬ (e.mReadOnly = true) := by simp [hro]
  have hemp : e.mLines.isEmpty = false := by rw [hlines]; rfl
  obtain ⟨e1, he1, hlines1, hro1, htab1, hstate1, hbuf1, hidx1, hauto1⟩ :=
    InsertLine_eq hro [L] [] (by rw [hlines]; rfl)
  replace hlines1 : e1.mLines = [L, []] := hlines1
  have hg0 : e1.mLines[0]? = some L := by rw [hlines1]; rfl
  have hg1 : e1.mLines[0 + 1]? = some [] := by rw [hlines1]; rfl
  unfold EnterCharacter
  simp only [hro', if_false, HasSelection_of_empty hsel, Bool.false_eq_true]
  unfold EnterCharacter.insert
  simp only [hemp, Bool.false_eq_true, if_false, if_true, hcur]
  unfold EnterCharacter.newline
  have he1' : InsertLine e (0 + 1) = some e1 := he1
  have hpdef1 : GetCharacterIndex.loop e1.mTabSize L (GetLineMaxColumn e 0) L.length 0 0 =
      L.length := by
    rw [htab1, hmax]; exact hidx
  generalize hWh : (if e1.mAutoIndentation = true then
      ([] : Line) ++ L.takeWhile (fun g => decide (g.mChar < 128 ∧ (g.mChar = 32 ∨ g.mChar = 9)))
    else ([] : Line)) = Wh
  have hWh' : (if e.mAutoIndentation = true then
      L.takeWhile (fun g => decide (g.mChar < 128 ∧ (g.mChar = 32 ∨ g.mChar = 9)))
    else ([] : Line)) = Wh := by
    rw [← hWh, hauto1]; simp
  have hset : (e1.mLines.set 0 (L.take L.length)).set (0 + 1) (Wh ++ L.drop L.length) =
      [L, Wh] := by
    rw [hlines1]; simp
  simp only [he1', hg0, hg1, hWh, GetCharacterIndex_eq (c := ⟨0, GetLineMaxColumn e 0⟩) hg0,
    Int.toNat_ofNat, hpdef1, Nat.lt_irrefl, gt_iff_lt, if_false, hset]
  unfold EnterCharacter.finish
  rw [AddUndo_eq _ (by simpa using hro1)]
  refine ⟨_, rfl, ?_, ?_⟩
  · simp only [EnsureCursorVisible_mLines, Colorize_mLines, SetCursorPosition_mLines, hWh']
  · simp only [EnsureCursorVisible_mState, Colorize_mState, SetCursorPosition_mState]
    have hcolumn : GetCharacterColumn ({ e1 with mLines := [L, Wh] } : TextEditor) (0 + 1)
        Wh.length = GetLineMaxColumn.loop e.mTabSize Wh Wh.length 0 0 := by
      have hg : ({ e1 with mLines := [L, Wh] } : TextEditor).mLines[0 + 1]? = some Wh := rfl
      rw [GetCharacterColumn_eq hg, GetCharacterColumn_loop_full]
      show GetLineMaxColumn.loop e1.mTabSize _ _ _ _ = _
      rw [htab1]
    rw [hcolumn]
    simp only [Coordinates.mk.injEq, true_and]
    unfold GetLineMaxColumn
    simp only [EnsureCursorVisible_mLines, Colorize_mLines, SetCursorPosition_mLines,
      EnsureCursorVisible_mTabSize, Colorize_mTabSize, SetCursorPosition_mTabSize]
    show _ = GetLineMaxColumn.loop e1.mTabSize Wh Wh.length 0 0
    rw [htab1]

/-- An instance of the supporting result for C18: the line of two blanks and `ab`, tab size
4, auto-indent on, cursor at `(0, 4)`. -/
theorem EnterCharacter_newline_at_end_witness :
    ∃ e', EnterCharacter (withText new [[32, 32, 97, 98]] ⟨0, 4⟩) 10 false = some e' ∧
      e'.mLines = [[32, 32, 97, 98].map (fun b => ({ mChar := b } : Glyph)),
        if (withText new [[32, 32, 97, 98]] ⟨0, 4⟩).mAutoIndentation then
          ([32, 32, 97, 98].map (fun b => ({ mChar := b } : Glyph))).takeWhile
            (fun g => decide (g.mChar < 128 ∧ (g.mChar = 32 ∨ g.mChar = 9)))
        else []] ∧
      e'.mState.mCursorPosition = ⟨1, GetLineMaxColumn e' 1⟩ :=
  EnterCharacter_newline_at_end (withText new [[32, 32, 97, 98]] ⟨0, 4⟩) _ false (by decide)
    rfl rfl rfl (by unfold WellFormedLine; decide) (by decide)

/-- C18, evaluated: `SetText` with the single byte `0xC3` (a leading byte without its
continuation byte) and `SetCursorPosition((0, 1))` leave a writable editor whose buffer is
that one line, with an empty selection and the cursor at the end of the line.  The character
index of the cursor is 2 while the line has one cell, and `EnterCharacter` of a line feed
does not complete: it splits the line at an index outside it.  No buffer of two lines
results. -/
theorem EnterCharacter_newline_malformed :
    (chars (SetCursorPosition (SetText new [195]) ⟨0, 1⟩) = [[195]] ∧
      (SetCursorPosition (SetText new [195]) ⟨0, 1⟩).mReadOnly = false ∧
      HasSelection (SetCursorPosition (SetText new [195]) ⟨0, 1⟩) = false ∧
      GetActualCursorCoordinates (SetCursorPosition (SetText new [195]) ⟨0, 1⟩) =
        ⟨0, GetLineMaxColumn (SetCursorPosition (SetText new [195]) ⟨0, 1⟩) 0⟩) ∧
    GetCharacterIndex (SetCursorPosition (SetText new [195]) ⟨0, 1⟩) ⟨0, 1⟩ = 2 ∧
    (EnterCharacter (SetCursorPosition (SetText new [195]) ⟨0, 1⟩) 10 false).isSome = false ∧
    ¬ ∃ e', EnterCharacter (SetCursorPosition (SetText new [195]) ⟨0, 1⟩) 10 false = some e' ∧
      e'.mLines.length = 2 := by
  have h : (EnterCharacter (SetCursorPosition (SetText new [195]) ⟨0, 1⟩) 10 false).isSome =
      false := by decide
  refine ⟨⟨by decide, by decide, by decide, by decide⟩, by decide, h, ?_⟩
  rintro ⟨e', h1, _⟩
  rw [h1] at h
  simp at h

/-! ## Character boundaries -/

theorem charWalkEnd_some {ln : Line} {i : Nat} {g : Glyph} (hg : ln[i]? = some g) (n : Nat) :
    charWalkEnd ln (n + 1) i = charWalkEnd ln n (i + UTF8CharLength g.mChar) := by
  conv => lhs; unfold charWalkEnd
  rw [hg]

theorem charWalkEnd_none {ln : Line} {i : Nat} (hg : ln[i]? = none) (n : Nat) :
    charWalkEnd ln n i = i := by
  cases n with
  | zero => rfl
  | succ n =>
    conv => lhs; unfold charWalkEnd
    rw [hg]

theorem charWalkEnd_add (ln : Line) : ∀ (n m i : Nat),
    charWalkEnd ln (n + m) i = charWalkEnd ln m (charWalkEnd ln n i) := by
  intro n
  induction n with
  | zero => intro m i; simp [charWalkEnd]
  | succ n ih =>
    intro m i
    rw [Nat.add_right_comm]
    cases hg : ln[i]? with
    | none => rw [charWalkEnd_none hg, charWalkEnd_none hg, charWalkEnd_none hg]
    | some g => rw [charWalkEnd_some hg, charWalkEnd_some hg]; exact ih m _

theorem charWalkEnd_ge (ln : Line) : ∀ (n i : Nat), i ≤ charWalkEnd ln n i := by
  intro n
  induction n with
  | zero => intro i; exact Nat.le_refl _
  | succ n ih =>
    intro i
    unfold charWalkEnd
    cases hg : ln[i]? with
    | none => exact Nat.le_refl _
    | some g => exact Nat.le_trans (Nat.le_add_right _ _) (ih _)

/-- The end of the character walk does not depend on the fuel once the fuel covers the rest
of the line. -/
theorem charWalkEnd_fuel (ln : Line) : ∀ (f1 f2 i : Nat), ln.length ≤ f1 + i →
    ln.length ≤ f2 + i → charWalkEnd ln f1 i = charWalkEnd ln f2 i := by
  intro f1
  induction f1 with
  | zero =>
    intro f2 i h1 _
    have hn : ln[i]? = none := getElem?_none_of_le (by omega)
    cases f2 with
    | zero => rfl
    | succ f2 => unfold charWalkEnd; rw [hn]
  | succ f1 ih =>
    intro f2 i h1 h2
    cases hg : ln[i]? with
    | none =>
      cases f2 with
      | zero => unfold charWalkEnd; rw [hg]
      | succ f2 => unfold charWalkEnd; rw [hg]
    | some g =>
      have hlt := lt_length_of_getElem? hg
      have hpos := UTF8CharLength_pos g.mChar
      cases f2 with
      | zero => omega
      | succ f2 =>
        unfold charWalkEnd
        rw [hg]
        exact ih f2 _ (by omega) (by omega)

theorem isCharStart_walkEnd (ln : Line) (n : Nat) : IsCharStart ln (charWalkEnd ln n 0) := by
  by_cases h : n ≤ ln.length
  · exact ⟨n, h, rfl⟩
  · exact ⟨ln.length, Nat.le_refl _, charWalkEnd_fuel ln _ _ 0 (by omega) (by omega)⟩

theorem isCharStart_zero (ln : Line) : IsCharStart ln 0 :=
  ⟨0, Nat.zero_le _, rfl⟩

theorem isCharStart_next {ln : Line} {i : Nat} {g : Glyph} (hi : IsCharStart ln i)
    (hg : ln[i]? = some g) : IsCharStart ln (i + UTF8CharLength g.mChar) := by
  obtain ⟨n, _, rfl⟩ := hi
  have h := charWalkEnd_add ln n 1 0
  have h1 : charWalkEnd ln 1 (charWalkEnd ln n 0) =
      charWalkEnd ln n 0 + UTF8CharLength g.mChar := by
    rw [charWalkEnd_some hg]
    rfl
  rw [← h1, ← h]
  exact isCharStart_walkEnd ln _

theorem WellFormedLine.isCharStart_le {ln : Line} (h : WellFormedLine ln) {i : Nat}
    (hi : IsCharStart ln i) : i ≤ ln.length := by
  obtain ⟨n, hn, rfl⟩ := hi
  have h1 := charWalkEnd_add ln n (ln.length - n) 0
  have h2 : n + (ln.length - n) = ln.length := by omega
  rw [h2, h] at h1
  rw [h1]
  exact charWalkEnd_ge ln _ _

theorem WellFormedLine.isCharStart_length {ln : Line} (h : WellFormedLine ln) :
    IsCharStart ln ln.length :=
  ⟨ln.length, Nat.le_refl _, h⟩

/-- The end of a character walk from the start of the line is a character start. -/
theorem isCharStart_of_walk {tab : Nat} {ln : Line} {k t c i c' i' : Nat}
    (h : Walk tab ln k t c i c' i') : ∀ m, ∃ n, charWalkEnd ln n i = charWalkEnd ln m i' := by
  induction h with
  | refl c i => intro m; exact ⟨m, rfl⟩
  | step g hg _ _ _ ih =>
    intro m
    obtain ⟨n, hn⟩ := ih m
    refine ⟨n + 1, ?_⟩
    rw [← hn, charWalkEnd_some hg]

/-- The character index of any column is a character start. -/
theorem isCharStart_index (tab : Nat) (ln : Line) (k : Nat) :
    IsCharStart ln (GetCharacterIndex.loop tab ln k ln.length 0 0) := by
  obtain ⟨c', hw, _⟩ := GetCharacterIndex_loop_exists tab ln k ln.length 0 0 (by omega)
  obtain ⟨n, hn⟩ := isCharStart_of_walk hw 0
  have h0 : charWalkEnd ln 0 (GetCharacterIndex.loop tab ln k ln.length 0 0) =
      GetCharacterIndex.loop tab ln k ln.length 0 0 := rfl
  rw [h0] at hn
  rw [← hn]
  exact isCharStart_walkEnd ln n

/-- The column that `GetCharacterColumn` computes for a character start, and the character
index of that column, which is the index itself. -/
theorem column_index_of_start {tab : Nat} (htab : 0 < tab) {ln : Line} {i : Nat}
    (hi : IsCharStart ln i) :
    GetCharacterIndex.loop tab ln (GetCharacterColumn.loop tab ln i ln.length 0 0)
      ln.length 0 0 = i := by
  obtain ⟨n, _, rfl⟩ := hi
  obtain ⟨c', _, hw⟩ := charWalkEnd_walk htab ln n 0 0
  have hwalk := hw c' (charWalkEnd ln n 0) (Nat.le_refl _) (Nat.le_refl _)
  have hcol : GetCharacterColumn.loop tab ln (charWalkEnd ln n 0) ln.length 0 0 = c' := by
    rw [GetCharacterColumn_loop_walk hwalk ln.length ln.length (by omega) (by omega)]
    exact GetCharacterColumn_loop_stop tab ln _ _ _ _ (Or.inr (Nat.le_refl _))
  rw [hcol, GetCharacterIndex_loop_walk hwalk ln.length ln.length (by omega) (by omega)]
  exact GetCharacterIndex_loop_stop tab ln _ _ _ _ (Or.inr (Nat.le_refl _))

/-- The column of a character start is at most the maximum column of the line. -/
theorem column_le_max {tab : Nat} (htab : 0 < tab) {ln : Line} {i : Nat}
    (hi : IsCharStart ln i) :
    GetCharacterColumn.loop tab ln i ln.length 0 0 ≤
      GetLineMaxColumn.loop tab ln ln.length 0 0 := by
  obtain ⟨n, _, rfl⟩ := hi
  obtain ⟨c', _, hw⟩ := charWalkEnd_walk htab ln n 0 0
  have hwalk := hw c' (charWalkEnd ln n 0) (Nat.le_refl _) (Nat.le_refl _)
  have hcol : GetCharacterColumn.loop tab ln (charWalkEnd ln n 0) ln.length 0 0 = c' := by
    rw [GetCharacterColumn_loop_walk hwalk ln.length ln.length (by omega) (by omega)]
    exact GetCharacterColumn_loop_stop tab ln _ _ _ _ (Or.inr (Nat.le_refl _))
  rw [hcol, GetLineMaxColumn_loop_walk hwalk ln.length ln.length (by omega) (by omega)]
  exact GetLineMaxColumn_loop_ge htab ln _ _ _

/-- A coordinate whose column is the column of a character start of a line of well-formed
UTF-8 text is on a character boundary. -/
theorem OnCharBoundary_of_start {e : TextEditor} (htab : 0 < e.mTabSize) {l : Nat} {ln : Line}
    (hln : e.mLines[l]? = some ln) (hu : UTF8Line ln) {i : Nat} (hi : IsCharStart ln i) :
    OnCharBoundary e ⟨l, GetCharacterColumn e l i⟩ := by
  have hl : l < e.mLines.length := by
    by_contra hc
    rw [List.getElem?_eq_none (Nat.le_of_not_lt hc)] at hln
    cases hln
  have hidx : GetCharacterIndex e ⟨l, GetCharacterColumn e l i⟩ = (i : Int) := by
    rw [@GetCharacterIndex_eq e ⟨l, GetCharacterColumn e l i⟩ ln hln]
    simp only
    rw [GetCharacterColumn_eq hln, column_index_of_start htab hi]
  refine ⟨⟨hl, ?_⟩, ln, hln, ?_⟩
  · show GetCharacterColumn e l i ≤ GetLineMaxColumn e l
    rw [GetCharacterColumn_eq hln, GetLineMaxColumn_eq hln]
    exact column_le_max htab hi
  · rw [hidx]
    have hle := hu.1.isCharStart_le hi
    by_cases hlt : i < ln.length
    · right
      refine ⟨ln[i], ?_, ?_⟩
      · simp [List.getElem?_eq_getElem hlt]
      · have h := (hu.2 i hlt).mpr hi
        simpa [List.getD_eq_getElem?_getD, List.getElem?_eq_getElem hlt] using h
    · left
      have : i = ln.length := by omega
      rw [this]

/-- Being on a character boundary depends on the lines and the tab size only. -/
theorem OnCharBoundary_congr {e e' : TextEditor} {c : Coordinates}
    (h : OnCharBoundary e c) (hl : e'.mLines = e.mLines) (ht : e'.mTabSize = e.mTabSize) :
    OnCharBoundary e' c := by
  unfold OnCharBoundary ValidCoordinates GetLineMaxColumn GetCharacterIndex at *
  rw [hl, ht]
  exact h

/-- The walk back of `MoveLeft` from a cell of the line completes and ends on the first
cell of the line or on a cell that holds no continuation byte. -/
theorem MoveLeft_walkBack_spec (ln : Line) : ∀ (fuel c : Nat), c ≤ fuel → c < ln.length →
    ∃ j, MoveLeft.walkBack ln fuel c = some j ∧ j ≤ c ∧
      (j = 0 ∨ ∃ g, ln[j]? = some g ∧ IsUTFSequence g.mChar = false) := by
  intro fuel
  induction fuel with
  | zero =>
    intro c hc _
    have : c = 0 := by omega
    subst this
    exact ⟨0, rfl, Nat.le_refl _, Or.inl rfl⟩
  | succ fuel ih =>
    intro c hc hlt
    unfold MoveLeft.walkBack
    by_cases h0 : c > 0
    · simp only [h0, if_true, List.getElem?_eq_getElem hlt]
      by_cases hs : IsUTFSequence ln[c].mChar = true
      · simp only [hs, if_true]
        obtain ⟨j, h1, h2, h3⟩ := ih (c - 1) (by omega) (by omega)
        exact ⟨j, h1, by omega, h3⟩
      · simp only [hs, if_false]
        refine ⟨c, rfl, Nat.le_refl _, Or.inr ⟨ln[c], List.getElem?_eq_getElem hlt, ?_⟩⟩
        simpa using hs
    · simp only [h0, if_false]
      exact ⟨c, rfl, Nat.le_refl _, Or.inl (by omega)⟩

/-- In a line of well-formed UTF-8 text a cell that holds no continuation byte starts a
character. -/
theorem UTF8Line.isCharStart {ln : Line} (hu : UTF8Line ln) {j : Nat}
    (h : j = 0 ∨ ∃ g, ln[j]? = some g ∧ IsUTFSequence g.mChar = false) : IsCharStart ln j := by
  rcases h with rfl | ⟨g, hg, hs⟩
  · exact isCharStart_zero ln
  · have hlt := lt_length_of_getElem? hg
    apply (hu.2 j hlt).mp
    simpa [List.getD_eq_getElem?_getD, hg] using hs

@[simp] theorem SetSelection_cursor (e : TextEditor) (a b : Coordinates) (m : SelectionMode) :
    (SetSelection e a b m).mState.mCursorPosition = e.mState.mCursorPosition := by
  unfold SetSelection SetSelection.state
  cases m <;> simp only [SetSelection.snap] <;> split_ifs <;> rfl

@[simp] theorem SetSelection_mTabSize (e : TextEditor) (a b : Coordinates)
    (m : SelectionMode) : (SetSelection e a b m).mTabSize = e.mTabSize := rfl

/-- The first half of the loop body of `MoveLeft` in a buffer of well-formed UTF-8 lines: it
completes, and the new index is a character start of the new line. -/
theorem MoveLeft_back_spec (e : TextEditor) (hwf : ∀ ln ∈ e.mLines, UTF8Line ln)
    {line : Nat} {ln : Line} (hln : e.mLines[line]? = some ln) {i : Nat}
    (hi : i ≤ ln.length) :
    ∃ line' j ln', MoveLeft.back e line i = some (line', j) ∧
      e.mLines[line']? = some ln' ∧ IsCharStart ln' j := by
  have hl : line < e.mLines.length := by
    by_contra hc
    rw [List.getElem?_eq_none (Nat.le_of_not_lt hc)] at hln
    cases hln
  unfold MoveLeft.back
  by_cases h0 : i = 0
  · subst h0
    simp only [if_true]
    by_cases hl0 : line > 0
    · have hl1 : line - 1 < e.mLines.length := by omega
      have hget : e.mLines[line - 1]? = some (e.mLines[line - 1]) :=
        List.getElem?_eq_getElem hl1
      simp only [hl0, if_true, gt_iff_lt, hl1]
      refine ⟨line - 1, _, e.mLines[line - 1], rfl, hget, ?_⟩
      have hd : e.mLines.getD (line - 1) [] = e.mLines[line - 1] := by
        simp [List.getD_eq_getElem?_getD, hget]
      rw [hd]
      exact (hwf _ (List.getElem?_mem hget)).1.isCharStart_length
    · simp only [hl0, if_false]
      exact ⟨line, 0, ln, rfl, hln, isCharStart_zero ln⟩
  · simp only [h0, if_false]
    by_cases h1 : i - 1 > 0
    · simp only [h1, if_true, gt_iff_lt, hl, hln]
      obtain ⟨j, hj, _, hspec⟩ := MoveLeft_walkBack_spec ln (i - 1) (i - 1) (Nat.le_refl _)
        (by omega)
      rw [hj]
      exact ⟨line, j, ln, rfl, hln, (hwf ln (List.getElem?_mem hln)).isCharStart hspec⟩
    · simp only [h1, if_false]
      have : i - 1 = 0 := by omega
      rw [this]
      exact ⟨line, 0, ln, rfl, hln, isCharStart_zero ln⟩

theorem set_eq_take_cons_drop {α : Type} (l : List α) (n : Nat) (a : α) (h : n < l.length) :
    l.set n a = l.take n ++ a :: l.drop (n + 1) := by
  induction l generalizing n with
  | nil => simp at h
  | cons x xs ih =>
    cases n with
    | zero => simp
    | succ n =>
      simp only [List.set_cons_succ, List.take_succ_cons, List.drop_succ_cons, List.cons_append]
      rw [ih n (by simpa using h)]

/-- Supporting result for C22: in a writable editor with tab size at least 1 whose lines
consist of
complete characters, for valid coordinates `aStart < aEnd`, `DeleteRange(aStart, aEnd)`
completes; afterwards the buffer holds the old lines before `aStart.mLine`, then the line made
of the cells of the old start line before the character index of `aStart` followed by the
cells of the old end line from the character index of `aEnd` on, then the old lines after
`aEnd.mLine`; the line count has dropped by `aEnd.mLine - aStart.mLine`; and
`DeleteRange(aStart, aStart)` returns the editor unchanged. -/
theorem DeleteRange_lines (e : TextEditor) (aStart aEnd : Coordinates)
    (htab : 0 < e.mTabSize) (hro : e.mReadOnly = false) (hwf : WellFormed e)
    (hs : ValidCoordinates e aStart) (he : ValidCoordinates e aEnd)
    (hlt : aStart.lt aEnd = true) :
    (∃ e' first last, e.mLines[aStart.mLine]? = some first ∧
      e.mLines[aEnd.mLine]? = some last ∧
      DeleteRange e aStart aEnd = some e' ∧
      e'.mLines = e.mLines.take aStart.mLine ++
        (first.take (GetCharacterIndex e aStart).toNat ++
          last.drop (GetCharacterIndex e aEnd).toNat) :: e.mLines.drop (aEnd.mLine + 1) ∧
      e'.mLines.length + (aEnd.mLine - aStart.mLine) = e.mLines.length) ∧
    DeleteRange e aStart aStart = some e := by
  obtain ⟨l1, a⟩ := aStart
  obtain ⟨l2, b⟩ := aEnd
  obtain ⟨hs1, hs2⟩ := hs
  obtain ⟨he1, he2⟩ := he
  simp only at hs1 hs2 he1 he2
  constructor
  swap
  · unfold DeleteRange
    simp [Coordinates.ge, hro]
  by_cases hline : l1 = l2
  · subst hline
    have hab : a < b := by simpa [Coordinates.lt] using hlt
    have hL : e.mLines[l1]? = some (e.mLines[l1]) := List.getElem?_eq_getElem hs1
    generalize e.mLines[l1] = L at hL
    rw [GetLineMaxColumn_eq hL] at hs2
    have hwfL : WellFormedLine L := hwf L (List.getElem?_mem hL)
    have hst := GetCharacterIndex_loop_mono e.mTabSize L (Nat.le_of_lt hab) L.length 0 0
    have htl := hwfL.charIndex_le htab b
    have hmax := hwfL.index_of_max htab b
    obtain ⟨e1, hdel, hlines1⟩ := DeleteRange_sameLine_eq hro hL hab rfl rfl hst htl hmax
    refine ⟨e1, L, L, hL, hL, hdel, ?_, ?_⟩
    · rw [hlines1, set_eq_take_cons_drop _ _ _ hs1,
        @GetCharacterIndex_eq e ⟨l1, a⟩ L hL, @GetCharacterIndex_eq e ⟨l1, b⟩ L hL]
      simp only [Int.toNat_ofNat]
    · rw [hlines1]; simp
  · have h12 : l1 < l2 := by
      simp only [Coordinates.lt, ne_eq, hline, not_false_eq_true, if_true,
        decide_eq_true_eq] at hlt
      exact hlt
    obtain ⟨A, M, Z, first, last, hlines, hA, hM⟩ := lines_split h12 he1
    subst hA
    subst hM
    have hfirst : e.mLines[A.length]? = some first := by
      rw [hlines, List.getElem?_append_right (Nat.le_refl _)]
      simp
    have hlast : e.mLines[A.length + 1 + M.length]? = some last := by
      rw [hlines, List.getElem?_append_right (by omega)]
      have : A.length + 1 + M.length - A.length = M.length + 1 := by omega
      rw [this, List.getElem?_cons_succ, List.getElem?_append_right (by omega)]
      simp
    have hwf1 : WellFormedLine first := hwf first (List.getElem?_mem hfirst)
    have hwf2 : WellFormedLine last := hwf last (List.getElem?_mem hlast)
    obtain ⟨e1, hdel, hlines1⟩ := DeleteRange_crossLine_eq (a := a) (b := b) hro A M Z first
      last hlines rfl rfl (hwf1.charIndex_le htab a) (hwf2.charIndex_le htab b)
    refine ⟨e1, first, last, hfirst, hlast, hdel, ?_, ?_⟩
    · rw [hlines1, @GetCharacterIndex_eq e ⟨A.length, a⟩ first hfirst,
        @GetCharacterIndex_eq e ⟨A.length + 1 + M.length, b⟩ last hlast, hlines]
      simp only [Int.toNat_ofNat]
      have h1 : (A ++ first :: (M ++ last :: Z)).take A.length = A := by
        rw [List.take_left]
      have h2 : (A ++ first :: (M ++ last :: Z)).drop (A.length + 1 + M.length + 1) = Z := by
        have : A ++ first :: (M ++ last :: Z) = (A ++ first :: M ++ [last]) ++ Z := by simp
        rw [this]
        have hl : (A ++ first :: M ++ [last]).length = A.length + 1 + M.length + 1 := by
          simp; omega
        rw [← hl, List.drop_left]
      rw [h1, h2]
    · rw [hlines1, hlines]; simp; omega

/-- An instance of the supporting result for C22: three lines, a tab followed by `ab`, the two bytes of U+00E9, and `cd`,
with tab size 4; the range goes from `(0, 2)`, inside the width of the tab, to `(2, 1)`, and
leaves the one line of the tab and `d`. -/
theorem DeleteRange_lines_witness :
    (WellFormed example_three ∧ ValidCoordinates example_three ⟨0, 2⟩ ∧
      ValidCoordinates example_three ⟨2, 1⟩) ∧
    (DeleteRange example_three ⟨0, 2⟩ ⟨2, 1⟩).map chars = some [[9, 100]] ∧
    (∃ e' first last, example_three.mLines[0]? = some first ∧
      example_three.mLines[2]? = some last ∧
      DeleteRange example_three ⟨0, 2⟩ ⟨2, 1⟩ = some e' ∧
      e'.mLines = example_three.mLines.take 0 ++
        (first.take (GetCharacterIndex example_three ⟨0, 2⟩).toNat ++
          last.drop (GetCharacterIndex example_three ⟨2, 1⟩).toNat) ::
            example_three.mLines.drop (2 + 1) ∧
      e'.mLines.length + (2 - 0) = example_three.mLines.length) ∧
    DeleteRange example_three ⟨0, 2⟩ ⟨0, 2⟩ = some example_three :=
  ⟨⟨by unfold WellFormed WellFormedLine; decide, by unfold ValidCoordinates; decide,
      by unfold ValidCoordinates; decide⟩,
    by decide,
    DeleteRange_lines example_three ⟨0, 2⟩ ⟨2, 1⟩
      (by decide) rfl (by unfold WellFormed WellFormedLine; decide)
      (by unfold ValidCoordinates; decide) (by unfold ValidCoordinates; decide)
      (by decide)⟩

/-- C22, evaluated: `SetText` with the bytes `0xC3`, line feed, `a` gives
the two lines `0xC3` (a leading byte without its continuation byte) and `a`.  The coordinates
`(0, 1)` and `(1, 0)` are valid and ordered; the character index of `(0, 1)` is 2, past the
end of the first line, and `DeleteRange((0, 1), (1, 0))` does not complete (the erase of the
first line starts behind its end). -/
theorem DeleteRange_lines_malformed :
    chars (SetText new [195, 10, 97]) = [[195], [97]] ∧
    (SetText new [195, 10, 97]).mReadOnly = false ∧
    ValidCoordinates (SetText new [195, 10, 97]) ⟨0, 1⟩ ∧
    ValidCoordinates (SetText new [195, 10, 97]) ⟨1, 0⟩ ∧
    (⟨0, 1⟩ : Coordinates).lt ⟨1, 0⟩ = true ∧
    GetCharacterIndex (SetText new [195, 10, 97]) ⟨0, 1⟩ = 2 ∧
    (DeleteRange (SetText new [195, 10, 97]) ⟨0, 1⟩ ⟨1, 0⟩).isSome = false := by
  unfold ValidCoordinates
  decide

/-! ## Character index and column are inverse on character boundaries -/

/-- C23: for every tab size of at least 1, every line of the buffer and every index `i` at
which a character of the line starts or at which the character walk ends (the length of the
line, when the line consists of complete characters), `GetCharacterIndex` at the column
`GetCharacterColumn(line, i)` returns `i`. -/
theorem GetCharacterIndex_GetCharacterColumn (e : TextEditor) (l : Nat) (ln : Line) (i : Nat)
    (htab : 0 < e.mTabSize) (hln : e.mLines[l]? = some ln)
    (hi : IsCharStart ln i ∨ (WellFormedLine ln ∧ i = ln.length)) :
    GetCharacterIndex e ⟨l, GetCharacterColumn e l i⟩ = (i : Int) := by
  have hi' : IsCharStart ln i := by
    rcases hi with h | ⟨hwf, rfl⟩
    · exact h
    · exact hwf.isCharStart_length
  rw [@GetCharacterIndex_eq e ⟨l, GetCharacterColumn e l i⟩ ln hln]
  simp only
  rw [GetCharacterColumn_eq hln, column_index_of_start htab hi']

/-- Witness for C23: the line of a tab, the two bytes of U+00E9 and `B` with tab size 4; the
index 3 is the start of `B` and the index 4 is the length of the line. -/
theorem GetCharacterIndex_GetCharacterColumn_witness :
    (0 < (withText new [[9, 195, 169, 66]] ⟨0, 0⟩).mTabSize ∧
      IsCharStart ([9, 195, 169, 66].map (fun b => ({ mChar := b } : Glyph))) 3 ∧
      WellFormedLine ([9, 195, 169, 66].map (fun b => ({ mChar := b } : Glyph)))) ∧
    GetCharacterIndex (withText new [[9, 195, 169, 66]] ⟨0, 0⟩)
      ⟨0, GetCharacterColumn (withText new [[9, 195, 169, 66]] ⟨0, 0⟩) 0 3⟩ = (3 : Nat) ∧
    GetCharacterIndex (withText new [[9, 195, 169, 66]] ⟨0, 0⟩)
      ⟨0, GetCharacterColumn (withText new [[9, 195, 169, 66]] ⟨0, 0⟩) 0 4⟩ = (4 : Nat) :=
  ⟨⟨by decide, ⟨2, by decide, by decide⟩, by unfold WellFormedLine; decide⟩,
    GetCharacterIndex_GetCharacterColumn (withText new [[9, 195, 169, 66]] ⟨0, 0⟩) 0
      ([9, 195, 169, 66].map (fun b => ({ mChar := b } : Glyph))) 3 (by decide) rfl
      (Or.inl ⟨2, by decide, by decide⟩),
    GetCharacterIndex_GetCharacterColumn (withText new [[9, 195, 169, 66]] ⟨0, 0⟩) 0
      ([9, 195, 169, 66].map (fun b => ({ mChar := b } : Glyph))) 4 (by decide) rfl
      (Or.inr ⟨by unfold WellFormedLine; decide, rfl⟩)⟩

/-! ## The character index stays within the line -/

theorem UTF8CharLength_le (c : Nat) : UTF8CharLength c ≤ 6 := by
  unfold UTF8CharLength
  split_ifs <;> omega

/-- Whatever bytes the line holds, the index that the `GetCharacterIndex` loop returns is
less than 6 past the end of the line: the last step starts inside the line. -/
theorem GetCharacterIndex_loop_le (tab : Nat) (ln : Line) (k : Nat) :
    ∀ (f c i : Nat), i ≤ ln.length + 5 →
      GetCharacterIndex.loop tab ln k f c i ≤ ln.length + 5 := by
  intro f
  induction f with
  | zero => intro c i hi; exact hi
  | succ f ih =>
    intro c i hi
    unfold GetCharacterIndex.loop
    cases hg : ln[i]? with
    | none => exact hi
    | some g =>
      simp only
      split
      · apply ih
        have h1 := lt_length_of_getElem? hg
        have h2 := UTF8CharLength_le g.mChar
        omega
      · exact hi

/-- Supporting result for C24: for every tab size of at least 1, every line of the buffer
that consists
of complete characters and every column, `GetCharacterIndex` returns an index between 0 and
the length of the line. -/
theorem GetCharacterIndex_in_line (e : TextEditor) (c : Coordinates) (ln : Line)
    (htab : 0 < e.mTabSize) (hln : e.mLines[c.mLine]? = some ln) (hwf : WellFormedLine ln) :
    0 ≤ GetCharacterIndex e c ∧ GetCharacterIndex e c ≤ (ln.length : Int) := by
  rw [GetCharacterIndex_eq hln]
  constructor
  · exact Int.ofNat_nonneg _
  · exact Int.ofNat_le.mpr (hwf.charIndex_le htab c.mColumn)

/-- An instance of the supporting result for C24: column 5 of the line of a tab, the two bytes of U+00E9 and `B`. -/
theorem GetCharacterIndex_in_line_witness :
    (0 < (withText new [[9, 195, 169, 66]] ⟨0, 0⟩).mTabSize ∧
      WellFormedLine ([9, 195, 169, 66].map (fun b => ({ mChar := b } : Glyph)))) ∧
    0 ≤ GetCharacterIndex (withText new [[9, 195, 169, 66]] ⟨0, 0⟩) ⟨0, 5⟩ ∧
    GetCharacterIndex (withText new [[9, 195, 169, 66]] ⟨0, 0⟩) ⟨0, 5⟩ ≤
      ((([9, 195, 169, 66].map (fun b => ({ mChar := b } : Glyph))).length : Nat) : Int) :=
  ⟨⟨by decide, by unfold WellFormedLine; decide⟩,
    GetCharacterIndex_in_line (withText new [[9, 195, 169, 66]] ⟨0, 0⟩) ⟨0, 5⟩
      ([9, 195, 169, 66].map (fun b => ({ mChar := b } : Glyph))) (by decide) rfl
      (by unfold WellFormedLine; decide)⟩

/-- C24, evaluated: `SetText` with the single byte `0xC3`, a leading byte without its
continuation byte, gives a buffer whose only line has length 1; at column 1
`GetCharacterIndex` returns 2, an index past the length of the line. -/
theorem GetCharacterIndex_past_line :
    (SetText new [195]).mLines.map List.length = [1] ∧
    GetCharacterIndex (SetText new [195]) ⟨0, 1⟩ = 2 ∧
    ¬ GetCharacterIndex (SetText new [195]) ⟨0, 1⟩ ≤ 1 := by
  decide

/-! ## The undo log after `AddUndo` -/

/-- C25: in a writable editor whose undo index `k` does not exceed the length of the undo
log, `AddUndo(r)` completes; afterwards the log consists of the old first `k` records
followed by `r` (so its length is `k + 1`, its first `k` records are the old ones and its
last record is `r`), the index is `k + 1`, and `CanRedo` is false. -/
theorem AddUndo_truncates (e : TextEditor) (r : UndoRecord) (hro : e.mReadOnly = false)
    (hk : e.mUndoIndex ≤ e.mUndoBuffer.length) :
    ∃ e', AddUndo e r = some e' ∧
      e'.mUndoBuffer = e.mUndoBuffer.take e.mUndoIndex ++ [r] ∧
      e'.mUndoBuffer.length = e.mUndoIndex + 1 ∧
      e'.mUndoBuffer.take e.mUndoIndex = e.mUndoBuffer.take e.mUndoIndex ∧
      e'.mUndoBuffer.getLast? = some r ∧
      e'.mUndoIndex = e.mUndoIndex + 1 ∧
      CanRedo e' = false := by
  have hz : e.mUndoIndex - e.mUndoBuffer.length = 0 := by omega
  have hlen : (e.mUndoBuffer.take e.mUndoIndex).length = e.mUndoIndex := by
    rw [List.length_take]; omega
  refine ⟨_, AddUndo_eq r hro, ?_, ?_, ?_, ?_, rfl, ?_⟩
  · simp [hz]
  · simp [hz]; omega
  · simp only [hz, List.replicate_zero, List.append_nil]
    rw [List.take_append_of_le_length (by omega)]
    rw [List.take_of_length_le (by omega)]
  · simp [hz]
  · unfold CanRedo
    simp [hz, hro]

/-- Witness for C25: after typing `a`, `b` and undoing one step the log has two records and
the index is 1; `AddUndo` then leaves a log of two records. -/
theorem AddUndo_truncates_witness :
    (example_undone.mReadOnly = false ∧ example_undone.mUndoIndex = 1 ∧
      example_undone.mUndoBuffer.length = 2) ∧
    ∃ e', AddUndo example_undone { mAdded := [99] } = some e' ∧
      e'.mUndoBuffer = example_undone.mUndoBuffer.take example_undone.mUndoIndex ++
        [{ mAdded := [99] }] ∧
      e'.mUndoBuffer.length = example_undone.mUndoIndex + 1 ∧
      e'.mUndoBuffer.take example_undone.mUndoIndex =
        example_undone.mUndoBuffer.take example_undone.mUndoIndex ∧
      e'.mUndoBuffer.getLast? = some { mAdded := [99] } ∧
      e'.mUndoIndex = example_undone.mUndoIndex + 1 ∧
      CanRedo e' = false :=
  ⟨by decide, AddUndo_truncates example_undone { mAdded := [99] } (by decide) (by decide)⟩

/-! ## The spans of the undo records of `EnterCharacter`, `Backspace` and `Delete` -/

theorem GetCharacterColumn_loop_ge {tab : Nat} (htab : 0 < tab) (ln : Line) (t : Nat) :
    ∀ (f c i : Nat), c ≤ GetCharacterColumn.loop tab ln t f c i := by
  intro f
  induction f with
  | zero => intro c i; exact Nat.le_refl _
  | succ f ih =>
    intro c i
    unfold GetCharacterColumn.loop
    cases hg : ln[i]? with
    | none => exact Nat.le_refl _
    | some g =>
      simp only
      split
      · exact Nat.le_trans (Nat.le_of_lt (advanceColumn_gt htab g.mChar c)) (ih _ _)
      · exact Nat.le_refl _

theorem GetCharacterColumn_loop_le_max {tab : Nat} (htab : 0 < tab) (ln : Line) (t : Nat) :
    ∀ (f c i : Nat), GetCharacterColumn.loop tab ln t f c i ≤ GetLineMaxColumn.loop tab ln f c i := by
  intro f
  induction f with
  | zero => intro c i; exact Nat.le_refl _
  | succ f ih =>
    intro c i
    unfold GetCharacterColumn.loop GetLineMaxColumn.loop
    cases hg : ln[i]? with
    | none => exact Nat.le_refl _
    | some g =>
      simp only
      split
      · exact ih _ _
      · exact Nat.le_trans (Nat.le_of_lt (advanceColumn_gt htab g.mChar c))
          (GetLineMaxColumn_loop_ge htab ln _ _ _)

theorem GetLineMaxColumn_loop_gt {tab : Nat} (htab : 0 < tab) (ln : Line) (f c i : Nat)
    (hf : 0 < f) (hi : i < ln.length) : c < GetLineMaxColumn.loop tab ln f c i := by
  obtain ⟨g, hg⟩ : ∃ g, ln[i]? = some g := ⟨_, List.getElem?_eq_getElem hi⟩
  cases f with
  | zero => omega
  | succ f =>
    unfold GetLineMaxColumn.loop
    rw [hg]
    exact Nat.lt_of_lt_of_le (advanceColumn_gt htab g.mChar c)
      (GetLineMaxColumn_loop_ge htab ln _ _ _)

theorem GetCharacterColumn_loop_gt {tab : Nat} (htab : 0 < tab) (ln : Line) (t f c i : Nat)
    (hf : 0 < f) (hi : i < ln.length) (ht : i < t) :
    c < GetCharacterColumn.loop tab ln t f c i := by
  obtain ⟨g, hg⟩ : ∃ g, ln[i]? = some g := ⟨_, List.getElem?_eq_getElem hi⟩
  cases f with
  | zero => omega
  | succ f =>
    unfold GetCharacterColumn.loop
    rw [hg]
    simp only [ht, if_true]
    exact Nat.lt_of_lt_of_le (advanceColumn_gt htab g.mChar c)
      (GetCharacterColumn_loop_ge htab ln t _ _ _)

/-- The character index of a column at or behind the maximum column of a line is at or
behind the end of the line. -/
theorem index_ge_of_max {tab : Nat} (htab : 0 < tab) (ln : Line) (k : Nat)
    (hk : GetLineMaxColumn.loop tab ln ln.length 0 0 ≤ k) :
    ln.length ≤ GetCharacterIndex.loop tab ln k ln.length 0 0 := by
  obtain ⟨cp, hw, hstop⟩ := GetCharacterIndex_loop_exists tab ln k ln.length 0 0 (by omega)
  rcases hstop with h | h
  · by_contra hlt
    have hm := GetLineMaxColumn_loop_walk hw ln.length ln.length (by omega) (by omega)
    have hlt' : GetCharacterIndex.loop tab ln k ln.length 0 0 < ln.length := by omega
    have hstep := GetLineMaxColumn_loop_gt htab ln ln.length cp _ (by omega) hlt'
    omega
  · exact h

/-- The column of an index at or behind the character index of a valid column `a` is at
least `a`, also on a line that agrees with the first one before that character index; it is
greater when the index is behind the character index and that one is inside the line. -/
theorem column_after_index {tab : Nat} (htab : 0 < tab) (L L' : Line) (a t : Nat)
    (ha : a ≤ GetLineMaxColumn.loop tab L L.length 0 0)
    (hpre : ∀ j, j < GetCharacterIndex.loop tab L a L.length 0 0 → L'[j]? = L[j]?)
    (ht : GetCharacterIndex.loop tab L a L.length 0 0 ≤ t) :
    a ≤ GetCharacterColumn.loop tab L' t L'.length 0 0 ∧
      (GetCharacterIndex.loop tab L a L.length 0 0 < t →
        GetCharacterIndex.loop tab L a L.length 0 0 < L'.length →
        a < GetCharacterColumn.loop tab L' t L'.length 0 0) := by
  obtain ⟨cp, hw, hcp⟩ := index_walk_of_valid tab L a ha
  generalize GetCharacterIndex.loop tab L a L.length 0 0 = idx at hw hpre ht
  have hw' : Walk tab L' cp t 0 0 cp idx :=
    ((hw.tighten htab).weaken (Nat.le_refl _) ht).transfer hpre
  have hcol := GetCharacterColumn_loop_walk hw' L'.length L'.length (by omega) (by omega)
  rw [hcol]
  refine ⟨Nat.le_trans hcp (GetCharacterColumn_loop_ge htab L' t _ _ _), ?_⟩
  intro h1 h2
  exact Nat.lt_of_le_of_lt hcp
    (GetCharacterColumn_loop_gt htab L' t L'.length cp idx (by omega) h2 h1)

theorem GetCharacterColumn_zero (e : TextEditor) (l : Nat) : GetCharacterColumn e l 0 = 0 := by
  unfold GetCharacterColumn
  cases e.mLines[l]? with
  | none => rfl
  | some ln => exact GetCharacterColumn_loop_stop _ _ _ _ _ _ (Or.inr (Nat.zero_le _))

theorem GetText_same (e : TextEditor) (c : Coordinates) : GetText e c c = some [] := by
  unfold GetText
  simp only [Nat.lt_irrefl, false_and, if_false]
  unfold GetText.loop
  simp

theorem SanitizeCoordinates_congr {e e' : TextEditor} (h1 : e'.mLines = e.mLines)
    (h2 : e'.mTabSize = e.mTabSize) (c : Coordinates) :
    SanitizeCoordinates e' c = SanitizeCoordinates e c := by
  unfold SanitizeCoordinates GetLineMaxColumn
  rw [h1, h2]

theorem SanitizeCoordinates_of_lt {e : TextEditor} {c : Coordinates}
    (h : c.mLine < e.mLines.length) :
    SanitizeCoordinates e c = ⟨c.mLine, min c.mColumn (GetLineMaxColumn e c.mLine)⟩ := by
  have hemp : e.mLines.isEmpty = false := isEmpty_eq_false_of_lt h
  unfold SanitizeCoordinates
  have h3 : ¬ (c.mLine ≥ e.mLines.length) := by omega
  simp only [h3, hemp, if_false, Bool.false_eq_true]

/-- The sanitized cursor is a fixed point of `SanitizeCoordinates`, also in an editor with
the same lines and tab size. -/
theorem SanitizeCoordinates_actual {e e' : TextEditor} (hne : e.mLines ≠ [])
    (h1 : e'.mLines = e.mLines) (h2 : e'.mTabSize = e.mTabSize) :
    SanitizeCoordinates e' (GetActualCursorCoordinates e) = GetActualCursorCoordinates e := by
  rw [SanitizeCoordinates_congr h1 h2]
  unfold GetActualCursorCoordinates
  exact SanitizeCoordinates_of_valid (SanitizeCoordinates_valid _ hne).1
    (SanitizeCoordinates_valid _ hne).2

/-- From a column at or behind the maximum column of a line, `Advance` goes to column 0 of
the next line. -/
theorem Advance_at_max {e : TextEditor} (htab : 0 < e.mTabSize) {c : Coordinates} {ln : Line}
    (hln : e.mLines[c.mLine]? = some ln) (hc : GetLineMaxColumn e c.mLine ≤ c.mColumn) :
    Advance e c = ⟨c.mLine + 1, 0⟩ := by
  rw [GetLineMaxColumn_eq hln] at hc
  have hidx := index_ge_of_max htab ln c.mColumn hc
  unfold Advance
  rw [hln]
  simp only
  rw [GetCharacterIndex_eq hln, Int.toNat_ofNat, if_neg (by omega), GetCharacterColumn_zero]

theorem Coordinates.le_of_line_lt {a b : Coordinates} (h : a.mLine < b.mLine) :
    a.le b = true ∧ a ≠ b := by
  refine ⟨?_, ?_⟩
  · unfold Coordinates.le
    rw [if_pos (by omega)]
    exact decide_eq_true h
  · intro hab
    rw [hab] at h
    omega

theorem Coordinates.le_of_column_le {a b : Coordinates} (h1 : a.mLine = b.mLine)
    (h2 : a.mColumn ≤ b.mColumn) : a.le b = true := by
  unfold Coordinates.le
  rw [if_neg (by omega)]
  exact decide_eq_true h2

theorem Coordinates.lt_le {a b : Coordinates} (h : b.gt a = true) :
    a.le b = true ∧ a ≠ b := by
  unfold Coordinates.gt at h
  by_cases hl : b.mLine = a.mLine
  · rw [if_neg (by omega)] at h
    have h2 : b.mColumn > a.mColumn := of_decide_eq_true h
    refine ⟨Coordinates.le_of_column_le hl.symm (by omega), ?_⟩
    intro hab
    rw [hab] at h2
    omega
  · rw [if_pos hl] at h
    have h2 : b.mLine > a.mLine := of_decide_eq_true h
    exact Coordinates.le_of_line_lt h2

theorem RemoveLine_log {e e' : TextEditor} {a : Nat} (h : RemoveLine e a = some e') :
    e'.mUndoBuffer = e.mUndoBuffer ∧ e'.mUndoIndex = e.mUndoIndex ∧
      e'.mTabSize = e.mTabSize := by
  unfold RemoveLine at h
  simp only [] at h
  split at h; · simp at h
  split at h; · simp at h
  split at h; · simp at h
  split at h; · simp at h
  simp at h; subst h
  exact ⟨rfl, rfl, rfl⟩

theorem DeleteSelection_log {e e' : TextEditor} (h : DeleteSelection e = some e') :
    e'.mUndoBuffer = e.mUndoBuffer ∧ e'.mUndoIndex = e.mUndoIndex ∧
      e'.mTabSize = e.mTabSize := by
  unfold DeleteSelection at h
  split at h; · simp at h
  split at h; · simp at h; subst h; exact ⟨rfl, rfl, rfl⟩
  split at h; · simp at h
  rename_i e1 h1
  simp at h; subst h
  have h2 := DeleteRange_log h1
  have h3 := DeleteRange_config h1
  simp only [Colorize_mUndoBuffer, Colorize_mUndoIndex, Colorize_mTabSize,
    SetCursorPosition_mUndoBuffer, SetCursorPosition_mUndoIndex, SetCursorPosition_mTabSize]
  exact ⟨h2.1, h2.2.1, h3.1⟩

/-- The record that `AddUndo` appends, seen from an editor with the same undo log. -/
theorem AddUndo_appends {e0 e e' : TextEditor} {u : UndoRecord} (h : AddUndo e u = some e')
    (hi : e.mUndoIndex = e0.mUndoIndex) :
    e'.mUndoIndex = e0.mUndoIndex + 1 ∧ e'.mUndoBuffer[e0.mUndoIndex]? = some u := by
  unfold AddUndo at h
  split at h; · simp at h
  cases h
  rw [← hi]
  exact ⟨rfl, AddUndo_buffer_get _ _ _⟩

theorem addUndoAfter_ordered {e0 e e' : TextEditor} {u : UndoRecord}
    (h : addUndoAfter e u = some e')
    (hi : e.mUndoIndex = e0.mUndoIndex)
    (hu : u.Ordered) :
    ∃ u', e'.mUndoIndex = e0.mUndoIndex + 1 ∧ e'.mUndoBuffer[e0.mUndoIndex]? = some u' ∧
      u'.Ordered := by
  unfold addUndoAfter at h
  obtain ⟨h1, h2⟩ := AddUndo_appends h hi
  exact ⟨_, h1, h2, hu⟩

theorem deleteSelected_ordered {e e' : TextEditor} {u : UndoRecord}
    (h : deleteSelected e u = some e') (hsel : HasSelection e = true)
    (hA : u.mAddedStart.le u.mAddedEnd = true) (hA' : u.mAddedStart = u.mAddedEnd → u.mAdded = []) :
    ∃ u', e'.mUndoIndex = e.mUndoIndex + 1 ∧ e'.mUndoBuffer[e.mUndoIndex]? = some u' ∧
      u'.Ordered := by
  unfold deleteSelected at h
  split at h; · simp at h
  split at h; · simp at h
  rename_i removed _ e1 h1
  have hl := DeleteSelection_log h1
  have hs := Coordinates.lt_le hsel
  exact addUndoAfter_ordered h hl.2.1 ⟨hA, hs.1, hA', fun hc => absurd hc hs.2⟩

/-- After `SetCursorPosition` at the sanitized cursor, the sanitized cursor is the same. -/
theorem GetActualCursorCoordinates_SetCursorPosition {e : TextEditor} (hne : e.mLines ≠ []) :
    GetActualCursorCoordinates (SetCursorPosition e (GetActualCursorCoordinates e)) =
      GetActualCursorCoordinates e := by
  have hcur : (SetCursorPosition e (GetActualCursorCoordinates e)).mState.mCursorPosition =
      GetActualCursorCoordinates e := by
    rw [SetCursorPosition_mState]
  show SanitizeCoordinates (SetCursorPosition e (GetActualCursorCoordinates e))
    (SetCursorPosition e (GetActualCursorCoordinates e)).mState.mCursorPosition = _
  rw [hcur]
  exact SanitizeCoordinates_actual hne (by simp) (by simp)

theorem Backspace_joinLines_ordered {e0 e e' : TextEditor} {u : UndoRecord} {pos : Coordinates}
    (htab : 0 < e.mTabSize) (h : Backspace.joinLines e u pos = some e')
    (hcur : e.mState.mCursorPosition = pos)
    (hi : e.mUndoIndex = e0.mUndoIndex)
    (hA : u.mAddedStart.le u.mAddedEnd = true) (hA' : u.mAddedStart = u.mAddedEnd → u.mAdded = []) :
    ∃ u', e'.mUndoIndex = e0.mUndoIndex + 1 ∧ e'.mUndoBuffer[e0.mUndoIndex]? = some u' ∧
      u'.Ordered := by
  unfold Backspace.joinLines at h
  simp only [hcur] at h
  split at h
  · rename_i ln prevLine hln hprev
    split at h; · simp at h
    rename_i e1 h1
    have hl := RemoveLine_log h1
    have hadv : Advance e ⟨pos.mLine - 1, GetLineMaxColumn e (pos.mLine - 1)⟩ =
        ⟨pos.mLine - 1 + 1, 0⟩ :=
      Advance_at_max htab hprev (Nat.le_refl _)
    rw [hadv] at h
    have hord : (⟨pos.mLine - 1, GetLineMaxColumn e (pos.mLine - 1)⟩ : Coordinates).le
          ⟨pos.mLine - 1 + 1, 0⟩ = true ∧
        (⟨pos.mLine - 1, GetLineMaxColumn e (pos.mLine - 1)⟩ : Coordinates) ≠
          ⟨pos.mLine - 1 + 1, 0⟩ :=
      Coordinates.le_of_line_lt (by simp)
    refine addUndoAfter_ordered h ?_ ⟨hA, hord.1, hA', fun hc => absurd hc hord.2⟩
    simp only [Colorize_mUndoIndex, EnsureCursorVisible_mUndoIndex]
    exact hl.2.1.trans hi
  · simp at h

theorem Backspace_eraseChar_ordered {e0 e e' : TextEditor} {u : UndoRecord} {pos : Coordinates}
    (h : Backspace.eraseChar e u pos = some e')
    (hact : GetActualCursorCoordinates e = pos) (hpos : pos.mColumn ≠ 0)
    (hi : e.mUndoIndex = e0.mUndoIndex)
    (hA : u.mAddedStart.le u.mAddedEnd = true) (hA' : u.mAddedStart = u.mAddedEnd → u.mAdded = []) :
    ∃ u', e'.mUndoIndex = e0.mUndoIndex + 1 ∧ e'.mUndoBuffer[e0.mUndoIndex]? = some u' ∧
      u'.Ordered := by
  unfold Backspace.eraseChar at h
  simp only [hact] at h
  split at h; · simp at h
  split at h; · simp at h
  refine addUndoAfter_ordered h ?_ ⟨hA, ?_, hA', ?_⟩
  · simp only [Colorize_mUndoIndex, EnsureCursorVisible_mUndoIndex]
    exact hi
  · exact Coordinates.le_of_column_le rfl (Nat.sub_le _ _)
  · intro hc
    exfalso
    have := congrArg Coordinates.mColumn hc
    simp only at this
    omega

/-- C26 for `Backspace`. -/
theorem Backspace_ordered {e e' : TextEditor} (htab : 0 < e.mTabSize)
    (h : Backspace e = some e') :
    (e'.mUndoBuffer = e.mUndoBuffer ∧ e'.mUndoIndex = e.mUndoIndex) ∨
    ∃ u, e'.mUndoIndex = e.mUndoIndex + 1 ∧ e'.mUndoBuffer[e.mUndoIndex]? = some u ∧
      u.Ordered := by
  unfold Backspace at h
  simp only [] at h
  split at h; · simp at h
  split at h; · simp at h; subst h; exact Or.inl ⟨rfl, rfl⟩
  rename_i hemp
  have hne : e.mLines ≠ [] := by
    intro hc; rw [hc] at hemp; simp at hemp
  have hcur : (SetCursorPosition e (GetActualCursorCoordinates e)).mState.mCursorPosition =
      GetActualCursorCoordinates e := by
    rw [SetCursorPosition_mState]
  split at h
  · rename_i hsel
    exact Or.inr (deleteSelected_ordered h (by simpa using hsel) rfl (fun _ => rfl))
  · split at h
    · split at h
      · simp at h; subst h
        exact Or.inl ⟨by simp, by simp⟩
      · rename_i hcol hline
        rw [hcur] at hline
        exact Or.inr (Backspace_joinLines_ordered (by simpa using htab) h hcur
          (by simp) rfl (fun _ => rfl))
    · rename_i hcol
      rw [hcur] at hcol
      exact Or.inr (Backspace_eraseChar_ordered h
        (GetActualCursorCoordinates_SetCursorPosition hne) hcol (by simp) rfl
        (fun _ => rfl))

theorem Delete_joinLines_ordered {e0 e e' : TextEditor} {u : UndoRecord} {pos : Coordinates}
    {ln : Line} (htab : 0 < e.mTabSize) (h : Delete.joinLines e u pos ln = some e')
    (hact : GetActualCursorCoordinates e = pos) (hln : e.mLines[pos.mLine]? = some ln)
    (hmax : pos.mColumn = GetLineMaxColumn e pos.mLine)
    (hi : e.mUndoIndex = e0.mUndoIndex)
    (hA : u.mAddedStart.le u.mAddedEnd = true) (hA' : u.mAddedStart = u.mAddedEnd → u.mAdded = []) :
    ∃ u', e'.mUndoIndex = e0.mUndoIndex + 1 ∧ e'.mUndoBuffer[e0.mUndoIndex]? = some u' ∧
      u'.Ordered := by
  unfold Delete.joinLines at h
  simp only [hact] at h
  split at h; · simp at h
  split at h; · simp at h
  rename_i e1 h1
  have hl := RemoveLine_log h1
  rw [Advance_at_max htab hln (by omega)] at h
  have hord := @Coordinates.le_of_line_lt pos ⟨pos.mLine + 1, 0⟩ (by simp)
  refine addUndoAfter_ordered h ?_ ⟨hA, hord.1, hA', fun hc => absurd hc hord.2⟩
  simp only [Colorize_mUndoIndex]
  exact hl.2.1.trans hi

theorem Delete_eraseChar_ordered {e0 e e' : TextEditor} {u : UndoRecord} {pos : Coordinates}
    {ln : Line} (h : Delete.eraseChar e u pos ln = some e')
    (hi : e.mUndoIndex = e0.mUndoIndex)
    (hA : u.mAddedStart.le u.mAddedEnd = true) (hA' : u.mAddedStart = u.mAddedEnd → u.mAdded = []) :
    ∃ u', e'.mUndoIndex = e0.mUndoIndex + 1 ∧ e'.mUndoBuffer[e0.mUndoIndex]? = some u' ∧
      u'.Ordered := by
  unfold Delete.eraseChar at h
  simp only [] at h
  split at h; · simp at h
  split at h; · simp at h
  refine addUndoAfter_ordered h ?_ ⟨hA, ?_, hA', ?_⟩
  · simp only [Colorize_mUndoIndex]
    exact hi
  · exact Coordinates.le_of_column_le rfl (Nat.le_succ _)
  · intro hc
    exfalso
    have := congrArg Coordinates.mColumn hc
    simp only at this
    omega

/-- C26 for `Delete`. -/
theorem Delete_ordered {e e' : TextEditor} (htab : 0 < e.mTabSize)
    (h : Delete e = some e') :
    (e'.mUndoBuffer = e.mUndoBuffer ∧ e'.mUndoIndex = e.mUndoIndex) ∨
    ∃ u, e'.mUndoIndex = e.mUndoIndex + 1 ∧ e'.mUndoBuffer[e.mUndoIndex]? = some u ∧
      u.Ordered := by
  unfold Delete at h
  simp only [] at h
  split at h; · simp at h
  split at h; · simp at h; subst h; exact Or.inl ⟨rfl, rfl⟩
  rename_i hemp
  have hne : e.mLines ≠ [] := by
    intro hc; rw [hc] at hemp; simp at hemp
  have hcur : (SetCursorPosition e (GetActualCursorCoordinates e)).mState.mCursorPosition =
      GetActualCursorCoordinates e := by
    rw [SetCursorPosition_mState]
  have hact := @GetActualCursorCoordinates_SetCursorPosition e hne
  split at h
  · rename_i hsel
    exact Or.inr (deleteSelected_ordered h (by simpa using hsel) rfl (fun _ => rfl))
  · split at h; · simp at h
    rename_i ln hln
    split at h
    · rename_i hmax
      split at h
      · simp at h; subst h
        exact Or.inl ⟨by simp, by simp⟩
      · exact Or.inr (Delete_joinLines_ordered (by simpa using htab) h hact hln hmax
          (by simp) rfl (fun _ => rfl))
    · exact Or.inr (Delete_eraseChar_ordered h (by simp) rfl (fun _ => rfl))

theorem lt_of_getElem?_eq_some {α : Type} {l : List α} {i : Nat} {a : α}
    (h : l[i]? = some a) : i < l.length := by
  by_contra hc
  rw [List.getElem?_eq_none (by omega)] at h
  cases h

theorem actual_valid {e : TextEditor} (hne : e.mLines ≠ []) :
    (GetActualCursorCoordinates e).mLine < e.mLines.length ∧
      (GetActualCursorCoordinates e).mColumn ≤
        GetLineMaxColumn e (GetActualCursorCoordinates e).mLine :=
  SanitizeCoordinates_valid _ hne

theorem finish_ordered {e0 e e' : TextEditor} {u : UndoRecord} {coord : Coordinates}
    (h : EnterCharacter.finish e u coord = some e') (hi : e.mUndoIndex = e0.mUndoIndex)
    (hA : u.mAddedStart.le (GetActualCursorCoordinates e) = true)
    (hA' : u.mAddedStart = GetActualCursorCoordinates e → u.mAdded = [])
    (hR : u.mRemovedStart.le u.mRemovedEnd = true)
    (hR' : u.mRemovedStart = u.mRemovedEnd → u.mRemoved = []) :
    ∃ u', e'.mUndoIndex = e0.mUndoIndex + 1 ∧ e'.mUndoBuffer[e0.mUndoIndex]? = some u' ∧
      u'.Ordered := by
  unfold EnterCharacter.finish at h
  split at h; · simp at h
  rename_i e1 h1
  have hi1 : ({ e with mTextChanged := true } : TextEditor).mUndoIndex = e0.mUndoIndex := hi
  obtain ⟨h2, h3⟩ := AddUndo_appends h1 hi1
  cases h
  refine ⟨{ u with mAddedEnd := GetActualCursorCoordinates e, mAfter := e.mState }, ?_, ?_,
    ⟨hA, hR, hA', hR'⟩⟩
  · simpa using h2
  · simpa using h3

/-- The cursor is its own sanitized form when the character index of the sanitized cursor is
inside its line. -/
theorem cursor_eq_actual_of_index_lt {e : TextEditor} (htab : 0 < e.mTabSize) {ln : Line}
    (hln : e.mLines[(GetActualCursorCoordinates e).mLine]? = some ln)
    (hidx : GetCharacterIndex.loop e.mTabSize ln (GetActualCursorCoordinates e).mColumn
      ln.length 0 0 < ln.length) :
    e.mState.mCursorPosition = GetActualCursorCoordinates e := by
  have hlen := lt_of_getElem?_eq_some hln
  have hemp : e.mLines.isEmpty = false := isEmpty_eq_false_of_lt hlen
  by_cases hl : e.mState.mCursorPosition.mLine < e.mLines.length
  · have hs : GetActualCursorCoordinates e = ⟨e.mState.mCursorPosition.mLine,
        min e.mState.mCursorPosition.mColumn
          (GetLineMaxColumn e e.mState.mCursorPosition.mLine)⟩ :=
      SanitizeCoordinates_of_lt hl
    rw [hs] at hln hidx ⊢
    simp only at hln hidx
    by_cases hc : e.mState.mCursorPosition.mColumn ≤
        GetLineMaxColumn e e.mState.mCursorPosition.mLine
    · rw [Nat.min_eq_left hc]
    · exfalso
      rw [Nat.min_eq_right (by omega), GetLineMaxColumn_eq hln] at hidx
      have := index_ge_of_max htab ln _ (Nat.le_refl _)
      omega
  · exfalso
    have hs : GetActualCursorCoordinates e =
        ⟨e.mLines.length - 1, GetLineMaxColumn e (e.mLines.length - 1)⟩ := by
      unfold GetActualCursorCoordinates SanitizeCoordinates
      simp only [ge_iff_le, Nat.le_of_not_lt hl, if_true, hemp, Bool.false_eq_true, if_false]
    rw [hs] at hln hidx
    simp only at hln hidx
    rw [GetLineMaxColumn_eq hln] at hidx
    have := index_ge_of_max htab ln _ (Nat.le_refl _)
    omega

/-- The overwrite step of `EnterCharacter` at the sanitized cursor: the removed span is
ordered and not empty when a character is overwritten, the line is unchanged before the
character index, and the added start is kept. -/
theorem overwrite_facts {e : TextEditor} (htab : 0 < e.mTabSize) (hne : e.mLines ≠ [])
    (u : UndoRecord) {ln : Line}
    (hln : e.mLines[(GetActualCursorCoordinates e).mLine]? = some ln)
    (hR : u.mRemovedStart.le u.mRemovedEnd = true)
    (hR' : u.mRemovedStart = u.mRemovedEnd → u.mRemoved = []) :
    (EnterCharacter.overwrite e u (GetActualCursorCoordinates e) ln
        (GetCharacterIndex.loop e.mTabSize ln (GetActualCursorCoordinates e).mColumn
          ln.length 0 0)).2.mAddedStart = u.mAddedStart ∧
    (EnterCharacter.overwrite e u (GetActualCursorCoordinates e) ln
        (GetCharacterIndex.loop e.mTabSize ln (GetActualCursorCoordinates e).mColumn
          ln.length 0 0)).2.mRemovedStart.le
      (EnterCharacter.overwrite e u (GetActualCursorCoordinates e) ln
        (GetCharacterIndex.loop e.mTabSize ln (GetActualCursorCoordinates e).mColumn
          ln.length 0 0)).2.mRemovedEnd = true ∧
    ((EnterCharacter.overwrite e u (GetActualCursorCoordinates e) ln
        (GetCharacterIndex.loop e.mTabSize ln (GetActualCursorCoordinates e).mColumn
          ln.length 0 0)).2.mRemovedStart =
      (EnterCharacter.overwrite e u (GetActualCursorCoordinates e) ln
        (GetCharacterIndex.loop e.mTabSize ln (GetActualCursorCoordinates e).mColumn
          ln.length 0 0)).2.mRemovedEnd →
      (EnterCharacter.overwrite e u (GetActualCursorCoordinates e) ln
        (GetCharacterIndex.loop e.mTabSize ln (GetActualCursorCoordinates e).mColumn
          ln.length 0 0)).2.mRemoved = []) ∧
    (∀ j, j < GetCharacterIndex.loop e.mTabSize ln (GetActualCursorCoordinates e).mColumn
        ln.length 0 0 →
      (EnterCharacter.overwrite e u (GetActualCursorCoordinates e) ln
        (GetCharacterIndex.loop e.mTabSize ln (GetActualCursorCoordinates e).mColumn
          ln.length 0 0)).1[j]? = ln[j]?) := by
  have hval := actual_valid hne
  have ha : (GetActualCursorCoordinates e).mColumn ≤
      GetLineMaxColumn.loop e.mTabSize ln ln.length 0 0 := by
    have := hval.2
    rw [GetLineMaxColumn_eq hln] at this
    exact this
  unfold EnterCharacter.overwrite
  split_ifs with hc
  · have hcur := cursor_eq_actual_of_index_lt htab hln hc.2
    have hd := UTF8CharLength_pos (ln.getD (GetCharacterIndex.loop e.mTabSize ln
      (GetActualCursorCoordinates e).mColumn ln.length 0 0) default).mChar
    have hcol := (column_after_index htab ln ln (GetActualCursorCoordinates e).mColumn
      (GetCharacterIndex.loop e.mTabSize ln (GetActualCursorCoordinates e).mColumn
        ln.length 0 0 + UTF8CharLength (ln.getD (GetCharacterIndex.loop e.mTabSize ln
          (GetActualCursorCoordinates e).mColumn ln.length 0 0) default).mChar)
      ha (fun _ _ => rfl) (by omega)).2 (by omega) hc.2
    rw [← GetCharacterColumn_eq hln] at hcol
    simp only [hcur]
    refine ⟨trivial, ?_, ?_, ?_⟩
    · exact Coordinates.le_of_column_le rfl (Nat.le_of_lt hcol)
    · intro hc2
      exfalso
      have := congrArg Coordinates.mColumn hc2
      simp only at this
      omega
    · intro j hj
      rw [List.getElem?_append_left (by rw [List.length_take]; omega),
        List.getElem?_take_of_lt hj]
  · exact ⟨rfl, hR, hR', fun _ _ => rfl⟩

theorem plain_ordered {e0 e e' : TextEditor} {u : UndoRecord} {buf : List Nat}
    (htab : 0 < e.mTabSize) (hne : e.mLines ≠ [])
    (h : EnterCharacter.plain e u (GetActualCursorCoordinates e) buf = some e')
    (hi : e.mUndoIndex = e0.mUndoIndex)
    (hst : u.mAddedStart = GetActualCursorCoordinates e)
    (hR : u.mRemovedStart.le u.mRemovedEnd = true)
    (hR' : u.mRemovedStart = u.mRemovedEnd → u.mRemoved = []) :
    ∃ u', e'.mUndoIndex = e0.mUndoIndex + 1 ∧ e'.mUndoBuffer[e0.mUndoIndex]? = some u' ∧
      u'.Ordered := by
  have hval := actual_valid hne
  unfold EnterCharacter.plain at h
  split at h; · simp at h
  rename_i ln hln
  have ha : (GetActualCursorCoordinates e).mColumn ≤
      GetLineMaxColumn.loop e.mTabSize ln ln.length 0 0 := by
    have := hval.2
    rw [GetLineMaxColumn_eq hln] at this
    exact this
  rw [GetCharacterIndex_eq hln, Int.toNat_ofNat] at h
  simp only [] at h
  obtain ⟨ho1, ho2, ho3, ho4⟩ := overwrite_facts htab hne u hln hR hR'
  generalize EnterCharacter.overwrite e u (GetActualCursorCoordinates e) ln
    (GetCharacterIndex.loop e.mTabSize ln (GetActualCursorCoordinates e).mColumn
      ln.length 0 0) = r at h ho1 ho2 ho3 ho4
  generalize hidx : GetCharacterIndex.loop e.mTabSize ln
    (GetActualCursorCoordinates e).mColumn ln.length 0 0 = idx at h ho4
  split at h; · simp at h
  rename_i ln' hins
  -- the new line agrees with the old one before the character index
  have hpre : ∀ j, j < idx → ln'[j]? = ln[j]? := by
    intro j hj
    split_ifs at hins with hb
    · cases hins; exact ho4 j hj
    · unfold insertAt at hins
      split_ifs at hins with hle
      cases hins
      rw [List.append_assoc, List.getElem?_append_left (by rw [List.length_take]; omega),
        List.getElem?_take_of_lt hj]
      exact ho4 j hj
  have hlen : buf ≠ [] → idx < ln'.length := by
    intro hb
    have hb' : ¬ (buf.isEmpty = true) := by simpa using hb
    rw [if_neg hb'] at hins
    unfold insertAt at hins
    split_ifs at hins with hle
    cases hins
    have : 0 < buf.length := List.length_pos.mpr hb
    simp only [List.length_append, List.length_take, List.length_map, List.length_drop]
    omega
  have hcol := column_after_index htab ln ln' (GetActualCursorCoordinates e).mColumn
    (idx + buf.length) ha (by rw [hidx]; exact hpre) (by rw [hidx]; omega)
  rw [hidx] at hcol
  have hll := lt_of_getElem?_eq_some hln
  have hln' : (e.mLines.set (GetActualCursorCoordinates e).mLine ln')[
      (GetActualCursorCoordinates e).mLine]? = some ln' := List.getElem?_set_self hll
  -- the sanitized cursor after the insertion
  have hact : GetActualCursorCoordinates
      (SetCursorPosition { e with mLines := e.mLines.set (GetActualCursorCoordinates e).mLine ln' }
        ⟨(GetActualCursorCoordinates e).mLine,
          GetCharacterColumn { e with mLines := e.mLines.set (GetActualCursorCoordinates e).mLine ln' }
            (GetActualCursorCoordinates e).mLine (idx + buf.length)⟩) =
      ⟨(GetActualCursorCoordinates e).mLine,
        GetCharacterColumn.loop e.mTabSize ln' (idx + buf.length) ln'.length 0 0⟩ := by
    show SanitizeCoordinates _ (SetCursorPosition _ _).mState.mCursorPosition = _
    rw [SetCursorPosition_mState]
    simp only
    rw [SanitizeCoordinates_congr (SetCursorPosition_mLines _ _) (SetCursorPosition_mTabSize _ _)]
    rw [SanitizeCoordinates_of_lt (by simp only [List.length_set]; exact hll)]
    simp only
    rw [@GetCharacterColumn_eq _ _ _ ln' hln', @GetLineMaxColumn_eq _ _ ln' hln']
    simp only
    rw [Nat.min_eq_left (GetCharacterColumn_loop_le_max htab ln' _ _ _ _)]
  refine finish_ordered h (by simpa using hi) ?_ ?_ ho2 ho3
  · rw [hact]
    simp only [ho1, hst]
    exact Coordinates.le_of_column_le rfl hcol.1
  · rw [hact]
    simp only [ho1, hst]
    intro hc
    by_contra hb
    have := congrArg Coordinates.mColumn hc
    simp only at this
    have := hcol.2 (by have : 0 < buf.length := List.length_pos.mpr hb; omega) (hlen hb)
    omega

theorem newline_ordered {e0 e e' : TextEditor} {u : UndoRecord} {coord : Coordinates}
    {aChar : Nat} (h : EnterCharacter.newline e u coord aChar = some e')
    (hi : e.mUndoIndex = e0.mUndoIndex) (hst : u.mAddedStart = coord)
    (hR : u.mRemovedStart.le u.mRemovedEnd = true)
    (hR' : u.mRemovedStart = u.mRemovedEnd → u.mRemoved = []) :
    ∃ u', e'.mUndoIndex = e0.mUndoIndex + 1 ∧ e'.mUndoBuffer[e0.mUndoIndex]? = some u' ∧
      u'.Ordered := by
  unfold EnterCharacter.newline at h
  split at h; · simp at h
  rename_i e1 h1
  have hl := InsertLine_log h1
  split at h
  · rename_i ln newLine hln hnew
    simp only [] at h
    split at h; · simp at h
    have hlt := lt_of_getElem?_eq_some hnew
    generalize hcol : GetCharacterColumn _ (coord.mLine + 1) _ = col at h
    generalize hlines : (e1.mLines.set coord.mLine _).set (coord.mLine + 1) _ = lines at h
    have hlen : lines.length = e1.mLines.length := by
      rw [← hlines]; simp only [List.length_set]
    have hact : (GetActualCursorCoordinates
        (SetCursorPosition { e1 with mLines := lines } ⟨coord.mLine + 1, col⟩)).mLine =
        coord.mLine + 1 := by
      show (SanitizeCoordinates _ (SetCursorPosition _ _).mState.mCursorPosition).mLine = _
      rw [SetCursorPosition_mState]
      simp only
      rw [SanitizeCoordinates_of_lt (by simp only [SetCursorPosition_mLines]; omega)]
    have hord : coord.le (GetActualCursorCoordinates
          (SetCursorPosition { e1 with mLines := lines } ⟨coord.mLine + 1, col⟩)) = true ∧
        coord ≠ GetActualCursorCoordinates
          (SetCursorPosition { e1 with mLines := lines } ⟨coord.mLine + 1, col⟩) :=
      Coordinates.le_of_line_lt (by rw [hact]; exact Nat.lt_succ_self _)
    refine finish_ordered h (by simpa using hl.2.1.trans hi) ?_ ?_ hR hR'
    · simp only [hst]; exact hord.1
    · simp only [hst]; intro hc; exact absurd hc hord.2
  · simp at h

theorem insert_ordered {e0 e e' : TextEditor} {u : UndoRecord} {aChar : Nat}
    (htab : 0 < e.mTabSize) (h : EnterCharacter.insert e u aChar = some e')
    (hb : e.mUndoBuffer = e0.mUndoBuffer) (hi : e.mUndoIndex = e0.mUndoIndex)
    (hR : u.mRemovedStart.le u.mRemovedEnd = true)
    (hR' : u.mRemovedStart = u.mRemovedEnd → u.mRemoved = []) :
    (e'.mUndoBuffer = e0.mUndoBuffer ∧ e'.mUndoIndex = e0.mUndoIndex) ∨
    ∃ u', e'.mUndoIndex = e0.mUndoIndex + 1 ∧ e'.mUndoBuffer[e0.mUndoIndex]? = some u' ∧
      u'.Ordered := by
  unfold EnterCharacter.insert at h
  simp only [] at h
  split at h; · simp at h
  rename_i hemp
  have hne : e.mLines ≠ [] := by
    intro hc; rw [hc] at hemp; simp at hemp
  split at h
  · exact Or.inr (newline_ordered h hi rfl hR hR')
  · split at h
    · exact Or.inr (plain_ordered htab hne h hi rfl hR hR')
    · cases h
      exact Or.inl ⟨hb, hi⟩

theorem Coordinates.le_of_line_le {a b : Coordinates} (h0 : a.mColumn = 0)
    (h : a.mLine ≤ b.mLine) : a.le b = true := by
  unfold Coordinates.le
  split_ifs with h1
  · exact decide_eq_true (by omega)
  · exact decide_eq_true (by omega)

/-- The indent loop of `EnterCharacter` reports a modified line only if it visits a line. -/
theorem indentLoop_modified {tab : Nat} {aShift : Bool} {endLine fuel i : Nat} {lines : Lines}
    {r : Lines × Bool}
    (h : EnterCharacter.indentLoop tab aShift endLine fuel i lines false = some r)
    (hr : r.2 = true) : i ≤ endLine := by
  cases fuel with
  | zero =>
    simp only [EnterCharacter.indentLoop] at h
    cases h
    cases hr
  | succ fuel =>
    unfold EnterCharacter.indentLoop at h
    by_contra hc
    rw [if_neg hc] at h
    cases h
    cases hr

theorem indentCommit_ordered {e0 e e' : TextEditor} {u : UndoRecord}
    {start end_ originalEnd : Coordinates}
    (h : EnterCharacter.indentCommit e u start end_ originalEnd = some e')
    (hi : e.mUndoIndex = e0.mUndoIndex)
    (hse : start.mLine ≤ end_.mLine)
    (hoe : originalEnd.mColumn = 0 → start.mLine ≤ originalEnd.mLine - 1)
    (hR : u.mRemovedStart.le u.mRemovedEnd = true)
    (hR' : u.mRemovedStart = u.mRemovedEnd → u.mRemoved = []) :
    ∃ u', e'.mUndoIndex = e0.mUndoIndex + 1 ∧ e'.mUndoBuffer[e0.mUndoIndex]? = some u' ∧
      u'.Ordered := by
  unfold EnterCharacter.indentCommit at h
  simp only [GetCharacterColumn_zero] at h
  split at h; · simp at h
  rename_i added hadd
  split at h; · simp at h
  rename_i e1 h1
  cases h
  obtain ⟨h2, h3⟩ := @AddUndo_appends e0 _ _ _ h1 (by simpa using hi)
  suffices hs : ∃ u', e1.mUndoBuffer[e0.mUndoIndex]? = some u' ∧ u'.Ordered by
    obtain ⟨u', hu1, hu2⟩ := hs
    exact ⟨u', by simpa using h2, by simpa using hu1, hu2⟩
  refine ⟨_, h3, ?_, hR, ?_, hR'⟩
  · by_cases hc : originalEnd.mColumn = 0
    · have := hoe hc
      simp only [hc, ne_eq, not_true_eq_false, if_false]
      exact Coordinates.le_of_line_le rfl this
    · simp only [hc, ne_eq, not_false_eq_true, if_true]
      exact Coordinates.le_of_line_le rfl hse
  · intro hc
    show added = []
    simp only at hc
    rw [← hc, GetText_same] at hadd
    cases hadd
    rfl

theorem Coordinates.gt_lines {a b : Coordinates} (h : b.gt a = true)
    (hl : a.mLine ≠ b.mLine) : a.gt b = false ∧ a.mLine < b.mLine := by
  unfold Coordinates.gt at h
  rw [if_pos (fun hc => hl hc.symm)] at h
  have h2 : b.mLine > a.mLine := of_decide_eq_true h
  refine ⟨?_, h2⟩
  unfold Coordinates.gt
  rw [if_pos hl]
  exact decide_eq_false (by omega)

theorem indent_ordered {e e' : TextEditor} {u : UndoRecord} {aShift : Bool}
    (h : EnterCharacter.indent e u aShift = some e')
    (hsel : HasSelection e = true)
    (hl : e.mState.mSelectionStart.mLine ≠ e.mState.mSelectionEnd.mLine) :
    (e'.mUndoBuffer = e.mUndoBuffer ∧ e'.mUndoIndex = e.mUndoIndex) ∨
    ∃ u', e'.mUndoIndex = e.mUndoIndex + 1 ∧ e'.mUndoBuffer[e.mUndoIndex]? = some u' ∧
      u'.Ordered := by
  obtain ⟨hgt, hlt⟩ := Coordinates.gt_lines hsel hl
  unfold EnterCharacter.indent at h
  simp only [hgt, Bool.false_eq_true, if_false] at h
  split at h; · simp at h
  rename_i removed hrem
  split at h; · simp at h
  rename_i r hloop
  split at h
  · rename_i hr2
    have hse := indentLoop_modified hloop hr2
    simp only at hse
    refine Or.inr (indentCommit_ordered h rfl hse (fun _ => ?_) ?_ ?_)
    · simp only; omega
    · exact Coordinates.le_of_line_le rfl hse
    · intro hc
      show removed = []
      simp only at hc
      rw [← hc, GetText_same] at hrem
      cases hrem
      rfl
  · cases h
    exact Or.inl ⟨rfl, rfl⟩

/-- C26 for `EnterCharacter`. -/
theorem EnterCharacter_ordered {e e' : TextEditor} {aChar : Nat} {aShift : Bool}
    (htab : 0 < e.mTabSize) (h : EnterCharacter e aChar aShift = some e') :
    (e'.mUndoBuffer = e.mUndoBuffer ∧ e'.mUndoIndex = e.mUndoIndex) ∨
    ∃ u, e'.mUndoIndex = e.mUndoIndex + 1 ∧ e'.mUndoBuffer[e.mUndoIndex]? = some u ∧
      u.Ordered := by
  unfold EnterCharacter at h
  split at h; · simp at h
  split at h
  · rename_i hsel
    split at h
    · rename_i hc
      exact indent_ordered h hsel hc.2
    · split at h; · simp at h
      split at h; · simp at h
      rename_i e1 h1
      have hlog := DeleteSelection_log h1
      have hs := Coordinates.lt_le hsel
      exact insert_ordered (by rw [hlog.2.2]; exact htab) h hlog.1 hlog.2.1 hs.1
        (fun hc => absurd hc hs.2)
  · exact insert_ordered htab h rfl rfl rfl (fun _ => rfl)

theorem eq_some_getD {α : Type} {o : Option α} (d : α) (h : o.isSome = true) :
    o = some (o.getD d) := by
  cases o with
  | none => cases h
  | some a => rfl

/-- The colour of an `Identifier` token in terms of the key that is looked up: the token, or
its upper-case form when the grammar is not case-sensitive. -/
theorem tokenColor_Identifier (lang : LanguageDefinition) (preprocessor : Bool)
    (token : List Nat) :
    ColorizeRange.tokenColor lang preprocessor token PaletteIndex.Identifier =
      if preprocessor = false then
        if (if lang.mCaseSensitive then token else token.map toupper) ∈ lang.mKeywords then
          PaletteIndex.Keyword
        else if (if lang.mCaseSensitive then token else token.map toupper) ∈
            lang.mIdentifiers then PaletteIndex.KnownIdentifier
        else if (if lang.mCaseSensitive then token else token.map toupper) ∈
            lang.mPreprocIdentifiers then PaletteIndex.PreprocIdentifier
        else PaletteIndex.Identifier
      else if (if lang.mCaseSensitive then token else token.map toupper) ∈
          lang.mPreprocIdentifiers then PaletteIndex.PreprocIdentifier
      else PaletteIndex.Identifier := by
  unfold ColorizeRange.tokenColor
  cases preprocessor <;> cases lang.mCaseSensitive <;> simp

/-- The cells of a line after a token was painted: the cells of the token carry the colour,
every other cell is as before. -/
theorem paint_getElem? (ln : Line) (start len : Nat) (c : PaletteIndex) (j : Nat) :
    (ColorizeRange.paint ln start len c)[j]? =
      if start ≤ j ∧ j < start + len then
        (ln[j]?).map (fun (g : Glyph) => { g with mColorIndex := c })
      else ln[j]? := by
  unfold ColorizeRange.paint
  by_cases h1 : j < start
  · have hn : ¬ (start ≤ j ∧ j < start + len) := by omega
    rw [if_neg hn, List.append_assoc]
    by_cases h2 : j < ln.length
    · rw [List.getElem?_append_left (by simp; omega), List.getElem?_take_of_lt h1]
    · rw [List.getElem?_eq_none (Nat.le_of_not_lt h2)]
      apply List.getElem?_eq_none
      simp
      omega
  · by_cases h2 : ln.length ≤ j
    · have : (if start ≤ j ∧ j < start + len then
          (ln[j]?).map (fun (g : Glyph) => { g with mColorIndex := c }) else ln[j]?) = none := by
        rw [List.getElem?_eq_none h2]; simp
      rw [this]
      apply List.getElem?_eq_none
      simp
      omega
    · have hs : (ln.take start).length = start := by simp; omega
      rw [List.append_assoc, List.getElem?_append_right (by omega), hs]
      by_cases h3 : j < start + len
      · have hy : start ≤ j ∧ j < start + len := by omega
        rw [if_pos hy, List.getElem?_append_left (by simp; omega), List.getElem?_map,
          List.getElem?_take_of_lt (by omega), List.getElem?_drop]
        congr 3
        omega
      · have hn : ¬ (start ≤ j ∧ j < start + len) := by omega
        have hl : (((ln.drop start).take len).map
            (fun (g : Glyph) => { g with mColorIndex := c })).length = len := by
          simp; omega
        rw [if_neg hn, List.getElem?_append_right (by omega), hl, List.getElem?_drop]
        congr 1
        omega

/-- The token loop leaves the cells before the scan position as they are. -/
theorem tokens_frame (lang : LanguageDefinition)
    (rules : List ((List Nat → Option Nat) × PaletteIndex)) (buffer : List Nat) :
    ∀ (fuel first : Nat) (ln ln' : Line),
      ColorizeRange.tokens lang rules buffer fuel first ln = some ln' →
      ∀ j, j < first → ln'[j]? = ln[j]? := by
  intro fuel
  induction fuel with
  | zero => intro first ln ln' h; simp [ColorizeRange.tokens] at h
  | succ fuel ih =>
    intro first ln ln' h j hj
    rw [ColorizeRange.tokens] at h
    split_ifs at h with h1
    · cases h; rfl
    · cases hf : ColorizeRange.findToken lang rules (buffer.drop first) with
      | none =>
        rw [hf] at h
        exact ih _ _ _ h j (by omega)
      | some r =>
        rw [hf] at h
        simp only at h
        split_ifs at h with h2
        rw [ih _ _ _ h j (by omega), paint_getElem?]
        rw [if_neg (by omega)]

/-- C27 (amended): in a case-sensitive grammar, a step of the token loop of `ColorizeRange`
at a scan position inside the buffer, at which the token found starts at the scan position,
has `len` bytes and is classified `Identifier`: when the loop completes, every cell of the
token carries the resolved tag.  If the cell at the scan position is not flagged as
preprocessor, the tag is `Keyword` when the token is in the keyword set, otherwise
`KnownIdentifier` when it is in the identifier table, otherwise `PreprocIdentifier` when it
is in the preprocessor-identifier table, otherwise `Identifier`; if the cell is flagged, the
tag is `PreprocIdentifier` when the token is in the preprocessor-identifier table and
`Identifier` otherwise. -/
theorem tokens_identifier_lookup (lang : LanguageDefinition)
    (rules : List ((List Nat → Option Nat) × PaletteIndex)) (buffer : List Nat)
    (fuel first len : Nat) (ln ln' : Line)
    (hcs : lang.mCaseSensitive = true) (hfirst : first < buffer.length)
    (hfind : ColorizeRange.findToken lang rules (buffer.drop first) =
      some (0, len, PaletteIndex.Identifier))
    (hrun : ColorizeRange.tokens lang rules buffer (fuel + 1) first ln = some ln') :
    ∀ j, first ≤ j → j < first + len →
      ln'[j]? = (ln[j]?).map (fun (g : Glyph) =>
        { g with
          mColorIndex :=
            if (ln.getD first default).mPreprocessor = false then
              if (buffer.drop first).take len ∈ lang.mKeywords then PaletteIndex.Keyword
              else if (buffer.drop first).take len ∈ lang.mIdentifiers then
                PaletteIndex.KnownIdentifier
              else if (buffer.drop first).take len ∈ lang.mPreprocIdentifiers then
                PaletteIndex.PreprocIdentifier
              else PaletteIndex.Identifier
            else if (buffer.drop first).take len ∈ lang.mPreprocIdentifiers then
              PaletteIndex.PreprocIdentifier
            else PaletteIndex.Identifier }) := by
  intro j hj1 hj2
  rw [ColorizeRange.tokens] at hrun
  rw [if_neg (by omega), hfind] at hrun
  simp only [Nat.add_zero, Nat.sub_zero] at hrun
  split_ifs at hrun with h2
  rw [tokens_frame _ _ _ _ _ _ _ hrun j hj2, paint_getElem?, if_pos ⟨hj1, hj2⟩,
    tokenColor_Identifier]
  simp only [hcs, if_true]

/-- Witness for C27: the line `sin` under the built-in GLSL definition; the token `sin` is
in the identifier table and not in the keyword set, and its cells are tagged
`KnownIdentifier`. -/
theorem tokens_identifier_lookup_witness :
    (LanguageDefinition.GLSL.mCaseSensitive = true ∧
      bytes "sin" ∉ LanguageDefinition.GLSL.mKeywords ∧
      bytes "sin" ∈ LanguageDefinition.GLSL.mIdentifiers) ∧
    ColorizeRange.tokens LanguageDefinition.GLSL
        (SetLanguageDefinition new LanguageDefinition.GLSL).mRegexList (bytes "sin") 4 0
        ([115, 105, 110].map (fun b => ({ mChar := b } : Glyph))) =
      some ([115, 105, 110].map
        (fun b => ({ mChar := b, mColorIndex := PaletteIndex.KnownIdentifier } : Glyph))) ∧
    ∀ j, 0 ≤ j → j < 0 + 3 →
      ([115, 105, 110].map
        (fun b => ({ mChar := b, mColorIndex := PaletteIndex.KnownIdentifier } : Glyph)))[j]? =
      (([115, 105, 110].map (fun b => ({ mChar := b } : Glyph)))[j]?).map (fun (g : Glyph) =>
        { g with
          mColorIndex :=
            if (([115, 105, 110].map (fun b => ({ mChar := b } : Glyph))).getD 0
                default).mPreprocessor = false then
              if ((bytes "sin").drop 0).take 3 ∈ LanguageDefinition.GLSL.mKeywords then
                PaletteIndex.Keyword
              else if ((bytes "sin").drop 0).take 3 ∈ LanguageDefinition.GLSL.mIdentifiers then
                PaletteIndex.KnownIdentifier
              else if ((bytes "sin").drop 0).take 3 ∈
                  LanguageDefinition.GLSL.mPreprocIdentifiers then
                PaletteIndex.PreprocIdentifier
              else PaletteIndex.Identifier
            else if ((bytes "sin").drop 0).take 3 ∈
                LanguageDefinition.GLSL.mPreprocIdentifiers then
              PaletteIndex.PreprocIdentifier
            else PaletteIndex.Identifier }) :=
  ⟨by decide, by decide,
    tokens_identifier_lookup LanguageDefinition.GLSL (SetLanguageDefinition new
      LanguageDefinition.GLSL).mRegexList (bytes "sin") 3 0 3
      ([115, 105, 110].map (fun b => ({ mChar := b } : Glyph)))
      ([115, 105, 110].map
        (fun b => ({ mChar := b, mColorIndex := PaletteIndex.KnownIdentifier } : Glyph)))
      rfl (by decide) (by decide) (by decide)⟩

/-- Counterexample for C27 as stated, on the line `sin` (no cell flagged as preprocessor) and
two case-insensitive grammars with the rules of GLSL.  With the identifier table `SIN` the
token `sin` is in no table and its cells are tagged `KnownIdentifier`: the key that is looked
up is the token in upper case.  With the tables of GLSL, which are in lower case, the token
`sin` is in the identifier table and not in the keyword set, and its cells are tagged
`Identifier`. -/
theorem ColorizeRange_identifier_folded :
    (example_upper_table.mCaseSensitive = false ∧
      bytes "sin" ∉ example_upper_table.mKeywords ∧
      bytes "sin" ∉ example_upper_table.mIdentifiers ∧
      bytes "sin" ∉ example_upper_table.mPreprocIdentifiers ∧
      (ColorizeRange (SetText (SetLanguageDefinition new example_upper_table) (bytes "sin"))
          0 1).map tags =
        some [[(115, PaletteIndex.KnownIdentifier, false),
          (105, PaletteIndex.KnownIdentifier, false),
          (110, PaletteIndex.KnownIdentifier, false)]]) ∧
    (example_insensitive.mCaseSensitive = false ∧
      bytes "sin" ∉ example_insensitive.mKeywords ∧
      bytes "sin" ∈ example_insensitive.mIdentifiers ∧
      (ColorizeRange (SetText (SetLanguageDefinition new example_insensitive) (bytes "sin"))
          0 1).map tags =
        some [[(115, PaletteIndex.Identifier, false), (105, PaletteIndex.Identifier, false),
          (110, PaletteIndex.Identifier, false)]]) :=
  ⟨by decide, by decide⟩

/-- C28, evaluated: in the case-insensitive grammar with the rules of GLSL and the keyword
set `if`, `ColorizeRange` tags the cells of the token `if` and of the token `IF`
`Identifier`, not `Keyword`: the key that is looked up is `IF`, which is not in the set. -/
theorem ColorizeRange_keyword_upper_case :
    (example_keyword_if.mCaseSensitive = false ∧
      example_keyword_if.mKeywords = [bytes "if"] ∧
      (bytes "if").map toupper = bytes "IF" ∧ (bytes "IF").map toupper = bytes "IF") ∧
    (ColorizeRange (SetText (SetLanguageDefinition new example_keyword_if) (bytes "if"))
        0 1).map tags =
      some [[(105, PaletteIndex.Identifier, false), (102, PaletteIndex.Identifier, false)]] ∧
    (ColorizeRange (SetText (SetLanguageDefinition new example_keyword_if) (bytes "IF"))
        0 1).map tags =
      some [[(73, PaletteIndex.Identifier, false), (70, PaletteIndex.Identifier, false)]] := by
  decide

/-! ## The pending colour window after `Colorize` -/

theorem setCell_colors {ln ln' : Line} {i : Nat} {f : Glyph → Glyph}
    (h : ColorizeInternal.setCell ln i f = some ln')
    (hf : ∀ g, (f g).mColorIndex = g.mColorIndex ∧ (f g).mChar = g.mChar) :
    ln'.map (fun (g : Glyph) => (g.mChar, g.mColorIndex)) =
      ln.map (fun (g : Glyph) => (g.mChar, g.mColorIndex)) := by
  unfold ColorizeInternal.setCell at h
  cases hg : ln[i]? with
  | none => rw [hg] at h; cases h
  | some g =>
    rw [hg] at h
    simp only [Option.some.injEq] at h
    subst h
    rw [List.map_set]
    apply set_of_getElem?
    rw [List.getElem?_map, hg]
    simp [(hf g).1, (hf g).2]

theorem inString_colors {s s' : ColorizeInternal.Scan} {ln ln' : Line} {c : Nat}
    (h : ColorizeInternal.inString s ln c = some (ln', s')) :
    ln'.map (fun (g : Glyph) => (g.mChar, g.mColorIndex)) =
      ln.map (fun (g : Glyph) => (g.mChar, g.mColorIndex)) ∧ s'.lines = s.lines ∧
      s'.currentLine = s.currentLine := by
  unfold ColorizeInternal.inString at h
  cases h1 : ColorizeInternal.setCell ln s.currentIndex
      (fun g => { g with mMultiLineComment := ColorizeInternal.inComment s }) with
  | none => rw [h1] at h; cases h
  | some ln1 =>
    have e1 := setCell_colors h1 (fun g => ⟨rfl, rfl⟩)
    rw [h1] at h
    simp only at h
    split_ifs at h
    · cases h2 : ColorizeInternal.setCell ln1 (s.currentIndex + 1)
          (fun g => { g with mMultiLineComment := ColorizeInternal.inComment s }) with
      | none => rw [h2] at h; cases h
      | some ln2 =>
        rw [h2] at h
        simp only [Option.some.injEq, Prod.mk.injEq] at h
        obtain ⟨rfl, rfl⟩ := h
        exact ⟨(setCell_colors h2 (fun g => ⟨rfl, rfl⟩)).trans e1, rfl, rfl⟩
    · simp only [Option.some.injEq, Prod.mk.injEq] at h
      obtain ⟨rfl, rfl⟩ := h
      exact ⟨e1, rfl, rfl⟩
    · cases h2 : ColorizeInternal.setCell ln1 (s.currentIndex + 1)
          (fun g => { g with mMultiLineComment := ColorizeInternal.inComment s }) with
      | none => rw [h2] at h; cases h
      | some ln2 =>
        rw [h2] at h
        simp only [Option.some.injEq, Prod.mk.injEq] at h
        obtain ⟨rfl, rfl⟩ := h
        exact ⟨(setCell_colors h2 (fun g => ⟨rfl, rfl⟩)).trans e1, rfl, rfl⟩
    · simp only [Option.some.injEq, Prod.mk.injEq] at h
      obtain ⟨rfl, rfl⟩ := h
      exact ⟨e1, rfl, rfl⟩
    · simp only [Option.some.injEq, Prod.mk.injEq] at h
      obtain ⟨rfl, rfl⟩ := h
      exact ⟨e1, rfl, rfl⟩

theorem markers_lines (lang : LanguageDefinition) (s : ColorizeInternal.Scan) (ln : Line) :
    (ColorizeInternal.markers lang s ln).lines = s.lines ∧
      (ColorizeInternal.markers lang s ln).currentLine = s.currentLine := by
  unfold ColorizeInternal.markers
  split_ifs <;> exact ⟨rfl, rfl⟩

theorem outsideString_colors {lang : LanguageDefinition} {endLine : Nat}
    {s s' : ColorizeInternal.Scan} {ln ln' : Line} {c : Nat}
    (h : ColorizeInternal.outsideString lang endLine s ln c = some (ln', s')) :
    ln'.map (fun (g : Glyph) => (g.mChar, g.mColorIndex)) =
      ln.map (fun (g : Glyph) => (g.mChar, g.mColorIndex)) ∧ s'.lines = s.lines ∧
      s'.currentLine = s.currentLine := by
  unfold ColorizeInternal.outsideString at h
  simp only at h
  generalize hs1 : (if s.firstChar = true ∧ c = lang.mPreprocChar then
    ({ s with withinPreproc := true } : ColorizeInternal.Scan) else s) = s1 at h
  have h1l : s1.lines = s.lines ∧ s1.currentLine = s.currentLine := by
    rw [← hs1]; split_ifs <;> exact ⟨rfl, rfl⟩
  have hm := markers_lines lang s1 ln
  generalize ColorizeInternal.markers lang s1 ln = s2 at h hm
  by_cases hq : c = 34
  · simp only [hq, if_true] at h
    cases h1 : ColorizeInternal.setCell ln s.currentIndex
        (fun g => { g with mMultiLineComment := ColorizeInternal.inComment s }) with
    | none => rw [h1] at h; cases h
    | some ln1 =>
      rw [h1] at h
      simp only [Option.some.injEq, Prod.mk.injEq] at h
      obtain ⟨rfl, rfl⟩ := h
      exact ⟨setCell_colors h1 (fun g => ⟨rfl, rfl⟩), h1l.1, h1l.2⟩
  · simp only [hq, if_false] at h
    cases h1 : ColorizeInternal.setCell ln s.currentIndex
        (fun g => { g with mMultiLineComment := ColorizeInternal.inComment s2,
                           mComment := s2.withinSingleLineComment }) with
    | none => rw [h1] at h; cases h
    | some ln1 =>
      rw [h1] at h
      simp only at h
      have hc := setCell_colors h1 (fun g => ⟨rfl, rfl⟩)
      split_ifs at h
      · simp only [Option.some.injEq, Prod.mk.injEq] at h
        obtain ⟨rfl, rfl⟩ := h
        exact ⟨hc, hm.1.trans h1l.1, hm.2.trans h1l.2⟩
      · simp only [Option.some.injEq, Prod.mk.injEq] at h
        obtain ⟨rfl, rfl⟩ := h
        exact ⟨hc, hm.1.trans h1l.1, hm.2.trans h1l.2⟩

theorem startLine_fields (s : ColorizeInternal.Scan) :
    (ColorizeInternal.startLine s).lines = s.lines ∧
      (ColorizeInternal.startLine s).currentLine = s.currentLine := by
  unfold ColorizeInternal.startLine
  split_ifs <;> exact ⟨rfl, rfl⟩

theorem readCell_fields (lang : LanguageDefinition) (s : ColorizeInternal.Scan) (ln : Line)
    (c : Nat) :
    (ColorizeInternal.readCell lang s ln c).lines = s.lines ∧
      (ColorizeInternal.readCell lang s ln c).currentLine = s.currentLine := by
  unfold ColorizeInternal.readCell
  split_ifs <;> exact ⟨rfl, rfl⟩

theorem advance_lines {s s' : ColorizeInternal.Scan} {ln : Line} {c : Nat}
    (h : ColorizeInternal.advance s ln c = some s') :
    ∃ ln2, s'.lines = s.lines.set s.currentLine ln2 ∧
      ln2.map (fun (g : Glyph) => (g.mChar, g.mColorIndex)) =
        ln.map (fun (g : Glyph) => (g.mChar, g.mColorIndex)) := by
  unfold ColorizeInternal.advance at h
  cases h1 : ColorizeInternal.setCell ln s.currentIndex
      (fun h => { h with mPreprocessor := s.withinPreproc }) with
  | none => rw [h1] at h; cases h
  | some ln2 =>
    rw [h1] at h
    simp only at h
    have hc := setCell_colors h1 (fun g => ⟨rfl, rfl⟩)
    split_ifs at h
    · simp only [Option.some.injEq] at h
      subst h
      exact ⟨ln2, rfl, hc⟩
    · simp only [Option.some.injEq] at h
      subst h
      exact ⟨ln2, rfl, hc⟩

/-- One step of the flag scan leaves the characters and colour tags of every cell. -/
theorem step_colors {lang : LanguageDefinition} {s s' : ColorizeInternal.Scan}
    (h : ColorizeInternal.step lang s = some s') :
    s'.lines.map (fun l => l.map (fun (g : Glyph) => (g.mChar, g.mColorIndex))) =
      s.lines.map (fun l => l.map (fun (g : Glyph) => (g.mChar, g.mColorIndex))) := by
  unfold ColorizeInternal.step at h
  cases hln : s.lines[s.currentLine]? with
  | none => rw [hln] at h; cases h
  | some ln =>
    rw [hln] at h
    simp only at h
    by_cases hemp : ln.isEmpty = true
    · simp only [hemp, if_true, Option.some.injEq] at h
      subst h
      rw [(startLine_fields s).1]
    · simp only [hemp, Bool.false_eq_true, if_false] at h
      cases hg : ln[s.currentIndex]? with
      | none => rw [hg] at h; cases h
      | some g =>
        rw [hg] at h
        simp only at h
        have hr := readCell_fields lang (ColorizeInternal.startLine s) ln g.mChar
        have hs := startLine_fields s
        generalize ColorizeInternal.readCell lang (ColorizeInternal.startLine s) ln g.mChar = s3
          at h hr
        have key : ∀ ln1 s1, (ln1.map (fun (g : Glyph) => (g.mChar, g.mColorIndex)) =
            ln.map (fun (g : Glyph) => (g.mChar, g.mColorIndex)) ∧ s1.lines = s3.lines ∧
            s1.currentLine = s3.currentLine) →
            ColorizeInternal.advance s1 ln1 g.mChar = some s' →
            s'.lines.map (fun l => l.map (fun (g : Glyph) => (g.mChar, g.mColorIndex))) =
              s.lines.map (fun l => l.map (fun (g : Glyph) => (g.mChar, g.mColorIndex))) := by
          intro ln1 s1 ⟨hc, hl, hcl⟩ hadv
          obtain ⟨ln2, hl2, hc2⟩ := advance_lines hadv
          rw [hl2, hl, hr.1, hs.1, hcl, hr.2, hs.2, List.map_set]
          apply set_of_getElem?
          rw [List.getElem?_map, hln]
          simp only [Option.map_some', hc2, hc]
        by_cases hw : s.withinString = true
        · simp only [hw, if_true] at h
          cases hb : ColorizeInternal.inString s3 ln g.mChar with
          | none => rw [hb] at h; cases h
          | some r =>
            obtain ⟨ln1, s1⟩ := r
            rw [hb] at h
            exact key ln1 s1 (inString_colors hb) h
        · simp only [hw, Bool.false_eq_true, if_false] at h
          cases hb : ColorizeInternal.outsideString lang s.lines.length s3 ln g.mChar with
          | none => rw [hb] at h; cases h
          | some r =>
            obtain ⟨ln1, s1⟩ := r
            rw [hb] at h
            exact key ln1 s1 (outsideString_colors hb) h

/-- The flag scan leaves the characters and colour tags of every cell. -/
theorem scanLoop_colors (lang : LanguageDefinition) :
    ∀ (fuel : Nat) (s : ColorizeInternal.Scan) (ls : Lines),
      ColorizeInternal.scanLoop lang fuel s = some ls →
      ls.map (fun l => l.map (fun (g : Glyph) => (g.mChar, g.mColorIndex))) =
        s.lines.map (fun l => l.map (fun (g : Glyph) => (g.mChar, g.mColorIndex))) := by
  intro fuel
  induction fuel with
  | zero => intro s ls h; cases h
  | succ fuel ih =>
    intro s ls h
    unfold ColorizeInternal.scanLoop at h
    split_ifs at h
    · cases hs : ColorizeInternal.step lang s with
      | none => rw [hs] at h; cases h
      | some s1 =>
        rw [hs] at h
        exact (ih s1 ls h).trans (step_colors hs)
    · simp only [Option.some.injEq] at h
      rw [h]

/-- The flag scan of `ColorizeInternal` changes the flags of the cells and `mCheckComments`
only. -/
theorem scan_facts {e eA : TextEditor} (h : ColorizeInternal.scan e = some eA) :
    eA.mLines.map (fun l => l.map (fun (g : Glyph) => (g.mChar, g.mColorIndex))) =
      e.mLines.map (fun l => l.map (fun (g : Glyph) => (g.mChar, g.mColorIndex))) ∧
    eA.mColorRangeMin = e.mColorRangeMin ∧ eA.mColorRangeMax = e.mColorRangeMax ∧
    eA.mLanguageDefinition = e.mLanguageDefinition ∧ eA.mRegexList = e.mRegexList ∧
    eA.mColorizerEnabled = e.mColorizerEnabled ∧
    (e.mCheckComments = false → eA = e) ∧ eA.mCheckComments = false := by
  unfold ColorizeInternal.scan at h
  by_cases hc : e.mCheckComments = true
  · simp only [hc, if_true] at h
    cases hl : ColorizeInternal.scanLoop e.mLanguageDefinition
        ((e.mLines.map (fun l => l.length + 1)).sum + 1)
        { lines := e.mLines, commentStartLine := e.mLines.length, commentStartIndex := 0 } with
    | none => rw [hl] at h; cases h
    | some lines =>
      rw [hl] at h
      simp only [Option.some.injEq] at h
      subst h
      refine ⟨scanLoop_colors _ _ _ _ hl, rfl, rfl, rfl, rfl, rfl, ?_, rfl⟩
      intro hf; rw [hf] at hc; cases hc
  · simp only [hc, if_false, Option.some.injEq, Bool.false_eq_true] at h
    subst h
    refine ⟨rfl, rfl, rfl, rfl, rfl, rfl, fun _ => rfl, ?_⟩
    simpa using hc

/-! ## The token pass completes when the tokens lie inside the buffer -/

theorem searchRules_inside (rules : List ((List Nat → Option Nat) × PaletteIndex))
    (h : ∀ p ∈ rules, ∀ s n, p.1 s = some n → 0 < n ∧ n ≤ s.length) (rest : List Nat)
    (r : Nat × Nat × PaletteIndex) (hr : ColorizeRange.searchRules rules rest = some r) :
    r.1 = 0 ∧ 0 < r.2.1 ∧ r.2.1 ≤ rest.length := by
  induction rules with
  | nil => cases hr
  | cons p ps ih =>
    unfold ColorizeRange.searchRules at hr
    cases hp : p.1 rest with
    | none =>
      rw [hp] at hr
      exact ih (fun q hq => h q (List.mem_cons_of_mem _ hq)) hr
    | some len =>
      rw [hp] at hr
      simp only [Option.some.injEq] at hr
      subst hr
      have := h p (List.mem_cons_self _ _) rest len hp
      exact ⟨rfl, this.1, this.2⟩

theorem findToken_inside {lang : LanguageDefinition}
    {rules : List ((List Nat → Option Nat) × PaletteIndex)} (h : TokensInside lang rules)
    (rest : List Nat) (r : Nat × Nat × PaletteIndex)
    (hr : ColorizeRange.findToken lang rules rest = some r) :
    r.1 ≤ r.2.1 ∧ 0 < r.2.1 ∧ r.2.1 ≤ rest.length := by
  unfold ColorizeRange.findToken at hr
  cases hf : lang.mTokenize with
  | none =>
    rw [hf] at hr
    have := searchRules_inside rules h.2 rest r hr
    exact ⟨by omega, this.2.1, this.2.2⟩
  | some f =>
    rw [hf] at hr
    simp only at hr
    cases hfr : f rest with
    | none =>
      rw [hfr] at hr
      have := searchRules_inside rules h.2 rest r hr
      exact ⟨by omega, this.2.1, this.2.2⟩
    | some r' =>
      rw [hfr] at hr
      simp only [Option.some.injEq] at hr
      subst hr
      exact h.1 f hf rest r' hfr

/-- The token loop completes: every step moves the scan position forward, and the fuel
covers the rest of the buffer. -/
theorem tokens_total {lang : LanguageDefinition}
    {rules : List ((List Nat → Option Nat) × PaletteIndex)} (h : TokensInside lang rules)
    (buffer : List Nat) :
    ∀ (fuel first : Nat) (ln : Line), first ≤ buffer.length → buffer.length - first < fuel →
      ∃ ln', ColorizeRange.tokens lang rules buffer fuel first ln = some ln' := by
  intro fuel
  induction fuel with
  | zero => intro first ln _ hf; omega
  | succ fuel ih =>
    intro first ln hle hf
    unfold ColorizeRange.tokens
    by_cases heq : first = buffer.length
    · simp only [heq, if_true]
      exact ⟨ln, rfl⟩
    · simp only [heq, if_false]
      cases hr : ColorizeRange.findToken lang rules (buffer.drop first) with
      | none => exact ih (first + 1) ln (by omega) (by omega)
      | some r =>
        have hin := findToken_inside h _ r hr
        rw [List.length_drop] at hin
        have hc : ¬ (r.2.1 < r.1 ∨ buffer.length < first + r.2.1 ∨ r.2.1 = 0) := by omega
        simp only [hc, if_false]
        exact ih _ _ (by omega) (by omega)

theorem line_total {lang : LanguageDefinition}
    {rules : List ((List Nat → Option Nat) × PaletteIndex)} (h : TokensInside lang rules)
    (ln : Line) : ∃ ln', ColorizeRange.line lang rules ln = some ln' := by
  unfold ColorizeRange.line
  split_ifs
  · exact ⟨ln, rfl⟩
  · exact tokens_total h _ _ _ _ (Nat.zero_le _) (by simp)

/-- The line loop of `ColorizeRange`: the lines of the range are replaced by their token
pass, every other line is left, and the loop completes when every line of the range is in
the buffer and the token pass completes on every line. -/
theorem lines_spec (lang : LanguageDefinition)
    (rules : List ((List Nat → Option Nat) × PaletteIndex))
    (htot : ∀ ln, ∃ ln', ColorizeRange.line lang rules ln = some ln') :
    ∀ (n i : Nat) (L : Lines), i + n ≤ L.length →
      ∃ L', ColorizeRange.lines lang rules n i L = some L' ∧ L'.length = L.length ∧
        (∀ k, k < i ∨ i + n ≤ k → L'[k]? = L[k]?) ∧
        (∀ k ln, i ≤ k → k < i + n → L[k]? = some ln →
          ∃ ln', ColorizeRange.line lang rules ln = some ln' ∧ L'[k]? = some ln') := by
  intro n
  induction n with
  | zero =>
    intro i L _
    refine ⟨L, rfl, rfl, fun _ _ => rfl, ?_⟩
    intro k ln h1 h2
    omega
  | succ n ih =>
    intro i L hle
    have hi : i < L.length := by omega
    obtain ⟨ln', hln'⟩ := htot L[i]
    obtain ⟨L', hL', hlen, hout, hin⟩ := ih (i + 1) (L.set i ln') (by simp; omega)
    refine ⟨L', ?_, ?_, ?_, ?_⟩
    · unfold ColorizeRange.lines
      simp only [List.getElem?_eq_getElem hi, hln']
      exact hL'
    · rw [hlen]; simp
    · intro k hk
      rw [hout k (by omega), List.getElem?_set_ne (by omega)]
    · intro k ln h1 h2 hk
      by_cases hki : k = i
      · subst hki
        rw [List.getElem?_eq_getElem hi] at hk
        simp only [Option.some.injEq] at hk
        subst hk
        refine ⟨ln', hln', ?_⟩
        rw [hout k (by omega)]
        exact List.getElem?_set_self hi
      · apply hin k ln (by omega) (by omega)
        rw [List.getElem?_set_ne (by omega)]
        exact hk

/-- `ColorizeRange(aFromLine, aToLine)` with `0 ≤ aFromLine` and tokens that lie inside the
buffer completes; it replaces the lines of the range by their token pass and leaves every
other line and every other field of the editor. -/
theorem ColorizeRange_spec (e : TextEditor) (a b : Int) (ha : 0 ≤ a)
    (h : TokensInside e.mLanguageDefinition e.mRegexList) :
    ∃ L', ColorizeRange e a b = some { e with mLines := L' } ∧ L'.length = e.mLines.length ∧
      (∀ k : Nat, (k : Int) < a ∨ b ≤ (k : Int) → L'[k]? = e.mLines[k]?) ∧
      (∀ (k : Nat) (ln : Line), a ≤ (k : Int) → (k : Int) < b → e.mLines[k]? = some ln →
        ∃ ln', ColorizeRange.line e.mLanguageDefinition e.mRegexList ln = some ln' ∧
          L'[k]? = some ln') := by
  unfold ColorizeRange
  by_cases h1 : e.mLines.isEmpty = true ∨ a ≥ b
  · simp only [h1, if_true]
    refine ⟨e.mLines, rfl, rfl, fun _ _ => rfl, ?_⟩
    intro k ln hk1 hk2 hk
    rcases h1 with h1 | h1
    · rw [List.isEmpty_iff] at h1
      rw [h1] at hk
      simp at hk
    · omega
  · simp only [h1, if_false]
    by_cases h2 : a ≥ max 0 (min (e.mLines.length : Int) b)
    · simp only [h2, if_true]
      refine ⟨e.mLines, rfl, rfl, fun _ _ => rfl, ?_⟩
      intro k ln hk1 hk2 hk
      have hlt : k < e.mLines.length := by
        by_contra hc
        rw [List.getElem?_eq_none (Nat.le_of_not_lt hc)] at hk
        cases hk
      omega
    · have h3 : ¬ a < 0 := by omega
      simp only [h2, if_false, h3]
      obtain ⟨L', hL', hlen, hout, hin⟩ := lines_spec e.mLanguageDefinition e.mRegexList
        (fun ln => line_total h ln)
        (max 0 (min (e.mLines.length : Int) b) - a).toNat a.toNat e.mLines (by omega)
      rw [hL']
      refine ⟨L', rfl, hlen, ?_, ?_⟩
      · intro k hk
        by_cases hkl : k < e.mLines.length
        · exact hout k (by omega)
        · rw [List.getElem?_eq_none (by omega), List.getElem?_eq_none (by omega)]
      · intro k ln hk1 hk2 hk
        have hlt : k < e.mLines.length := by
          by_contra hc
          rw [List.getElem?_eq_none (Nat.le_of_not_lt hc)] at hk
          cases hk
        exact hin k ln (by omega) (by omega) hk

/-! ## The rules of a grammar whose expressions match no empty string -/

theorem starEnds_length (f : List Nat → List (List Nat)) :
    ∀ (fuel : Nat) (s r : List Nat), r ∈ Regex.starEnds f fuel s → r.length ≤ s.length := by
  intro fuel
  induction fuel with
  | zero =>
    intro s r hr
    simp only [Regex.starEnds, List.mem_singleton] at hr
    rw [hr]
  | succ fuel ih =>
    intro s r hr
    simp only [Regex.starEnds, List.mem_append, List.mem_flatMap, List.mem_filter,
      decide_eq_true_eq, List.mem_singleton] at hr
    rcases hr with ⟨r1, ⟨_, h1⟩, h2⟩ | hr
    · have := ih r1 r h2
      omega
    · rw [hr]

/-- A match of an expression ends inside the text, and behind its start when the expression
matches no empty string. -/
theorem ends_length : ∀ (re : Regex) (s r : List Nat), r ∈ re.ends s →
    r.length ≤ s.length ∧ (re.nullable = false → r.length < s.length) := by
  intro re
  induction re with
  | empty =>
    intro s r hr
    simp only [Regex.ends, List.mem_singleton] at hr
    subst hr
    exact ⟨Nat.le_refl _, fun h => by simp [Regex.nullable] at h⟩
  | set negated ranges =>
    intro s r hr
    cases s with
    | nil => simp [Regex.ends] at hr
    | cons c rest =>
      simp only [Regex.ends] at hr
      split_ifs at hr
      · simp only [List.mem_singleton] at hr
        subst hr
        simp
      · simp at hr
  | seq a b iha ihb =>
    intro s r hr
    simp only [Regex.ends, List.mem_flatMap] at hr
    obtain ⟨r1, h1, h2⟩ := hr
    have ha := iha s r1 h1
    have hb := ihb r1 r h2
    refine ⟨by omega, ?_⟩
    intro hn
    simp only [Regex.nullable, Bool.and_eq_false_iff] at hn
    rcases hn with hn | hn
    · have := ha.2 hn; omega
    · have := hb.2 hn; omega
  | alt a b iha ihb =>
    intro s r hr
    simp only [Regex.ends, List.mem_append] at hr
    simp only [Regex.nullable, Bool.or_eq_false_iff]
    rcases hr with hr | hr
    · exact ⟨(iha s r hr).1, fun hn => (iha s r hr).2 hn.1⟩
    · exact ⟨(ihb s r hr).1, fun hn => (ihb s r hr).2 hn.2⟩
  | star a _ =>
    intro s r hr
    simp only [Regex.ends] at hr
    exact ⟨starEnds_length _ _ _ _ hr, fun h => by simp [Regex.nullable] at h⟩

theorem search_inside (re : Regex) (hn : re.nullable = false) (s : List Nat) (n : Nat)
    (h : Regex.search re s = some n) : 0 < n ∧ n ≤ s.length := by
  unfold Regex.search at h
  cases hh : (re.ends s).head? with
  | none => rw [hh] at h; cases h
  | some rest =>
    rw [hh] at h
    simp only [Option.map_some', Option.some.injEq] at h
    have hm : rest ∈ re.ends s := List.mem_of_mem_head? hh
    have := (ends_length re s rest hm).2 hn
    omega

/-- A grammar without tokenize callback whose expressions match no empty string reports
tokens inside the buffer only. -/
theorem TokensInside_of_regex (lang : LanguageDefinition) (res : List (Regex × PaletteIndex))
    (hcb : lang.mTokenize = none) (hnn : ∀ r ∈ res, r.1.nullable = false) :
    TokensInside lang (res.map (fun r => (Regex.search r.1, r.2))) := by
  constructor
  · intro f hf
    rw [hcb] at hf
    cases hf
  · intro p hp s n hs
    simp only [List.mem_map] at hp
    obtain ⟨r, hr, rfl⟩ := hp
    exact search_inside r.1 (hnn r hr) s n hs

theorem TokensInside_GLSL :
    TokensInside LanguageDefinition.GLSL
      (LanguageDefinition.GLSL.mTokenRegexStrings.map (fun r => (Regex.search r.1, r.2))) :=
  TokensInside_of_regex _ _ rfl (by decide)

/-! ## One call of `ColorizeInternal` and the calls that empty the window -/

theorem scan_of_checked {e : TextEditor} (h : e.mCheckComments = false) :
    ColorizeInternal.scan e = some e := by
  unfold ColorizeInternal.scan
  simp [h]

/-- One call of `ColorizeInternal` with the colorizer enabled, a completed flag scan and a
pending window: the token pass runs on the lines of the chunk of the scanned buffer, every
other line of the scanned buffer is left, and the window moves to the end of the chunk or is
reset. -/
theorem ColorizeInternal_call (e eA : TextEditor) (hen : e.mColorizerEnabled = true)
    (hne : e.mLines ≠ []) (hscan : ColorizeInternal.scan e = some eA)
    (hmin : 0 ≤ e.mColorRangeMin) (hwin : e.mColorRangeMin < e.mColorRangeMax)
    (hin : TokensInside e.mLanguageDefinition e.mRegexList) :
    ∃ e', ColorizeInternal e = some e' ∧ e'.mLines.length = e.mLines.length ∧
      (e'.mColorizerEnabled = true ∧ e'.mCheckComments = false ∧
        e'.mLanguageDefinition = e.mLanguageDefinition ∧ e'.mRegexList = e.mRegexList) ∧
      (∀ (k : Nat) (ln : Line), e.mColorRangeMin ≤ (k : Int) →
        (k : Int) < ColorizeInternal.chunkEnd e → eA.mLines[k]? = some ln →
        ∃ ln', ColorizeRange.line e.mLanguageDefinition e.mRegexList ln = some ln' ∧
          e'.mLines[k]? = some ln') ∧
      (∀ k : Nat, (k : Int) < e.mColorRangeMin ∨ ColorizeInternal.chunkEnd e ≤ (k : Int) →
        e'.mLines[k]? = eA.mLines[k]?) ∧
      (if ColorizeInternal.chunkEnd e = e.mColorRangeMax then
        e'.mColorRangeMin = 2147483647 ∧ e'.mColorRangeMax = 0
       else e'.mColorRangeMin = ColorizeInternal.chunkEnd e ∧
        e'.mColorRangeMax = e.mColorRangeMax) := by
  obtain ⟨hcol, hmn, hmx, hlang, hrules, henA, _, hchk⟩ := scan_facts hscan
  have hlen : eA.mLines.length = e.mLines.length := by
    have := congrArg List.length hcol
    simpa using this
  have hce : ColorizeInternal.chunkEnd eA = ColorizeInternal.chunkEnd e := by
    unfold ColorizeInternal.chunkEnd
    rw [hmn, hmx, hlang]
  have hemp : e.mLines.isEmpty = false := by
    cases hl : e.mLines with
    | nil => exact absurd hl hne
    | cons a l => rfl
  obtain ⟨L', hL', hlen', hout, hins⟩ := ColorizeRange_spec eA eA.mColorRangeMin
    (ColorizeInternal.chunkEnd eA) (by omega) (by rw [hlang, hrules]; exact hin)
  unfold ColorizeInternal
  simp only [hemp, hen, Bool.false_eq_true, not_true_eq_false, or_self, if_false, hscan]
  have hw : eA.mColorRangeMin < eA.mColorRangeMax := by omega
  simp only [hw, if_true, hL']
  by_cases hend : ColorizeInternal.chunkEnd e = e.mColorRangeMax
  · have h1 : eA.mColorRangeMax = ColorizeInternal.chunkEnd eA := by omega
    simp only [h1, if_true, hend]
    refine ⟨_, rfl, by simp only [hlen', hlen], ⟨henA.trans hen, hchk, hlang, hrules⟩,
      ?_, ?_, ⟨rfl, rfl⟩⟩
    · intro k ln hk1 hk2 hk
      obtain ⟨ln', h1', h2'⟩ := hins k ln (by omega) (by omega) hk
      exact ⟨ln', by rw [← hlang, ← hrules]; exact h1', h2'⟩
    · intro k hk
      exact hout k (by omega)
  · have h1 : ¬ eA.mColorRangeMax = ColorizeInternal.chunkEnd eA := by omega
    simp only [h1, if_false, hend]
    refine ⟨_, rfl, by simp only [hlen', hlen], ⟨henA.trans hen, hchk, hlang, hrules⟩,
      ?_, ?_, ⟨hce, hmx⟩⟩
    · intro k ln hk1 hk2 hk
      obtain ⟨ln', h1', h2'⟩ := hins k ln (by omega) (by omega) hk
      exact ⟨ln', by rw [← hlang, ← hrules]; exact h1', h2'⟩
    · intro k hk
      exact hout k (by omega)

theorem increment_pos (lang : LanguageDefinition) : 0 < ColorizeInternal.increment lang := by
  unfold ColorizeInternal.increment
  split_ifs <;> omega

/-- Repeated calls of `ColorizeInternal` on a pending window: as long as `n` chunks do not
cover the window, `n` calls leave the window from `mColorRangeMin + n * increment` on, and
the call that covers the rest resets the window. -/
theorem calls_window : ∀ (n : Nat) (e eA : TextEditor), e.mColorizerEnabled = true →
    e.mLines ≠ [] → ColorizeInternal.scan e = some eA → 0 ≤ e.mColorRangeMin →
    TokensInside e.mLanguageDefinition e.mRegexList →
    e.mColorRangeMin + ((n * ColorizeInternal.increment e.mLanguageDefinition : Nat) : Int) <
      e.mColorRangeMax →
    (∃ e', ColorizeInternal.calls n e = some e' ∧
      e'.mColorRangeMin = e.mColorRangeMin +
        ((n * ColorizeInternal.increment e.mLanguageDefinition : Nat) : Int) ∧
      e'.mColorRangeMax = e.mColorRangeMax) ∧
    (e.mColorRangeMax ≤ e.mColorRangeMin +
        (((n + 1) * ColorizeInternal.increment e.mLanguageDefinition : Nat) : Int) →
      ∃ e', ColorizeInternal.calls (n + 1) e = some e' ∧ e'.mColorRangeMin = 2147483647 ∧
        e'.mColorRangeMax = 0) := by
  intro n
  induction n with
  | zero =>
    intro e eA hen hne hscan hmin hin hlt
    simp only [Nat.zero_mul, Nat.cast_zero, Int.add_zero] at hlt
    refine ⟨⟨e, rfl, by simp, rfl⟩, ?_⟩
    intro hle
    obtain ⟨e', hcall, _, _, _, _, hw⟩ := ColorizeInternal_call e eA hen hne hscan hmin hlt hin
    have hend : ColorizeInternal.chunkEnd e = e.mColorRangeMax := by
      unfold ColorizeInternal.chunkEnd
      simp only [Nat.zero_add, Nat.one_mul] at hle
      omega
    rw [if_pos hend] at hw
    refine ⟨e', ?_, hw.1, hw.2⟩
    unfold ColorizeInternal.calls
    rw [hcall]
    rfl
  | succ n ih =>
    intro e eA hen hne hscan hmin hin hlt
    have hpos := increment_pos e.mLanguageDefinition
    have hmul : (((n + 1) * ColorizeInternal.increment e.mLanguageDefinition : Nat) : Int) =
        ((n * ColorizeInternal.increment e.mLanguageDefinition : Nat) : Int) +
          (ColorizeInternal.increment e.mLanguageDefinition : Nat) := by
      push_cast; ring
    have hmul2 : (((n + 1 + 1) * ColorizeInternal.increment e.mLanguageDefinition : Nat) : Int) =
        (((n + 1) * ColorizeInternal.increment e.mLanguageDefinition : Nat) : Int) +
          (ColorizeInternal.increment e.mLanguageDefinition : Nat) := by
      push_cast; ring
    have hnn : (0 : Int) ≤ ((n * ColorizeInternal.increment e.mLanguageDefinition : Nat) : Int) :=
      Int.ofNat_nonneg _
    have hwin : e.mColorRangeMin < e.mColorRangeMax := by omega
    obtain ⟨e1, hcall, hlen, ⟨hen1, hchk1, hlang1, hrules1⟩, _, _, hw⟩ :=
      ColorizeInternal_call e eA hen hne hscan hmin hwin hin
    have hend : ¬ ColorizeInternal.chunkEnd e = e.mColorRangeMax := by
      unfold ColorizeInternal.chunkEnd
      omega
    rw [if_neg hend] at hw
    have hce : ColorizeInternal.chunkEnd e = e.mColorRangeMin +
        (ColorizeInternal.increment e.mLanguageDefinition : Nat) := by
      unfold ColorizeInternal.chunkEnd
      omega
    have hne1 : e1.mLines ≠ [] := by
      intro h
      rw [h] at hlen
      exact hne (List.length_eq_zero.mp hlen.symm)
    have h1 := ih e1 e1 hen1 hne1 (scan_of_checked hchk1) (by omega)
      (by rw [hlang1, hrules1]; exact hin) (by rw [hlang1, hw.1, hw.2, hce]; omega)
    rw [hlang1, hw.1, hw.2, hce] at h1
    obtain ⟨⟨e2, hc2, hmin2, hmax2⟩, hfin⟩ := h1
    constructor
    · refine ⟨e2, ?_, by rw [hmin2]; omega, hmax2⟩
      unfold ColorizeInternal.calls
      rw [hcall]
      exact hc2
    · intro hle
      obtain ⟨e3, hc3, hmin3, hmax3⟩ := hfin (by omega)
      refine ⟨e3, ?_, hmin3, hmax3⟩
      conv => lhs; unfold ColorizeInternal.calls
      rw [hcall]
      exact hc3

/-- Supporting result for C30: with the colorizer enabled, a non-empty buffer, a flag scan
that completes (giving
the buffer `eA`, or the buffer itself when no scan is due), tokens that lie inside the
buffer, and a pending window `0 ≤ mColorRangeMin < mColorRangeMax`, one call of
`ColorizeInternal` completes; it replaces the lines from `mColorRangeMin` up to
`to = min(mColorRangeMin + increment, mColorRangeMax)` (`increment` is 10 without a tokenize
callback and 10000 with one) by their token pass, leaves the characters and colour tags of
every other line, and sets the window to `[to, mColorRangeMax)`, or to `(INT_MAX, 0)` when
`to = mColorRangeMax`.  With `w = mColorRangeMax - mColorRangeMin`, fewer than
`ceil(w / increment)` calls leave a pending window, and `ceil(w / increment)` calls leave
the window `(INT_MAX, 0)`. -/
theorem ColorizeInternal_chunks (e eA : TextEditor) (hen : e.mColorizerEnabled = true)
    (hne : e.mLines ≠ []) (hscan : ColorizeInternal.scan e = some eA)
    (hmin : 0 ≤ e.mColorRangeMin) (hwin : e.mColorRangeMin < e.mColorRangeMax)
    (hin : TokensInside e.mLanguageDefinition e.mRegexList) :
    (∃ e', ColorizeInternal e = some e' ∧ e'.mLines.length = e.mLines.length ∧
      (∀ (k : Nat) (ln : Line), e.mColorRangeMin ≤ (k : Int) →
        (k : Int) < ColorizeInternal.chunkEnd e → eA.mLines[k]? = some ln →
        ∃ ln', ColorizeRange.line e.mLanguageDefinition e.mRegexList ln = some ln' ∧
          e'.mLines[k]? = some ln') ∧
      (∀ k : Nat, (k : Int) < e.mColorRangeMin ∨ ColorizeInternal.chunkEnd e ≤ (k : Int) →
        (e'.mLines[k]?).map (fun l => l.map (fun (g : Glyph) => (g.mChar, g.mColorIndex))) =
          (e.mLines[k]?).map (fun l => l.map (fun (g : Glyph) => (g.mChar, g.mColorIndex)))) ∧
      (if ColorizeInternal.chunkEnd e = e.mColorRangeMax then
        e'.mColorRangeMin = 2147483647 ∧ e'.mColorRangeMax = 0
       else e'.mColorRangeMin = ColorizeInternal.chunkEnd e ∧
        e'.mColorRangeMax = e.mColorRangeMax)) ∧
    (∀ n : Nat,
      n < ((e.mColorRangeMax - e.mColorRangeMin).toNat +
            ColorizeInternal.increment e.mLanguageDefinition - 1) /
          ColorizeInternal.increment e.mLanguageDefinition →
      ∃ e', ColorizeInternal.calls n e = some e' ∧
        e'.mColorRangeMin = e.mColorRangeMin +
          ((n * ColorizeInternal.increment e.mLanguageDefinition : Nat) : Int) ∧
        e'.mColorRangeMax = e.mColorRangeMax) ∧
    (∃ e', ColorizeInternal.calls
        (((e.mColorRangeMax - e.mColorRangeMin).toNat +
            ColorizeInternal.increment e.mLanguageDefinition - 1) /
          ColorizeInternal.increment e.mLanguageDefinition) e = some e' ∧
      e'.mColorRangeMin = 2147483647 ∧ e'.mColorRangeMax = 0) := by
  refine ⟨?_, ?_, ?_⟩
  · obtain ⟨e', hcall, hlen, _, hins, hout, hw⟩ :=
      ColorizeInternal_call e eA hen hne hscan hmin hwin hin
    refine ⟨e', hcall, hlen, hins, ?_, hw⟩
    intro k hk
    rw [hout k hk]
    have hcol := (scan_facts hscan).1
    have := congrArg (fun (L : List (List (Nat × PaletteIndex))) => L[k]?) hcol
    simpa [List.getElem?_map] using this
  · intro n hn
    have hinc : ColorizeInternal.increment e.mLanguageDefinition = 10 ∨
        ColorizeInternal.increment e.mLanguageDefinition = 10000 := by
      unfold ColorizeInternal.increment
      split_ifs
      · exact Or.inl rfl
      · exact Or.inr rfl
    have hlt : e.mColorRangeMin +
        ((n * ColorizeInternal.increment e.mLanguageDefinition : Nat) : Int) <
        e.mColorRangeMax := by
      rcases hinc with h | h <;> rw [h] at hn ⊢ <;> omega
    exact (calls_window n e eA hen hne hscan hmin hin hlt).1
  · have hinc : ColorizeInternal.increment e.mLanguageDefinition = 10 ∨
        ColorizeInternal.increment e.mLanguageDefinition = 10000 := by
      unfold ColorizeInternal.increment
      split_ifs
      · exact Or.inl rfl
      · exact Or.inr rfl
    generalize hN : ((e.mColorRangeMax - e.mColorRangeMin).toNat +
      ColorizeInternal.increment e.mLanguageDefinition - 1) /
        ColorizeInternal.increment e.mLanguageDefinition = N
    have hN1 : N = (N - 1) + 1 := by
      rcases hinc with h | h <;> rw [h] at hN <;> omega
    have hlt : e.mColorRangeMin +
        (((N - 1) * ColorizeInternal.increment e.mLanguageDefinition : Nat) : Int) <
        e.mColorRangeMax := by
      rcases hinc with h | h <;> rw [h] at hN ⊢ <;> omega
    have hle : e.mColorRangeMax ≤ e.mColorRangeMin +
        (((N - 1 + 1) * ColorizeInternal.increment e.mLanguageDefinition : Nat) : Int) := by
      rcases hinc with h | h <;> rw [h] at hN ⊢ <;> omega
    rw [hN1]
    exact (calls_window (N - 1) e eA hen hne hscan hmin hin hlt).2 hle

/-- An instance of the supporting result for C30: the buffer of twelve one-letter lines that
`SetText` leaves, with the
window `[0, 12)` pending and the built-in GLSL grammar; the first call leaves the window
`[10, 12)` and the second call, `ceil(12 / 10) = 2`, resets it. -/
theorem ColorizeInternal_chunks_witness :
    (example_twelve.mColorizerEnabled = true ∧ example_twelve.mLines.length = 12 ∧
      example_twelve.mColorRangeMin = 0 ∧ example_twelve.mColorRangeMax = 12 ∧
      ColorizeInternal.increment example_twelve.mLanguageDefinition = 10) ∧
    ((ColorizeInternal.calls 1 example_twelve).map
        (fun e => (e.mColorRangeMin, e.mColorRangeMax)) = some (10, 12) ∧
      (ColorizeInternal.calls 2 example_twelve).map
        (fun e => (e.mColorRangeMin, e.mColorRangeMax)) = some (2147483647, 0)) ∧
    ∃ e', ColorizeInternal.calls
        (((example_twelve.mColorRangeMax - example_twelve.mColorRangeMin).toNat +
            ColorizeInternal.increment example_twelve.mLanguageDefinition - 1) /
          ColorizeInternal.increment example_twelve.mLanguageDefinition) example_twelve =
        some e' ∧
      e'.mColorRangeMin = 2147483647 ∧ e'.mColorRangeMax = 0 :=
  ⟨by decide, by decide!,
    (ColorizeInternal_chunks example_twelve
      ((ColorizeInternal.scan example_twelve).getD example_twelve) rfl (by decide)
      (by
        have h : (ColorizeInternal.scan example_twelve).isSome = true := by decide!
        cases hs : ColorizeInternal.scan example_twelve with
        | none => rw [hs] at h; cases h
        | some eA => rfl)
      (by decide) (by decide) TokensInside_GLSL).2.2⟩

/-- Once a call of `ColorizeInternal` does not complete, no number of calls does. -/
theorem calls_none_of_first {e : TextEditor} (h : ColorizeInternal e = none) :
    ∀ n : Nat, 0 < n → ColorizeInternal.calls n e = none := by
  intro n hn
  cases n with
  | zero => omega
  | succ n =>
    unfold ColorizeInternal.calls
    rw [h]

/-- C30, evaluated: `SetText` with the line `a` and the line of a double quote and a
backslash leaves the colorizer enabled, the window `[0, 2)` pending and, under the grammar of
the constructor (no tokenize callback), the chunk size 10, so one call should run the token
pass on both lines and reset the window.  `ColorizeInternal` does not complete: its flag scan
writes to a cell behind the backslash.  No line is tokenized and no number of calls empties
the window.  With the second line a double quote alone, one call tags `a` as an identifier
and resets the window to `(INT_MAX, 0)`. -/
theorem ColorizeInternal_chunks_backslash :
    (chars (SetText new [97, 10, 34, 92]) = [[97], [34, 92]] ∧
      (SetText new [97, 10, 34, 92]).mColorizerEnabled = true ∧
      (SetText new [97, 10, 34, 92]).mColorRangeMin = 0 ∧
      (SetText new [97, 10, 34, 92]).mColorRangeMax = 2 ∧
      ColorizeInternal.increment (SetText new [97, 10, 34, 92]).mLanguageDefinition = 10 ∧
      ColorizeInternal.chunkEnd (SetText new [97, 10, 34, 92]) = 2) ∧
    (ColorizeInternal (SetText new [97, 10, 34, 92])).isSome = false ∧
    (∀ n : Nat, 0 < n →
      (ColorizeInternal.calls n (SetText new [97, 10, 34, 92])).isSome = false) ∧
    (ColorizeInternal.calls 1 (SetText new [97, 10, 34])).map
        (fun e => (colors e.mLines, e.mColorRangeMin, e.mColorRangeMax)) =
      some ([[PaletteIndex.Identifier], [PaletteIndex.Default]], 2147483647, 0) := by
  have h : (ColorizeInternal (SetText new [97, 10, 34, 92])).isSome = false := by decide!
  refine ⟨⟨by decide!, by decide!, by decide!, by decide!, by decide!, by decide!⟩, h, ?_,
    by decide!⟩
  intro n hn
  rw [calls_none_of_first (by simpa using h) n hn]
  rfl

/-! ## Evaluated runs -/

/-- C31, evaluated: the buffer `a`, `b` with an empty colour window, `mCheckComments` clear
and the selection `(0, 0)`-`(1, 1)`.  Tab puts a tab in front of both lines and sets
`mTextChanged`, but the window stays `(INT_MAX, 0)` and `mCheckComments` stays clear.  The
same holds for Shift-Tab on the lines of a tab and `a`, and of a tab and `b`. -/
theorem EnterCharacter_indent_window :
    (chars example_indent = [[97], [98]] ∧ HasSelection example_indent = true ∧
      example_indent.mColorRangeMin = 2147483647 ∧ example_indent.mColorRangeMax = 0 ∧
      example_indent.mCheckComments = false) ∧
    (EnterCharacter example_indent 9 false).map
        (fun e => (chars e, e.mTextChanged, e.mCheckComments, e.mColorRangeMin,
          e.mColorRangeMax)) =
      some ([[9, 97], [9, 98]], true, false, 2147483647, 0) ∧
    (chars example_outdent = [[9, 97], [9, 98]] ∧ HasSelection example_outdent = true ∧
      example_outdent.mColorRangeMin = 2147483647 ∧ example_outdent.mColorRangeMax = 0 ∧
      example_outdent.mCheckComments = false) ∧
    (EnterCharacter example_outdent 9 true).map
        (fun e => (chars e, e.mTextChanged, e.mCheckComments, e.mColorRangeMin,
          e.mColorRangeMax)) =
      some ([[97], [98]], true, false, 2147483647, 0) :=
  ⟨by decide!, by decide!, by decide!, by decide!⟩

/-- C32, evaluated with the grammar of the constructor (GLSL: `/*`, `*/`, `//`).  On the line
`/*/ x` the flag scan sets the multi-line-comment flag of the first three cells only: the
`*/` that ends at the third cell closes the comment that the `/*` at the first cell opened.
On the lines `/*` and `*/a` it sets the flag of the four cells of the markers and not the
one of `a`. -/
theorem ColorizeInternal_scan_overlap :
    (ColorizeInternal.scan (SetText new [47, 42, 47, 32, 120])).map flags =
      some [[(47, false, true, false), (42, false, true, false), (47, false, true, false),
        (32, false, false, false), (120, false, false, false)]] ∧
    (ColorizeInternal.scan (SetText new [47, 42, 10, 42, 47, 97])).map flags =
      some [[(47, false, true, false), (42, false, true, false)],
        [(42, false, true, false), (47, false, true, false), (97, false, false, false)]] :=
  ⟨by decide!, by decide!⟩

/-- C34, evaluated: on the line of a double quote and a backslash the flag scan does not
complete, and neither does `ColorizeInternal`: inside the string the backslash moves
`currentIndex` to 2, the length of the line, and the write of `mPreprocessor` to the cell
`currentIndex` is out of range.  On the line of a double quote, a backslash and `a` the
scan completes. -/
theorem ColorizeInternal_scan_backslash :
    (SetText new [34, 92]).mLines.map List.length = [2] ∧
    (ColorizeInternal.scan (SetText new [34, 92])).isSome = false ∧
    (ColorizeInternal (SetText new [34, 92])).isSome = false ∧
    (ColorizeInternal.scan (SetText new [34, 92, 97])).isSome = true :=
  ⟨by decide!, by decide!, by decide!, by decide!⟩

/-- C35: `SetTabSize` leaves a tab size of at most 32, and it leaves the tab size 0 exactly
for an argument that is not positive. -/
theorem SetTabSize_zero (e : TextEditor) (v : Int) :
    (SetTabSize e v).mTabSize ≤ 32 ∧ ((SetTabSize e v).mTabSize = 0 ↔ v ≤ 0) := by
  unfold SetTabSize
  simp only
  omega

theorem SetText_mLanguageDefinition (e : TextEditor) (t : List Nat) :
    (SetText e t).mLanguageDefinition = e.mLanguageDefinition := rfl

/-- C36, evaluated: the buffer `example_stale` and the buffer after `SetText` on it with the
same four characters, a double quote and `//a`, have the same characters and the same
grammar, and `mCheckComments` is set in both.  After the flag scan the cells of `//a` have
`mComment` set in the first and clear in the second: the scan does not write `mComment` to a
cell inside a string, so the flag that the cells got as the line `//a` stays. -/
theorem ColorizeInternal_scan_stale_flag :
    (chars example_stale = [[34, 47, 47, 97]] ∧
      chars (SetText example_stale [34, 47, 47, 97]) = [[34, 47, 47, 97]] ∧
      example_stale.mCheckComments = true ∧
      (SetText example_stale [34, 47, 47, 97]).mCheckComments = true ∧
      (SetText example_stale [34, 47, 47, 97]).mLanguageDefinition =
        example_stale.mLanguageDefinition) ∧
    (ColorizeInternal.scan example_stale).map flags =
      some [[(34, false, false, false), (47, true, false, false), (47, true, false, false),
        (97, true, false, false)]] ∧
    (ColorizeInternal.scan (SetText example_stale [34, 47, 47, 97])).map flags =
      some [[(34, false, false, false), (47, false, false, false), (47, false, false, false),
        (97, false, false, false)]] :=
  ⟨⟨by decide!, by decide!, by decide!, rfl, SetText_mLanguageDefinition _ _⟩, by decide!,
    by decide!⟩

/-- C37, evaluated: in the buffer `ab`, `cd` with the cursor at `(0, 2)`, the end of the
first line, `MoveRight(2)` leaves the cursor at `(1, 0)` and two calls of `MoveRight(1)`
leave it at `(1, 1)`; in the buffer `ab`, `cd`, `ef` `MoveRight(2)` leaves the cursor at
`(2, 0)`.  The character index 2 of the first line is kept when the cursor goes to the next
line. -/
theorem MoveRight_two_steps :
    (MoveRight (SetCursorPosition (SetText new [97, 98, 10, 99, 100]) ⟨0, 2⟩) 2 false
        false).map (fun e => e.mState.mCursorPosition) = some ⟨1, 0⟩ ∧
    ((MoveRight (SetCursorPosition (SetText new [97, 98, 10, 99, 100]) ⟨0, 2⟩) 1 false
        false).bind (fun e => MoveRight e 1 false false)).map
        (fun e => e.mState.mCursorPosition) = some ⟨1, 1⟩ ∧
    (MoveRight (SetCursorPosition (SetText new [97, 98, 10, 99, 100, 10, 101, 102]) ⟨0, 2⟩) 2
        false false).map (fun e => e.mState.mCursorPosition) = some ⟨2, 0⟩ ∧
    ((MoveRight (SetCursorPosition (SetText new [97, 98, 10, 99, 100, 10, 101, 102]) ⟨0, 2⟩) 1
        false false).bind (fun e => MoveRight e 1 false false)).map
        (fun e => e.mState.mCursorPosition) = some ⟨1, 1⟩ :=
  ⟨by decide!, by decide!, by decide!, by decide!⟩

/-- C40, evaluated: the buffer `ab` with the selection `(0, 0)`-`(0, 1)` and an empty undo
log; `EnterCharacter(0xDC00)` completes, the line is `b`, and the undo log is still empty
with index 0. -/
theorem EnterCharacter_surrogate_selection :
    (chars (SetSelection (SetText new [97, 98]) ⟨0, 0⟩ ⟨0, 1⟩) = [[97, 98]] ∧
      HasSelection (SetSelection (SetText new [97, 98]) ⟨0, 0⟩ ⟨0, 1⟩) = true ∧
      (SetSelection (SetText new [97, 98]) ⟨0, 0⟩ ⟨0, 1⟩).mUndoBuffer = [] ∧
      (SetSelection (SetText new [97, 98]) ⟨0, 0⟩ ⟨0, 1⟩).mUndoIndex = 0 ∧
      (ImTextCharToUtf8 56320).1 = 0) ∧
    (EnterCharacter (SetSelection (SetText new [97, 98]) ⟨0, 0⟩ ⟨0, 1⟩) 56320 false).map
        (fun e => (chars e, e.mUndoBuffer, e.mUndoIndex)) =
      some ([[98]], [], 0) :=
  ⟨⟨by decide!, by decide!, by decide!, by decide!, by decide!⟩, by decide!⟩

/-! ## `Backspace` and `Delete` at a valid cursor -/

theorem SetCursorPosition_self (e : TextEditor) :
    SetCursorPosition e e.mState.mCursorPosition = e := by
  unfold SetCursorPosition
  simp

theorem RemoveLine_isSome {e : TextEditor} {a : Nat} (hro : e.mReadOnly = false)
    (h1 : 1 < e.mLines.length) (ha : a < e.mLines.length) :
    ∃ e', RemoveLine e a = some e' ∧ e'.mReadOnly = false := by
  have her : eraseRange e.mLines a (a + 1) = some (e.mLines.take a ++ e.mLines.drop (a + 1)) := by
    unfold eraseRange
    rw [if_pos ⟨by omega, by omega⟩]
  have hne : (e.mLines.take a ++ e.mLines.drop (a + 1)).isEmpty = false := by
    apply isEmpty_eq_false_of_lt (n := 0)
    simp only [List.length_append, List.length_take, List.length_drop]
    omega
  unfold RemoveLine
  simp only [hro, Bool.false_eq_true, if_false, h1, gt_iff_lt, not_true_eq_false, her, hne]
  exact ⟨_, rfl, rfl⟩

theorem addUndoAfter_isSome {e : TextEditor} (u : UndoRecord) (hro : e.mReadOnly = false) :
    (addUndoAfter e u).isSome = true := by
  unfold addUndoAfter
  rw [AddUndo_eq _ hro]
  rfl

theorem Backspace_walkBack_isSome (ln : Line) : ∀ (fuel : Nat) (c : Int),
    c < (ln.length : Int) → ∃ r, Backspace.walkBack ln fuel c = some r := by
  intro fuel
  induction fuel with
  | zero => intro c _; exact ⟨c, rfl⟩
  | succ fuel ih =>
    intro c hc
    unfold Backspace.walkBack
    by_cases hpos : c > 0
    · rw [if_pos hpos]
      have hlt : c.toNat < ln.length := by omega
      rw [List.getElem?_eq_getElem hlt]
      simp only
      split_ifs
      · exact ih (c - 1) (by omega)
      · exact ⟨c, rfl⟩
    · rw [if_neg hpos]
      exact ⟨c, rfl⟩

/-- Supporting result for C33: in a writable editor with tab size at least 1 and an empty
selection whose
cursor is valid (line inside the buffer, column at most the line's maximum column, columns
inside the width of a tab included) and whose cursor line consists of complete characters,
`Backspace` completes, and `Delete` completes exactly when the column is the line's maximum
column or the character index of the cursor is inside the line, that is unless the column
lies inside the width of a tab that ends the line. -/
theorem Backspace_Delete_complete (e : TextEditor) (ln : Line) (htab : 0 < e.mTabSize)
    (hro : e.mReadOnly = false) (hsel : HasSelection e = false)
    (hcur : ValidCoordinates e e.mState.mCursorPosition)
    (hln : e.mLines[e.mState.mCursorPosition.mLine]? = some ln) (hwf : WellFormedLine ln) :
    (Backspace e).isSome = true ∧
    ((Delete e).isSome = true ↔
      (e.mState.mCursorPosition.mColumn = GetLineMaxColumn e e.mState.mCursorPosition.mLine ∨
        GetCharacterIndex e e.mState.mCursorPosition < (ln.length : Int))) := by
  have hro' : ¬ (e.mReadOnly = true) := by simp [hro]
  have hsel' : ¬ (HasSelection e = true) := by simp [hsel]
  have hemp : ¬ (e.mLines.isEmpty = true) := by
    simp [isEmpty_eq_false_of_lt hcur.1]
  have hact : GetActualCursorCoordinates e = e.mState.mCursorPosition :=
    SanitizeCoordinates_of_valid hcur.1 hcur.2
  have hidx : GetCharacterIndex e e.mState.mCursorPosition ≤ (ln.length : Int) := by
    rw [GetCharacterIndex_eq hln]
    exact Int.ofNat_le.mpr (hwf.charIndex_le htab _)
  have hidx0 : 0 ≤ GetCharacterIndex e e.mState.mCursorPosition := by
    rw [GetCharacterIndex_eq hln]
    exact Int.ofNat_nonneg _
  constructor
  · unfold Backspace
    simp only []
    rw [if_neg hro', if_neg hemp, if_neg hsel', hact, SetCursorPosition_self]
    by_cases hcol : e.mState.mCursorPosition.mColumn = 0
    · rw [if_pos hcol]
      by_cases hline : e.mState.mCursorPosition.mLine = 0
      · rw [if_pos hline]
        rfl
      rw [if_neg hline]
      -- join with the previous line
      unfold Backspace.joinLines
      simp only [hln]
      have hprev : e.mState.mCursorPosition.mLine - 1 < e.mLines.length := by
        have := hcur.1; omega
      rw [List.getElem?_eq_getElem hprev]
      simp only
      obtain ⟨e1, h1, hro1⟩ := @RemoveLine_isSome
        { e with
          mLines := e.mLines.set (e.mState.mCursorPosition.mLine - 1)
            (e.mLines[e.mState.mCursorPosition.mLine - 1] ++ ln),
          mErrorMarkers := e.mErrorMarkers.foldl
            (fun (acc : List (Int × List Nat)) (i : Int × List Nat) =>
              mapInsert (if i.1 - 1 = (e.mState.mCursorPosition.mLine : Int) then i.1 - 1
                else i.1, i.2) acc) [] }
        e.mState.mCursorPosition.mLine hro
        (by simp only [List.length_set]; have := hcur.1; omega)
        (by simp only [List.length_set]; exact hcur.1)
      rw [h1]
      simp only
      exact addUndoAfter_isSome _ (by simpa using hro1)
    · -- erase the character before the cursor
      rw [if_neg hcol]
      unfold Backspace.eraseChar
      simp only [hln]
      obtain ⟨r, hr⟩ := Backspace_walkBack_isSome ln ln.length
        (GetCharacterIndex e e.mState.mCursorPosition - 1) (by omega)
      rw [hr]
      simp only
      exact addUndoAfter_isSome _ (by simpa using hro)
  · unfold Delete
    simp only []
    rw [if_neg hro', if_neg hemp, if_neg hsel', hact, SetCursorPosition_self, hln]
    simp only []
    by_cases hmax : e.mState.mCursorPosition.mColumn =
        GetLineMaxColumn e e.mState.mCursorPosition.mLine
    · rw [if_pos hmax]
      simp only [hmax, true_or, iff_true]
      by_cases hlast : e.mState.mCursorPosition.mLine + 1 = e.mLines.length
      · rw [if_pos hlast]
        rfl
      rw [if_neg hlast]
      -- join with the next line
      unfold Delete.joinLines
      have hnext : e.mState.mCursorPosition.mLine + 1 < e.mLines.length := by
        have := hcur.1; omega
      rw [List.getElem?_eq_getElem hnext]
      simp only
      obtain ⟨e1, h1, hro1⟩ := @RemoveLine_isSome
        { e with
          mLines := e.mLines.set e.mState.mCursorPosition.mLine
            (ln ++ e.mLines[e.mState.mCursorPosition.mLine + 1]) }
        (e.mState.mCursorPosition.mLine + 1) hro
        (by simp only [List.length_set]; omega)
        (by simp only [List.length_set]; exact hnext)
      rw [h1]
      simp only
      exact addUndoAfter_isSome _ (by simpa using hro1)
    · -- erase the character at the cursor
      rw [if_neg hmax]
      simp only [hmax, false_or]
      unfold Delete.eraseChar
      have hget : ∃ t, GetText e (GetActualCursorCoordinates e)
          ⟨(GetActualCursorCoordinates e).mLine, (GetActualCursorCoordinates e).mColumn + 1⟩ =
          some t := by
        unfold GetText
        simp only [Nat.lt_irrefl, false_and, if_false]
        exact ⟨_, rfl⟩
      obtain ⟨t, ht⟩ := hget
      simp only [ht]
      constructor
      · intro h
        by_contra hge
        have hnone : ln[(GetCharacterIndex e e.mState.mCursorPosition).toNat]? = none :=
          List.getElem?_eq_none (by omega)
        rw [hnone] at h
        cases h
      · intro hlt
        have hlt' : (GetCharacterIndex e e.mState.mCursorPosition).toNat < ln.length := by
          omega
        rw [List.getElem?_eq_getElem hlt']
        simp only
        exact addUndoAfter_isSome _ (by simpa using hro)

/-- An instance of the supporting result for C33: the line of a tab and `a` with tab size 4 and the cursor at `(0, 2)`,
inside the width of the tab; `Backspace` erases the tab and `Delete` erases `a`. -/
theorem Backspace_Delete_complete_witness :
    (0 < (withText new [[9, 97]] ⟨0, 2⟩).mTabSize ∧
      (withText new [[9, 97]] ⟨0, 2⟩).mReadOnly = false ∧
      HasSelection (withText new [[9, 97]] ⟨0, 2⟩) = false ∧
      ValidCoordinates (withText new [[9, 97]] ⟨0, 2⟩)
        (withText new [[9, 97]] ⟨0, 2⟩).mState.mCursorPosition ∧
      WellFormedLine ([9, 97].map (fun b => ({ mChar := b } : Glyph)))) ∧
    ((Backspace (withText new [[9, 97]] ⟨0, 2⟩)).map chars = some [[97]] ∧
      (Delete (withText new [[9, 97]] ⟨0, 2⟩)).map chars = some [[9]]) ∧
    (Backspace (withText new [[9, 97]] ⟨0, 2⟩)).isSome = true ∧
    (Delete (withText new [[9, 97]] ⟨0, 2⟩)).isSome = true :=
  ⟨⟨by decide, by decide, by decide, by unfold ValidCoordinates; decide,
      by unfold WellFormedLine; decide⟩,
    ⟨by decide, by decide⟩,
    (Backspace_Delete_complete (withText new [[9, 97]] ⟨0, 2⟩)
      ([9, 97].map (fun b => ({ mChar := b } : Glyph))) (by decide) (by decide) (by decide)
      (by unfold ValidCoordinates; decide) rfl (by unfold WellFormedLine; decide)).1,
    (Backspace_Delete_complete (withText new [[9, 97]] ⟨0, 2⟩)
      ([9, 97].map (fun b => ({ mChar := b } : Glyph))) (by decide) (by decide) (by decide)
      (by unfold ValidCoordinates; decide) rfl (by unfold WellFormedLine; decide)).2.mpr
      (Or.inr (by decide))⟩

/-- C33, evaluated.  After `SetText` with a single tab (tab size 4) and
`SetCursorPosition((0, 2))` the cursor is valid, the selection is empty, the column is not
the maximum column 4 and the character index of the cursor is 1, the length of the line;
`Delete` does not complete (it reads the cell 1).  After `SetText` with the single byte
`0xC3` and `SetCursorPosition((0, 1))` the cursor is valid, its character index is 2, and
`Backspace` does not complete (it reads the cell 1 of a line of length 1). -/
theorem Backspace_Delete_out_of_range :
    (chars (SetCursorPosition (SetText new [9]) ⟨0, 2⟩) = [[9]] ∧
      ValidCoordinates (SetCursorPosition (SetText new [9]) ⟨0, 2⟩) ⟨0, 2⟩ ∧
      (SetCursorPosition (SetText new [9]) ⟨0, 2⟩).mState.mCursorPosition = ⟨0, 2⟩ ∧
      HasSelection (SetCursorPosition (SetText new [9]) ⟨0, 2⟩) = false ∧
      GetLineMaxColumn (SetCursorPosition (SetText new [9]) ⟨0, 2⟩) 0 = 4 ∧
      GetCharacterIndex (SetCursorPosition (SetText new [9]) ⟨0, 2⟩) ⟨0, 2⟩ = 1 ∧
      (Delete (SetCursorPosition (SetText new [9]) ⟨0, 2⟩)).isSome = false) ∧
    (chars (SetCursorPosition (SetText new [195]) ⟨0, 1⟩) = [[195]] ∧
      ValidCoordinates (SetCursorPosition (SetText new [195]) ⟨0, 1⟩) ⟨0, 1⟩ ∧
      (SetCursorPosition (SetText new [195]) ⟨0, 1⟩).mState.mCursorPosition = ⟨0, 1⟩ ∧
      HasSelection (SetCursorPosition (SetText new [195]) ⟨0, 1⟩) = false ∧
      GetCharacterIndex (SetCursorPosition (SetText new [195]) ⟨0, 1⟩) ⟨0, 1⟩ = 2 ∧
      (Backspace (SetCursorPosition (SetText new [195]) ⟨0, 1⟩)).isSome = false) :=
  ⟨⟨by decide, by unfold ValidCoordinates; decide, by decide, by decide, by decide,
      by decide, by decide⟩,
    ⟨by decide, by unfold ValidCoordinates; decide, by decide, by decide, by decide,
      by decide⟩⟩

/-! ## `SetText` and `GetText()` -/

/-- The loop of `SetText` from the lines `init` followed by `last`: the result ends in a
line again, one line is added per line feed, the characters in reading order are extended by
the text without its carriage returns, and a property of all cells that the characters other
than line feed and carriage return have is kept. -/
theorem SetText_fold_spec (P : Glyph → Prop)
    (hP : ∀ c : Nat, c ≠ 10 → c ≠ 13 → P ({ mChar := c } : Glyph)) (t : List Nat) :
    ∀ (init : Lines) (last : Line), (∀ l ∈ init ++ [last], ∀ g ∈ l, P g) →
      ∃ init' last',
        t.foldl (fun (acc : Lines) (chr : Nat) =>
          if chr = 13 then acc
          else if chr = 10 then acc ++ [[]]
          else acc.dropLast ++ [acc.getLastD [] ++ [({ mChar := chr } : Glyph)]])
          (init ++ [last]) = init' ++ [last'] ∧
        init'.length = init.length + t.count 10 ∧
        (init'.map (fun l => l.map (fun (g : Glyph) => g.mChar) ++ [10])).flatten ++
            last'.map (fun (g : Glyph) => g.mChar) =
          (init.map (fun l => l.map (fun (g : Glyph) => g.mChar) ++ [10])).flatten ++
            last.map (fun (g : Glyph) => g.mChar) ++ t.filter (fun c => c ≠ 13) ∧
        (∀ l ∈ init' ++ [last'], ∀ g ∈ l, P g) := by
  induction t with
  | nil =>
    intro init last h
    exact ⟨init, last, rfl, by simp, by simp, h⟩
  | cons c rest ih =>
    intro init last h
    simp only [List.foldl_cons]
    by_cases h13 : c = 13
    · rw [if_pos h13]
      obtain ⟨i', l', h1, h2, h3, h4⟩ := ih init last h
      refine ⟨i', l', h1, ?_, ?_, h4⟩
      · rw [h2, h13]; simp
      · rw [h3, h13]; simp
    · rw [if_neg h13]
      by_cases h10 : c = 10
      · rw [if_pos h10]
        obtain ⟨i', l', h1, h2, h3, h4⟩ := ih (init ++ [last]) [] (by
          intro l hl g hg
          simp only [List.mem_append, List.mem_singleton] at hl
          rcases hl with hl | hl
          · exact h l (by simpa using hl) g hg
          · subst hl; cases hg)
        refine ⟨i', l', h1, ?_, ?_, h4⟩
        · rw [h2, h10]; simp; omega
        · rw [h3, h10]; simp
      · rw [if_neg h10]
        have hd : (init ++ [last]).dropLast = init := by simp
        have hg : (init ++ [last]).getLastD [] = last := by simp
        rw [hd, hg]
        obtain ⟨i', l', h1, h2, h3, h4⟩ := ih init (last ++ [({ mChar := c } : Glyph)]) (by
          intro l hl g hg
          simp only [List.mem_append, List.mem_singleton] at hl
          rcases hl with hl | hl
          · exact h l (by simp [hl]) g hg
          · subst hl
            simp only [List.mem_append, List.mem_singleton] at hg
            rcases hg with hg | hg
            · exact h last (by simp) g hg
            · subst hg; exact hP c h10 h13)
        refine ⟨i', l', h1, ?_, ?_, h4⟩
        · rw [h2]; simp [List.count_cons, h10]
        · rw [h3]; simp [h13]

/-- `GetText()` of a non-empty buffer: every line followed by a line feed. -/
theorem GetTextAll_eq (e : TextEditor) (hne : e.mLines ≠ []) :
    GetTextAll e =
      some ((e.mLines.map (fun l => l.map (fun (g : Glyph) => g.mChar) ++ [10])).flatten) := by
  obtain ⟨ln, rest, hl⟩ : ∃ ln rest, e.mLines = ln :: rest := by
    cases h : e.mLines with
    | nil => exact absurd h hne
    | cons a b => exact ⟨a, b, rfl⟩
  have h0 : e.mLines[0]? = some ln := by rw [hl]; simp
  unfold GetTextAll GetText
  simp only
  rw [if_neg (by omega)]
  have hidx : GetCharacterIndex e ⟨0, 0⟩ = 0 := by
    rw [@GetCharacterIndex_eq e ⟨0, 0⟩ ln h0]
    simp only
    rw [GetCharacterIndex_loop_stop _ _ _ _ _ _ (Or.inr (Nat.le_refl _))]
    rfl
  rw [hidx]
  have hb := GetText_loop_block (GetCharacterIndex e ⟨e.mLines.length, 0⟩) e.mLines.length
    e.mLines [] [] ((e.mLines.map (fun l => l.length + 1)).sum + 1) (by simp) (by omega)
  simp only [List.nil_append, List.append_nil, List.length_nil, Nat.zero_add] at hb
  rw [hb]
  have hend : GetCharacterIndex e ⟨e.mLines.length, 0⟩ = -1 := by
    unfold GetCharacterIndex
    simp
  rw [hend]
  have : (e.mLines.map (fun l => l.length + 1)).sum + 1 -
      (e.mLines.map (fun l => l.length + 1)).sum = 1 := by omega
  rw [this]
  simp [GetText.loop]

/-- C38: for every text `t`, after `SetText(t)` the buffer has one line more than `t` has
line feeds, no cell holds a line feed or a carriage return, the lines, each followed by a
line feed, are `t` without its carriage returns followed by one line feed, the undo log is
empty with index 0, and `GetText()` returns that text. -/
theorem SetText_GetTextAll (e : TextEditor) (t : List Nat) :
    (SetText e t).mLines.length = 1 + t.count 10 ∧
    (∀ l ∈ chars (SetText e t), 10 ∉ l ∧ 13 ∉ l) ∧
    ((chars (SetText e t)).map (fun l => l ++ [10])).flatten =
      t.filter (fun c => c ≠ 13) ++ [10] ∧
    (SetText e t).mUndoBuffer = [] ∧ (SetText e t).mUndoIndex = 0 ∧
    GetTextAll (SetText e t) = some (t.filter (fun c => c ≠ 13) ++ [10]) := by
  obtain ⟨i', l', h1, h2, h3, h4⟩ := SetText_fold_spec
    (fun g => g.mChar ≠ 10 ∧ g.mChar ≠ 13) (fun c h10 h13 => ⟨h10, h13⟩) t [] []
    (by intro l hl g hg; simp at hl; subst hl; cases hg)
  have hlines : (SetText e t).mLines = i' ++ [l'] := by
    unfold SetText
    simp only [Colorize_mLines]
    exact h1
  have hflat : ((chars (SetText e t)).map (fun l => l ++ [10])).flatten =
      t.filter (fun c => c ≠ 13) ++ [10] := by
    unfold chars
    rw [hlines]
    simp only [List.map_append, List.map_map, List.flatten_append, List.map_cons, List.map_nil,
      List.flatten_cons, List.flatten_nil, List.append_nil]
    have h3' := h3
    simp only [List.map_nil, List.flatten_nil, List.nil_append, List.append_nil] at h3'
    rw [← List.append_assoc]
    have : (List.map ((fun l => l ++ [10]) ∘ fun l => List.map (fun (g : Glyph) => g.mChar) l)
        i').flatten = (i'.map (fun l => l.map (fun (g : Glyph) => g.mChar) ++ [10])).flatten :=
      rfl
    rw [this, h3']
  refine ⟨?_, ?_, hflat, rfl, rfl, ?_⟩
  · rw [hlines]; simp [h2]; omega
  · intro l hl
    unfold chars at hl
    rw [hlines] at hl
    obtain ⟨L, hL, rfl⟩ := List.mem_map.mp hl
    constructor
    · intro hc
      obtain ⟨g, hg, hgc⟩ := List.mem_map.mp hc
      exact (h4 L hL g hg).1 hgc
    · intro hc
      obtain ⟨g, hg, hgc⟩ := List.mem_map.mp hc
      exact (h4 L hL g hg).2 hgc
  · rw [GetTextAll_eq _ (SetText_ne_nil e t), ← hflat]
    unfold chars
    simp only [List.map_map]
    rfl

/-! ## The token loop of one line -/

theorem findToken_at_scan {lang : LanguageDefinition}
    {rules : List ((List Nat → Option Nat) × PaletteIndex)} (h : TokensAtScan lang rules)
    (rest : List Nat) (r : Nat × Nat × PaletteIndex)
    (hr : ColorizeRange.findToken lang rules rest = some r) :
    r.1 = 0 ∧ 0 < r.2.1 ∧ r.2.1 ≤ rest.length := by
  unfold ColorizeRange.findToken at hr
  cases hf : lang.mTokenize with
  | none =>
    rw [hf] at hr
    exact searchRules_inside rules h.2 rest r hr
  | some f =>
    rw [hf] at hr
    simp only at hr
    cases hfr : f rest with
    | none =>
      rw [hfr] at hr
      exact searchRules_inside rules h.2 rest r hr
    | some r' =>
      rw [hfr] at hr
      simp only [Option.some.injEq] at hr
      subst hr
      exact h.1 f hf rest r' hfr

/-- A painted line has the preprocessor flags of the line. -/
theorem paint_getD_mPreprocessor (ln : Line) (start len : Nat) (c : PaletteIndex) (j : Nat) :
    ((ColorizeRange.paint ln start len c).getD j default).mPreprocessor =
      (ln.getD j default).mPreprocessor := by
  rw [List.getD_eq_getElem?_getD, List.getD_eq_getElem?_getD, paint_getElem?]
  split_ifs
  · cases ln[j]? <;> rfl
  · rfl

/-- One step of the token loop at a scan position inside the buffer: the loop goes on at a
later scan position, at most the end of the buffer. -/
theorem tokens_step {lang : LanguageDefinition}
    {rules : List ((List Nat → Option Nat) × PaletteIndex)} (h : TokensAtScan lang rules)
    (buffer : List Nat) (fuel first : Nat) (l : Line) (hf : first < buffer.length) :
    ∃ first' l1, first < first' ∧ first' ≤ buffer.length ∧
      ColorizeRange.tokens lang rules buffer (fuel + 1) first l =
        ColorizeRange.tokens lang rules buffer fuel first' l1 := by
  rw [ColorizeRange.tokens]
  rw [if_neg (by omega)]
  cases hr : ColorizeRange.findToken lang rules (buffer.drop first) with
  | none => exact ⟨first + 1, l, by omega, by omega, rfl⟩
  | some r =>
    have hin := findToken_at_scan h _ r hr
    rw [List.length_drop] at hin
    have hc : ¬ (r.2.1 < r.1 ∨ buffer.length < first + r.2.1 ∨ r.2.1 = 0) := by omega
    simp only [hc, if_false]
    exact ⟨first + r.2.1, _, by omega, by omega, rfl⟩

/-- The token loop from the scan position `first` on the line `l`: it completes, and there
is a list of tokens `(begin, end, tag)`, each found at its begin by the callback or a rule
and tagged with its resolved colour, in increasing order and without overlap, such that a
cell inside a token is the cell of `l` with the tag of that token and a cell inside no token
is the cell of `l`. -/
theorem tokens_spec {lang : LanguageDefinition}
    {rules : List ((List Nat → Option Nat) × PaletteIndex)} (h : TokensAtScan lang rules)
    (buffer : List Nat) :
    ∀ (fuel first : Nat) (l : Line), first ≤ buffer.length → buffer.length - first < fuel →
      ∃ (l' : Line) (toks : List (Nat × Nat × PaletteIndex)),
        ColorizeRange.tokens lang rules buffer fuel first l = some l' ∧
        (∀ t ∈ toks, first ≤ t.1 ∧ t.1 < t.2.1 ∧ t.2.1 ≤ buffer.length ∧
          ∃ col, ColorizeRange.findToken lang rules (buffer.drop t.1) =
              some (0, t.2.1 - t.1, col) ∧
            t.2.2 = ColorizeRange.tokenColor lang (l.getD t.1 default).mPreprocessor
              ((buffer.drop t.1).take (t.2.1 - t.1)) col) ∧
        toks.Pairwise (fun a b => a.2.1 ≤ b.1) ∧
        (∀ j, (∀ t ∈ toks, t.1 ≤ j → j < t.2.1 →
            l'[j]? = (l[j]?).map (fun (g : Glyph) => { g with mColorIndex := t.2.2 })) ∧
          ((∀ t ∈ toks, ¬ (t.1 ≤ j ∧ j < t.2.1)) → l'[j]? = l[j]?)) := by
  intro fuel
  induction fuel with
  | zero => intro first l _ hf; omega
  | succ fuel ih =>
    intro first l hle hf
    rw [ColorizeRange.tokens]
    by_cases heq : first = buffer.length
    · rw [if_pos heq]
      exact ⟨l, [], rfl, by simp, List.Pairwise.nil, fun j => ⟨by simp, fun _ => rfl⟩⟩
    · rw [if_neg heq]
      cases hr : ColorizeRange.findToken lang rules (buffer.drop first) with
      | none =>
        obtain ⟨l', toks, h1, h2, h3, h4⟩ := ih (first + 1) l (by omega) (by omega)
        refine ⟨l', toks, h1, ?_, h3, h4⟩
        intro t ht
        obtain ⟨a, b⟩ := h2 t ht
        exact ⟨by omega, b⟩
      | some r =>
        have hin := findToken_at_scan h _ r hr
        rw [List.length_drop] at hin
        have hc : ¬ (r.2.1 < r.1 ∨ buffer.length < first + r.2.1 ∨ r.2.1 = 0) := by omega
        simp only [hc, if_false]
        obtain ⟨hr1, hr2, hr3⟩ := hin
        rw [hr1]
        simp only [Nat.add_zero, Nat.sub_zero]
        generalize hcdef : ColorizeRange.tokenColor lang (l.getD first default).mPreprocessor
          ((buffer.drop first).take r.2.1) r.2.2 = c
        obtain ⟨l', toks, h1, h2, h3, h4⟩ :=
          ih (first + r.2.1) (ColorizeRange.paint l first r.2.1 c) (by omega) (by omega)
        refine ⟨l', (first, first + r.2.1, c) :: toks, h1, ?_, ?_, ?_⟩
        · intro t ht
          rcases List.mem_cons.mp ht with ht | ht
          · subst ht
            refine ⟨Nat.le_refl _, by simp; omega, by simp; omega, r.2.2, ?_, ?_⟩
            · simp only [Nat.add_sub_cancel_left]
              rw [hr]
              have : r = (r.1, r.2.1, r.2.2) := rfl
              rw [this, hr1]
            · simp only [Nat.add_sub_cancel_left]
              exact hcdef.symm
          · obtain ⟨a, b, c', col, d1, d2⟩ := h2 t ht
            refine ⟨by omega, b, c', col, d1, ?_⟩
            rw [d2, paint_getD_mPreprocessor]
        · refine List.Pairwise.cons ?_ h3
          intro t ht
          exact (h2 t ht).1
        · intro j
          obtain ⟨h4a, h4b⟩ := h4 j
          constructor
          · intro t ht hj1 hj2
            rcases List.mem_cons.mp ht with ht | ht
            · subst ht
              simp only at hj1 hj2
              rw [h4b (fun t' ht' hc' => by have := (h2 t' ht').1; omega), paint_getElem?,
                if_pos ⟨hj1, hj2⟩]
            · have hge := (h2 t ht).1
              rw [h4a t ht hj1 hj2, paint_getElem?, if_neg (by omega)]
          · intro hno
            have hhead := hno (first, first + r.2.1, c) (List.mem_cons_self _ _)
            simp only at hhead
            rw [h4b (fun t' ht' => hno t' (List.mem_cons_of_mem _ ht')), paint_getElem?,
              if_neg hhead]

/-- C39: when the tokenize callback and every rule report only matches of at least one
character that start at the scan position (and lie in the text they are given), the token
loop of `ColorizeRange` goes from a scan position inside the buffer to a later one in every
step, and for every line it completes (with the fuel the model gives it, one more than the
length of the line): there is a list of tokens `(begin, end, tag)`, each of them a token
that the callback or a rule finds at its begin, with the tag that the table lookup resolves,
in increasing order and without overlap, such that every cell inside a token is the old cell
with the tag of that token and every cell inside no token is the old cell with the tag
`Default`. -/
theorem line_tokens (lang : LanguageDefinition)
    (rules : List ((List Nat → Option Nat) × PaletteIndex)) (h : TokensAtScan lang rules)
    (ln : Line) :
    (∀ (buffer : List Nat) (fuel first : Nat) (l : Line), first < buffer.length →
      ∃ first' l1, first < first' ∧ first' ≤ buffer.length ∧
        ColorizeRange.tokens lang rules buffer (fuel + 1) first l =
          ColorizeRange.tokens lang rules buffer fuel first' l1) ∧
    ∃ (ln' : Line) (toks : List (Nat × Nat × PaletteIndex)),
      ColorizeRange.line lang rules ln = some ln' ∧
      (∀ t ∈ toks, t.1 < t.2.1 ∧ t.2.1 ≤ ln.length ∧
        ∃ col, ColorizeRange.findToken lang rules
            ((ln.map (fun (g : Glyph) => g.mChar)).drop t.1) = some (0, t.2.1 - t.1, col) ∧
          t.2.2 = ColorizeRange.tokenColor lang (ln.getD t.1 default).mPreprocessor
            (((ln.map (fun (g : Glyph) => g.mChar)).drop t.1).take (t.2.1 - t.1)) col) ∧
      toks.Pairwise (fun a b => a.2.1 ≤ b.1) ∧
      (∀ j, (∀ t ∈ toks, t.1 ≤ j → j < t.2.1 →
          ln'[j]? = (ln[j]?).map (fun (g : Glyph) => { g with mColorIndex := t.2.2 })) ∧
        ((∀ t ∈ toks, ¬ (t.1 ≤ j ∧ j < t.2.1)) →
          ln'[j]? = (ln[j]?).map
            (fun (g : Glyph) => { g with mColorIndex := PaletteIndex.Default }))) := by
  refine ⟨fun buffer fuel first l hf => tokens_step h buffer fuel first l hf, ?_⟩
  unfold ColorizeRange.line
  by_cases hemp : ln.isEmpty = true
  · rw [if_pos hemp]
    have hnil : ln = [] := List.isEmpty_iff.mp hemp
    subst hnil
    exact ⟨[], [], rfl, by simp, List.Pairwise.nil, fun j => ⟨by simp, fun _ => rfl⟩⟩
  · rw [if_neg hemp]
    obtain ⟨l', toks, h1, h2, h3, h4⟩ := tokens_spec h (ln.map (fun (g : Glyph) => g.mChar))
      (ln.length + 1) 0
      (ln.map (fun (g : Glyph) => { g with mColorIndex := PaletteIndex.Default }))
      (Nat.zero_le _) (by simp)
    refine ⟨l', toks, h1, ?_, h3, ?_⟩
    · intro t ht
      obtain ⟨_, a, b, col, d1, d2⟩ := h2 t ht
      refine ⟨a, by simpa using b, col, d1, ?_⟩
      rw [d2]
      congr 1
      rw [List.getD_eq_getElem?_getD, List.getD_eq_getElem?_getD, List.getElem?_map]
      cases ln[t.1]? <;> rfl
    · intro j
      obtain ⟨h4a, h4b⟩ := h4 j
      constructor
      · intro t ht hj1 hj2
        rw [h4a t ht hj1 hj2, List.getElem?_map]
        cases ln[j]? <;> rfl
      · intro hno
        rw [h4b hno, List.getElem?_map]

theorem TokensAtScan_GLSL :
    TokensAtScan LanguageDefinition.GLSL
      (LanguageDefinition.GLSL.mTokenRegexStrings.map (fun r => (Regex.search r.1, r.2))) := by
  refine ⟨?_, TokensInside_GLSL.2⟩
  intro f hf
  cases hf

/-- Witness for C39: the rules of the built-in GLSL definition, which has no tokenize
callback, and the line `x=1`: the identifier, the punctuation and the number. -/
theorem line_tokens_witness :
    TokensAtScan LanguageDefinition.GLSL
      (LanguageDefinition.GLSL.mTokenRegexStrings.map (fun r => (Regex.search r.1, r.2))) ∧
    (ColorizeRange.line LanguageDefinition.GLSL
        (LanguageDefinition.GLSL.mTokenRegexStrings.map (fun r => (Regex.search r.1, r.2)))
        ([120, 61, 49].map (fun b => ({ mChar := b } : Glyph)))).map
        (fun l => l.map (fun (g : Glyph) => (g.mChar, g.mColorIndex))) =
      some [(120, PaletteIndex.Identifier), (61, PaletteIndex.Punctuation),
        (49, PaletteIndex.Number)] ∧
    ∃ (ln' : Line) (toks : List (Nat × Nat × PaletteIndex)),
      ColorizeRange.line LanguageDefinition.GLSL
        (LanguageDefinition.GLSL.mTokenRegexStrings.map (fun r => (Regex.search r.1, r.2)))
        ([120, 61, 49].map (fun b => ({ mChar := b } : Glyph))) = some ln' ∧
      toks.Pairwise (fun a b => a.2.1 ≤ b.1) :=
  ⟨TokensAtScan_GLSL, by decide,
    (line_tokens LanguageDefinition.GLSL
      (LanguageDefinition.GLSL.mTokenRegexStrings.map (fun r => (Regex.search r.1, r.2)))
      TokensAtScan_GLSL
      ([120, 61, 49].map (fun b => ({ mChar := b } : Glyph)))).2.imp
      (fun _ hx => hx.imp (fun _ hy => ⟨hy.1, hy.2.2.1⟩))⟩

/-! ## The flag scan completes when no line ends in a backslash -/

theorem setCell_isSome {ln : Line} {i : Nat} (f : Glyph → Glyph) (hi : i < ln.length) :
    ∃ ln', ColorizeInternal.setCell ln i f = some ln' ∧ ln'.length = ln.length := by
  unfold ColorizeInternal.setCell
  rw [List.getElem?_eq_getElem hi]
  exact ⟨_, rfl, List.length_set _ _ _⟩

theorem inString_total (s : ColorizeInternal.Scan) (ln : Line) (c : Nat)
    (hi : s.currentIndex < ln.length) (hbs : c = 92 → s.currentIndex + 1 < ln.length) :
    ∃ ln' s', ColorizeInternal.inString s ln c = some (ln', s') ∧ ln'.length = ln.length ∧
      s.currentIndex ≤ s'.currentIndex ∧ s'.currentIndex < ln.length ∧
      s'.currentLine = s.currentLine ∧ s'.lines = s.lines := by
  unfold ColorizeInternal.inString
  obtain ⟨ln1, h1, hl1⟩ := setCell_isSome
    (fun g => { g with mMultiLineComment := ColorizeInternal.inComment s }) hi
  rw [h1]
  simp only
  split_ifs with hq hn hb hn2
  · obtain ⟨ln2, h2, hl2⟩ := @setCell_isSome ln1 (s.currentIndex + 1)
      (fun g => { g with mMultiLineComment := ColorizeInternal.inComment s })
      (by rw [hl1]; exact hn.1)
    rw [h2]
    exact ⟨ln2, _, rfl, by rw [hl2, hl1], Nat.le_succ _, hn.1, rfl, rfl⟩
  · exact ⟨ln1, _, rfl, hl1, Nat.le_refl _, hi, rfl, rfl⟩
  · obtain ⟨ln2, h2, hl2⟩ := @setCell_isSome ln1 (s.currentIndex + 1)
      (fun g => { g with mMultiLineComment := ColorizeInternal.inComment s })
      (by rw [hl1]; exact hn2)
    rw [h2]
    exact ⟨ln2, _, rfl, by rw [hl2, hl1], Nat.le_succ _, hn2, rfl, rfl⟩
  · exact absurd (hbs hb) hn2
  · exact ⟨ln1, _, rfl, hl1, Nat.le_refl _, hi, rfl, rfl⟩

theorem markers_index (lang : LanguageDefinition) (s : ColorizeInternal.Scan) (ln : Line) :
    (ColorizeInternal.markers lang s ln).currentIndex = s.currentIndex := by
  unfold ColorizeInternal.markers
  split_ifs <;> rfl

theorem outsideString_total (lang : LanguageDefinition) (endLine : Nat)
    (s : ColorizeInternal.Scan) (ln : Line) (c : Nat) (hi : s.currentIndex < ln.length) :
    ∃ ln' s', ColorizeInternal.outsideString lang endLine s ln c = some (ln', s') ∧
      ln'.length = ln.length ∧ s.currentIndex ≤ s'.currentIndex ∧
      s'.currentIndex < ln.length ∧ s'.currentLine = s.currentLine ∧ s'.lines = s.lines := by
  unfold ColorizeInternal.outsideString
  simp only
  generalize hs1 : (if s.firstChar = true ∧ c = lang.mPreprocChar then
    ({ s with withinPreproc := true } : ColorizeInternal.Scan) else s) = s1
  have h1 : s1.currentIndex = s.currentIndex ∧ s1.currentLine = s.currentLine ∧
      s1.lines = s.lines := by
    rw [← hs1]; split_ifs <;> exact ⟨rfl, rfl, rfl⟩
  have hm := markers_lines lang s1 ln
  have hmi := markers_index lang s1 ln
  generalize ColorizeInternal.markers lang s1 ln = s2 at hm hmi
  by_cases hq : c = 34
  · rw [if_pos hq]
    obtain ⟨ln1, h2, hl⟩ := setCell_isSome
      (fun g => { g with mMultiLineComment := ColorizeInternal.inComment s }) hi
    rw [h2]
    exact ⟨ln1, _, rfl, hl, by simp [h1.1], by simp [h1.1, hi], h1.2.1, h1.2.2⟩
  · rw [if_neg hq]
    obtain ⟨ln1, h2, hl⟩ := setCell_isSome
      (fun g => { g with mMultiLineComment := ColorizeInternal.inComment s2,
                         mComment := s2.withinSingleLineComment }) hi
    rw [h2]
    simp only
    split_ifs
    · exact ⟨ln1, _, rfl, hl, by simp [hmi, h1.1], by simp [hmi, h1.1, hi],
        hm.2.trans h1.2.1, hm.1.trans h1.2.2⟩
    · exact ⟨ln1, _, rfl, hl, by rw [hmi, h1.1], by rw [hmi, h1.1]; exact hi,
        hm.2.trans h1.2.1, hm.1.trans h1.2.2⟩

theorem startLine_index (s : ColorizeInternal.Scan) :
    (ColorizeInternal.startLine s).currentIndex = s.currentIndex := by
  unfold ColorizeInternal.startLine
  split_ifs <;> rfl

theorem readCell_index (lang : LanguageDefinition) (s : ColorizeInternal.Scan) (ln : Line)
    (c : Nat) : (ColorizeInternal.readCell lang s ln c).currentIndex = s.currentIndex := by
  unfold ColorizeInternal.readCell
  split_ifs <;> rfl

theorem advance_total (s : ColorizeInternal.Scan) (ln : Line) (c : Nat)
    (hi : s.currentIndex < ln.length) :
    ∃ s', ColorizeInternal.advance s ln c = some s' ∧
      ((s'.currentLine = s.currentLine ∧ s.currentIndex < s'.currentIndex ∧
          s'.currentIndex < ln.length) ∨
        (s'.currentLine = s.currentLine + 1 ∧ s'.currentIndex = 0)) := by
  unfold ColorizeInternal.advance
  obtain ⟨ln2, h2, _⟩ := setCell_isSome
    (fun h => { h with mPreprocessor := s.withinPreproc }) hi
  rw [h2]
  simp only
  have := UTF8CharLength_pos c
  split_ifs with h
  · exact ⟨_, rfl, Or.inr ⟨rfl, rfl⟩⟩
  · exact ⟨_, rfl, Or.inl ⟨rfl, by simp; omega, by simp; omega⟩⟩

/-- One step of the flag scan from a cell inside its line, on a line that does not end in a
backslash: the step completes and goes to a later cell of the line or to the start of the
next line. -/
theorem step_total (lang : LanguageDefinition) (s : ColorizeInternal.Scan) (ln : Line)
    (hln : s.lines[s.currentLine]? = some ln)
    (hi : s.currentIndex < ln.length ∨ s.currentIndex = 0)
    (hbs : ∀ g, ln.getLast? = some g → g.mChar ≠ 92) :
    ∃ s', ColorizeInternal.step lang s = some s' ∧
      ((s'.currentLine = s.currentLine ∧ s.currentIndex < s'.currentIndex ∧
          s'.currentIndex < ln.length) ∨
        (s'.currentLine = s.currentLine + 1 ∧ s'.currentIndex = 0)) := by
  unfold ColorizeInternal.step
  rw [hln]
  simp only
  by_cases hemp : ln.isEmpty = true
  · rw [if_pos hemp]
    exact ⟨_, rfl, Or.inr ⟨by simp [(startLine_fields s).2], rfl⟩⟩
  · rw [if_neg hemp]
    have hpos : 0 < ln.length := by
      cases ln with
      | nil => simp at hemp
      | cons a b => simp
    have hi' : s.currentIndex < ln.length := by omega
    rw [List.getElem?_eq_getElem hi']
    simp only
    generalize hc : (ln[s.currentIndex]).mChar = c
    have h3i : (ColorizeInternal.readCell lang (ColorizeInternal.startLine s) ln c).currentIndex =
        s.currentIndex := by rw [readCell_index, startLine_index]
    have h3l := (readCell_fields lang (ColorizeInternal.startLine s) ln c).2.trans
      (startLine_fields s).2
    generalize ColorizeInternal.readCell lang (ColorizeInternal.startLine s) ln c = s3
      at h3i h3l
    have hesc : c = 92 → s3.currentIndex + 1 < ln.length := by
      intro h92
      by_contra hge
      have hlast : s.currentIndex = ln.length - 1 := by omega
      have hgl : ln.getLast? = some (ln[s.currentIndex]) := by
        rw [List.getLast?_eq_getElem?, List.getElem?_eq_getElem (by omega)]
        simp only [Option.some.injEq]
        congr 1
        exact hlast.symm
      exact hbs _ hgl (hc.trans h92)
    have key : ∀ (ln' : Line) (s1 : ColorizeInternal.Scan), ln'.length = ln.length →
        s3.currentIndex ≤ s1.currentIndex → s1.currentIndex < ln.length →
        s1.currentLine = s3.currentLine →
        ∃ s', ColorizeInternal.advance s1 ln' c = some s' ∧
          ((s'.currentLine = s.currentLine ∧ s.currentIndex < s'.currentIndex ∧
              s'.currentIndex < ln.length) ∨
            (s'.currentLine = s.currentLine + 1 ∧ s'.currentIndex = 0)) := by
      intro ln' s1 hl hge hlt hcl
      obtain ⟨s', ha, hcase⟩ := advance_total s1 ln' c (by rw [hl]; exact hlt)
      refine ⟨s', ha, ?_⟩
      rcases hcase with ⟨a, b, d⟩ | ⟨a, b⟩
      · exact Or.inl ⟨by rw [a, hcl, h3l], by omega, by rw [← hl]; exact d⟩
      · exact Or.inr ⟨by rw [a, hcl, h3l], b⟩
    by_cases hw : s.withinString = true
    · rw [if_pos hw]
      obtain ⟨ln', s1, hr, hl, hge, hlt, hcl, _⟩ := inString_total s3 ln c (by omega) hesc
      rw [hr]
      exact key ln' s1 hl hge hlt hcl
    · rw [if_neg hw]
      obtain ⟨ln', s1, hr, hl, hge, hlt, hcl, _⟩ :=
        outsideString_total lang s.lines.length s3 ln c (by omega)
      rw [hr]
      exact key ln' s1 hl hge hlt hcl

theorem drop_lengths_sum {L : List (List (Nat × PaletteIndex))} {i : Nat}
    {x : List (Nat × PaletteIndex)} (h : L[i]? = some x) :
    ((L.drop i).map (fun l => l.length + 1)).sum =
      x.length + 1 + ((L.drop (i + 1)).map (fun l => l.length + 1)).sum := by
  have hlt : i < L.length := by
    by_contra hc
    rw [List.getElem?_eq_none (by omega)] at h
    cases h
  rw [List.drop_eq_getElem_cons hlt]
  rw [List.getElem?_eq_getElem hlt] at h
  simp only [Option.some.injEq] at h
  rw [h]
  simp

/-- The loop of the flag scan completes when no line ends in a backslash: the cells and
lines that are left, from the current cell on, bound the number of steps. -/
theorem scanLoop_total (lang : LanguageDefinition) (L : List (List (Nat × PaletteIndex)))
    (hbs : ∀ l ∈ L, ∀ p, l.getLast? = some p → p.1 ≠ 92) :
    ∀ (fuel : Nat) (s : ColorizeInternal.Scan),
      s.lines.map (fun l => l.map (fun (g : Glyph) => (g.mChar, g.mColorIndex))) = L →
      (s.currentIndex = 0 ∨
        ∃ ln, s.lines[s.currentLine]? = some ln ∧ s.currentIndex < ln.length) →
      ((L.drop s.currentLine).map (fun l => l.length + 1)).sum < fuel + s.currentIndex →
      ∃ ls, ColorizeInternal.scanLoop lang fuel s = some ls := by
  intro fuel
  induction fuel with
  | zero =>
    intro s hL hinv hm
    exfalso
    rcases hinv with h0 | ⟨ln, hln, hlt⟩
    · omega
    · have hx : L[s.currentLine]? =
          some (ln.map (fun (g : Glyph) => (g.mChar, g.mColorIndex))) := by
        rw [← hL, List.getElem?_map, hln]; rfl
      rw [drop_lengths_sum hx] at hm
      simp only [List.length_map] at hm
      omega
  | succ fuel ih =>
    intro s hL hinv hm
    unfold ColorizeInternal.scanLoop
    by_cases hlt : s.currentLine < s.lines.length
    · rw [if_pos hlt]
      obtain ⟨ln, hln⟩ : ∃ ln, s.lines[s.currentLine]? = some ln :=
        ⟨_, List.getElem?_eq_getElem hlt⟩
      have hx : L[s.currentLine]? =
          some (ln.map (fun (g : Glyph) => (g.mChar, g.mColorIndex))) := by
        rw [← hL, List.getElem?_map, hln]; rfl
      have hmem : ln.map (fun (g : Glyph) => (g.mChar, g.mColorIndex)) ∈ L :=
        List.getElem?_mem hx
      have hbs' : ∀ g, ln.getLast? = some g → g.mChar ≠ 92 := by
        intro g hg
        refine hbs _ hmem (g.mChar, g.mColorIndex) ?_
        rw [List.getLast?_map, hg]; rfl
      have hinv' : s.currentIndex < ln.length ∨ s.currentIndex = 0 := by
        rcases hinv with h0 | ⟨ln0, hln0, hlt0⟩
        · exact Or.inr h0
        · rw [hln] at hln0
          simp only [Option.some.injEq] at hln0
          subst hln0
          exact Or.inl hlt0
      obtain ⟨s', hs, hcase⟩ := step_total lang s ln hln hinv' hbs'
      rw [hs]
      simp only
      have hL' := (step_colors hs).trans hL
      have hsum := drop_lengths_sum hx
      simp only [List.length_map] at hsum
      apply ih s' hL'
      · rcases hcase with ⟨a, b, d⟩ | ⟨a, b⟩
        · right
          obtain ⟨ln', hln'⟩ : ∃ ln', s'.lines[s.currentLine]? = some ln' := by
            have hlen : s'.lines.length = s.lines.length := by
              have := congrArg List.length hL'
              rw [← hL] at this
              simpa using this
            exact ⟨_, List.getElem?_eq_getElem (by rw [hlen]; exact hlt)⟩
          have hlen : ln'.length = ln.length := by
            have h1 : L[s.currentLine]? =
                some (ln'.map (fun (g : Glyph) => (g.mChar, g.mColorIndex))) := by
              rw [← hL', List.getElem?_map, hln']; rfl
            rw [hx] at h1
            simp only [Option.some.injEq] at h1
            have := congrArg List.length h1
            simpa using this.symm
          exact ⟨ln', by rw [a]; exact hln', by omega⟩
        · left; exact b
      · rcases hcase with ⟨a, b, d⟩ | ⟨a, b⟩
        · rw [a]; omega
        · rw [a, b]
          omega
    · rw [if_neg hlt]
      exact ⟨_, rfl⟩

/-- The flag scan of `ColorizeInternal` completes for every buffer in which no line ends in
a backslash. -/
theorem scan_total (e : TextEditor)
    (h : ∀ ln ∈ e.mLines, ∀ g, ln.getLast? = some g → g.mChar ≠ 92) :
    ∃ eA, ColorizeInternal.scan e = some eA := by
  unfold ColorizeInternal.scan
  split_ifs
  · obtain ⟨ls, hls⟩ := scanLoop_total e.mLanguageDefinition
      (e.mLines.map (fun l => l.map (fun (g : Glyph) => (g.mChar, g.mColorIndex))))
      (by
        intro l hl p hp
        obtain ⟨ln, hln, rfl⟩ := List.mem_map.mp hl
        rw [List.getLast?_map] at hp
        cases hg : ln.getLast? with
        | none => rw [hg] at hp; cases hp
        | some g =>
          rw [hg] at hp
          simp only [Option.map_some', Option.some.injEq] at hp
          subst hp
          exact h ln hln g hg)
      ((e.mLines.map (fun l => l.length + 1)).sum + 1)
      { lines := e.mLines, commentStartLine := e.mLines.length, commentStartIndex := 0 }
      rfl (Or.inl rfl)
      (by simp only [List.drop_zero, List.map_map, Nat.add_zero]
          have : (List.map ((fun l => l.length + 1) ∘
              fun l => List.map (fun (g : Glyph) => (g.mChar, g.mColorIndex)) l) e.mLines) =
              e.mLines.map (fun l => l.length + 1) := by
            apply List.map_congr_left
            intro l _
            simp
          rw [this]
          omega)
    rw [hls]
    exact ⟨_, rfl⟩
  · exact ⟨e, rfl⟩

end TextEditor
